import Mathlib

/-!
# A Lean model of the `grp` lexer and CST parser

Shallow embedding of `src/lexer.h`, `src/lexer.cpp`, `src/cst.h` and
`src/parser.cpp`.

Conventions of the embedding:

* a buffer is a list of characters, a pointer into it is an index;
* every loop of the source is a function recursing on a step budget
  (`fuel`); running out of budget is the outcome `Res.timeout`;
* reading a character outside what the buffer guarantees, a failed
  `assert`, and a dereference of a null pointer are the outcome `Res.fault`;
* the interner, which the C++ shares by reference, is passed in and out.
-/

namespace grp

/-! ## Outcomes -/

/-- Outcome of running a piece of the program: a value, undefined behaviour
(`fault`), or an exhausted step budget (`timeout`). -/
inductive Res (α : Type) where
  | ok (a : α)
  | fault
  | timeout
deriving DecidableEq, Repr

/-- Sequencing of outcomes. -/
def Res.bind {α β : Type} (r : Res α) (f : α → Res β) : Res β :=
  match r with
  | .ok a => f a
  | .fault => .fault
  | .timeout => .timeout

/-- Text of a file, an identifier or a string: a list of characters. -/
abbrev Text := List Char

/-! ## Character classes (`<cctype>` in the "C" locale, `lexer.h` 15-32) -/

/-- The character `\` (code 92). -/
def chBackslash : Char := Char.ofNat 92

/-- The character `"` (code 34). -/
def chDQuote : Char := Char.ofNat 34

/-- The single quote character (code 39). -/
def chSQuote : Char := Char.ofNat 39

/-- The character opening a code block (code 123). -/
def chLBrace : Char := Char.ofNat 123

/-- The character closing a code block (code 125). -/
def chRBrace : Char := Char.ofNat 125

/-- The newline character (code 10). -/
def chNewline : Char := Char.ofNat 10

/-- The NUL character that ends a null-terminated buffer. -/
def chNul : Char := Char.ofNat 0

/-- C `isspace`: space, `\t`, `\n`, `\v`, `\f`, `\r`. -/
def isspace (c : Char) : Bool :=
  c.toNat = 32 || (9 ≤ c.toNat && c.toNat ≤ 13)

/-- C `isalpha`: the 52 ASCII letters. -/
def isalpha (c : Char) : Bool :=
  (65 ≤ c.toNat && c.toNat ≤ 90) || (97 ≤ c.toNat && c.toNat ≤ 122)

/-- C `isdigit`. -/
def isdigit (c : Char) : Bool :=
  48 ≤ c.toNat && c.toNat ≤ 57

/-- `isWhileSpace` of `lexer.h`. -/
def isWhileSpace (c : Char) : Bool := isspace c

/-- `canStartIdentifier` of `lexer.h`. -/
def canStartIdentifier (c : Char) : Bool :=
  c = '?' || c = '<' || c = '_' || c = '$' || isalpha c

/-- `canContIdentifier` of `lexer.h`. -/
def canContIdentifier (c : Char) : Bool :=
  c = '*' || c = ':' || c = '>' || canStartIdentifier c || isdigit c

/-- `canStartNumber` of `lexer.h`. -/
def canStartNumber (c : Char) : Bool :=
  c = '-' || isdigit c

/-! ## Source locations and the interner -/

/-- `SourceLocation` of `lexer.h`. -/
structure SourceLocation where
  line : Nat
  column : Nat
  fileID : Nat
deriving DecidableEq, Repr

/-- The default-constructed location `SourceLocation()`. -/
def SourceLocation.invalid : SourceLocation := ⟨0, 0, 0⟩

/-- `IdentifierInterner` of `lexer.h`: `lastID` and the map `internedIDs`,
kept as an association list whose first match for a key is its value. -/
structure IdentifierInterner where
  lastID : Nat
  internedIDs : List (Text × Nat)
deriving DecidableEq, Repr

/-- `IdentifierInterner::InvalidID`. -/
def InvalidID : Nat := 0

/-- A freshly constructed interner: `lastID = InvalidID`, empty map. -/
def IdentifierInterner.fresh : IdentifierInterner := ⟨InvalidID, []⟩

/-- Value of `internedIDs[str]`: the stored id, or the value-initialised
`0` that `operator[]` inserts for an absent key. -/
def lookupID : List (Text × Nat) → Text → Nat
  | [], _ => 0
  | (k, v) :: m, str => if k = str then v else lookupID m str

/-- `IdentifierInterner::get`: the id returned and the interner afterwards
(`++lastID` is a `uint64_t` increment). -/
def IdentifierInterner.get (ii : IdentifierInterner) (str : Text) :
    Nat × IdentifierInterner :=
  let val := lookupID ii.internedIDs str
  if val = InvalidID then
    let lastID := (ii.lastID + 1) % 2 ^ 64
    (lastID, ⟨lastID, (str, lastID) :: ii.internedIDs⟩)
  else
    (val, ii)

/-- The ids returned by a sequence of `get` calls on one interner, with the
interner after the last call. -/
def IdentifierInterner.getAll (ii : IdentifierInterner) :
    List Text → List Nat × IdentifierInterner
  | [] => ([], ii)
  | s :: ss =>
    let r := ii.get s
    let rs := IdentifierInterner.getAll r.2 ss
    (r.1 :: rs.1, rs.2)

/-! ## Arbitrary-precision integers -/

/-- Modelled from the spec: `llvm::APInt` is a type of the LLVM library,
outside the repository ("an arbitrary-precision unsigned integer sized to fit
the digit count, then negated").  As in LLVM, an `APInt` is a fixed bit width
together with the unsigned value of its bits, below `2 ^ BitWidth`, and its
arithmetic wraps within that width. -/
structure APInt where
  BitWidth : Nat
  val : Nat
deriving DecidableEq, Repr

/-- Number of bits of the binary writing of `n` (`0` for `0`), by halving at
most `fuel` times. -/
def activeBitsAux : Nat → Nat → Nat
  | 0, _ => 0
  | fuel + 1, n => if n = 0 then 0 else activeBitsAux fuel (n / 2) + 1

/-- Number of bits of the binary writing of `n`. -/
def activeBits (n : Nat) : Nat := activeBitsAux n n

/-- Value of a run of decimal digits. -/
def digitsValue (str : Text) : Nat :=
  str.foldl (fun acc c => acc * 10 + (c.toNat - 48)) 0

/-- Modelled from the spec: `llvm::APInt::getBitsNeeded(str, 10)` ("sized to
fit the digit count") on a run of digits without sign: as in LLVM it asserts
that `str` is not empty, and returns `1` for the value zero and
`logBase2 + 1` otherwise. -/
def APInt.getBitsNeeded (str : Text) : Res Nat :=
  if str = [] then .fault
  else if digitsValue str = 0 then .ok 1
  else .ok (activeBits (digitsValue str))

/-- Modelled from the spec: the constructor `llvm::APInt(numBits, str, 10)` on
a run of digits: the value of the digits in `numBits` bits. -/
def APInt.fromString (numBits : Nat) (str : Text) : APInt :=
  ⟨numBits, digitsValue str % 2 ^ numBits⟩

/-- Modelled from the spec: `llvm::APInt::negate` ("then negated"), which in
LLVM flips all bits and adds one within the same bit width. -/
def APInt.negate (a : APInt) : APInt :=
  ⟨a.BitWidth, (2 ^ a.BitWidth - a.val) % 2 ^ a.BitWidth⟩

/-- Modelled from the spec: the integer an `APInt` denotes when its bits are
read as a signed (two's complement) number, as `getSExtValue` does. -/
def APInt.toInt (a : APInt) : Int :=
  if 2 * a.val < 2 ^ a.BitWidth then (a.val : Int)
  else (a.val : Int) - (2 ^ a.BitWidth : Nat)

/-- Modelled from the spec: the integer an `APInt` denotes when its bits are
read as an unsigned number, as `getZExtValue` does. -/
def APInt.toNat (a : APInt) : Nat := a.val

/-! ## Tokens (`lexer.h` 53-176, `lexer.cpp` 6-41) -/

/-- `TokenKind` of `lexer.h`. -/
inductive TokenKind where
  | Invalid
  | Identifier
  | String
  | CodeString
  | Number
  | OpenParen
  | CloseParen
  | OpenBracket
  | CloseBracket
  | Colon
  | EndOfStream
deriving DecidableEq, Repr

/-- The anonymous union inside `Token`: the member that was last written. -/
inductive TokenContent where
  | placeHolder
  | id (id : Nat)
  | str (str : Text)
  | num (num : APInt)
deriving DecidableEq, Repr

/-- `Token` of `lexer.h`. -/
structure Token where
  kind : TokenKind
  content : TokenContent
  loc : SourceLocation
deriving DecidableEq, Repr

/-- The default constructor `Token()`. -/
def Token.default : Token := ⟨.Invalid, .placeHolder, SourceLocation.invalid⟩

/-- `Token::createEOF`. -/
def Token.createEOF (loc : SourceLocation) : Token := ⟨.EndOfStream, .placeHolder, loc⟩

/-- `Token::createInvalid`. -/
def Token.createInvalid (loc : SourceLocation) : Token := ⟨.Invalid, .placeHolder, loc⟩

/-- `Token::createIdentifier`. -/
def Token.createIdentifier (ID : Nat) (loc : SourceLocation) : Token :=
  ⟨.Identifier, .id ID, loc⟩

/-- `Token::createString`. -/
def Token.createString (str : Text) (loc : SourceLocation) : Token :=
  ⟨.String, .str str, loc⟩

/-- `Token::createCodeString`. -/
def Token.createCodeString (str : Text) (loc : SourceLocation) : Token :=
  ⟨.CodeString, .str str, loc⟩

/-- `Token::createNumber`. -/
def Token.createNumber (num : APInt) (loc : SourceLocation) : Token :=
  ⟨.Number, .num num, loc⟩

/-- `Token::createDelimiter`. -/
def Token.createDelimiter (kind : TokenKind) (loc : SourceLocation) : Token :=
  ⟨kind, .placeHolder, loc⟩

/-- `Token::isValid`. -/
def Token.isValid (t : Token) : Bool := t.kind ≠ .Invalid

/-- `Token::isEOS`. -/
def Token.isEOS (t : Token) : Bool := t.kind = .EndOfStream

/-- `Token::getID`: asserts the kind, then reads the union member `id`. -/
def Token.getID (t : Token) : Res Nat :=
  if t.kind = .Identifier then
    match t.content with
    | .id n => .ok n
    | _ => .fault
  else .fault

/-- `Token::getString`: asserts the kind, then reads the union member `str`. -/
def Token.getString (t : Token) : Res Text :=
  if t.kind = .String ∨ t.kind = .CodeString then
    match t.content with
    | .str s => .ok s
    | _ => .fault
  else .fault

/-- `Token::takeNum`: reads the union member `num`. -/
def Token.takeNum (t : Token) : Res APInt :=
  match t.content with
  | .num n => .ok n
  | _ => .fault

/-! ## The lexer state (`lexer.h` 180-243) -/

/-- Modelled from the spec: `llvm::MemoryBuffer` is a library type outside the
repository.  It holds the bytes `[getBufferStart(), getBufferEnd())`; when it
was opened with `RequiresNullTerminator` the byte at `getBufferEnd()` is a
readable NUL, otherwise nothing at or after `getBufferEnd()` may be read. -/
structure MemoryBuffer where
  data : Text
  nullTerminated : Bool
deriving DecidableEq, Repr

/-- The mutable position fields of `Lexer` (`lexer.h` 185-187): `line`,
`curPos` and `lineStart`, the last two as offsets from
`buffer.getBufferStart()`.  The private scanning methods of `Lexer` read the
buffer and change these three fields only, so they are modelled as functions
of the buffer and of a `Cursor`. -/
structure Cursor where
  line : Nat
  curPos : Nat
  lineStart : Nat
deriving DecidableEq, Repr

/-- `Lexer` of `lexer.h`, without the shared interner: the buffer, `fileID`,
the position fields, and `lookahead`. -/
structure Lexer where
  buffer : MemoryBuffer
  fileID : Nat
  cursor : Cursor
  lookahead : Option Token
deriving DecidableEq, Repr

/-- The constructor `Lexer(buffer, ii, fileID)`. -/
def Lexer.create (buffer : MemoryBuffer) (fileID : Nat) : Lexer :=
  ⟨buffer, fileID, ⟨0, 0, 0⟩, none⟩

/-- `Lexer::getCurPos`. -/
def Lexer.getCurPos (s : Lexer) : Nat := s.cursor.curPos

/-- Offset of `buffer.getBufferEnd()`. -/
def MemoryBuffer.bufferEnd (b : MemoryBuffer) : Nat := b.data.length

/-- The read `*p` of a character of the buffer: the byte at offset `p`, the
terminating NUL at the end of a null-terminated buffer, and no value where the
read is outside the buffer. -/
def MemoryBuffer.charAt (b : MemoryBuffer) (p : Nat) : Option Char :=
  if p < b.data.length then b.data[p]?
  else if p = b.data.length ∧ b.nullTerminated = true then some chNul
  else none

/-- `llvm::StringRef(start, length)` over the buffer. -/
def MemoryBuffer.slice (b : MemoryBuffer) (start length : Nat) : Text :=
  (b.data.drop start).take length

/-- `Lexer::hasMoreChars`. -/
def Lexer.hasMoreChars (b : MemoryBuffer) (c : Cursor) : Bool := c.curPos < b.bufferEnd

/-- `Lexer::getSourceLocation`: `curPos - lineStart + 1` is a pointer
difference converted to `uint64_t`. -/
def Lexer.getSourceLocation (fileID : Nat) (c : Cursor) : SourceLocation :=
  ⟨c.line, Int.toNat (((c.curPos : Int) - (c.lineStart : Int) + 1) % 2 ^ 64), fileID⟩

/-- `Lexer::advancePos`. -/
def Lexer.advancePos (b : MemoryBuffer) (c : Cursor) : Res Cursor :=
  match b.charAt c.curPos with
  | none => .fault
  | some ch =>
    if ch = chNewline then
      .ok ⟨c.line + 1, c.curPos + 1, c.curPos + 1⟩
    else
      .ok ⟨c.line, c.curPos + 1, c.lineStart⟩

/-- The inner `while (pos1 < posEnd)` loop of `Lexer::advanceCodePos`; the
loop body never changes `pos1`.  The cursor `c` already has `curPos` on the
backslash. -/
def Lexer.advanceCodePosLoop (b : MemoryBuffer) : Nat → Cursor → Nat → Res (Bool × Cursor)
  | 0, _, _ => .timeout
  | fuel + 1, c, pos1 =>
    if pos1 < b.bufferEnd then
      match b.charAt pos1 with
      | none => .fault
      | some c1 =>
        if c1 = chNewline then
          .ok (Lexer.hasMoreChars b ⟨c.line + 1, pos1 + 1, c.lineStart⟩,
            ⟨c.line + 1, pos1 + 1, c.lineStart⟩)
        else if !isspace c1 then
          .ok (true, c)
        else
          Lexer.advanceCodePosLoop b fuel c pos1
    else
      .ok (true, c)

/-- `Lexer::advanceCodePos`: the flag returned and the cursor afterwards. -/
def Lexer.advanceCodePos (b : MemoryBuffer) (fuel : Nat) (c : Cursor) : Res (Bool × Cursor) :=
  match b.charAt c.curPos with
  | none => .fault
  | some ch =>
    let c1 : Cursor := ⟨if ch = chNewline then c.line + 1 else c.line, c.curPos + 1, c.lineStart⟩
    if !Lexer.hasMoreChars b c1 then .ok (false, c1)
    else
      match b.charAt c1.curPos with
      | none => .fault
      | some ch1 =>
        if ch1 = chBackslash then Lexer.advanceCodePosLoop b fuel c1 (c1.curPos + 1)
        else .ok (true, c1)

/-! ## Skipping white space and comments (`lexer.cpp` 47-92) -/

/-- The `while (true)` loop of the `;` branch of `Lexer::skipWhiteSpaces`:
advance through the next newline. -/
def Lexer.skipSemiComment (b : MemoryBuffer) : Nat → Cursor → Res Cursor
  | 0, _ => .timeout
  | fuel + 1, c =>
    match b.charAt c.curPos with
    | none => .fault
    | some c1 =>
      match Lexer.advancePos b c with
      | .ok c2 => if c1 = chNewline then .ok c2 else Lexer.skipSemiComment b fuel c2
      | .fault => .fault
      | .timeout => .timeout

/-- The `for` loop of the `/*` branch of `Lexer::skipWhiteSpaces`; `c` has
`curPos` already moved by 2. -/
def Lexer.skipBlockComment (b : MemoryBuffer) : Nat → Cursor → Res Cursor
  | 0, _ => .timeout
  | fuel + 1, c =>
    if c.curPos < b.bufferEnd then
      if b.charAt c.curPos = some '*' ∧ c.curPos + 1 < b.bufferEnd
          ∧ b.charAt (c.curPos + 1) = some '/' then
        .ok ⟨c.line, c.curPos + 2, c.lineStart⟩
      else
        Lexer.skipBlockComment b fuel ⟨c.line, c.curPos + 1, c.lineStart⟩
    else .ok c

/-- The `for` loop of the `//` branch of `Lexer::skipWhiteSpaces`; `c` has
`curPos` already moved by 2. -/
def Lexer.skipSlashComment (b : MemoryBuffer) : Nat → Cursor → Res Cursor
  | 0, _ => .timeout
  | fuel + 1, c =>
    if c.curPos < b.bufferEnd then
      if b.charAt c.curPos = some chNewline then
        .ok ⟨c.line + 1, c.curPos + 1, c.lineStart⟩
      else
        Lexer.skipSlashComment b fuel ⟨c.line, c.curPos + 1, c.lineStart⟩
    else .ok c

/-- `Lexer::skipWhiteSpaces`. -/
def Lexer.skipWhiteSpaces (b : MemoryBuffer) : Nat → Cursor → Res Cursor
  | 0, _ => .timeout
  | fuel + 1, c =>
    if Lexer.hasMoreChars b c then
      match b.charAt c.curPos with
      | none => .fault
      | some ch =>
        if isWhileSpace ch then
          (Lexer.advancePos b c).bind (Lexer.skipWhiteSpaces b fuel)
        else if ch = ';' then
          ((Lexer.advancePos b c).bind (Lexer.skipSemiComment b fuel)).bind
            (Lexer.skipWhiteSpaces b fuel)
        else if ch = '/' then
          if c.curPos + 1 < b.bufferEnd then
            if b.charAt (c.curPos + 1) = some '*' then
              (Lexer.skipBlockComment b fuel ⟨c.line, c.curPos + 2, c.lineStart⟩).bind
                (Lexer.skipWhiteSpaces b fuel)
            else if b.charAt (c.curPos + 1) = some '/' then
              (Lexer.skipSlashComment b fuel ⟨c.line, c.curPos + 2, c.lineStart⟩).bind
                (Lexer.skipWhiteSpaces b fuel)
            else
              Lexer.skipWhiteSpaces b fuel c
          else
            Lexer.skipWhiteSpaces b fuel c
        else
          .ok c
    else .ok c

/-! ## Identifiers, strings, numbers (`lexer.cpp` 94-131, 232-260) -/

/-- The `while` loop of `Lexer::lexIdentifierImpl`. -/
def Lexer.lexIdentifierLoop (b : MemoryBuffer) : Nat → Cursor → Res Cursor
  | 0, _ => .timeout
  | fuel + 1, c =>
    if Lexer.hasMoreChars b c then
      match b.charAt c.curPos with
      | none => .fault
      | some ch =>
        if canContIdentifier ch then
          (Lexer.advancePos b c).bind (Lexer.lexIdentifierLoop b fuel)
        else .ok c
    else .ok c

/-- `Lexer::lexIdentifierImpl`. -/
def Lexer.lexIdentifierImpl (b : MemoryBuffer) (fileID : Nat) (fuel : Nat)
    (ii : IdentifierInterner) (c : Cursor) : Res (Token × IdentifierInterner × Cursor) :=
  ((Lexer.advancePos b c).bind (Lexer.lexIdentifierLoop b fuel)).bind fun c1 =>
    .ok (Token.createIdentifier (ii.get (b.slice c.curPos (c1.curPos - c.curPos))).1
          (Lexer.getSourceLocation fileID c1),
        (ii.get (b.slice c.curPos (c1.curPos - c.curPos))).2, c1)

/-- The `while` loop of `Lexer::lexStringImpl`. -/
def Lexer.lexStringLoop (b : MemoryBuffer) : Nat → Cursor → Res Cursor
  | 0, _ => .timeout
  | fuel + 1, c =>
    if Lexer.hasMoreChars b c then
      match b.charAt c.curPos with
      | none => .fault
      | some ch =>
        if ch = chBackslash then
          ((Lexer.advancePos b c).bind (Lexer.advancePos b)).bind (Lexer.lexStringLoop b fuel)
        else if ch = chDQuote then .ok c
        else (Lexer.advancePos b c).bind (Lexer.lexStringLoop b fuel)
    else .ok c

/-- `Lexer::lexStringImpl`. -/
def Lexer.lexStringImpl (b : MemoryBuffer) (fileID : Nat) (fuel : Nat) (c : Cursor) :
    Res (Token × Cursor) :=
  ((Lexer.advancePos b c).bind (Lexer.lexStringLoop b fuel)).bind fun c1 =>
    (Lexer.advancePos b c1).bind fun c2 =>
      .ok (Token.createString (b.slice (c.curPos + 1) (c1.curPos - c.curPos - 1))
            (Lexer.getSourceLocation fileID c1), c2)

/-- The digit loop of `Lexer::lexNumberImpl`. -/
def Lexer.lexNumberLoop (b : MemoryBuffer) : Nat → Cursor → Res Cursor
  | 0, _ => .timeout
  | fuel + 1, c =>
    if Lexer.hasMoreChars b c then
      match b.charAt c.curPos with
      | none => .fault
      | some c1 =>
        if !isdigit c1 then .ok c
        else (Lexer.advancePos b c).bind (Lexer.lexNumberLoop b fuel)
    else .ok c

/-- The tail of `Lexer::lexNumberImpl` after the sign: the digit loop from
`savedPos`, the `APInt` of the digits, and its negation when `isNegative`. -/
def Lexer.lexNumberDigits (b : MemoryBuffer) (fileID : Nat) (fuel : Nat)
    (isNegative : Bool) (c : Cursor) : Res (Token × Cursor) :=
  (Lexer.lexNumberLoop b fuel c).bind fun c1 =>
    (APInt.getBitsNeeded (b.slice c.curPos (c1.curPos - c.curPos))).bind fun bitsNeeded =>
      .ok (Token.createNumber
            (if isNegative then
              (APInt.fromString bitsNeeded (b.slice c.curPos (c1.curPos - c.curPos))).negate
             else APInt.fromString bitsNeeded (b.slice c.curPos (c1.curPos - c.curPos)))
            (Lexer.getSourceLocation fileID c1), c1)

/-- `Lexer::lexNumberImpl`. -/
def Lexer.lexNumberImpl (b : MemoryBuffer) (fileID : Nat) (fuel : Nat) (c : Cursor) :
    Res (Token × Cursor) :=
  match b.charAt c.curPos with
  | none => .fault
  | some ch =>
    if ch = '-' then
      ((Lexer.advancePos b c).bind (Lexer.skipWhiteSpaces b fuel)).bind
        (Lexer.lexNumberDigits b fileID fuel true)
    else Lexer.lexNumberDigits b fileID fuel false c

/-! ## Code blocks (`lexer.cpp` 133-230) -/

/-- The local variables of `Lexer::lexCodeStringImpl` that live across
iterations; `blockNestingLevel` is an `unsigned int`. -/
structure CodeScan where
  insideString : Bool
  insideChar : Bool
  insideLineComment : Bool
  insideBlockComment : Bool
  blockNestingLevel : Nat
deriving DecidableEq, Repr

/-- The values the locals have before the loop. -/
def CodeScan.start : CodeScan := ⟨false, false, false, false, 0⟩

/-- The first statements of the body of the `while (advanceCodePos())` loop:
read `c`, and on a backslash replace it by the following character and step
over the backslash. -/
def Lexer.codeChar (b : MemoryBuffer) (c : Cursor) : Res (Char × Cursor) :=
  match b.charAt c.curPos with
  | none => .fault
  | some c0 =>
    if c0 = chBackslash then
      match b.charAt (c.curPos + 1) with
      | none => .fault
      | some c1 => .ok (c1, ⟨c.line, c.curPos + 1, c.lineStart⟩)
    else .ok (c0, c)

/-- The rest of the body of the `while (advanceCodePos())` loop of
`Lexer::lexCodeStringImpl`, for the character `ch`.  The flag returned is true
when the body leaves the loop by `break`. -/
def Lexer.codeStep (b : MemoryBuffer) (fuel : Nat) (m : CodeScan) (ch : Char) (c : Cursor) :
    Res (Bool × CodeScan × Cursor) :=
  if m.insideLineComment then
    if ch = chNewline then .ok (false, { m with insideLineComment := false }, c)
    else .ok (false, m, c)
  else if m.insideBlockComment then
    if ch = '*' then
      (Lexer.advanceCodePos b fuel c).bind fun r =>
        if r.1 then
          match b.charAt r.2.curPos with
          | none => .fault
          | some c1 =>
            if c1 = '/' then .ok (false, { m with insideBlockComment := false }, r.2)
            else .ok (false, m, r.2)
        else .ok (false, m, r.2)
    else .ok (false, m, c)
  else if m.insideString then
    if ch = chBackslash then
      (Lexer.advanceCodePos b fuel c).bind fun r => .ok (false, m, r.2)
    else if ch = chDQuote then .ok (false, { m with insideString := false }, c)
    else .ok (false, m, c)
  else if m.insideChar then
    if ch = chBackslash then
      (Lexer.advanceCodePos b fuel c).bind fun r => .ok (false, m, r.2)
    else if ch = chSQuote then .ok (false, { m with insideChar := false }, c)
    else .ok (false, m, c)
  else if ch = '/' then
    (Lexer.advanceCodePos b fuel c).bind fun r =>
      match b.charAt r.2.curPos with
      | none => .fault
      | some c1 =>
        if c1 = '/' then .ok (false, { m with insideLineComment := true }, r.2)
        else if c1 = '*' then .ok (false, { m with insideBlockComment := true }, r.2)
        else .ok (false, m, r.2)
  else if ch = chLBrace then
    .ok (false, { m with blockNestingLevel := (m.blockNestingLevel + 1) % 2 ^ 32 }, c)
  else if ch = chRBrace then
    if m.blockNestingLevel ≠ 0 then
      .ok (false, { m with blockNestingLevel := m.blockNestingLevel - 1 }, c)
    else .ok (true, m, c)
  else if ch = chDQuote then .ok (false, { m with insideString := true }, c)
  else if ch = chSQuote then .ok (false, { m with insideChar := true }, c)
  else .ok (false, m, c)

/-- The `while (advanceCodePos())` loop of `Lexer::lexCodeStringImpl`. -/
def Lexer.lexCodeStringLoop (b : MemoryBuffer) : Nat → CodeScan → Cursor → Res Cursor
  | 0, _, _ => .timeout
  | fuel + 1, m, c =>
    match Lexer.advanceCodePos b fuel c with
    | .ok (false, c1) => .ok c1
    | .ok (true, c1) =>
      match (Lexer.codeChar b c1).bind fun r => Lexer.codeStep b fuel m r.1 r.2 with
      | .ok (true, _, c2) => .ok c2
      | .ok (false, m2, c2) => Lexer.lexCodeStringLoop b fuel m2 c2
      | .fault => .fault
      | .timeout => .timeout
    | .fault => .fault
    | .timeout => .timeout

/-- `Lexer::lexCodeStringImpl`. -/
def Lexer.lexCodeStringImpl (b : MemoryBuffer) (fileID : Nat) (fuel : Nat) (c : Cursor) :
    Res (Token × Cursor) :=
  (Lexer.lexCodeStringLoop b fuel CodeScan.start c).bind fun c1 =>
    (Lexer.advancePos b c1).bind fun c2 =>
      .ok (Token.createCodeString (b.slice (c.curPos + 1) (c1.curPos - c.curPos - 1))
            (Lexer.getSourceLocation fileID c1), c2)

/-! ## `lex` and `peek` (`lexer.cpp` 262-328) -/

/-- A single-character delimiter of `Lexer::lex`: `++curPos`, then the
token. -/
def Lexer.lexDelimiter (fileID : Nat) (kind : TokenKind) (c : Cursor) : Token × Cursor :=
  (Token.createDelimiter kind (Lexer.getSourceLocation fileID ⟨c.line, c.curPos + 1, c.lineStart⟩),
    ⟨c.line, c.curPos + 1, c.lineStart⟩)

/-- The tail of the `case '('` of `Lexer::lex` when a `"` follows: the string,
white space, the read of `c2`, and `++curPos`. -/
def Lexer.lexParenString (b : MemoryBuffer) (fileID : Nat) (fuel : Nat) (c : Cursor) :
    Res (Token × Cursor) :=
  (Lexer.lexStringImpl b fileID fuel c).bind fun r =>
    (Lexer.skipWhiteSpaces b fuel r.2).bind fun c3 =>
      match b.charAt c3.curPos with
      | none => .fault
      | some _ => .ok (r.1, ⟨c3.line, c3.curPos + 1, c3.lineStart⟩)

/-- The `case '('` of `Lexer::lex`. -/
def Lexer.lexOpenParen (b : MemoryBuffer) (fileID : Nat) (fuel : Nat) (c : Cursor) :
    Res (Token × Cursor) :=
  (Lexer.skipWhiteSpaces b fuel ⟨c.line, c.curPos + 1, c.lineStart⟩).bind fun c1 =>
    match b.charAt c1.curPos with
    | none => .fault
    | some ch1 =>
      if ch1 = chDQuote then Lexer.lexParenString b fileID fuel c1
      else .ok (Token.createDelimiter .OpenParen (Lexer.getSourceLocation fileID c1), c1)

/-- Adds the unchanged interner to the result of a scanning method. -/
def withInterner (ii : IdentifierInterner) (r : Res (Token × Cursor)) :
    Res (Token × IdentifierInterner × Cursor) :=
  r.bind fun x => .ok (x.1, ii, x.2)

/-- The `switch` of `Lexer::lex` on the character `ch` at the cursor. -/
def Lexer.lexSwitch (b : MemoryBuffer) (fileID : Nat) (fuel : Nat) (ii : IdentifierInterner)
    (ch : Char) (c : Cursor) : Res (Token × IdentifierInterner × Cursor) :=
  if ch = chLBrace then withInterner ii (Lexer.lexCodeStringImpl b fileID fuel c)
  else if ch = chDQuote then withInterner ii (Lexer.lexStringImpl b fileID fuel c)
  else if ch = '(' then withInterner ii (Lexer.lexOpenParen b fileID fuel c)
  else if ch = ')' then withInterner ii (.ok (Lexer.lexDelimiter fileID .CloseParen c))
  else if ch = '[' then withInterner ii (.ok (Lexer.lexDelimiter fileID .OpenBracket c))
  else if ch = ']' then withInterner ii (.ok (Lexer.lexDelimiter fileID .CloseBracket c))
  else if ch = ':' then withInterner ii (.ok (Lexer.lexDelimiter fileID .Colon c))
  else if canStartIdentifier ch then Lexer.lexIdentifierImpl b fileID fuel ii c
  else if canStartNumber ch then withInterner ii (Lexer.lexNumberImpl b fileID fuel c)
  else .fault

/-- `Lexer::lex` when `lookahead` is empty: white space, end of stream, or
the `switch`; falling out of the `switch` is `assert(false)`. -/
def Lexer.scan (b : MemoryBuffer) (fileID : Nat) (fuel : Nat) (ii : IdentifierInterner)
    (c : Cursor) : Res (Token × IdentifierInterner × Cursor) :=
  (Lexer.skipWhiteSpaces b fuel c).bind fun c1 =>
    if c1.curPos = b.bufferEnd then
      .ok (Token.createEOF (Lexer.getSourceLocation fileID c1), ii, c1)
    else
      match b.charAt c1.curPos with
      | none => .fault
      | some ch => Lexer.lexSwitch b fileID fuel ii ch c1

/-- `Lexer::lex`, with the interner passed in and out. -/
def Lexer.lex (fuel : Nat) (ii : IdentifierInterner) (s : Lexer) :
    Res (Token × IdentifierInterner × Lexer) :=
  match s.lookahead with
  | some t => .ok (t, ii, { s with lookahead := none })
  | none =>
    (Lexer.scan s.buffer s.fileID fuel ii s.cursor).bind fun r =>
      .ok (r.1, r.2.1, { s with cursor := r.2.2 })

/-- `Lexer::peek`, with the interner passed in and out. -/
def Lexer.peek (fuel : Nat) (ii : IdentifierInterner) (s : Lexer) :
    Res (Token × IdentifierInterner × Lexer) :=
  match s.lookahead with
  | some t => .ok (t, ii, s)
  | none =>
    (Lexer.lex fuel ii s).bind fun r =>
      .ok (r.1, r.2.1, { r.2.2 with lookahead := some r.1 })

/-! ## CST nodes (`cst.h`) -/

/-- A value of type `CST *`: the null pointer, or the node it points to, one
constructor per node class of `cst.h`. -/
inductive CST where
  | nullptr
  | EndOfStream
  | Identifier (loc : SourceLocation) (id : Nat)
  | Expression (loc : SourceLocation) (machineMode : Nat) (subforms : List CST)
  | Int (loc : SourceLocation) (value : APInt)
  | HostInt (loc : SourceLocation) (value : APInt)
  | String (loc : SourceLocation) (str : Text)
  | CodeString (loc : SourceLocation) (str : Text)
  | Vector (loc : SourceLocation) (members : List CST)
deriving Repr

/-- `ExpressionCST::getLeadID`; reading the kind of a null first subform is a
null dereference. -/
def CST.getLeadID : CST → Res Nat
  | .Expression _ _ [] => .ok InvalidID
  | .Expression _ _ (.nullptr :: _) => .fault
  | .Expression _ _ (.Identifier _ id :: _) => .ok id
  | .Expression _ _ (_ :: _) => .ok InvalidID
  | _ => .fault

/-- `ExpressionCST::getMachineMode`. -/
def CST.getMachineMode : CST → Res Nat
  | .Expression _ machineMode _ => .ok machineMode
  | _ => .fault

/-- `ExpressionCST::getSubforms`. -/
def CST.getSubforms : CST → Res (List CST)
  | .Expression _ _ subforms => .ok subforms
  | _ => .fault

/-! ## The parser (`parser.h`, `parser.cpp`) -/

/-- Modelled from the spec: `llvm::SourceMgr` and the file system are outside
the repository ("given a path, returns a readable buffer and an opaque file
handle").  `files` gives the contents found for a file name, `numBuffers`
counts the buffers added so far (buffer ids are `1, 2, ...`). -/
structure SourceMgr where
  files : List (Text × Text)
  numBuffers : Nat
deriving DecidableEq, Repr

/-- Contents of the file an include path resolves to, if there is one. -/
def SourceMgr.openFile : List (Text × Text) → Text → Option Text
  | [], _ => none
  | (name, contents) :: fs, path =>
    if name = path then some contents else SourceMgr.openFile fs path

/-- Modelled from the spec: `SourceMgr::AddIncludeFile`: `0` when the file
cannot be opened, otherwise the new (`unsigned`) buffer id with the buffer,
which `MemoryBuffer::getFile` null-terminates. -/
def SourceMgr.AddIncludeFile (m : SourceMgr) (path : Text) :
    Nat × Option MemoryBuffer × SourceMgr :=
  match SourceMgr.openFile m.files path with
  | none => (0, none, m)
  | some contents =>
    ((m.numBuffers + 1) % 2 ^ 32, some ⟨contents, true⟩,
      { m with numBuffers := m.numBuffers + 1 })

/-- `CSTParser` of `parser.h`.  The head of `lexerStack` is
`lexerStack.back()`; `ii` is the interner of the context. -/
structure CSTParser where
  ii : IdentifierInterner
  srcMgr : SourceMgr
  lexerStack : List Lexer
  ID_include : Nat
deriving DecidableEq, Repr

/-- The text `include`. -/
def includeText : Text := "include".toList

/-- The constructor `CSTParser::CSTParser`: `mainFile` is what
`getBufferForFile(mainInputFile, -1, false)` returned (a buffer that need not
be null-terminated), and dereferencing a failed result is a fault. -/
def CSTParser.create (ii : IdentifierInterner) (files : List (Text × Text))
    (mainFile : Option Text) : Res CSTParser :=
  match mainFile with
  | none => .fault
  | some contents =>
    let r := ii.get includeText
    .ok ⟨r.2, ⟨files, 1⟩, [Lexer.create ⟨contents, false⟩ 1], r.1⟩

/-- The call `topLexer().lex()`. -/
def CSTParser.lexTop (fuel : Nat) (p : CSTParser) : Res (Token × CSTParser) :=
  match p.lexerStack with
  | [] => .fault
  | top :: rest =>
    (top.lex fuel p.ii).bind fun r =>
      .ok (r.1, { p with ii := r.2.1, lexerStack := r.2.2 :: rest })

/-- The call `topLexer().peek()`. -/
def CSTParser.peekTop (fuel : Nat) (p : CSTParser) : Res (Token × CSTParser) :=
  match p.lexerStack with
  | [] => .fault
  | top :: rest =>
    (top.peek fuel p.ii).bind fun r =>
      .ok (r.1, { p with ii := r.2.1, lexerStack := r.2.2 :: rest })

/-- `CSTParser::expect`: the kind is compared and the outcome is ignored. -/
def CSTParser.expect (fuel : Nat) (_kind : TokenKind) (p : CSTParser) :
    Res (Token × CSTParser) :=
  p.lexTop fuel

/-- `CSTParser::parseIdentifierCST`. -/
def CSTParser.parseIdentifierCST (fuel : Nat) (p : CSTParser) : Res (CST × CSTParser) :=
  (p.lexTop fuel).bind fun r =>
    (r.1.getID).bind fun n => .ok (.Identifier r.1.loc n, r.2)

/-- `CSTParser::parseStringCST`. -/
def CSTParser.parseStringCST (fuel : Nat) (p : CSTParser) : Res (CST × CSTParser) :=
  (p.lexTop fuel).bind fun r =>
    if r.1.kind = .String then
      (r.1.getString).bind fun s => .ok (.String r.1.loc s, r.2)
    else .fault

/-- `CSTParser::parseCodeStringCST`. -/
def CSTParser.parseCodeStringCST (fuel : Nat) (p : CSTParser) : Res (CST × CSTParser) :=
  (p.lexTop fuel).bind fun r =>
    if r.1.kind = .CodeString then
      (r.1.getString).bind fun s => .ok (.CodeString r.1.loc s, r.2)
    else .fault

/-- `CSTParser::parseIntCST`. -/
def CSTParser.parseIntCST (fuel : Nat) (p : CSTParser) : Res (CST × CSTParser) :=
  (p.lexTop fuel).bind fun r =>
    if r.1.kind = .Number then
      (r.1.takeNum).bind fun n => .ok (.Int r.1.loc n, r.2)
    else .fault

/-- The value `machineMode.isValid() ? machineMode.getID() : 0`. -/
def Token.machineModeID (machineMode : Token) : Res Nat :=
  if machineMode.isValid then machineMode.getID else .ok 0

mutual

/-- `CSTParser::parseSubCST`. -/
def CSTParser.parseSubCST : Nat → CSTParser → Res (CST × CSTParser)
  | 0, _ => .timeout
  | fuel + 1, p =>
    (p.peekTop fuel).bind fun r =>
      match r.1.kind with
      | .Identifier => r.2.parseIdentifierCST fuel
      | .String => r.2.parseStringCST fuel
      | .CodeString => r.2.parseCodeStringCST fuel
      | .Number => r.2.parseIntCST fuel
      | .OpenParen => CSTParser.parseRawExpressionCST fuel r.2
      | .OpenBracket => CSTParser.parseVectorCST fuel r.2
      | _ => .ok (.nullptr, r.2)

/-- `CSTParser::parseRawExpressionCST`. -/
def CSTParser.parseRawExpressionCST : Nat → CSTParser → Res (CST × CSTParser)
  | 0, _ => .timeout
  | fuel + 1, p =>
    (p.expect fuel .OpenParen).bind fun r =>
      CSTParser.parseRawExpressionLoop fuel r.2 r.1 Token.default true []

/-- The `while (true)` loop of `CSTParser::parseRawExpressionCST`, with its
locals `openParen`, `machineMode`, `first` and `subforms`. -/
def CSTParser.parseRawExpressionLoop :
    Nat → CSTParser → Token → Token → Bool → List CST → Res (CST × CSTParser)
  | 0, _, _, _, _, _ => .timeout
  | fuel + 1, p, openParen, machineMode, first, subforms =>
    (p.peekTop fuel).bind fun r =>
      if r.1.kind = .CloseParen then
        (r.2.lexTop fuel).bind fun r1 =>
          (machineMode.machineModeID).bind fun mm =>
            .ok (.Expression openParen.loc mm subforms, r1.2)
      else
        (CSTParser.parseSubCST fuel r.2).bind fun r1 =>
          if first then
            (r1.2.peekTop fuel).bind fun r2 =>
              if r2.1.kind = .Colon then
                (r2.2.lexTop fuel).bind fun r3 =>
                  (r3.2.expect fuel .Identifier).bind fun r4 =>
                    CSTParser.parseRawExpressionLoop fuel r4.2 openParen r4.1 false
                      (subforms ++ [r1.1])
              else
                CSTParser.parseRawExpressionLoop fuel r2.2 openParen machineMode false
                  (subforms ++ [r1.1])
          else
            CSTParser.parseRawExpressionLoop fuel r1.2 openParen machineMode false
              (subforms ++ [r1.1])

/-- `CSTParser::parseVectorCST`. -/
def CSTParser.parseVectorCST : Nat → CSTParser → Res (CST × CSTParser)
  | 0, _ => .timeout
  | fuel + 1, p =>
    (p.expect fuel .OpenBracket).bind fun r =>
      CSTParser.parseVectorLoop fuel r.2 r.1 []

/-- The `while (true)` loop of `CSTParser::parseVectorCST`. -/
def CSTParser.parseVectorLoop :
    Nat → CSTParser → Token → List CST → Res (CST × CSTParser)
  | 0, _, _, _ => .timeout
  | fuel + 1, p, openBracket, subforms =>
    (p.peekTop fuel).bind fun r =>
      if r.1.kind = .CloseBracket then
        (r.2.lexTop fuel).bind fun r1 =>
          .ok (.Vector openBracket.loc subforms, r1.2)
      else
        (CSTParser.parseSubCST fuel r.2).bind fun r1 =>
          CSTParser.parseVectorLoop fuel r1.2 openBracket (subforms ++ [r1.1])

end

/-- `CSTParser::skipEmptyLexers`. -/
def CSTParser.skipEmptyLexers : Nat → CSTParser → Res CSTParser
  | 0, _ => .timeout
  | fuel + 1, p =>
    match p.lexerStack with
    | [] => .ok p
    | top :: rest =>
      (top.peek fuel p.ii).bind fun r =>
        if r.1.isEOS then
          CSTParser.skipEmptyLexers fuel { p with ii := r.2.1, lexerStack := rest }
        else
          .ok { p with ii := r.2.1, lexerStack := r.2.2 :: rest }

/-- `CSTParser::includeFile`: `assert(fileID)` fails when the file cannot be
opened. -/
def CSTParser.includeFile (p : CSTParser) (path : Text) : Res CSTParser :=
  match p.lexerStack with
  | [] => .fault
  | _ :: _ =>
    match p.srcMgr.AddIncludeFile path with
    | (fileID, some buffer, srcMgr) =>
      if fileID = 0 then .fault
      else .ok { p with srcMgr := srcMgr, lexerStack := Lexer.create buffer fileID :: p.lexerStack }
    | (_, none, _) => .fault

/-- The read `static_cast<StringCST *>(sub[1])->getStr()` of
`CSTParser::parseTopCST`: defined when there is a second subform and it is a
`StringCST`. -/
def CST.includePath : CST → Res Text
  | .Expression _ _ (_ :: .String _ str :: _) => .ok str
  | _ => .fault

/-- `CSTParser::parseTopCST`; `CST.nullptr` is the result "no more forms". -/
def CSTParser.parseTopCST : Nat → CSTParser → Res (CST × CSTParser)
  | 0, _ => .timeout
  | fuel + 1, p =>
    (p.skipEmptyLexers fuel).bind fun p1 =>
      if p1.lexerStack.isEmpty then .ok (.nullptr, p1)
      else
        (CSTParser.parseRawExpressionCST fuel p1).bind fun r =>
          (r.1.getLeadID).bind fun lead =>
            if lead = r.2.ID_include then
              (r.1.includePath).bind fun includePath =>
                (r.2.includeFile includePath).bind (CSTParser.parseTopCST fuel)
            else .ok r

/-! ## Predicates used to state the properties -/

/-- Invariant of an interner: every stored id is at most `lastID`, and two
keys with the same non-zero id are equal. -/
structure InternerInv (ii : IdentifierInterner) : Prop where
  le_last : ∀ s, lookupID ii.internedIDs s ≤ ii.lastID
  inj : ∀ s1 s2, lookupID ii.internedIDs s1 ≠ 0 →
    lookupID ii.internedIDs s1 = lookupID ii.internedIDs s2 → s1 = s2

/-- Three calls of `get`, on the texts `a`, `b`, `a`. -/
def sampleCalls : List Text := ["a".toList, "b".toList, "a".toList]

/-- The lexer over the text `(a)`, as constructed for file 1. -/
def sampleLexer : Lexer := Lexer.create ⟨"(a)".toList, false⟩ 1

/-- The text ` if (x) { y(); } `. -/
def sampleBody : Text := " if (x) \x7b y(); \x7d ".toList

/-- A body of `n` opening braces followed by `n` closing braces. -/
def nestedBody (n : Nat) : Text := List.replicate n chLBrace ++ List.replicate n chRBrace

/-- The lexer at the start of the buffer `{` + `nestedBody n` + `}`. -/
def nestedLexer (n : Nat) : Lexer :=
  ⟨⟨chLBrace :: (nestedBody n ++ [chRBrace]), false⟩, 1, ⟨0, 0, 0⟩, none⟩

/-- The buffer `{"\"}"}`: a code block whose body is the string literal
`"\"}"`. -/
def escapedQuoteBlock : Text :=
  [chLBrace, chDQuote, chBackslash, chDQuote, chRBrace, chDQuote, chRBrace]

/-- The buffer `- 5`. -/
def minusFive : Text := "- 5".toList

/-- `r1` is `r2`, or `r1` ran out of budget. -/
def Res.le {α : Type} (r1 r2 : Res α) : Prop := r1 = .timeout ∨ r1 = r2

/-! ## Trees, their token sequences, and upcoming tokens -/

/-- Kind and payload of a token, without its location. -/
def Token.kc (t : Token) : TokenKind × TokenContent := (t.kind, t.content)

/-- The tokens of a machine-mode tag: nothing for the none value 0, otherwise
`:` and the identifier. -/
def CST.writeTag (machineMode : Nat) : List (TokenKind × TokenContent) :=
  if machineMode = 0 then [] else [(.Colon, .placeHolder), (.Identifier, .id machineMode)]

mutual

/-- The token sequence (kinds and payloads) that writes a tree: one token for
a leaf, `[` members `]` for a Vector, `(` first-subform [`:` tag]
other-subforms `)` for an Expression. -/
def CST.write : CST → List (TokenKind × TokenContent)
  | .nullptr => []
  | .EndOfStream => []
  | .HostInt _ _ => []
  | .Identifier _ id => [(.Identifier, .id id)]
  | .Int _ value => [(.Number, .num value)]
  | .String _ str => [(.String, .str str)]
  | .CodeString _ str => [(.CodeString, .str str)]
  | .Vector _ members =>
    (.OpenBracket, .placeHolder) :: (CST.writeList members ++ [(.CloseBracket, .placeHolder)])
  | .Expression _ machineMode subforms =>
    (.OpenParen, .placeHolder) ::
      (CST.writeSubforms machineMode subforms ++ [(.CloseParen, .placeHolder)])

/-- The token sequences of the trees of a list, one after the other. -/
def CST.writeList : List CST → List (TokenKind × TokenContent)
  | [] => []
  | t :: ts => CST.write t ++ CST.writeList ts

/-- The tokens between the parentheses of an Expression: the first subform,
the tag, the other subforms. -/
def CST.writeSubforms (machineMode : Nat) : List CST → List (TokenKind × TokenContent)
  | [] => []
  | t :: ts => CST.write t ++ (CST.writeTag machineMode ++ CST.writeList ts)

end

mutual

/-- A tree built from Identifier, Int, String, CodeString, Vector and
Expression nodes, where an Expression has a machine-mode tag only if it has a
subform. -/
def CST.WellFormed : CST → Prop
  | .nullptr => False
  | .EndOfStream => False
  | .HostInt _ _ => False
  | .Identifier _ _ => True
  | .Int _ _ => True
  | .String _ _ => True
  | .CodeString _ _ => True
  | .Vector _ members => CST.WellFormedList members
  | .Expression _ machineMode subforms =>
    (machineMode ≠ 0 → subforms ≠ []) ∧ CST.WellFormedList subforms

/-- Every tree of the list is well formed. -/
def CST.WellFormedList : List CST → Prop
  | [] => True
  | t :: ts => CST.WellFormed t ∧ CST.WellFormedList ts

end

mutual

/-- The tree with every location replaced by the invalid location. -/
def CST.eraseLoc : CST → CST
  | .nullptr => .nullptr
  | .EndOfStream => .EndOfStream
  | .HostInt _ value => .HostInt SourceLocation.invalid value
  | .Identifier _ id => .Identifier SourceLocation.invalid id
  | .Int _ value => .Int SourceLocation.invalid value
  | .String _ str => .String SourceLocation.invalid str
  | .CodeString _ str => .CodeString SourceLocation.invalid str
  | .Vector _ members => .Vector SourceLocation.invalid (CST.eraseLocList members)
  | .Expression _ machineMode subforms =>
    .Expression SourceLocation.invalid machineMode (CST.eraseLocList subforms)

/-- The trees of a list with their locations erased. -/
def CST.eraseLocList : List CST → List CST
  | [] => []
  | t :: ts => CST.eraseLoc t :: CST.eraseLocList ts

end

mutual

/-- A step budget that suffices, beyond what `lex()` needs, for
`parseSubCST()` to parse a tree. -/
def CST.steps : CST → Nat
  | .nullptr => 1
  | .EndOfStream => 1
  | .HostInt _ _ => 1
  | .Identifier _ _ => 1
  | .Int _ _ => 1
  | .String _ _ => 1
  | .CodeString _ _ => 1
  | .Vector _ members => 2 + CST.stepsList members
  | .Expression _ _ subforms => 2 + CST.stepsList subforms

/-- A step budget that suffices for the loop over the trees of a list. -/
def CST.stepsList : List CST → Nat
  | [] => 1
  | t :: ts => 1 + CST.steps t + CST.stepsList ts

end

/-- `p.Upcoming N toks p1`: starting from the parser state `p`, successive
calls of `topLexer().lex()` return tokens with the kinds and payloads `toks`,
each within any step budget of at least `N`, and leave the state `p1`. -/
def CSTParser.Upcoming (N : Nat) :
    CSTParser → List (TokenKind × TokenContent) → CSTParser → Prop
  | p, [], p1 => p1 = p
  | p, kc :: rest, p1 =>
    ∃ (t : Token) (p2 : CSTParser), t.kc = kc ∧
      (∀ fuel, N ≤ fuel → p.lexTop fuel = .ok (t, p2)) ∧ CSTParser.Upcoming N p2 rest p1

/-- The token kinds with which a subform starts. -/
def TokenKind.startsSubform : TokenKind → Bool
  | .Identifier => true
  | .String => true
  | .CodeString => true
  | .Number => true
  | .OpenParen => true
  | .OpenBracket => true
  | _ => false

/-- What `parseSubCST()` does on the tokens that write the tree `t`: with a
sufficient step budget it returns a tree equal to `t` up to locations and
leaves the state after exactly those tokens. -/
def SubSpec (t : CST) : Prop :=
  ∀ (N fuel : Nat) (p p1 : CSTParser), p.Upcoming N t.write p1 → N + t.steps ≤ fuel →
    ∃ r, CSTParser.parseSubCST fuel p = .ok (r, p1) ∧ r.eraseLoc = t.eraseLoc

/-- What the loop of `parseRawExpressionCST()` does, after the first pass, on
the tokens that write the trees `ss` followed by `)`. -/
def ExprLoopSpec (ss : List CST) : Prop :=
  ∀ (N fuel : Nat) (p p1 : CSTParser) (openParen machineMode : Token) (acc : List CST),
    p.Upcoming N (CST.writeList ss ++ [(.CloseParen, .placeHolder)]) p1 →
    N + CST.stepsList ss ≤ fuel →
    ∃ rs, CSTParser.parseRawExpressionLoop fuel p openParen machineMode false acc =
        (machineMode.machineModeID).bind
          (fun mm => .ok (.Expression openParen.loc mm (acc ++ rs), p1)) ∧
      CST.eraseLocList rs = CST.eraseLocList ss

/-- What the loop of `parseVectorCST()` does on the tokens that write the
trees `ms` followed by `]`. -/
def VecLoopSpec (ms : List CST) : Prop :=
  ∀ (N fuel : Nat) (p p1 : CSTParser) (openBracket : Token) (acc : List CST),
    p.Upcoming N (CST.writeList ms ++ [(.CloseBracket, .placeHolder)]) p1 →
    N + CST.stepsList ms ≤ fuel →
    ∃ rs, CSTParser.parseVectorLoop fuel p openBracket acc =
        .ok (.Vector openBracket.loc (acc ++ rs), p1) ∧
      CST.eraseLocList rs = CST.eraseLocList ms

/-- A parser over one file `buf` with the cursor at offset `pos` of line 0,
no lookahead, and `include` interned as 1. -/
def fileParser (ii : IdentifierInterner) (buf : Text) (pos : Nat) : CSTParser :=
  ⟨ii, ⟨[], 1⟩, [⟨⟨buf, false⟩, 1, ⟨0, pos, 0⟩, none⟩], 1⟩

/-- The interner after `include` and the given further texts were interned in
turn. -/
def internerOf (texts : List Text) : IdentifierInterner :=
  (IdentifierInterner.fresh.getAll (includeText :: texts)).2

/-- The text `(add 1 2)`. -/
def addText : Text := "(add 1 2)".toList

/-- The tree of `(add 1 2)`, without locations. -/
def addTree : CST :=
  .Expression SourceLocation.invalid 0
    [.Identifier SourceLocation.invalid 2, .Int SourceLocation.invalid ⟨1, 1⟩,
      .Int SourceLocation.invalid ⟨2, 2⟩]

/-- The text `[1 2 3]`. -/
def vectorText : Text := "[1 2 3]".toList

/-- The tree of `[1 2 3]`, without locations. -/
def vectorTree : CST :=
  .Vector SourceLocation.invalid
    [.Int SourceLocation.invalid ⟨1, 1⟩, .Int SourceLocation.invalid ⟨2, 2⟩,
      .Int SourceLocation.invalid ⟨2, 3⟩]

/-- The text `(foo : bar baz qux)`. -/
def tagText : Text := "(foo : bar baz qux)".toList

/-- The interner after `include`, `foo`, `bar`, `baz`, `qux`, cut after the
first `n` of the four. -/
def tagInterner (n : Nat) : IdentifierInterner :=
  internerOf (["foo".toList, "bar".toList, "baz".toList, "qux".toList].take n)

/-- Every value the outcome can hold satisfies `P`. -/
def Res.Holds {α : Type} (P : α → Prop) (r : Res α) : Prop := ∀ a, r = .ok a → P a

/-- The interner `ii1` extends `ii`: every text with an id in `ii` has the
same id in `ii1`. -/
def IIExt (ii ii1 : IdentifierInterner) : Prop :=
  ∀ k, lookupID ii.internedIDs k ≠ 0 → lookupID ii1.internedIDs k = lookupID ii.internedIDs k

/-- What every parser operation keeps: `ID_include`, and the ids of the texts
interned so far. -/
def CSTParser.Frame (p p1 : CSTParser) : Prop :=
  p1.ID_include = p.ID_include ∧ IIExt p.ii p1.ii

/-- The parser after `lexerStack.pop_back()`. -/
def CSTParser.pop (p : CSTParser) : CSTParser := { p with lexerStack := p.lexerStack.tail }

/-- Whether a `CST *` is the null pointer. -/
def CST.isNull : CST → Bool
  | .nullptr => true
  | _ => false

/-- The part of `CSTParser::parseTopCST` after `skipEmptyLexers()`. -/
def CSTParser.parseTopBody (fuel : Nat) (p1 : CSTParser) : Res (CST × CSTParser) :=
  if p1.lexerStack.isEmpty then .ok (.nullptr, p1)
  else
    (CSTParser.parseRawExpressionCST fuel p1).bind fun r =>
      (r.1.getLeadID).bind fun lead =>
        if lead = r.2.ID_include then
          (r.1.includePath).bind fun includePath =>
            (r.2.includeFile includePath).bind (CSTParser.parseTopCST fuel)
        else .ok r

/-- The loop of `main` (`main.cpp` 17-18), `while (auto *result =
parser.parseTopCST())`, keeping the nodes returned before the null pointer;
`n` bounds the number of calls. -/
def CSTParser.parseAll (fuel : Nat) : Nat → CSTParser → Res (List CST × CSTParser)
  | 0, _ => .timeout
  | n + 1, p =>
    (CSTParser.parseTopCST fuel p).bind fun r =>
      if r.1.isNull then .ok ([], r.2)
      else (CSTParser.parseAll fuel n r.2).bind fun rs => .ok (r.1 :: rs.1, rs.2)

/-- A complete well-formed top-level form that is not an inclusion: a
well-formed Expression whose lead id is not `inc`. -/
def TopForm (inc : Nat) (t : CST) : Prop :=
  t.WellFormed ∧ (∃ loc mm ss, t = .Expression loc mm ss) ∧
    ∃ x, t.getLeadID = .ok x ∧ x ≠ inc

/-- The form `(include "path")`, where `inc` is the id of `include`. -/
def includeForm (inc : Nat) (path : Text) : CST :=
  .Expression SourceLocation.invalid 0
    [.Identifier SourceLocation.invalid inc, .String SourceLocation.invalid path]

/-- `TopRun p fs`: with a sufficient step budget, successive calls of
`parseTopCST()` from `p` return trees equal up to locations to the trees of
`fs`, one per call, and then the null pointer. -/
def TopRun : CSTParser → List CST → Prop
  | p, [] => ∃ B pE, ∀ fuel, B ≤ fuel → CSTParser.parseTopCST fuel p = .ok (.nullptr, pE)
  | p, t :: rest =>
    ∃ B p1, (∀ fuel, B ≤ fuel → ∃ r, CSTParser.parseTopCST fuel p = .ok (r, p1) ∧
        r.isNull = false ∧ r.eraseLoc = t.eraseLoc) ∧ TopRun p1 rest

/-- The text `(a`: an expression that is never closed. -/
def unclosedText : Text := "(a".toList

/-- The main file `(include "sub.g")`. -/
def includeMain : Text := "(include \"sub.g\")".toList

/-- The included file `(ok)`. -/
def subFile : Text := "(ok)".toList

/-- The file system: `sub.g` holds `(ok)`. -/
def includeFiles : List (Text × Text) := [("sub.g".toList, subFile)]

/-- The lexer of the main file at offset `pos`. -/
def includeMainLexer (pos : Nat) : Lexer := ⟨⟨includeMain, false⟩, 1, ⟨0, pos, 0⟩, none⟩

/-- The parser on the main file at offset `pos`, with `numBuffers` buffers. -/
def mainParser (ii : IdentifierInterner) (numBuffers pos : Nat) : CSTParser :=
  ⟨ii, ⟨includeFiles, numBuffers⟩, [includeMainLexer pos], 1⟩

/-- The parser inside `sub.g` at offset `pos`, the main file waiting after
the include form. -/
def subParser (ii : IdentifierInterner) (pos : Nat) : CSTParser :=
  ⟨ii, ⟨includeFiles, 2⟩, [⟨⟨subFile, true⟩, 2, ⟨0, pos, 0⟩, none⟩, includeMainLexer 17], 1⟩

/-- The tree of `(ok)`, without locations. -/
def okTree : CST :=
  .Expression SourceLocation.invalid 0 [.Identifier SourceLocation.invalid 2]

/-- Offset in `t` of the first `"` that is not escaped, when backslashes are
paired left to right, each one escaping exactly the character after it; `none`
when there is no such `"`. -/
def closingQuote : Text → Option Nat
  | [] => none
  | [c] => if c = chDQuote then some 0 else none
  | c :: d :: rest =>
    if c = chBackslash then (closingQuote rest).map (fun k => k + 2)
    else if c = chDQuote then some 0
    else (closingQuote (d :: rest)).map (fun k => k + 1)

/-- The cursor after `advancePos()` consumed the character `ch`. -/
def Cursor.step (c : Cursor) (ch : Char) : Cursor :=
  if ch = chNewline then ⟨c.line + 1, c.curPos + 1, c.curPos + 1⟩
  else ⟨c.line, c.curPos + 1, c.lineStart⟩

/-- The cursor after `advancePos()` consumed the characters of `t` in turn. -/
def Cursor.over (c : Cursor) (t : Text) : Cursor := t.foldl Cursor.step c

/-- The buffer `"a\"b" x`: a string literal with an escaped quote inside. -/
def escapedQuoteString : Text :=
  [chDQuote, 'a', chBackslash, chDQuote, 'b', chDQuote, ' ', 'x']

/-- The buffer `("hello (world)")`. -/
def parenString : Text := "(\"hello (world)\")".toList

/-- The buffer `a<b:c2 d`. -/
def identifierText : Text := "a<b:c2 d".toList

/-- The text `(: a)`: an expression whose first token after `(` is `:`. -/
def colonText : Text := "(: a)".toList

/-- The main file `(include "sub.g" x)`: an include-headed form with three
subforms. -/
def includeExtraMain : Text := "(include \"sub.g\" x)".toList

/-- The parser on the main file `(include "sub.g" x)` at offset `pos`, with
`numBuffers` buffers. -/
def extraParser (ii : IdentifierInterner) (numBuffers pos : Nat) : CSTParser :=
  ⟨ii, ⟨includeFiles, numBuffers⟩, [⟨⟨includeExtraMain, false⟩, 1, ⟨0, pos, 0⟩, none⟩], 1⟩

/-- The parser inside `sub.g` at offset `pos`, the main file
`(include "sub.g" x)` waiting after its include form. -/
def extraSubParser (ii : IdentifierInterner) (pos : Nat) : CSTParser :=
  ⟨ii, ⟨includeFiles, 2⟩,
    [⟨⟨subFile, true⟩, 2, ⟨0, pos, 0⟩, none⟩, ⟨⟨includeExtraMain, false⟩, 1, ⟨0, 19, 0⟩, none⟩], 1⟩

/-- The tree of `(include "sub.g" x)`, without locations. -/
def includeExtraTree : CST :=
  .Expression SourceLocation.invalid 0
    [.Identifier SourceLocation.invalid 1, .String SourceLocation.invalid "sub.g".toList,
      .Identifier SourceLocation.invalid 2]

/-- The tree of `(ok)` when `ok` is the third text interned, without
locations. -/
def okTreeThird : CST :=
  .Expression SourceLocation.invalid 0 [.Identifier SourceLocation.invalid 3]

/-- Number of newline characters lying before offset `pos` of a text. -/
def newlinesBefore (data : Text) (pos : Nat) : Nat := (data.take pos).count chNewline

/-- The column of offset `pos` measured from the start of its line: 1 plus
the number of characters between the character after the last newline before
`pos` (or the start of the text) and `pos`. -/
def columnFromLineStart (data : Text) (pos : Nat) : Nat :=
  1 + ((data.take pos).reverse.takeWhile (fun ch => ch ≠ chNewline)).length

/-- The buffer `/*`, newline, `*/a`: a block comment holding a newline, then
an identifier. -/
def blockCommentNewline : Text := ['/', '*', chNewline, '*', '/', 'a']

/-- The buffer `//x`, newline, `a`: a line comment, then an identifier on the
next line. -/
def slashCommentNewline : Text := ['/', '/', 'x', chNewline, 'a']

/-- The buffer `;x`, newline, `a`: a semicolon comment, then an identifier on
the next line. -/
def semiCommentNewline : Text := [';', 'x', chNewline, 'a']

/-- The buffer `a`. -/
def singleIdentifier : Text := ['a']

/-- The buffer `{ "a\"b}" }`: a code block holding a string literal with an
escaped quote and a brace. -/
def escapedQuoteInBlock : Text :=
  [chLBrace, ' ', chDQuote, 'a', chBackslash, chDQuote, 'b', chRBrace, chDQuote, ' ', chRBrace]

/-- The buffer `{ '\'}' }`: a code block holding a character literal with an
escaped quote and a brace. -/
def escapedQuoteInCharBlock : Text :=
  [chLBrace, ' ', chSQuote, chBackslash, chSQuote, chRBrace, chSQuote, ' ', chRBrace]

/-- The buffer `{/***/} */}`: a code block that starts with the comment
`/***/`. -/
def starCommentBlock : Text :=
  [chLBrace, '/', '*', '*', '*', '/', chRBrace, ' ', '*', '/', chRBrace]

/-- Number of the four mode flags of a code-block scan that are set. -/
def CodeScan.activeModes (m : CodeScan) : Nat :=
  m.insideString.toNat + m.insideChar.toNat + m.insideLineComment.toNat +
    m.insideBlockComment.toNat

/-- The `while (advanceCodePos())` loop of `Lexer::lexCodeStringImpl` as
`Lexer.lexCodeStringLoop`, together with the values the locals have at each
evaluation of the loop condition and when the loop is left. -/
def Lexer.lexCodeStringTrace (b : MemoryBuffer) :
    Nat → CodeScan → Cursor → Res Cursor × List CodeScan
  | 0, m, _ => (.timeout, [m])
  | fuel + 1, m, c =>
    match Lexer.advanceCodePos b fuel c with
    | .ok (false, c1) => (.ok c1, [m])
    | .ok (true, c1) =>
      match (Lexer.codeChar b c1).bind fun r => Lexer.codeStep b fuel m r.1 r.2 with
      | .ok (true, m2, c2) => (.ok c2, [m, m2])
      | .ok (false, m2, c2) =>
        ((Lexer.lexCodeStringTrace b fuel m2 c2).1, m :: (Lexer.lexCodeStringTrace b fuel m2 c2).2)
      | .fault => (.fault, [m])
      | .timeout => (.timeout, [m])
    | .fault => (.fault, [m])
    | .timeout => (.timeout, [m])

/-- The buffer `{ "a" 'b' /*c*/ //d`, newline, `}`: a code block that passes
through all four modes. -/
def allModesBlock : Text :=
  [chLBrace, ' ', chDQuote, 'a', chDQuote, ' ', chSQuote, 'b', chSQuote, ' ', '/', '*', 'c',
    '*', '/', ' ', '/', '/', 'd', chNewline, chRBrace]

/-- The buffer `/x`: a `/` that starts neither `/*` nor `//`. -/
def loneSlash : Text := ['/', 'x']

/-- The buffer `{\ }`: a code block in which a backslash is followed by a
space. -/
def backslashSpaceBlock : Text := [chLBrace, chBackslash, ' ', chRBrace]

/-- The buffer `"a`: a plain string that is never closed. -/
def unterminatedString : Text := [chDQuote, 'a']

/-- The buffer `{a`: a code block that is never closed. -/
def unterminatedBlock : Text := [chLBrace, 'a']

/-- The included file `(ok)//c`: one form, then a line comment that has no
newline. -/
def commentSub : Text := "(ok)//c".toList

/-- The main file `(include "sub.g")(s)`. -/
def commentMain : Text := "(include \"sub.g\")(s)".toList

/-- The single file `(ok)//c(s)`: the contents of `sub.g` in the place of the
include form of the main file. -/
def commentSingle : Text := "(ok)//c(s)".toList

/-- The file system: `sub.g` holds `(ok)//c`. -/
def commentFiles : List (Text × Text) := [("sub.g".toList, commentSub)]

/-- The parser on the main file `(include "sub.g")(s)` at offset `pos`. -/
def commentMainParser (ii : IdentifierInterner) (numBuffers pos : Nat) : CSTParser :=
  ⟨ii, ⟨commentFiles, numBuffers⟩, [⟨⟨commentMain, false⟩, 1, ⟨0, pos, 0⟩, none⟩], 1⟩

/-- The parser inside `sub.g` at offset `pos`, the main file waiting after its
include form. -/
def commentSubParser (ii : IdentifierInterner) (pos : Nat) : CSTParser :=
  ⟨ii, ⟨commentFiles, 2⟩,
    [⟨⟨commentSub, true⟩, 2, ⟨0, pos, 0⟩, none⟩, ⟨⟨commentMain, false⟩, 1, ⟨0, 17, 0⟩, none⟩], 1⟩

/-- The parser on the single file `(ok)//c(s)` at offset `pos`. -/
def commentSingleParser (ii : IdentifierInterner) (pos : Nat) : CSTParser :=
  ⟨ii, ⟨commentFiles, 1⟩, [⟨⟨commentSingle, false⟩, 1, ⟨0, pos, 0⟩, none⟩], 1⟩

/-- The tree of `(s)` when `s` is the third text interned, without
locations. -/
def sTree : CST :=
  .Expression SourceLocation.invalid 0 [.Identifier SourceLocation.invalid 3]

/-- The text of the buffer `b1` lies in the buffer `b2` from offset `k`
on. -/
def Within (b1 b2 : MemoryBuffer) (k : Nat) : Prop :=
  ∃ pre post, b2.data = pre ++ (b1.data ++ post) ∧ pre.length = k

/-- The text of `b1` is the end of the text of `b2`, and the two buffers end
in the same way (both with a terminator, or both without). -/
def Full (b1 b2 : MemoryBuffer) (k : Nat) : Prop :=
  b2.data.length = k + b1.data.length ∧ b2.nullTerminated = b1.nullTerminated

/-- The buffers `b1` and `b2` cannot be told apart by looking at the offsets
below `n` of `b1`: these lie inside the text of `b1`, or `b1` is the end of
`b2`. -/
def Upto (b1 b2 : MemoryBuffer) (k n : Nat) : Prop :=
  n ≤ b1.data.length ∨ Full b1 b2 k

/-- Whether a text holds a `*` directly followed by a `/`. -/
def hasStarSlash : Text → Bool
  | c :: d :: rest => (c = '*' && d = '/') || hasStarSlash (d :: rest)
  | _ => false

/-- A definition of the statement, not of the source: a text that holds
nothing but white space and complete comments: a `;` or `//` comment with the
newline that ends it, a `/*` comment with its `*/`. -/
inductive CleanGap : Text → Prop
  | nil : CleanGap []
  | space (ch : Char) (g : Text) : isWhileSpace ch = true → CleanGap g → CleanGap (ch :: g)
  | semi (body g : Text) : chNewline ∉ body → CleanGap g →
      CleanGap (';' :: (body ++ chNewline :: g))
  | slash (body g : Text) : chNewline ∉ body → CleanGap g →
      CleanGap ('/' :: '/' :: (body ++ chNewline :: g))
  | block (body g : Text) : hasStarSlash body = false → CleanGap g →
      CleanGap ('/' :: '*' :: (body ++ '*' :: '/' :: g))

/-- `GapAt b i j`: the text of `b` between the offsets `i` and `j` holds
nothing but white space and complete comments. -/
def GapAt (b : MemoryBuffer) (i j : Nat) : Prop :=
  ∃ pre g post, b.data = pre ++ (g ++ post) ∧ pre.length = i ∧ i + g.length = j ∧ CleanGap g

/-- `Lexer.Yields b ii c toks ii1 c1`: on the buffer `b`, from the cursor `c`
and with the interner `ii`, successive calls of `lex()` (each with some step
budget) return tokens with the kinds and payloads `toks` and leave the
interner `ii1` and the cursor `c1`.  The file id, which enters the locations
of the tokens only, is 1. -/
def Lexer.Yields (b : MemoryBuffer) : IdentifierInterner → Cursor →
    List (TokenKind × TokenContent) → IdentifierInterner → Cursor → Prop
  | ii, c, [], ii1, c1 => ii1 = ii ∧ c1 = c
  | ii, c, kc :: rest, ii1, c1 =>
    ∃ (fuel : Nat) (t : Token) (ii2 : IdentifierInterner) (c2 : Cursor), t.kc = kc ∧
      Lexer.scan b 1 fuel ii c = .ok (t, ii2, c2) ∧ Lexer.Yields b ii2 c2 rest ii1 c1

/-- From the words of the claim: "a sequence of complete well-formed
top-level forms".  `Forms files inc b ii c n F ii1 c1`: on the buffer `b`,
from the cursor `c` and with the interner `ii`, the lexer yields the tokens of
top-level forms, one form after the other, up to the cursor `c1` and the
interner `ii1`.  A form is a well-formed Expression that is not an inclusion,
or it is `(include "path")` for a file among `files` whose contents are in turn
such a sequence of forms up to its end of stream.  `F` lists the forms in the
order in which they are met, those of an included file in the place of the
form that includes it, and `n` counts the inclusions. -/
inductive Forms (files : List (Text × Text)) (inc : Nat) :
    MemoryBuffer → IdentifierInterner → Cursor → Nat → List CST → IdentifierInterner →
      Cursor → Prop
  | nil (b : MemoryBuffer) (ii : IdentifierInterner) (c : Cursor) :
      Forms files inc b ii c 0 [] ii c
  | form (b : MemoryBuffer) (ii ii1 ii2 : IdentifierInterner) (c c1 c2 : Cursor) (n : Nat)
      (t : CST) (F : List CST) :
      Lexer.Yields b ii c t.write ii1 c1 → TopForm inc t →
      Forms files inc b ii1 c1 n F ii2 c2 → Forms files inc b ii c n (t :: F) ii2 c2
  | incl (b : MemoryBuffer) (ii ii1 ii2 ii3 ii4 : IdentifierInterner) (c c1 c2 c3 c4 : Cursor)
      (n1 n2 : Nat) (path text : Text) (F1 F2 : List CST) :
      Lexer.Yields b ii c (includeForm inc path).write ii1 c1 →
      SourceMgr.openFile files path = some text →
      Forms files inc ⟨text, true⟩ ii1 ⟨0, 0, 0⟩ n1 F1 ii2 c2 →
      Lexer.Yields ⟨text, true⟩ ii2 c2 [(.EndOfStream, .placeHolder)] ii3 c3 →
      Forms files inc b ii3 c1 n2 F2 ii4 c4 →
      Forms files inc b ii c (n1 + n2 + 1) (F1 ++ F2) ii4 c4

/-- The text `(include "path")`. -/
def includeFormText (path : Text) : Text :=
  "(include \"".toList ++ (path ++ "\")".toList)

/-- The tree of a form `(x)` where `x` is the identifier with the id `id`,
without locations. -/
def leadTree (id : Nat) : CST :=
  .Expression SourceLocation.invalid 0 [.Identifier SourceLocation.invalid id]

/-- The text `(p)//c`: a form and a `//` comment that no newline ends. -/
def trailHead : Text := "(p)//c".toList

/-- A newline followed by `(ok)`. -/
def trailSub : Text := "\n(ok)".toList

/-- The file system with the one file `sub.g`, which holds `trailSub`. -/
def trailFiles : List (Text × Text) := [("sub.g".toList, trailSub)]

/-! # Theorems -/

/-! ## General facts about outcomes -/

theorem Res.bind_eq_ok {α β : Type} (r : Res α) (f : α → Res β) (b : β) :
    r.bind f = .ok b ↔ ∃ a, r = .ok a ∧ f a = .ok b := by
  cases r <;> simp [Res.bind]

theorem Res.bind_ok {α β : Type} (a : α) (f : α → Res β) : (Res.ok a).bind f = f a := rfl

theorem Res.bind_fault {α β : Type} (f : α → Res β) : (Res.fault : Res α).bind f = .fault := rfl

theorem Res.bind_timeout {α β : Type} (f : α → Res β) :
    (Res.timeout : Res α).bind f = .timeout := rfl

/-! ## The interner -/

theorem lookupID_cons (k : Text) (v : Nat) (m : List (Text × Nat)) (s : Text) :
    lookupID ((k, v) :: m) s = if k = s then v else lookupID m s := rfl

theorem InternerInv.fresh : InternerInv IdentifierInterner.fresh :=
  ⟨fun s => by simp [IdentifierInterner.fresh, lookupID], fun s1 s2 h => by
    simp [IdentifierInterner.fresh, lookupID] at h⟩

theorem get_spec (ii : IdentifierInterner) (s : Text) (hinv : InternerInv ii)
    (hlast : ii.lastID + 1 < 2 ^ 64) :
    InternerInv (ii.get s).2 ∧ (ii.get s).1 ≠ 0 ∧
    lookupID (ii.get s).2.internedIDs s = (ii.get s).1 ∧
    (ii.get s).2.lastID ≤ ii.lastID + 1 ∧
    (∀ k, lookupID ii.internedIDs k ≠ 0 →
      lookupID (ii.get s).2.internedIDs k = lookupID ii.internedIDs k) := by
  unfold IdentifierInterner.get
  by_cases h : lookupID ii.internedIDs s = InvalidID
  · simp only [h, if_true]
    have hmod : (ii.lastID + 1) % 2 ^ 64 = ii.lastID + 1 := Nat.mod_eq_of_lt hlast
    rw [hmod]
    refine ⟨⟨?_, ?_⟩, by omega, by simp [lookupID], le_refl _, ?_⟩
    · intro k
      simp only [lookupID_cons]
      split
      · exact le_refl _
      · have := hinv.le_last k; omega
    · intro s1 s2 h1 h2
      simp only [lookupID_cons] at h1 h2
      by_cases e1 : s = s1
      · subst e1
        by_cases e2 : s = s2
        · exact e2
        · rw [if_pos rfl, if_neg e2] at h2
          have := hinv.le_last s2; omega
      · by_cases e2 : s = s2
        · subst e2
          rw [if_neg e1, if_pos rfl] at h2
          have := hinv.le_last s1; omega
        · rw [if_neg e1] at h1
          rw [if_neg e1, if_neg e2] at h2
          exact hinv.inj s1 s2 h1 h2
    · intro k hk
      simp only [lookupID_cons]
      split
      · rename_i e; subst e; exact absurd h hk
      · rfl
  · rw [if_neg h]
    exact ⟨hinv, h, rfl, Nat.le_succ _, fun _ _ => rfl⟩


theorem getAll_spec (ts : List Text) : ∀ (ii : IdentifierInterner), InternerInv ii →
    ii.lastID + ts.length < 2 ^ 64 →
    InternerInv (ii.getAll ts).2 ∧
    (ii.getAll ts).2.lastID ≤ ii.lastID + ts.length ∧
    (∀ k, lookupID ii.internedIDs k ≠ 0 →
      lookupID (ii.getAll ts).2.internedIDs k = lookupID ii.internedIDs k) ∧
    (ii.getAll ts).1.length = ts.length ∧
    (∀ (i : Nat) (s : Text), ts[i]? = some s →
      (ii.getAll ts).1[i]? = some (lookupID (ii.getAll ts).2.internedIDs s) ∧
      lookupID (ii.getAll ts).2.internedIDs s ≠ 0) := by
  induction ts with
  | nil =>
    intro ii hinv _
    simp [IdentifierInterner.getAll, hinv]
  | cons t ts ih =>
    intro ii hinv hlen
    simp only [List.length_cons] at hlen
    obtain ⟨hinv1, hne, hself, hlast1, hkeep⟩ := get_spec ii t hinv (by omega)
    obtain ⟨hinv2, hlast2, hkeep2, hlen2, hidx⟩ := ih (ii.get t).2 hinv1 (by omega)
    simp only [IdentifierInterner.getAll, List.length_cons]
    refine ⟨hinv2, by omega, ?_, by omega, ?_⟩
    · intro k hk
      rw [hkeep2 k (by rw [hkeep k hk]; exact hk), hkeep k hk]
    · intro i s hs
      cases i with
      | zero =>
        simp only [List.getElem?_cons_zero, Option.some.injEq] at hs
        subst hs
        have h1 := hkeep2 t (by rw [hself]; exact hne)
        simp only [List.getElem?_cons_zero, Option.some.injEq]
        rw [h1, hself]
        exact ⟨rfl, hne⟩
      | succ i =>
        simp only [List.getElem?_cons_succ] at hs ⊢
        exact hidx i s hs

/-- C8: for every sequence of fewer than `2 ^ 64` calls of `get` on a fresh
interner, two calls return the same id exactly when their texts are equal (so
a text keeps the id it first received), no call returns the invalid id `0`,
and the first call returns `1`. -/
theorem interner_stable_injective (ts : List Text) (hlen : ts.length < 2 ^ 64) :
    (IdentifierInterner.fresh.getAll ts).1.length = ts.length ∧
    (∀ (i j : Nat) (s1 s2 : Text) (a b : Nat), ts[i]? = some s1 → ts[j]? = some s2 →
      (IdentifierInterner.fresh.getAll ts).1[i]? = some a →
      (IdentifierInterner.fresh.getAll ts).1[j]? = some b → (a = b ↔ s1 = s2)) ∧
    (∀ id ∈ (IdentifierInterner.fresh.getAll ts).1, id ≠ InvalidID) ∧
    (ts ≠ [] → (IdentifierInterner.fresh.getAll ts).1.head? = some 1) := by
  obtain ⟨hinv, _, _, hlen2, hidx⟩ :=
    getAll_spec ts IdentifierInterner.fresh InternerInv.fresh
      (by simpa [IdentifierInterner.fresh, InvalidID] using hlen)
  refine ⟨hlen2, ?_, ?_, ?_⟩
  · intro i j s1 s2 a b h1 h2 ha hb
    obtain ⟨ha1, hne1⟩ := hidx i s1 h1
    obtain ⟨hb1, _⟩ := hidx j s2 h2
    rw [ha1] at ha
    rw [hb1] at hb
    simp only [Option.some.injEq] at ha hb
    subst ha hb
    constructor
    · intro h
      exact hinv.inj s1 s2 hne1 h
    · intro h
      rw [h]
  · intro id hid
    obtain ⟨i, hi, hget⟩ := List.getElem_of_mem hid
    have hi2 : i < ts.length := by omega
    obtain ⟨h1, h2⟩ := hidx i ts[i] (List.getElem?_eq_getElem hi2)
    rw [List.getElem?_eq_getElem hi] at h1
    simp only [Option.some.injEq] at h1
    rw [← hget, h1]
    exact h2
  · intro hne
    cases ts with
    | nil => exact absurd rfl hne
    | cons t rest =>
      simp [IdentifierInterner.getAll, IdentifierInterner.get, IdentifierInterner.fresh,
        lookupID, InvalidID]

theorem interner_stable_injective_witness :
    sampleCalls.length < 2 ^ 64 ∧
    (IdentifierInterner.fresh.getAll sampleCalls).1.length = sampleCalls.length ∧
    (IdentifierInterner.fresh.getAll sampleCalls).1 = [1, 2, 1] :=
  ⟨by decide, (interner_stable_injective sampleCalls (by decide)).1, by decide⟩

/-! ## One-token lookahead -/

theorem lex_lookahead_none (fuel : Nat) (ii ii1 : IdentifierInterner) (s s1 : Lexer) (t : Token)
    (h : Lexer.lex fuel ii s = .ok (t, ii1, s1)) : s1.lookahead = none := by
  unfold Lexer.lex at h
  cases hl : s.lookahead with
  | some t0 =>
    simp only [hl, Res.ok.injEq, Prod.mk.injEq] at h
    obtain ⟨_, _, h3⟩ := h
    rw [← h3]
  | none =>
    simp only [hl, Res.bind_eq_ok, Res.ok.injEq, Prod.mk.injEq] at h
    obtain ⟨r, _, _, _, h3⟩ := h
    rw [← h3]

/-- `peek()` is `lex()` followed by storing the token in `lookahead`. -/
theorem peek_eq_lex_bind (fuel : Nat) (ii : IdentifierInterner) (s : Lexer) :
    Lexer.peek fuel ii s =
      (Lexer.lex fuel ii s).bind
        (fun r => .ok (r.1, r.2.1, { r.2.2 with lookahead := some r.1 })) := by
  unfold Lexer.peek
  cases hl : s.lookahead with
  | some t0 =>
    simp only [Lexer.lex, hl, Res.bind_ok]
    congr 3
    cases s
    simp only at hl
    simp [hl]
  | none => rfl

/-- C5: `peek()` returns the token `lex()` would return and buffers it; a
second `peek()` returns the same token and changes nothing; `lex()` after
`peek()` returns the buffered token, empties the buffer and leaves the state
that a single `lex()` from the original state leaves. -/
theorem peek_lex_contract (fuel : Nat) (ii : IdentifierInterner) (s : Lexer) :
    Lexer.peek fuel ii s =
      (Lexer.lex fuel ii s).bind
        (fun r => .ok (r.1, r.2.1, { r.2.2 with lookahead := some r.1 })) ∧
    ∀ (t : Token) (ii1 : IdentifierInterner) (s1 : Lexer),
      Lexer.peek fuel ii s = .ok (t, ii1, s1) →
      (∀ fuel1, Lexer.peek fuel1 ii1 s1 = .ok (t, ii1, s1)) ∧
      (∀ fuel1, Lexer.lex fuel1 ii1 s1 = .ok (t, ii1, { s1 with lookahead := none })) ∧
      Lexer.lex fuel ii s = .ok (t, ii1, { s1 with lookahead := none }) := by
  constructor
  · exact peek_eq_lex_bind fuel ii s
  · intro t ii1 s1 h
    have hs1 : s1.lookahead = some t := by
      unfold Lexer.peek at h
      cases hl : s.lookahead with
      | some t0 =>
        simp only [hl, Res.ok.injEq, Prod.mk.injEq] at h
        obtain ⟨h1, _, h3⟩ := h
        rw [← h3, hl, h1]
      | none =>
        simp only [hl, Res.bind_eq_ok, Res.ok.injEq, Prod.mk.injEq] at h
        obtain ⟨r, _, h1, _, h3⟩ := h
        rw [← h3, h1]
    refine ⟨?_, ?_, ?_⟩
    · intro fuel1
      simp only [Lexer.peek, hs1]
    · intro fuel1
      simp only [Lexer.lex, hs1]
    · unfold Lexer.peek at h
      cases hl : s.lookahead with
      | some t0 =>
        simp only [hl, Res.ok.injEq, Prod.mk.injEq] at h
        obtain ⟨h1, h2, h3⟩ := h
        subst h1 h2 h3
        simp only [Lexer.lex, hl]
      | none =>
        simp only [hl, Res.bind_eq_ok, Res.ok.injEq, Prod.mk.injEq] at h
        obtain ⟨r, hr, h1, h2, h3⟩ := h
        have hn := lex_lookahead_none fuel ii r.2.1 s r.2.2 r.1 hr
        rw [hr, ← h3, ← h1, ← h2]
        obtain ⟨t1, ii2, s2⟩ := r
        cases s2
        simp only at hn
        simp [hn]

theorem peek_lex_contract_witness :
    Lexer.peek 5 IdentifierInterner.fresh sampleLexer =
      .ok (⟨.OpenParen, .placeHolder, ⟨0, 2, 1⟩⟩, IdentifierInterner.fresh,
        ⟨⟨"(a)".toList, false⟩, 1, ⟨0, 1, 0⟩,
          some ⟨.OpenParen, .placeHolder, ⟨0, 2, 1⟩⟩⟩) ∧
    Lexer.lex 5 IdentifierInterner.fresh sampleLexer =
      .ok (⟨.OpenParen, .placeHolder, ⟨0, 2, 1⟩⟩, IdentifierInterner.fresh,
        ⟨⟨"(a)".toList, false⟩, 1, ⟨0, 1, 0⟩, none⟩) :=
  ⟨by decide, ((peek_lex_contract 5 IdentifierInterner.fresh sampleLexer).2
    ⟨.OpenParen, .placeHolder, ⟨0, 2, 1⟩⟩ IdentifierInterner.fresh
    ⟨⟨"(a)".toList, false⟩, 1, ⟨0, 1, 0⟩, some ⟨.OpenParen, .placeHolder, ⟨0, 2, 1⟩⟩⟩
    (by decide)).2.2⟩

/-! ## Code blocks -/

theorem charAt_append_cons (b : MemoryBuffer) (pfx : Text) (x : Char) (tail : Text)
    (hb : b.data = pfx ++ x :: tail) : b.charAt pfx.length = some x := by
  have h : pfx.length < (pfx ++ x :: tail).length := by simp
  simp only [MemoryBuffer.charAt, hb, h, if_true]
  rw [List.getElem?_append_right (le_refl _)]
  simp

theorem hasMoreChars_append_cons (b : MemoryBuffer) (pfx : Text) (x : Char) (tail : Text)
    (hb : b.data = pfx ++ x :: tail) (l ls : Nat) :
    Lexer.hasMoreChars b ⟨l, pfx.length, ls⟩ = true := by
  simp [Lexer.hasMoreChars, MemoryBuffer.bufferEnd, hb]

theorem append_cons_snoc (pfx : Text) (x : Char) (tail : Text) :
    pfx ++ x :: tail = (pfx ++ [x]) ++ tail := by simp

/-- One call of `advanceCodePos` inside a block when the next character is not
a backslash. -/
theorem advanceCodePos_plain (b : MemoryBuffer) (pfx : Text) (x y : Char) (tail : Text)
    (hb : b.data = pfx ++ x :: y :: tail) (fuel l ls : Nat) (hy : y ≠ chBackslash) :
    Lexer.advanceCodePos b fuel ⟨l, pfx.length, ls⟩
      = .ok (true, ⟨if x = chNewline then l + 1 else l, pfx.length + 1, ls⟩) := by
  have h1 := charAt_append_cons b pfx x (y :: tail) hb
  have hb2 : b.data = (pfx ++ [x]) ++ y :: tail := by rw [hb]; simp
  have h2 := charAt_append_cons b (pfx ++ [x]) y tail hb2
  have h3 := hasMoreChars_append_cons b (pfx ++ [x]) y tail hb2
    (if x = chNewline then l + 1 else l) ls
  simp only [List.length_append, List.length_singleton] at h2 h3
  simp only [Lexer.advanceCodePos, h1, h2, h3, Bool.not_true, Bool.false_eq_true, if_false, hy]

theorem chars_ne : chRBrace ≠ chBackslash ∧ chRBrace ≠ '/' ∧ chRBrace ≠ chLBrace ∧
    chLBrace ≠ chBackslash ∧ chLBrace ≠ '/' ∧ chRBrace ≠ chNewline ∧ chLBrace ≠ chNewline ∧
    chLBrace ≠ chRBrace := by
  decide

/-- The loop of `lexCodeStringImpl` over a run of characters without quotes,
slashes and backslashes whose braces balance against the nesting level `d`. -/
theorem lexCodeStringLoop_plain (b : MemoryBuffer) (post : Text) :
    ∀ (rest pfx : Text) (x : Char) (d l ls fuel : Nat),
      b.data = pfx ++ x :: (rest ++ chRBrace :: post) →
      (∀ c ∈ rest, c ≠ chDQuote ∧ c ≠ chSQuote ∧ c ≠ '/' ∧ c ≠ chBackslash) →
      (∀ k, (rest.take k).count chRBrace ≤ d + (rest.take k).count chLBrace) →
      d + rest.count chLBrace = rest.count chRBrace →
      (∀ k, d + (rest.take k).count chLBrace < (rest.take k).count chRBrace + 2 ^ 32) →
      rest.length + 1 ≤ fuel →
      Lexer.lexCodeStringLoop b fuel ⟨false, false, false, false, d⟩ ⟨l, pfx.length, ls⟩ =
        .ok ⟨l + (if x = chNewline then 1 else 0) + rest.count chNewline,
          pfx.length + rest.length + 1, ls⟩ := by
  intro rest
  induction rest with
  | nil =>
    intro pfx x d l ls fuel hb _ _ htot _ hfuel
    obtain ⟨fuel, rfl⟩ : ∃ f, fuel = f + 1 := ⟨fuel - 1, by simp at hfuel; omega⟩
    simp only [List.nil_append] at hb
    simp only [List.count_nil, Nat.add_zero] at htot
    subst htot
    have hadv := advanceCodePos_plain b pfx x chRBrace post hb fuel l ls chars_ne.1
    have hb2 : b.data = (pfx ++ [x]) ++ chRBrace :: post := by rw [hb]; simp
    have hch := charAt_append_cons b (pfx ++ [x]) chRBrace post hb2
    simp only [List.length_append, List.length_singleton] at hch
    simp only [Lexer.lexCodeStringLoop, hadv, Lexer.codeChar, hch, chars_ne.1, if_false,
      Res.bind_ok, Lexer.codeStep, Bool.false_eq_true, chars_ne.2.1, chars_ne.2.2.1, if_true,
      ne_eq, not_true_eq_false, List.count_nil, List.length_nil, Nat.add_zero]
    congr 2
    split <;> rfl
  | cons y rest ih =>
    intro pfx x d l ls fuel hb hchars hpre htot hdepth hfuel
    obtain ⟨fuel, rfl⟩ : ∃ f, fuel = f + 1 := ⟨fuel - 1, by simp at hfuel; omega⟩
    simp only [List.length_cons] at hfuel
    obtain ⟨hy1, hy2, hy3, hy4⟩ := hchars y (List.mem_cons_self _ _)
    have hchars2 : ∀ c ∈ rest, c ≠ chDQuote ∧ c ≠ chSQuote ∧ c ≠ '/' ∧ c ≠ chBackslash :=
      fun c hc => hchars c (List.mem_cons_of_mem _ hc)
    simp only [List.cons_append] at hb
    have hadv := advanceCodePos_plain b pfx x y (rest ++ chRBrace :: post) hb fuel l ls hy4
    have hb2 : b.data = (pfx ++ [x]) ++ y :: (rest ++ chRBrace :: post) := by rw [hb]; simp
    have hch := charAt_append_cons b (pfx ++ [x]) y (rest ++ chRBrace :: post) hb2
    simp only [List.length_append, List.length_singleton] at hch
    have hlen : (pfx ++ [x]).length = pfx.length + 1 := by simp
    simp only [Lexer.lexCodeStringLoop, hadv, Lexer.codeChar, hch, hy4, if_false,
      Res.bind_ok, Lexer.codeStep, Bool.false_eq_true, hy3, hy1, hy2]
    by_cases hL : y = chLBrace
    · subst hL
      have h21 : (chLBrace == chRBrace) = false := by decide
      have hmod : (d + 1) % 2 ^ 32 = d + 1 := by
        apply Nat.mod_eq_of_lt
        have := hdepth 1
        simp only [List.take_succ_cons, List.take_zero, List.count_cons, List.count_nil,
          beq_self_eq_true, if_true, h21, Bool.false_eq_true, if_false] at this
        omega
      simp only [if_true, hmod]
      rw [← hlen]
      rw [ih (pfx ++ [x]) chLBrace (d + 1) _ ls fuel hb2 hchars2 ?_ ?_ ?_ (by omega)]
      rotate_left 3
      · intro k
        have := hdepth (k + 1)
        simp only [List.take_succ_cons, List.count_cons, beq_self_eq_true, if_true, h21,
          Bool.false_eq_true, if_false] at this
        omega
      · simp only [hlen, List.length_cons, List.count_cons, chars_ne.2.2.2.2.2.2.1]
        congr 2
        · have : (chLBrace == chNewline) = false := by decide
          simp only [this, Bool.false_eq_true, if_false]
          split <;> omega
        · omega
      · intro k
        have := hpre (k + 1)
        simp only [List.take_succ_cons, List.count_cons, beq_self_eq_true, if_true] at this
        have h2 : (chLBrace == chRBrace) = false := by decide
        simp only [h2, Bool.false_eq_true, if_false] at this
        omega
      · simp only [List.count_cons, beq_self_eq_true, if_true] at htot
        have h2 : (chLBrace == chRBrace) = false := by decide
        simp only [h2, Bool.false_eq_true, if_false] at htot
        omega
    · by_cases hR : y = chRBrace
      · subst hR
        have hd : d ≠ 0 := by
          have := hpre 1
          simp only [List.take_succ_cons, List.take_zero, List.count_cons, List.count_nil,
            beq_self_eq_true, if_true] at this
          have h2 : (chRBrace == chLBrace) = false := by decide
          simp only [h2, Bool.false_eq_true, if_false] at this
          omega
        simp only [chars_ne.2.2.1, if_false, if_true, ne_eq, hd, not_false_eq_true]
        rw [← hlen]
        rw [ih (pfx ++ [x]) chRBrace (d - 1) _ ls fuel hb2 hchars2 ?_ ?_ ?_ (by omega)]
        rotate_left 3
        · intro k
          have := hdepth (k + 1)
          have h21 : (chRBrace == chLBrace) = false := by decide
          simp only [List.take_succ_cons, List.count_cons, beq_self_eq_true, if_true, h21,
            Bool.false_eq_true, if_false] at this
          omega
        · simp only [hlen, List.length_cons, List.count_cons, chars_ne.2.2.2.2.2.1]
          congr 2
          · have : (chRBrace == chNewline) = false := by decide
            simp only [this, Bool.false_eq_true, if_false]
            split <;> omega
          · omega
        · intro k
          have := hpre (k + 1)
          simp only [List.take_succ_cons, List.count_cons, beq_self_eq_true, if_true] at this
          have h2 : (chRBrace == chLBrace) = false := by decide
          simp only [h2, Bool.false_eq_true, if_false] at this
          omega
        · simp only [List.count_cons, beq_self_eq_true, if_true] at htot
          have h2 : (chRBrace == chLBrace) = false := by decide
          simp only [h2, Bool.false_eq_true, if_false] at htot
          omega
      · simp only [hL, hR, if_false]
        rw [← hlen]
        rw [ih (pfx ++ [x]) y d _ ls fuel hb2 hchars2 ?_ ?_ ?_ (by omega)]
        rotate_left 3
        · intro k
          have := hdepth (k + 1)
          have h1 : (y == chRBrace) = false := by simpa using hR
          have h2 : (y == chLBrace) = false := by simpa using hL
          simp only [List.take_succ_cons, List.count_cons, h1, h2, Bool.false_eq_true,
            if_false] at this
          omega
        · simp only [hlen, List.length_cons, List.count_cons]
          congr 2
          · by_cases hn : y = chNewline
            · subst hn
              simp only [beq_self_eq_true, if_true]
              split <;> omega
            · have : (y == chNewline) = false := by simpa using hn
              simp only [this, Bool.false_eq_true, if_false, hn]
              split <;> omega
          · omega
        · intro k
          have := hpre (k + 1)
          have h1 : (y == chRBrace) = false := by simpa using hR
          have h2 : (y == chLBrace) = false := by simpa using hL
          simp only [List.take_succ_cons, List.count_cons, h1, h2, Bool.false_eq_true,
            if_false] at this
          omega
        · have h1 : (y == chRBrace) = false := by simpa using hR
          have h2 : (y == chLBrace) = false := by simpa using hL
          simp only [List.count_cons, h1, h2, Bool.false_eq_true, if_false] at htot
          omega


theorem skipWhiteSpaces_lbrace (b : MemoryBuffer) (pfx tail : Text)
    (hb : b.data = pfx ++ chLBrace :: tail) (fuel l ls : Nat) :
    Lexer.skipWhiteSpaces b (fuel + 1) ⟨l, pfx.length, ls⟩ = .ok ⟨l, pfx.length, ls⟩ := by
  have h1 := charAt_append_cons b pfx chLBrace tail hb
  have h2 := hasMoreChars_append_cons b pfx chLBrace tail hb l ls
  have h3 : isWhileSpace chLBrace = false := by decide
  have h4 : chLBrace ≠ ';' := by decide
  simp only [Lexer.skipWhiteSpaces, h1, h2, h3, h4, chars_ne.2.2.2.2.1, if_true, if_false,
    Bool.false_eq_true]

/-- C2: for every body without `"`, the single quote, `/` and `\` whose
braces are balanced and never nested `2 ^ 32` deep, `lex()` on `{` + body +
`}` returns the `CodeString` token whose text is body and leaves the cursor
just after the closing `}`. -/
theorem lex_code_block_plain (pre body post : Text) (nt : Bool)
    (fileID line lineStart fuel : Nat) (ii : IdentifierInterner)
    (hchars : ∀ c ∈ body, c ≠ chDQuote ∧ c ≠ chSQuote ∧ c ≠ '/' ∧ c ≠ chBackslash)
    (hpre : ∀ k, k ≤ body.length →
      (body.take k).count chRBrace ≤ (body.take k).count chLBrace)
    (htot : body.count chLBrace = body.count chRBrace)
    (hdepth : ∀ k, k ≤ body.length →
      (body.take k).count chLBrace < (body.take k).count chRBrace + 2 ^ 32)
    (hfuel : body.length + 2 ≤ fuel) :
    Lexer.lex fuel ii
        ⟨⟨pre ++ chLBrace :: (body ++ chRBrace :: post), nt⟩, fileID,
          ⟨line, pre.length, lineStart⟩, none⟩ =
      .ok (⟨.CodeString, .str body,
            Lexer.getSourceLocation fileID
              ⟨line + body.count chNewline, pre.length + body.length + 1, lineStart⟩⟩,
          ii,
          ⟨⟨pre ++ chLBrace :: (body ++ chRBrace :: post), nt⟩, fileID,
            ⟨line + body.count chNewline, pre.length + body.length + 2, lineStart⟩, none⟩) := by
  obtain ⟨fuel, rfl⟩ : ∃ f, fuel = f + 1 := ⟨fuel - 1, by omega⟩
  have hpre : ∀ k, (body.take k).count chRBrace ≤ (body.take k).count chLBrace := by
    intro k
    rcases Nat.le_total k body.length with h | h
    · exact hpre k h
    · rw [List.take_of_length_le h]
      simpa using hpre body.length (le_refl _)
  have hdepth : ∀ k, (body.take k).count chLBrace < (body.take k).count chRBrace + 2 ^ 32 := by
    intro k
    rcases Nat.le_total k body.length with h | h
    · exact hdepth k h
    · rw [List.take_of_length_le h]
      simpa using hdepth body.length (le_refl _)
  have hskip := skipWhiteSpaces_lbrace ⟨pre ++ chLBrace :: (body ++ chRBrace :: post), nt⟩ pre
    (body ++ chRBrace :: post) rfl fuel line lineStart
  have hch := charAt_append_cons ⟨pre ++ chLBrace :: (body ++ chRBrace :: post), nt⟩ pre chLBrace
    (body ++ chRBrace :: post) rfl
  have hloop := lexCodeStringLoop_plain ⟨pre ++ chLBrace :: (body ++ chRBrace :: post), nt⟩ post
    body pre chLBrace 0 line lineStart (fuel + 1) rfl hchars (by simpa using hpre)
    (by simpa using htot) (by simpa using hdepth) (by omega)
  have hend : (⟨pre ++ chLBrace :: (body ++ chRBrace :: post), nt⟩ : MemoryBuffer).charAt
      (pre.length + body.length + 1) = some chRBrace := by
    have := charAt_append_cons ⟨pre ++ chLBrace :: (body ++ chRBrace :: post), nt⟩
      (pre ++ chLBrace :: body) chRBrace post (by simp)
    simpa [Nat.add_assoc] using this
  have hne : pre.length ≠ (pre ++ chLBrace :: (body ++ chRBrace :: post)).length := by
    simp
  have hslice : (⟨pre ++ chLBrace :: (body ++ chRBrace :: post), nt⟩ : MemoryBuffer).slice
      (pre.length + 1) (pre.length + body.length + 1 - pre.length - 1) = body := by
    have e : pre.length + body.length + 1 - pre.length - 1 = body.length := by omega
    have e2 : pre ++ chLBrace :: (body ++ chRBrace :: post)
        = (pre ++ [chLBrace]) ++ (body ++ chRBrace :: post) := by simp
    rw [e]
    simp only [MemoryBuffer.slice]
    rw [e2, List.drop_append_of_le_length (by simp)]
    simp
  simp only [Lexer.lex, Lexer.scan, hskip, Res.bind_ok, MemoryBuffer.bufferEnd, hne, if_false, hch,
    Lexer.lexSwitch, if_true, Lexer.lexCodeStringImpl, CodeScan.start, hloop, withInterner,
    Lexer.advancePos, hend, chars_ne.2.2.2.2.2.1, hslice, Token.createCodeString]
  simp [chars_ne.2.2.2.2.2.2.1, Nat.add_assoc]


theorem lex_code_block_plain_witness :
    (∀ c ∈ sampleBody, c ≠ chDQuote ∧ c ≠ chSQuote ∧ c ≠ '/' ∧ c ≠ chBackslash) ∧
    sampleBody.count chLBrace = sampleBody.count chRBrace ∧
    Lexer.lex 19 IdentifierInterner.fresh
        ⟨⟨chLBrace :: (sampleBody ++ [chRBrace]), false⟩, 1, ⟨0, 0, 0⟩, none⟩ =
      .ok (⟨.CodeString, .str sampleBody, ⟨0, 19, 1⟩⟩, IdentifierInterner.fresh,
          ⟨⟨chLBrace :: (sampleBody ++ [chRBrace]), false⟩, 1, ⟨0, 19, 0⟩, none⟩) :=
  ⟨by decide, by decide,
    lex_code_block_plain [] sampleBody [] false 1 0 0 19 IdentifierInterner.fresh
      (by decide) (by decide) (by decide) (by decide) (by decide)⟩

/-- A run of opening braces inside a code block: each one adds 1 to the
`unsigned` nesting level. -/
theorem lexCodeStringLoop_open_run (b : MemoryBuffer) :
    ∀ (n : Nat) (pfx : Text) (x : Char) (tail : Text) (d l ls fuel : Nat),
      b.data = pfx ++ x :: (List.replicate (n + 1) chLBrace ++ tail) → x ≠ chNewline →
      Lexer.lexCodeStringLoop b (fuel + (n + 1)) ⟨false, false, false, false, d⟩
          ⟨l, pfx.length, ls⟩ =
        Lexer.lexCodeStringLoop b fuel ⟨false, false, false, false, (d + n + 1) % 2 ^ 32⟩
          ⟨l, pfx.length + n + 1, ls⟩ := by
  intro n
  induction n with
  | zero =>
    intro pfx x tail d l ls fuel hb hx
    simp only [Nat.zero_add, List.replicate_one, List.singleton_append] at hb
    have hadv := advanceCodePos_plain b pfx x chLBrace tail hb fuel l ls chars_ne.2.2.2.1
    have hb2 : b.data = (pfx ++ [x]) ++ chLBrace :: tail := by rw [hb]; simp
    have hch := charAt_append_cons b (pfx ++ [x]) chLBrace tail hb2
    simp only [List.length_append, List.length_singleton] at hch
    simp only [Nat.zero_add, Lexer.lexCodeStringLoop, hadv, Lexer.codeChar, hch,
      chars_ne.2.2.2.1, if_false, Res.bind_ok, Lexer.codeStep, Bool.false_eq_true,
      chars_ne.2.2.2.2.1, if_true, hx, Nat.add_zero]
  | succ n ih =>
    intro pfx x tail d l ls fuel hb hx
    rw [List.replicate_succ, List.cons_append] at hb
    have hadv := advanceCodePos_plain b pfx x chLBrace _ hb (fuel + (n + 1)) l ls
      chars_ne.2.2.2.1
    have hb2 : b.data = (pfx ++ [x]) ++ chLBrace :: (List.replicate (n + 1) chLBrace ++ tail) := by
      rw [hb]; simp
    have hch := charAt_append_cons b (pfx ++ [x]) chLBrace _ hb2
    simp only [List.length_append, List.length_singleton] at hch
    have hlen : (pfx ++ [x]).length = pfx.length + 1 := by simp
    have hfuel : fuel + (n + 1 + 1) = (fuel + (n + 1)) + 1 := by omega
    rw [hfuel, Lexer.lexCodeStringLoop]
    simp only [hadv, Lexer.codeChar, hch,
      chars_ne.2.2.2.1, if_false, Res.bind_ok, Lexer.codeStep, Bool.false_eq_true,
      chars_ne.2.2.2.2.1, if_true, hx]
    rw [← hlen, ih (pfx ++ [x]) chLBrace tail _ l ls fuel hb2 chars_ne.2.2.2.2.2.2.1, hlen]
    have e1 : ((d + 1) % 2 ^ 32 + n + 1) % 2 ^ 32 = (d + (n + 1) + 1) % 2 ^ 32 := by omega
    have e2 : pfx.length + 1 + n + 1 = pfx.length + (n + 1) + 1 := by omega
    rw [e1, e2]


theorem nestedBody_balanced (n : Nat) :
    (∀ c ∈ nestedBody n, c ≠ chDQuote ∧ c ≠ chSQuote ∧ c ≠ '/' ∧ c ≠ chBackslash) ∧
    (∀ k, k ≤ (nestedBody n).length →
      ((nestedBody n).take k).count chRBrace ≤ ((nestedBody n).take k).count chLBrace) ∧
    (nestedBody n).count chLBrace = (nestedBody n).count chRBrace := by
  have h1 : (chRBrace == chLBrace) = false := by decide
  have h2 : (chLBrace == chRBrace) = false := by decide
  refine ⟨?_, ?_, ?_⟩
  · intro c hc
    simp only [nestedBody, List.mem_append, List.mem_replicate] at hc
    rcases hc with ⟨_, rfl⟩ | ⟨_, rfl⟩ <;> decide
  · intro k _
    simp only [nestedBody, List.take_append_eq_append_take, List.take_replicate,
      List.count_append, List.count_replicate, List.length_replicate, h1, h2,
      beq_self_eq_true, if_true, Bool.false_eq_true, if_false]
    omega
  · simp only [nestedBody, List.count_append, List.count_replicate, h1, h2,
      beq_self_eq_true, if_true, Bool.false_eq_true, if_false]
    omega

/-- With `2 ^ 32` opening braces the nesting level is back at 0, so the first
closing brace of the body ends the token. -/
theorem lex_nested_wraps (n fuel : Nat) (hn : n + 1 = 2 ^ 32) (hfuel : n + 3 ≤ fuel) :
    Lexer.lex fuel IdentifierInterner.fresh (nestedLexer (n + 1)) =
      .ok (⟨.CodeString, .str (List.replicate (n + 1) chLBrace),
            Lexer.getSourceLocation 1 ⟨0, n + 2, 0⟩⟩, IdentifierInterner.fresh,
          { nestedLexer (n + 1) with cursor := ⟨0, n + 3, 0⟩ }) := by
  obtain ⟨g, rfl⟩ : ∃ g, fuel = (g + 1) + (n + 1) := ⟨fuel - (n + 2), by omega⟩
  have hdata : (nestedLexer (n + 1)).buffer.data =
      [] ++ chLBrace :: (List.replicate (n + 1) chLBrace ++
        (chRBrace :: (List.replicate n chRBrace ++ [chRBrace]))) := by
    simp [nestedLexer, nestedBody, List.replicate_succ]
  have hdata2 : (nestedLexer (n + 1)).buffer.data =
      List.replicate (n + 1) chLBrace ++ chLBrace :: chRBrace ::
        (List.replicate n chRBrace ++ [chRBrace]) := by
    rw [hdata, List.nil_append]
    have e : chLBrace :: List.replicate (n + 1) chLBrace
        = List.replicate (n + 1) chLBrace ++ [chLBrace] := by
      rw [← List.replicate_succ, List.replicate_succ']
    rw [← List.cons_append, e]
    simp
  have hdata3 : (nestedLexer (n + 1)).buffer.data =
      (List.replicate (n + 1) chLBrace ++ [chLBrace]) ++ chRBrace ::
        (List.replicate n chRBrace ++ [chRBrace]) := by
    rw [hdata2]; simp
  have hskip := skipWhiteSpaces_lbrace (nestedLexer (n + 1)).buffer [] _ hdata (g + (n + 1)) 0 0
  have hch := charAt_append_cons (nestedLexer (n + 1)).buffer [] chLBrace _ hdata
  have hrun := lexCodeStringLoop_open_run (nestedLexer (n + 1)).buffer n [] chLBrace _ 0 0 0
    (g + 1) hdata chars_ne.2.2.2.2.2.2.1
  have hmod : (n + 1) % 2 ^ 32 = 0 := by omega
  have hadv := advanceCodePos_plain (nestedLexer (n + 1)).buffer (List.replicate (n + 1) chLBrace)
    chLBrace chRBrace _ hdata2 g 0 0 chars_ne.1
  have hch2 := charAt_append_cons (nestedLexer (n + 1)).buffer
    (List.replicate (n + 1) chLBrace ++ [chLBrace]) chRBrace _ hdata3
  simp only [List.length_append, List.length_replicate, List.length_singleton,
    List.length_nil, Nat.zero_add] at hskip hch hrun hadv hch2
  have hlast : Lexer.lexCodeStringLoop (nestedLexer (n + 1)).buffer (g + 1)
      ⟨false, false, false, false, 0⟩ ⟨0, n + 1, 0⟩ = .ok ⟨0, n + 2, 0⟩ := by
    rw [Lexer.lexCodeStringLoop]
    simp only [hadv, Lexer.codeChar, hch2, chars_ne.1, if_false, Res.bind_ok, Lexer.codeStep,
      Bool.false_eq_true, chars_ne.2.1, chars_ne.2.2.1, if_true, ne_eq, not_true_eq_false,
      chars_ne.2.2.2.2.2.2.1]
  have hne : (0 : Nat) ≠ (nestedLexer (n + 1)).buffer.bufferEnd := by
    simp [MemoryBuffer.bufferEnd, nestedLexer]
  have hslice : (nestedLexer (n + 1)).buffer.slice (0 + 1) (n + 2 - 0 - 1)
      = List.replicate (n + 1) chLBrace := by
    have e : n + 2 - 0 - 1 = n + 1 := by omega
    rw [e, MemoryBuffer.slice, hdata]
    simp
  have hfuel2 : g + 1 + (n + 1) = (g + (n + 1)) + 1 := by omega
  have hlk : (nestedLexer (n + 1)).lookahead = none := rfl
  have hcur : (nestedLexer (n + 1)).cursor = ⟨0, 0, 0⟩ := rfl
  have hfid : (nestedLexer (n + 1)).fileID = 1 := rfl
  rw [Lexer.lex]
  simp only [hlk, hcur, hfid, Lexer.scan]
  rw [hfuel2, hskip]
  simp only [Res.bind_ok, hne, if_false, hch, Lexer.lexSwitch, if_true, withInterner,
    Lexer.lexCodeStringImpl, CodeScan.start]
  rw [← hfuel2, hrun, hmod, hlast]
  simp only [Res.bind_ok, Lexer.advancePos, hch2, chars_ne.2.2.2.2.2.1, if_false, hslice,
    Token.createCodeString]

/-- C2, counterexample: the body of `2 ^ 32` opening braces followed by
`2 ^ 32` closing braces has none of the excluded characters and balanced
braces, yet `lex()` on `{` + body + `}` returns the text of the `2 ^ 32`
opening braces only and stops after the first closing brace. -/
theorem lex_code_block_deep_nesting :
    (∀ c ∈ nestedBody (2 ^ 32), c ≠ chDQuote ∧ c ≠ chSQuote ∧ c ≠ '/' ∧ c ≠ chBackslash) ∧
    (∀ k, k ≤ (nestedBody (2 ^ 32)).length →
      ((nestedBody (2 ^ 32)).take k).count chRBrace ≤
        ((nestedBody (2 ^ 32)).take k).count chLBrace) ∧
    (nestedBody (2 ^ 32)).count chLBrace = (nestedBody (2 ^ 32)).count chRBrace ∧
    (∀ fuel, 2 ^ 32 + 2 ≤ fuel →
      Lexer.lex fuel IdentifierInterner.fresh (nestedLexer (2 ^ 32)) =
        .ok (⟨.CodeString, .str (List.replicate (2 ^ 32) chLBrace),
              Lexer.getSourceLocation 1 ⟨0, 2 ^ 32 + 1, 0⟩⟩, IdentifierInterner.fresh,
            { nestedLexer (2 ^ 32) with cursor := ⟨0, 2 ^ 32 + 2, 0⟩ })) ∧
    List.replicate (2 ^ 32) chLBrace ≠ nestedBody (2 ^ 32) := by
  refine ⟨(nestedBody_balanced _).1, (nestedBody_balanced _).2.1, (nestedBody_balanced _).2.2,
    ?_, ?_⟩
  · intro fuel hfuel
    exact lex_nested_wraps (2 ^ 32 - 1) fuel (by norm_num) (by omega)
  · intro h
    have := congrArg List.length h
    simp only [nestedBody, List.length_append, List.length_replicate] at this
    omega


/-- C1: on the buffer `{"\"}"}` the body is the string literal `"\"}"`, with
no brace outside it, but `lex()` returns the text `"\"`: the escaped quote
ends the string and the brace inside the literal closes the block. -/
theorem lex_code_block_escaped_quote :
    Lexer.lex 10 IdentifierInterner.fresh ⟨⟨escapedQuoteBlock, false⟩, 1, ⟨0, 0, 0⟩, none⟩ =
      .ok (⟨.CodeString, .str [chDQuote, chBackslash, chDQuote], ⟨0, 5, 1⟩⟩,
        IdentifierInterner.fresh, ⟨⟨escapedQuoteBlock, false⟩, 1, ⟨0, 5, 0⟩, none⟩) ∧
    [chDQuote, chBackslash, chDQuote] ≠ (escapedQuoteBlock.drop 1).take 5 := by
  decide

/-! ## Numbers -/

/-- C10: on the buffer `- 5`, `lex()` returns a `Number` token whose `APInt`
has 3 bits with the value 3 (the two's complement of 5 in 3 bits), which
denotes 3 both signed and unsigned, not -5. -/
theorem lex_minus_five :
    Lexer.lex 10 IdentifierInterner.fresh ⟨⟨minusFive, false⟩, 1, ⟨0, 0, 0⟩, none⟩ =
      .ok (⟨.Number, .num ⟨3, 3⟩, ⟨0, 4, 1⟩⟩, IdentifierInterner.fresh,
        ⟨⟨minusFive, false⟩, 1, ⟨0, 3, 0⟩, none⟩) ∧
    APInt.toInt ⟨3, 3⟩ = 3 ∧ APInt.toNat ⟨3, 3⟩ = 3 ∧ APInt.toInt ⟨3, 3⟩ ≠ -5 := by
  decide

/-! ## A larger step budget keeps every result -/

theorem Res.le_refl {α : Type} (r : Res α) : Res.le r r := Or.inr rfl

theorem Res.timeout_le {α : Type} (r : Res α) : Res.le .timeout r := Or.inl rfl

theorem Res.le_bind {α β : Type} {r1 r2 : Res α} {f g : α → Res β} (h : Res.le r1 r2)
    (hf : ∀ a, Res.le (f a) (g a)) : Res.le (r1.bind f) (r2.bind g) := by
  rcases h with h | h
  · subst h; exact Or.inl rfl
  · subst h
    cases r1 with
    | ok a => exact hf a
    | fault => exact Or.inr rfl
    | timeout => exact Or.inl rfl

theorem Res.le_ok {α : Type} {r1 r2 : Res α} {a : α} (h : Res.le r1 r2) (h1 : r1 = .ok a) :
    r2 = .ok a := by
  rcases h with h | h
  · rw [h] at h1; cases h1
  · rw [← h, h1]

theorem Res.le_ite {α : Type} (c : Prop) [Decidable c] {a a1 b b1 : Res α}
    (h1 : c → Res.le a a1) (h2 : ¬c → Res.le b b1) :
    Res.le (if c then a else b) (if c then a1 else b1) := by
  by_cases h : c
  · rw [if_pos h, if_pos h]; exact h1 h
  · rw [if_neg h, if_neg h]; exact h2 h

theorem skipSemiComment_le (b : MemoryBuffer) :
    ∀ n m c, n ≤ m → Res.le (Lexer.skipSemiComment b n c) (Lexer.skipSemiComment b m c) := by
  intro n
  induction n with
  | zero => intro m c _; exact Res.timeout_le _
  | succ n ih =>
    intro m c hm
    obtain ⟨m, rfl⟩ : ∃ k, m = k + 1 := ⟨m - 1, by omega⟩
    have ih2 := fun c => ih m c (by omega)
    simp only [Lexer.skipSemiComment]
    repeat' split
    all_goals first | exact Res.le_refl _ | exact ih2 _

theorem skipBlockComment_le (b : MemoryBuffer) :
    ∀ n m c, n ≤ m → Res.le (Lexer.skipBlockComment b n c) (Lexer.skipBlockComment b m c) := by
  intro n
  induction n with
  | zero => intro m c _; exact Res.timeout_le _
  | succ n ih =>
    intro m c hm
    obtain ⟨m, rfl⟩ : ∃ k, m = k + 1 := ⟨m - 1, by omega⟩
    have ih2 := fun c => ih m c (by omega)
    simp only [Lexer.skipBlockComment]
    repeat' split
    all_goals first | exact Res.le_refl _ | exact ih2 _

theorem skipSlashComment_le (b : MemoryBuffer) :
    ∀ n m c, n ≤ m → Res.le (Lexer.skipSlashComment b n c) (Lexer.skipSlashComment b m c) := by
  intro n
  induction n with
  | zero => intro m c _; exact Res.timeout_le _
  | succ n ih =>
    intro m c hm
    obtain ⟨m, rfl⟩ : ∃ k, m = k + 1 := ⟨m - 1, by omega⟩
    have ih2 := fun c => ih m c (by omega)
    simp only [Lexer.skipSlashComment]
    repeat' split
    all_goals first
      | exact Res.le_refl _
      | exact ih2 _

theorem lexIdentifierLoop_le (b : MemoryBuffer) :
    ∀ n m c, n ≤ m → Res.le (Lexer.lexIdentifierLoop b n c) (Lexer.lexIdentifierLoop b m c) := by
  intro n
  induction n with
  | zero => intro m c _; exact Res.timeout_le _
  | succ n ih =>
    intro m c hm
    obtain ⟨m, rfl⟩ : ∃ k, m = k + 1 := ⟨m - 1, by omega⟩
    have ih2 := fun c => ih m c (by omega)
    simp only [Lexer.lexIdentifierLoop]
    repeat' split
    all_goals first
      | exact Res.le_refl _
      | exact ih2 _
      | exact Res.le_bind (Res.le_refl _) ih2

theorem lexStringLoop_le (b : MemoryBuffer) :
    ∀ n m c, n ≤ m → Res.le (Lexer.lexStringLoop b n c) (Lexer.lexStringLoop b m c) := by
  intro n
  induction n with
  | zero => intro m c _; exact Res.timeout_le _
  | succ n ih =>
    intro m c hm
    obtain ⟨m, rfl⟩ : ∃ k, m = k + 1 := ⟨m - 1, by omega⟩
    have ih2 := fun c => ih m c (by omega)
    simp only [Lexer.lexStringLoop]
    repeat' split
    all_goals first
      | exact Res.le_refl _
      | exact ih2 _
      | exact Res.le_bind (Res.le_refl _) ih2

theorem lexNumberLoop_le (b : MemoryBuffer) :
    ∀ n m c, n ≤ m → Res.le (Lexer.lexNumberLoop b n c) (Lexer.lexNumberLoop b m c) := by
  intro n
  induction n with
  | zero => intro m c _; exact Res.timeout_le _
  | succ n ih =>
    intro m c hm
    obtain ⟨m, rfl⟩ : ∃ k, m = k + 1 := ⟨m - 1, by omega⟩
    have ih2 := fun c => ih m c (by omega)
    simp only [Lexer.lexNumberLoop]
    repeat' split
    all_goals first
      | exact Res.le_refl _
      | exact ih2 _
      | exact Res.le_bind (Res.le_refl _) ih2

theorem skipWhiteSpaces_le (b : MemoryBuffer) :
    ∀ n m c, n ≤ m → Res.le (Lexer.skipWhiteSpaces b n c) (Lexer.skipWhiteSpaces b m c) := by
  intro n
  induction n with
  | zero => intro m c _; exact Res.timeout_le _
  | succ n ih =>
    intro m c hm
    obtain ⟨m, rfl⟩ : ∃ k, m = k + 1 := ⟨m - 1, by omega⟩
    have ih2 := fun c => ih m c (by omega)
    have hsemi := fun c => skipSemiComment_le b n m c (by omega)
    have hblock := fun c => skipBlockComment_le b n m c (by omega)
    have hslash := fun c => skipSlashComment_le b n m c (by omega)
    simp only [Lexer.skipWhiteSpaces]
    repeat' split
    all_goals first
      | exact Res.le_refl _
      | exact ih2 _
      | exact Res.le_bind (Res.le_refl _) ih2
      | exact Res.le_bind (Res.le_bind (Res.le_refl _) hsemi) ih2
      | exact Res.le_bind (hblock _) ih2
      | exact Res.le_bind (hslash _) ih2


theorem advanceCodePosLoop_le (b : MemoryBuffer) :
    ∀ n m c pos1, n ≤ m →
      Res.le (Lexer.advanceCodePosLoop b n c pos1) (Lexer.advanceCodePosLoop b m c pos1) := by
  intro n
  induction n with
  | zero => intro m c pos1 _; exact Res.timeout_le _
  | succ n ih =>
    intro m c pos1 hm
    obtain ⟨m, rfl⟩ : ∃ k, m = k + 1 := ⟨m - 1, by omega⟩
    simp only [Lexer.advanceCodePosLoop]
    repeat' split
    all_goals first
      | exact Res.le_refl _
      | exact ih m _ _ (by omega)

theorem advanceCodePos_le (b : MemoryBuffer) (n m : Nat) (c : Cursor) (h : n ≤ m) :
    Res.le (Lexer.advanceCodePos b n c) (Lexer.advanceCodePos b m c) := by
  simp only [Lexer.advanceCodePos]
  repeat' split
  all_goals first
    | exact Res.le_refl _
    | exact advanceCodePosLoop_le b n m _ _ h

theorem codeStep_le (b : MemoryBuffer) (n m : Nat) (s : CodeScan) (ch : Char) (c : Cursor)
    (h : n ≤ m) : Res.le (Lexer.codeStep b n s ch c) (Lexer.codeStep b m s ch c) := by
  simp only [Lexer.codeStep]
  repeat' first
    | exact Res.le_refl _
    | exact Res.le_bind (advanceCodePos_le b n m _ h) (fun _ => Res.le_refl _)
    | apply Res.le_ite
    | intro _

theorem lexCodeStringLoop_le (b : MemoryBuffer) :
    ∀ n m s c, n ≤ m →
      Res.le (Lexer.lexCodeStringLoop b n s c) (Lexer.lexCodeStringLoop b m s c) := by
  intro n
  induction n with
  | zero => intro m s c _; exact Res.timeout_le _
  | succ n ih =>
    intro m s c hm
    obtain ⟨m, rfl⟩ : ∃ k, m = k + 1 := ⟨m - 1, by omega⟩
    have hnm : n ≤ m := by omega
    simp only [Lexer.lexCodeStringLoop]
    rcases advanceCodePos_le b n m c hnm with h1 | h1
    · rw [h1]; exact Res.timeout_le _
    · rw [← h1]
      cases hadv : Lexer.advanceCodePos b n c with
      | fault => exact Res.le_refl _
      | timeout => exact Res.le_refl _
      | ok r =>
        obtain ⟨flag, c1⟩ := r
        cases flag with
        | false => exact Res.le_refl _
        | true =>
          simp only
          have h2 : Res.le ((Lexer.codeChar b c1).bind fun r => Lexer.codeStep b n s r.1 r.2)
              ((Lexer.codeChar b c1).bind fun r => Lexer.codeStep b m s r.1 r.2) :=
            Res.le_bind (Res.le_refl _) (fun r => codeStep_le b n m s r.1 r.2 hnm)
          rcases h2 with h2 | h2
          · rw [h2]; exact Res.timeout_le _
          · rw [← h2]
            cases hstep : (Lexer.codeChar b c1).bind fun r => Lexer.codeStep b n s r.1 r.2 with
            | fault => exact Res.le_refl _
            | timeout => exact Res.le_refl _
            | ok r2 =>
              obtain ⟨brk, s2, c2⟩ := r2
              cases brk with
              | true => exact Res.le_refl _
              | false => exact ih m s2 c2 hnm

theorem lexSwitch_le (b : MemoryBuffer) (fileID n m : Nat) (ii : IdentifierInterner)
    (ch : Char) (c : Cursor) (h : n ≤ m) :
    Res.le (Lexer.lexSwitch b fileID n ii ch c) (Lexer.lexSwitch b fileID m ii ch c) := by
  have hskip := fun c => skipWhiteSpaces_le b n m c h
  have hstr : ∀ c, Res.le (Lexer.lexStringImpl b fileID n c)
      (Lexer.lexStringImpl b fileID m c) := fun c =>
    Res.le_bind (Res.le_bind (Res.le_refl _) (fun c => lexStringLoop_le b n m c h))
      (fun _ => Res.le_refl _)
  have hcode : ∀ c, Res.le (Lexer.lexCodeStringImpl b fileID n c)
      (Lexer.lexCodeStringImpl b fileID m c) := fun c =>
    Res.le_bind (lexCodeStringLoop_le b n m _ c h) (fun _ => Res.le_refl _)
  have hparen : ∀ c, Res.le (Lexer.lexOpenParen b fileID n c)
      (Lexer.lexOpenParen b fileID m c) := by
    intro c
    simp only [Lexer.lexOpenParen, Lexer.lexParenString]
    apply Res.le_bind (hskip _)
    intro c1
    cases b.charAt c1.curPos with
    | none => exact Res.le_refl _
    | some ch1 =>
      simp only
      apply Res.le_ite
      · intro _
        exact Res.le_bind (hstr _) (fun _ => Res.le_bind (hskip _) (fun _ => Res.le_refl _))
      · intro _
        exact Res.le_refl _
  have hid : ∀ c, Res.le (Lexer.lexIdentifierImpl b fileID n ii c)
      (Lexer.lexIdentifierImpl b fileID m ii c) := fun c =>
    Res.le_bind (Res.le_bind (Res.le_refl _) (fun c => lexIdentifierLoop_le b n m c h))
      (fun _ => Res.le_refl _)
  have hdig : ∀ neg c, Res.le (Lexer.lexNumberDigits b fileID n neg c)
      (Lexer.lexNumberDigits b fileID m neg c) := fun neg c =>
    Res.le_bind (lexNumberLoop_le b n m c h) (fun _ => Res.le_refl _)
  have hnum : ∀ c, Res.le (Lexer.lexNumberImpl b fileID n c)
      (Lexer.lexNumberImpl b fileID m c) := by
    intro c
    simp only [Lexer.lexNumberImpl]
    cases b.charAt c.curPos with
    | none => exact Res.le_refl _
    | some ch1 =>
      simp only
      apply Res.le_ite
      · intro _
        exact Res.le_bind (Res.le_bind (Res.le_refl _) hskip) (hdig _)
      · intro _
        exact hdig _ _
  simp only [Lexer.lexSwitch, withInterner]
  repeat' first
    | exact Res.le_refl _
    | exact hid _
    | exact Res.le_bind (hcode _) (fun _ => Res.le_refl _)
    | exact Res.le_bind (hstr _) (fun _ => Res.le_refl _)
    | exact Res.le_bind (hparen _) (fun _ => Res.le_refl _)
    | exact Res.le_bind (hnum _) (fun _ => Res.le_refl _)
    | apply Res.le_ite
    | intro _

theorem lex_le (n m : Nat) (ii : IdentifierInterner) (s : Lexer) (h : n ≤ m) :
    Res.le (Lexer.lex n ii s) (Lexer.lex m ii s) := by
  simp only [Lexer.lex, Lexer.scan]
  cases s.lookahead with
  | some t => exact Res.le_refl _
  | none =>
    simp only
    apply Res.le_bind _ (fun _ => Res.le_refl _)
    apply Res.le_bind (skipWhiteSpaces_le s.buffer n m _ h)
    intro c1
    apply Res.le_ite
    · intro _; exact Res.le_refl _
    · intro _
      cases s.buffer.charAt c1.curPos with
      | none => exact Res.le_refl _
      | some ch => exact lexSwitch_le s.buffer s.fileID n m ii ch c1 h

/-- A result of `lex()` is kept when the step budget grows. -/
theorem lex_mono (n m : Nat) (ii : IdentifierInterner) (s : Lexer)
    (r : Token × IdentifierInterner × Lexer) (h : Lexer.lex n ii s = .ok r) (hnm : n ≤ m) :
    Lexer.lex m ii s = .ok r :=
  Res.le_ok (lex_le n m ii s hnm) h

theorem peek_le (n m : Nat) (ii : IdentifierInterner) (s : Lexer) (h : n ≤ m) :
    Res.le (Lexer.peek n ii s) (Lexer.peek m ii s) := by
  simp only [Lexer.peek]
  split
  · exact Res.le_refl _
  · exact Res.le_bind (lex_le n m ii s h) (fun _ => Res.le_refl _)

theorem lexTop_le (n m : Nat) (p : CSTParser) (h : n ≤ m) :
    Res.le (p.lexTop n) (p.lexTop m) := by
  simp only [CSTParser.lexTop]
  cases p.lexerStack with
  | nil => exact Res.le_refl _
  | cons top rest => exact Res.le_bind (lex_le n m p.ii top h) (fun _ => Res.le_refl _)

theorem peekTop_le (n m : Nat) (p : CSTParser) (h : n ≤ m) :
    Res.le (p.peekTop n) (p.peekTop m) := by
  simp only [CSTParser.peekTop]
  cases p.lexerStack with
  | nil => exact Res.le_refl _
  | cons top rest => exact Res.le_bind (peek_le n m p.ii top h) (fun _ => Res.le_refl _)

theorem parseLeaf_le (n m : Nat) (p : CSTParser) (h : n ≤ m) :
    Res.le (p.parseIdentifierCST n) (p.parseIdentifierCST m) ∧
    Res.le (p.parseStringCST n) (p.parseStringCST m) ∧
    Res.le (p.parseCodeStringCST n) (p.parseCodeStringCST m) ∧
    Res.le (p.parseIntCST n) (p.parseIntCST m) :=
  ⟨Res.le_bind (lexTop_le n m p h) (fun _ => Res.le_refl _),
   Res.le_bind (lexTop_le n m p h) (fun _ => Res.le_refl _),
   Res.le_bind (lexTop_le n m p h) (fun _ => Res.le_refl _),
   Res.le_bind (lexTop_le n m p h) (fun _ => Res.le_refl _)⟩

/-- All five mutually recursive parsing functions keep their result when the
step budget grows. -/
theorem parse_le : ∀ (n m : Nat), n ≤ m →
    (∀ p, Res.le (CSTParser.parseSubCST n p) (CSTParser.parseSubCST m p)) ∧
    (∀ p, Res.le (CSTParser.parseRawExpressionCST n p) (CSTParser.parseRawExpressionCST m p)) ∧
    (∀ p o mm f subs, Res.le (CSTParser.parseRawExpressionLoop n p o mm f subs)
      (CSTParser.parseRawExpressionLoop m p o mm f subs)) ∧
    (∀ p, Res.le (CSTParser.parseVectorCST n p) (CSTParser.parseVectorCST m p)) ∧
    (∀ p o subs, Res.le (CSTParser.parseVectorLoop n p o subs)
      (CSTParser.parseVectorLoop m p o subs)) := by
  intro n
  induction n with
  | zero =>
    intro m _
    refine ⟨?_, ?_, ?_, ?_, ?_⟩ <;> intros <;>
      simp only [CSTParser.parseSubCST, CSTParser.parseRawExpressionCST,
        CSTParser.parseRawExpressionLoop, CSTParser.parseVectorCST,
        CSTParser.parseVectorLoop] <;> exact Res.timeout_le _
  | succ n ih =>
    intro m hm
    obtain ⟨m, rfl⟩ : ∃ k, m = k + 1 := ⟨m - 1, by omega⟩
    have hnm : n ≤ m := by omega
    obtain ⟨ihSub, ihExpr, ihLoop, ihVec, ihVLoop⟩ := ih m hnm
    refine ⟨?_, ?_, ?_, ?_, ?_⟩
    · intro p
      simp only [CSTParser.parseSubCST]
      apply Res.le_bind (peekTop_le n m p hnm)
      intro r
      cases r.1.kind
      all_goals first
        | exact Res.le_refl _
        | exact (parseLeaf_le n m r.2 hnm).1
        | exact (parseLeaf_le n m r.2 hnm).2.1
        | exact (parseLeaf_le n m r.2 hnm).2.2.1
        | exact (parseLeaf_le n m r.2 hnm).2.2.2
        | exact ihExpr _
        | exact ihVec _
    · intro p
      simp only [CSTParser.parseRawExpressionCST, CSTParser.expect]
      exact Res.le_bind (lexTop_le n m p hnm) (fun _ => ihLoop _ _ _ _ _)
    · intro p o mm f subs
      simp only [CSTParser.parseRawExpressionLoop, CSTParser.expect]
      apply Res.le_bind (peekTop_le n m p hnm)
      intro r
      apply Res.le_ite
      · intro _
        exact Res.le_bind (lexTop_le n m _ hnm) (fun _ => Res.le_refl _)
      · intro _
        apply Res.le_bind (ihSub _)
        intro r1
        apply Res.le_ite
        · intro _
          apply Res.le_bind (peekTop_le n m _ hnm)
          intro r2
          apply Res.le_ite
          · intro _
            exact Res.le_bind (lexTop_le n m _ hnm)
              (fun _ => Res.le_bind (lexTop_le n m _ hnm) (fun _ => ihLoop _ _ _ _ _))
          · intro _
            exact ihLoop _ _ _ _ _
        · intro _
          exact ihLoop _ _ _ _ _
    · intro p
      simp only [CSTParser.parseVectorCST, CSTParser.expect]
      exact Res.le_bind (lexTop_le n m p hnm) (fun _ => ihVLoop _ _ _)
    · intro p o subs
      simp only [CSTParser.parseVectorLoop]
      apply Res.le_bind (peekTop_le n m p hnm)
      intro r
      apply Res.le_ite
      · intro _
        exact Res.le_bind (lexTop_le n m _ hnm) (fun _ => Res.le_refl _)
      · intro _
        exact Res.le_bind (ihSub _) (fun _ => ihVLoop _ _ _)

theorem skipEmptyLexers_le : ∀ (n m : Nat) (p : CSTParser), n ≤ m →
    Res.le (CSTParser.skipEmptyLexers n p) (CSTParser.skipEmptyLexers m p) := by
  intro n
  induction n with
  | zero => intro m p _; exact Res.timeout_le _
  | succ n ih =>
    intro m p hm
    obtain ⟨m, rfl⟩ : ∃ k, m = k + 1 := ⟨m - 1, by omega⟩
    have hnm : n ≤ m := by omega
    simp only [CSTParser.skipEmptyLexers]
    cases p.lexerStack with
    | nil => exact Res.le_refl _
    | cons top rest =>
      simp only
      apply Res.le_bind (peek_le n m p.ii top hnm)
      intro r
      apply Res.le_ite
      · intro _; exact ih m _ hnm
      · intro _; exact Res.le_refl _

theorem parseTopCST_le : ∀ (n m : Nat) (p : CSTParser), n ≤ m →
    Res.le (CSTParser.parseTopCST n p) (CSTParser.parseTopCST m p) := by
  intro n
  induction n with
  | zero => intro m p _; exact Res.timeout_le _
  | succ n ih =>
    intro m p hm
    obtain ⟨m, rfl⟩ : ∃ k, m = k + 1 := ⟨m - 1, by omega⟩
    have hnm : n ≤ m := by omega
    simp only [CSTParser.parseTopCST]
    apply Res.le_bind (skipEmptyLexers_le n m p hnm)
    intro p1
    apply Res.le_ite
    · intro _; exact Res.le_refl _
    · intro _
      apply Res.le_bind ((parse_le n m hnm).2.1 p1)
      intro r
      apply Res.le_bind (Res.le_refl _)
      intro lead
      apply Res.le_ite
      · intro _
        apply Res.le_bind (Res.le_refl _)
        intro path
        exact Res.le_bind (Res.le_refl _) (fun p2 => ih m p2 hnm)
      · intro _; exact Res.le_refl _

/-! ## Parsing undoes writing -/

theorem Upcoming_append (N : Nat) (a b : List (TokenKind × TokenContent)) :
    ∀ (p p1 : CSTParser), p.Upcoming N (a ++ b) p1 ↔
      ∃ pm, p.Upcoming N a pm ∧ pm.Upcoming N b p1 := by
  induction a with
  | nil =>
    intro p p1
    simp only [List.nil_append, CSTParser.Upcoming]
    constructor
    · intro h; exact ⟨p, rfl, h⟩
    · rintro ⟨pm, rfl, h⟩; exact h
  | cons kc a ih =>
    intro p p1
    simp only [List.cons_append, CSTParser.Upcoming]
    constructor
    · rintro ⟨t, p2, hkc, hlex, hrest⟩
      obtain ⟨pm, h1, h2⟩ := (ih p2 p1).1 hrest
      exact ⟨pm, ⟨t, p2, hkc, hlex, h1⟩, h2⟩
    · rintro ⟨pm, ⟨t, p2, hkc, hlex, h1⟩, h2⟩
      exact ⟨t, p2, hkc, hlex, (ih p2 p1).2 ⟨pm, h1, h2⟩⟩

/-- From a result of `topLexer().lex()` to the matching results of
`topLexer().peek()`: the token is the same, and the state `pk` left by the
peek yields that token again, by `peek()` without change and by `lex()` with
the state the direct `lex()` leaves. -/
theorem peekTop_of_lexTop (N : Nat) (p p2 : CSTParser) (t : Token)
    (h : ∀ fuel, N ≤ fuel → p.lexTop fuel = .ok (t, p2)) :
    ∃ pk, (∀ fuel, N ≤ fuel → p.peekTop fuel = .ok (t, pk)) ∧
      (∀ fuel, pk.lexTop fuel = .ok (t, p2)) ∧
      (∀ fuel, pk.peekTop fuel = .ok (t, pk)) := by
  have h0 := h N (le_refl _)
  unfold CSTParser.lexTop at h0
  cases hst : p.lexerStack with
  | nil => simp [hst] at h0
  | cons top rest =>
    simp only [hst, Res.bind_eq_ok, Res.ok.injEq, Prod.mk.injEq] at h0
    obtain ⟨r, hr, ht, hp2⟩ := h0
    obtain ⟨t1, ii1, s1⟩ := r
    simp only at ht hp2
    subst ht
    have hnone := lex_lookahead_none N p.ii ii1 top s1 t1 hr
    have hlexAll : ∀ fuel, N ≤ fuel → Lexer.lex fuel p.ii top = .ok (t1, ii1, s1) :=
      fun fuel hf => lex_mono N fuel p.ii top _ hr hf
    refine ⟨{ p with ii := ii1, lexerStack := { s1 with lookahead := some t1 } :: rest },
      ?_, ?_, ?_⟩
    · intro fuel hf
      have hc := peek_eq_lex_bind fuel p.ii top
      rw [hlexAll fuel hf] at hc
      simp only [CSTParser.peekTop, hst, hc, Res.bind_ok]
    · intro fuel
      rw [← hp2]
      simp only [CSTParser.lexTop, Lexer.lex, Res.bind_ok]
      congr 3
      cases s1
      simp only at hnone
      simp [hnone]
    · intro fuel
      simp only [CSTParser.peekTop, Lexer.peek, Res.bind_ok]

/-- The first upcoming token can be peeked, and the state after the peek has
the same upcoming tokens. -/
theorem Upcoming_peek (N : Nat) (p p1 : CSTParser) (kc : TokenKind × TokenContent)
    (rest : List (TokenKind × TokenContent)) (h : p.Upcoming N (kc :: rest) p1) :
    ∃ t pk p2, t.kc = kc ∧ (∀ fuel, N ≤ fuel → p.peekTop fuel = .ok (t, pk)) ∧
      (∀ fuel, pk.lexTop fuel = .ok (t, p2)) ∧
      (∀ fuel, pk.peekTop fuel = .ok (t, pk)) ∧
      p2.Upcoming N rest p1 ∧ pk.Upcoming N (kc :: rest) p1 := by
  obtain ⟨t, p2, hkc, hlex, hrest⟩ := h
  obtain ⟨pk, h1, h2, h3⟩ := peekTop_of_lexTop N p p2 t hlex
  exact ⟨t, pk, p2, hkc, h1, h2, h3, hrest, ⟨t, p2, hkc, fun fuel _ => h2 fuel, hrest⟩⟩

theorem write_starts (t : CST) (h : t.WellFormed) :
    ∃ k c rest, t.write = (k, c) :: rest ∧ k.startsSubform = true := by
  cases t <;> simp [CST.WellFormed] at h <;> simp [CST.write, TokenKind.startsSubform]

theorem eraseLocList_append (a b : List CST) :
    CST.eraseLocList (a ++ b) = CST.eraseLocList a ++ CST.eraseLocList b := by
  induction a with
  | nil => simp [CST.eraseLocList]
  | cons x a ih => simp [CST.eraseLocList, ih]

theorem kc_eq (t : Token) (k : TokenKind) (c : TokenContent) (h : t.kc = (k, c)) :
    t.kind = k ∧ t.content = c := by
  simpa [Token.kc] using h

theorem subSpec_identifier (loc : SourceLocation) (id : Nat) : SubSpec (.Identifier loc id) := by
  intro N fuel p p1 hup hfuel
  simp only [CST.write] at hup
  simp only [CST.steps] at hfuel
  obtain ⟨fuel, rfl⟩ : ∃ f, fuel = f + 1 := ⟨fuel - 1, by omega⟩
  obtain ⟨t, pk, p2, hkc, hpeek, hlex, _, hrest, _⟩ := Upcoming_peek N p p1 _ _ hup
  obtain ⟨hk, hc⟩ := kc_eq t _ _ hkc
  simp only [CSTParser.Upcoming] at hrest
  subst hrest
  refine ⟨.Identifier t.loc id, ?_, by simp [CST.eraseLoc]⟩
  simp only [CSTParser.parseSubCST, hpeek fuel (by omega), Res.bind_ok, hk,
    CSTParser.parseIdentifierCST, hlex fuel, Token.getID, hc, if_true]

theorem subSpec_int (loc : SourceLocation) (v : APInt) : SubSpec (.Int loc v) := by
  intro N fuel p p1 hup hfuel
  simp only [CST.write] at hup
  simp only [CST.steps] at hfuel
  obtain ⟨fuel, rfl⟩ : ∃ f, fuel = f + 1 := ⟨fuel - 1, by omega⟩
  obtain ⟨t, pk, p2, hkc, hpeek, hlex, _, hrest, _⟩ := Upcoming_peek N p p1 _ _ hup
  obtain ⟨hk, hc⟩ := kc_eq t _ _ hkc
  simp only [CSTParser.Upcoming] at hrest
  subst hrest
  refine ⟨.Int t.loc v, ?_, by simp [CST.eraseLoc]⟩
  simp only [CSTParser.parseSubCST, hpeek fuel (by omega), Res.bind_ok, hk,
    CSTParser.parseIntCST, hlex fuel, Token.takeNum, hc, if_true]

theorem subSpec_string (loc : SourceLocation) (str : Text) : SubSpec (.String loc str) := by
  intro N fuel p p1 hup hfuel
  simp only [CST.write] at hup
  simp only [CST.steps] at hfuel
  obtain ⟨fuel, rfl⟩ : ∃ f, fuel = f + 1 := ⟨fuel - 1, by omega⟩
  obtain ⟨t, pk, p2, hkc, hpeek, hlex, _, hrest, _⟩ := Upcoming_peek N p p1 _ _ hup
  obtain ⟨hk, hc⟩ := kc_eq t _ _ hkc
  simp only [CSTParser.Upcoming] at hrest
  subst hrest
  refine ⟨.String t.loc str, ?_, by simp [CST.eraseLoc]⟩
  simp [CSTParser.parseSubCST, hpeek fuel (by omega), Res.bind_ok, hk,
    CSTParser.parseStringCST, hlex fuel, Token.getString, hc]

theorem subSpec_codeString (loc : SourceLocation) (str : Text) :
    SubSpec (.CodeString loc str) := by
  intro N fuel p p1 hup hfuel
  simp only [CST.write] at hup
  simp only [CST.steps] at hfuel
  obtain ⟨fuel, rfl⟩ : ∃ f, fuel = f + 1 := ⟨fuel - 1, by omega⟩
  obtain ⟨t, pk, p2, hkc, hpeek, hlex, _, hrest, _⟩ := Upcoming_peek N p p1 _ _ hup
  obtain ⟨hk, hc⟩ := kc_eq t _ _ hkc
  simp only [CSTParser.Upcoming] at hrest
  subst hrest
  refine ⟨.CodeString t.loc str, ?_, by simp [CST.eraseLoc]⟩
  simp [CSTParser.parseSubCST, hpeek fuel (by omega), Res.bind_ok, hk,
    CSTParser.parseCodeStringCST, hlex fuel, Token.getString, hc]

/-- The pass of the expression loop that meets `)`, whatever `first` is. -/
theorem exprLoop_close (N fuel : Nat) (p p1 : CSTParser) (openParen machineMode : Token)
    (first : Bool) (acc : List CST)
    (hup : p.Upcoming N [(.CloseParen, .placeHolder)] p1) (hfuel : N + 1 ≤ fuel) :
    CSTParser.parseRawExpressionLoop fuel p openParen machineMode first acc =
      (machineMode.machineModeID).bind
        (fun mm => .ok (.Expression openParen.loc mm acc, p1)) := by
  obtain ⟨fuel, rfl⟩ : ∃ f, fuel = f + 1 := ⟨fuel - 1, by omega⟩
  obtain ⟨t, pk, p2, hkc, hpeek, hlex, _, hrest, _⟩ := Upcoming_peek N p p1 _ _ hup
  obtain ⟨hk, _⟩ := kc_eq t _ _ hkc
  simp only [CSTParser.Upcoming] at hrest
  subst hrest
  simp only [CSTParser.parseRawExpressionLoop, hpeek fuel (by omega), Res.bind_ok, hk,
    if_true, hlex fuel]

theorem exprLoopSpec_nil : ExprLoopSpec [] := by
  intro N fuel p p1 o mm acc hup hfuel
  simp only [CST.writeList, List.nil_append] at hup
  simp only [CST.stepsList] at hfuel
  refine ⟨[], ?_, rfl⟩
  rw [exprLoop_close N fuel p p1 o mm false acc hup hfuel, List.append_nil]

theorem exprLoopSpec_cons (s : CST) (ss : List CST) (hwf : s.WellFormed) (hs : SubSpec s)
    (hss : ExprLoopSpec ss) : ExprLoopSpec (s :: ss) := by
  intro N fuel p p1 o mm acc hup hfuel
  simp only [CST.writeList, List.append_assoc] at hup
  simp only [CST.stepsList] at hfuel
  obtain ⟨fuel, rfl⟩ : ∃ f, fuel = f + 1 := ⟨fuel - 1, by omega⟩
  obtain ⟨pm, hup1, hup2⟩ := (Upcoming_append N _ _ p p1).1 hup
  obtain ⟨k, c, rest, hw, hstart⟩ := write_starts s hwf
  rw [hw] at hup1
  obtain ⟨t, pk, p2, hkc, hpeek, _, _, _, hupk⟩ := Upcoming_peek N p pm _ _ hup1
  obtain ⟨hk, _⟩ := kc_eq t _ _ hkc
  rw [← hw] at hupk
  obtain ⟨r, hr, her⟩ := hs N fuel pk pm hupk (by omega)
  obtain ⟨rs, hrs, hers⟩ := hss N fuel pm p1 o mm (acc ++ [r]) hup2 (by omega)
  have hne : ¬ t.kind = TokenKind.CloseParen := by
    rw [hk]; intro h; rw [h] at hstart; simp [TokenKind.startsSubform] at hstart
  refine ⟨r :: rs, ?_, by simp [CST.eraseLocList, her, hers]⟩
  rw [CSTParser.parseRawExpressionLoop]
  simp only [hpeek fuel (by omega), Res.bind_ok, hne, if_false, hr, Bool.false_eq_true, hrs,
    List.append_assoc, List.singleton_append]

theorem vecLoopSpec_nil : VecLoopSpec [] := by
  intro N fuel p p1 o acc hup hfuel
  simp only [CST.writeList, List.nil_append] at hup
  simp only [CST.stepsList] at hfuel
  obtain ⟨fuel, rfl⟩ : ∃ f, fuel = f + 1 := ⟨fuel - 1, by omega⟩
  obtain ⟨t, pk, p2, hkc, hpeek, hlex, _, hrest, _⟩ := Upcoming_peek N p p1 _ _ hup
  obtain ⟨hk, _⟩ := kc_eq t _ _ hkc
  simp only [CSTParser.Upcoming] at hrest
  subst hrest
  refine ⟨[], ?_, rfl⟩
  simp only [CSTParser.parseVectorLoop, hpeek fuel (by omega), Res.bind_ok, hk,
    if_true, hlex fuel, List.append_nil]

theorem vecLoopSpec_cons (s : CST) (ss : List CST) (hwf : s.WellFormed) (hs : SubSpec s)
    (hss : VecLoopSpec ss) : VecLoopSpec (s :: ss) := by
  intro N fuel p p1 o acc hup hfuel
  simp only [CST.writeList, List.append_assoc] at hup
  simp only [CST.stepsList] at hfuel
  obtain ⟨fuel, rfl⟩ : ∃ f, fuel = f + 1 := ⟨fuel - 1, by omega⟩
  obtain ⟨pm, hup1, hup2⟩ := (Upcoming_append N _ _ p p1).1 hup
  obtain ⟨k, c, rest, hw, hstart⟩ := write_starts s hwf
  rw [hw] at hup1
  obtain ⟨t, pk, p2, hkc, hpeek, _, _, _, hupk⟩ := Upcoming_peek N p pm _ _ hup1
  obtain ⟨hk, _⟩ := kc_eq t _ _ hkc
  rw [← hw] at hupk
  obtain ⟨r, hr, her⟩ := hs N fuel pk pm hupk (by omega)
  obtain ⟨rs, hrs, hers⟩ := hss N fuel pm p1 o (acc ++ [r]) hup2 (by omega)
  have hne : ¬ t.kind = TokenKind.CloseBracket := by
    rw [hk]; intro h; rw [h] at hstart; simp [TokenKind.startsSubform] at hstart
  refine ⟨r :: rs, ?_, by simp [CST.eraseLocList, her, hers]⟩
  rw [CSTParser.parseVectorLoop]
  simp only [hpeek fuel (by omega), Res.bind_ok, hne, if_false, hr, hrs,
    List.append_assoc, List.singleton_append]

theorem subSpec_vector (loc : SourceLocation) (ms : List CST) (hms : VecLoopSpec ms) :
    SubSpec (.Vector loc ms) := by
  intro N fuel p p1 hup hfuel
  simp only [CST.write] at hup
  simp only [CST.steps] at hfuel
  obtain ⟨fuel, rfl⟩ : ∃ f, fuel = f + 2 := ⟨fuel - 2, by omega⟩
  obtain ⟨t, pk, p2, hkc, hpeek, hlex, _, hrest, _⟩ := Upcoming_peek N p p1 _ _ hup
  obtain ⟨hk, _⟩ := kc_eq t _ _ hkc
  obtain ⟨rs, hrs, hers⟩ := hms N fuel p2 p1 t [] hrest (by omega)
  refine ⟨.Vector t.loc rs, ?_, by simp [CST.eraseLoc, hers]⟩
  simp only [CSTParser.parseSubCST, hpeek (fuel + 1) (by omega), Res.bind_ok, hk,
    CSTParser.parseVectorCST, CSTParser.expect, hlex fuel, hrs, List.nil_append]

theorem writeList_close_first (ss : List CST) (K : TokenKind) (hwf : CST.WellFormedList ss) :
    ∃ k c rest, CST.writeList ss ++ [(K, TokenContent.placeHolder)] = (k, c) :: rest ∧
      (k = K ∨ k.startsSubform = true) := by
  cases ss with
  | nil => exact ⟨K, .placeHolder, [], by simp [CST.writeList], Or.inl rfl⟩
  | cons s ss =>
    simp only [CST.WellFormedList] at hwf
    obtain ⟨k, c, rest, hw, hstart⟩ := write_starts s hwf.1
    exact ⟨k, c, rest ++ (CST.writeList ss ++ [(K, .placeHolder)]),
      by simp [CST.writeList, hw], Or.inr hstart⟩

theorem default_machineModeID : Token.default.machineModeID = .ok 0 := by decide

/-- The first pass of the expression loop: the first subform, then either no
tag (machine mode 0) or `:` and an identifier, then the remaining passes. -/
theorem exprLoop_first (s : CST) (ss : List CST) (tag : List (TokenKind × TokenContent))
    (mm : Nat) (hwf : s.WellFormed) (hs : SubSpec s) (hwfss : CST.WellFormedList ss)
    (hss : ExprLoopSpec ss)
    (htag : (tag = [] ∧ mm = 0) ∨ tag = [(.Colon, .placeHolder), (.Identifier, .id mm)])
    (N fuel : Nat) (p p1 : CSTParser) (openParen : Token)
    (hup : p.Upcoming N
      (s.write ++ (tag ++ (CST.writeList ss ++ [(.CloseParen, .placeHolder)]))) p1)
    (hfuel : N + CST.stepsList (s :: ss) ≤ fuel) :
    ∃ r rs, CSTParser.parseRawExpressionLoop fuel p openParen Token.default true [] =
        .ok (.Expression openParen.loc mm (r :: rs), p1) ∧
      r.eraseLoc = s.eraseLoc ∧ CST.eraseLocList rs = CST.eraseLocList ss := by
  simp only [CST.stepsList] at hfuel
  obtain ⟨fuel, rfl⟩ : ∃ f, fuel = f + 1 := ⟨fuel - 1, by omega⟩
  obtain ⟨pm, hup1, hup2⟩ := (Upcoming_append N _ _ p p1).1 hup
  obtain ⟨k, c, rest, hw, hstart⟩ := write_starts s hwf
  rw [hw] at hup1
  obtain ⟨t, pk, p2, hkc, hpeek, _, _, _, hupk⟩ := Upcoming_peek N p pm _ _ hup1
  obtain ⟨hk, _⟩ := kc_eq t _ _ hkc
  rw [← hw] at hupk
  obtain ⟨r, hr, her⟩ := hs N fuel pk pm hupk (by omega)
  have hne : ¬ t.kind = TokenKind.CloseParen := by
    rw [hk]; intro h; rw [h] at hstart; simp [TokenKind.startsSubform] at hstart
  rw [CSTParser.parseRawExpressionLoop]
  simp only [hpeek fuel (by omega), Res.bind_ok, hne, if_false, hr, if_true, List.nil_append]
  rcases htag with ⟨htag, hmm⟩ | htag
  · subst htag hmm
    simp only [List.nil_append] at hup2
    obtain ⟨k2, c2, rest2, hw2, hk2⟩ := writeList_close_first ss .CloseParen hwfss
    rw [hw2] at hup2
    obtain ⟨t2, pk2, _, hkc2, hpeek2, _, _, _, hupk2⟩ := Upcoming_peek N pm p1 _ _ hup2
    obtain ⟨hkind2, _⟩ := kc_eq t2 _ _ hkc2
    rw [← hw2] at hupk2
    have hnc : ¬ t2.kind = TokenKind.Colon := by
      rw [hkind2]
      rcases hk2 with h | h
      · rw [h]; decide
      · intro h2; rw [h2] at h; simp [TokenKind.startsSubform] at h
    obtain ⟨rs, hrs, hers⟩ := hss N fuel pk2 p1 openParen Token.default [r] hupk2 (by omega)
    refine ⟨r, rs, ?_, her, hers⟩
    simp only [hpeek2 fuel (by omega), Res.bind_ok, hnc, if_false, hrs,
      default_machineModeID, List.singleton_append]
  · subst htag
    simp only [List.cons_append, List.nil_append] at hup2
    obtain ⟨t2, pk2, p3, hkc2, hpeek2, hlex2, _, hrest2, _⟩ := Upcoming_peek N pm p1 _ _ hup2
    obtain ⟨hkind2, _⟩ := kc_eq t2 _ _ hkc2
    obtain ⟨tm, p4, hkcm, hlexm, hrestm⟩ := hrest2
    obtain ⟨hkm, hcm⟩ := kc_eq tm _ _ hkcm
    obtain ⟨rs, hrs, hers⟩ := hss N fuel p4 p1 openParen tm [r] hrestm (by omega)
    have hmid : tm.machineModeID = .ok mm := by
      simp [Token.machineModeID, Token.isValid, Token.getID, hkm, hcm]
    refine ⟨r, rs, ?_, her, hers⟩
    simp only [hpeek2 fuel (by omega), Res.bind_ok, hkind2, if_true, hlex2 fuel,
      CSTParser.expect, hlexm fuel (by omega), hrs, hmid, List.singleton_append]

theorem writeTag_cases (mm : Nat) :
    (CST.writeTag mm = [] ∧ mm = 0) ∨
      CST.writeTag mm = [(.Colon, .placeHolder), (.Identifier, .id mm)] := by
  by_cases h : mm = 0
  · exact Or.inl ⟨by simp [CST.writeTag, h], h⟩
  · exact Or.inr (by simp [CST.writeTag, h])

/-- `parseRawExpressionCST()` on the tokens that write an Expression. -/
theorem parseRawExpressionCST_write (loc : SourceLocation) (mm : Nat) (ss : List CST)
    (hwf : (CST.Expression loc mm ss).WellFormed)
    (hsub : ∀ s ∈ ss, SubSpec s) (hloop : ∀ s rest, ss = s :: rest → ExprLoopSpec rest)
    (N fuel : Nat) (p p1 : CSTParser)
    (hup : p.Upcoming N (CST.Expression loc mm ss).write p1)
    (hfuel : N + 1 + CST.stepsList ss ≤ fuel) :
    ∃ r, CSTParser.parseRawExpressionCST fuel p = .ok (r, p1) ∧
      r.eraseLoc = (CST.Expression loc mm ss).eraseLoc := by
  obtain ⟨fuel, rfl⟩ : ∃ f, fuel = f + 1 := ⟨fuel - 1, by omega⟩
  simp only [CST.write] at hup
  obtain ⟨t, p2, _, hlex, hrest⟩ := hup
  simp only [CST.WellFormed] at hwf
  cases ss with
  | nil =>
    have hmm : mm = 0 := by
      by_contra h
      exact hwf.1 h rfl
    subst hmm
    simp only [CST.writeSubforms, List.nil_append] at hrest
    simp only [CST.stepsList] at hfuel
    have h := exprLoop_close N fuel p2 p1 t Token.default true [] hrest (by omega)
    refine ⟨.Expression t.loc 0 [], ?_, by simp [CST.eraseLoc, CST.eraseLocList]⟩
    simp only [CSTParser.parseRawExpressionCST, CSTParser.expect, hlex fuel (by omega),
      Res.bind_ok, h, default_machineModeID]
  | cons s rest =>
    simp only [CST.writeSubforms, List.append_assoc] at hrest
    simp only [CST.WellFormedList] at hwf
    obtain ⟨r, rs, hr, her, hers⟩ := exprLoop_first s rest (CST.writeTag mm) mm hwf.2.1
      (hsub s (List.mem_cons_self _ _)) hwf.2.2 (hloop s rest rfl) (writeTag_cases mm)
      N fuel p2 p1 t hrest (by omega)
    refine ⟨.Expression t.loc mm (r :: rs), ?_, by simp [CST.eraseLoc, CST.eraseLocList, her, hers]⟩
    simp only [CSTParser.parseRawExpressionCST, CSTParser.expect, hlex fuel (by omega),
      Res.bind_ok, hr]

theorem subSpec_expression (loc : SourceLocation) (mm : Nat) (ss : List CST)
    (hwf : (CST.Expression loc mm ss).WellFormed)
    (hsub : ∀ s ∈ ss, SubSpec s) (hloop : ∀ s rest, ss = s :: rest → ExprLoopSpec rest) :
    SubSpec (.Expression loc mm ss) := by
  intro N fuel p p1 hup hfuel
  simp only [CST.steps] at hfuel
  obtain ⟨fuel, rfl⟩ : ∃ f, fuel = f + 1 := ⟨fuel - 1, by omega⟩
  have hup0 := hup
  simp only [CST.write] at hup
  obtain ⟨t, pk, p2, hkc, hpeek, _, _, _, hupk⟩ := Upcoming_peek N p p1 _ _ hup
  obtain ⟨hk, _⟩ := kc_eq t _ _ hkc
  have hupk2 : pk.Upcoming N (CST.Expression loc mm ss).write p1 := by
    simpa only [CST.write] using hupk
  obtain ⟨r, hr, her⟩ := parseRawExpressionCST_write loc mm ss hwf hsub hloop N fuel pk p1
    hupk2 (by omega)
  refine ⟨r, ?_, her⟩
  simp only [CSTParser.parseSubCST, hpeek fuel (by omega), Res.bind_ok, hk, hr]

mutual

theorem subSpec_of_wellFormed : (t : CST) → t.WellFormed → SubSpec t
  | .nullptr, h => by simp [CST.WellFormed] at h
  | .EndOfStream, h => by simp [CST.WellFormed] at h
  | .HostInt _ _, h => by simp [CST.WellFormed] at h
  | .Identifier loc id, _ => subSpec_identifier loc id
  | .Int loc v, _ => subSpec_int loc v
  | .String loc str, _ => subSpec_string loc str
  | .CodeString loc str, _ => subSpec_codeString loc str
  | .Vector loc ms, h =>
    subSpec_vector loc ms (loopSpec_of_wellFormed ms (by simpa [CST.WellFormed] using h)).2.2.1
  | .Expression loc mm ss, h =>
    subSpec_expression loc mm ss h
      (loopSpec_of_wellFormed ss (by simp only [CST.WellFormed] at h; exact h.2)).1
      (loopSpec_of_wellFormed ss (by simp only [CST.WellFormed] at h; exact h.2)).2.2.2

theorem loopSpec_of_wellFormed : (ss : List CST) → CST.WellFormedList ss →
    (∀ s ∈ ss, SubSpec s) ∧ ExprLoopSpec ss ∧ VecLoopSpec ss ∧
      (∀ s rest, ss = s :: rest → ExprLoopSpec rest)
  | [], _ =>
    ⟨fun _ h => by simp at h, exprLoopSpec_nil, vecLoopSpec_nil, fun _ _ h => by simp at h⟩
  | s :: ss, h => by
    simp only [CST.WellFormedList] at h
    have hs := subSpec_of_wellFormed s h.1
    have hss := loopSpec_of_wellFormed ss h.2
    refine ⟨?_, exprLoopSpec_cons s ss h.1 hs hss.2.1, vecLoopSpec_cons s ss h.1 hs hss.2.2.1, ?_⟩
    · intro x hx
      rcases List.mem_cons.1 hx with rfl | hx
      · exact hs
      · exact hss.1 x hx
    · intro x rest heq
      simp only [List.cons.injEq] at heq
      rw [← heq.2]
      exact hss.2.1

end

/-- C6: for every well-formed tree `t`, if the upcoming tokens are the token
sequence that writes `t` (followed by anything), `parseSubCST()` returns a
tree equal to `t` up to locations and leaves the parser right after the
tokens of `t`. -/
theorem parseSubCST_undoes_write (t : CST) (hwf : t.WellFormed) (N fuel : Nat)
    (p p1 : CSTParser) (hup : p.Upcoming N t.write p1) (hfuel : N + t.steps ≤ fuel) :
    ∃ r, CSTParser.parseSubCST fuel p = .ok (r, p1) ∧ r.eraseLoc = t.eraseLoc :=
  subSpec_of_wellFormed t hwf N fuel p p1 hup hfuel

/-- C7: for the tokens `(` s1 tag s2 ... sn `)` with well-formed subforms,
where tag is `:` and the identifier `m`, `parseRawExpressionCST()` returns an
Expression with machine mode `m` whose subforms are s1, s2, ..., sn; where tag
is empty (the token after the first subform is not `:`) the machine mode is
0. -/
theorem parseRawExpressionCST_tag (s1 : CST) (ss : List CST)
    (tag : List (TokenKind × TokenContent)) (m : Nat)
    (hwf1 : s1.WellFormed) (hwfss : CST.WellFormedList ss)
    (htag : (tag = [] ∧ m = 0) ∨ tag = [(.Colon, .placeHolder), (.Identifier, .id m)])
    (N fuel : Nat) (p p1 : CSTParser)
    (hup : p.Upcoming N ((.OpenParen, .placeHolder) ::
      (s1.write ++ (tag ++ (CST.writeList ss ++ [(.CloseParen, .placeHolder)])))) p1)
    (hfuel : N + 1 + CST.stepsList (s1 :: ss) ≤ fuel) :
    ∃ loc r rs, CSTParser.parseRawExpressionCST fuel p = .ok (.Expression loc m (r :: rs), p1) ∧
      CST.eraseLocList (r :: rs) = CST.eraseLocList (s1 :: ss) := by
  obtain ⟨fuel, rfl⟩ : ∃ f, fuel = f + 1 := ⟨fuel - 1, by omega⟩
  obtain ⟨t, p2, _, hlex, hrest⟩ := hup
  obtain ⟨r, rs, hr, her, hers⟩ := exprLoop_first s1 ss tag m hwf1
    (subSpec_of_wellFormed s1 hwf1) hwfss (loopSpec_of_wellFormed ss hwfss).2.1 htag
    N fuel p2 p1 t hrest (by omega)
  refine ⟨t.loc, r, rs, ?_, by simp [CST.eraseLocList, her, hers]⟩
  simp only [CSTParser.parseRawExpressionCST, CSTParser.expect, hlex fuel (by omega),
    Res.bind_ok, hr]

theorem lexTop_mono (n m : Nat) (p : CSTParser) (r : Token × CSTParser)
    (h : p.lexTop n = .ok r) (hnm : n ≤ m) : p.lexTop m = .ok r :=
  Res.le_ok (lexTop_le n m p hnm) h

/-- One more upcoming token, from one evaluation of `topLexer().lex()`. -/
theorem Upcoming_cons (N : Nat) (p p2 p1 : CSTParser) (t : Token)
    (kc : TokenKind × TokenContent) (rest : List (TokenKind × TokenContent))
    (hkc : t.kc = kc) (h : p.lexTop N = .ok (t, p2)) (hrest : p2.Upcoming N rest p1) :
    p.Upcoming N (kc :: rest) p1 :=
  ⟨t, p2, hkc, fun fuel hf => lexTop_mono N fuel p _ h hf, hrest⟩

theorem addText_upcoming :
    (fileParser (internerOf []) addText 0).Upcoming 5 addTree.write
      (fileParser (internerOf ["add".toList]) addText 9) := by
  refine Upcoming_cons 5 _ (fileParser (internerOf []) addText 1) _
    ⟨.OpenParen, .placeHolder, ⟨0, 2, 1⟩⟩ _ _ rfl (by decide) ?_
  refine Upcoming_cons 5 _ (fileParser (internerOf ["add".toList]) addText 4) _
    ⟨.Identifier, .id 2, ⟨0, 5, 1⟩⟩ _ _ rfl (by decide) ?_
  refine Upcoming_cons 5 _ (fileParser (internerOf ["add".toList]) addText 6) _
    ⟨.Number, .num ⟨1, 1⟩, ⟨0, 7, 1⟩⟩ _ _ rfl (by decide) ?_
  refine Upcoming_cons 5 _ (fileParser (internerOf ["add".toList]) addText 8) _
    ⟨.Number, .num ⟨2, 2⟩, ⟨0, 9, 1⟩⟩ _ _ rfl (by decide) ?_
  refine Upcoming_cons 5 _ (fileParser (internerOf ["add".toList]) addText 9) _
    ⟨.CloseParen, .placeHolder, ⟨0, 10, 1⟩⟩ _ _ rfl (by decide) ?_
  rfl

theorem parseSubCST_undoes_write_witness :
    ∃ r, CSTParser.parseSubCST 20 (fileParser (internerOf []) addText 0) =
        .ok (r, fileParser (internerOf ["add".toList]) addText 9) ∧
      r.eraseLoc = addTree.eraseLoc :=
  parseSubCST_undoes_write addTree (by simp [addTree, CST.WellFormed, CST.WellFormedList])
    5 20 _ _ addText_upcoming (by decide)

theorem vectorText_upcoming :
    (fileParser (internerOf []) vectorText 0).Upcoming 5 vectorTree.write
      (fileParser (internerOf []) vectorText 7) := by
  refine Upcoming_cons 5 _ (fileParser (internerOf []) vectorText 1) _
    ⟨.OpenBracket, .placeHolder, ⟨0, 2, 1⟩⟩ _ _ rfl (by decide) ?_
  refine Upcoming_cons 5 _ (fileParser (internerOf []) vectorText 2) _
    ⟨.Number, .num ⟨1, 1⟩, ⟨0, 3, 1⟩⟩ _ _ rfl (by decide) ?_
  refine Upcoming_cons 5 _ (fileParser (internerOf []) vectorText 4) _
    ⟨.Number, .num ⟨2, 2⟩, ⟨0, 5, 1⟩⟩ _ _ rfl (by decide) ?_
  refine Upcoming_cons 5 _ (fileParser (internerOf []) vectorText 6) _
    ⟨.Number, .num ⟨2, 3⟩, ⟨0, 7, 1⟩⟩ _ _ rfl (by decide) ?_
  refine Upcoming_cons 5 _ (fileParser (internerOf []) vectorText 7) _
    ⟨.CloseBracket, .placeHolder, ⟨0, 8, 1⟩⟩ _ _ rfl (by decide) ?_
  rfl

/-- The example `[1 2 3]`: a Vector with the members Int 1, Int 2, Int 3. -/
theorem parseSubCST_vector_example :
    ∃ r, CSTParser.parseSubCST 20 (fileParser (internerOf []) vectorText 0) =
        .ok (r, fileParser (internerOf []) vectorText 7) ∧
      r.eraseLoc = vectorTree.eraseLoc :=
  subSpec_of_wellFormed vectorTree (by simp [vectorTree, CST.WellFormed, CST.WellFormedList])
    5 20 _ _ vectorText_upcoming (by decide)

theorem tagText_upcoming :
    (fileParser (tagInterner 0) tagText 0).Upcoming 5
      ((.OpenParen, .placeHolder) ::
        ((CST.Identifier SourceLocation.invalid 2).write ++
          ([(.Colon, .placeHolder), (.Identifier, .id 3)] ++
            (CST.writeList [.Identifier SourceLocation.invalid 4,
                .Identifier SourceLocation.invalid 5] ++
              [(.CloseParen, .placeHolder)]))))
      (fileParser (tagInterner 4) tagText 19) := by
  refine Upcoming_cons 5 _ (fileParser (tagInterner 0) tagText 1) _
    ⟨.OpenParen, .placeHolder, ⟨0, 2, 1⟩⟩ _ _ rfl (by decide) ?_
  refine Upcoming_cons 5 _ (fileParser (tagInterner 1) tagText 4) _
    ⟨.Identifier, .id 2, ⟨0, 5, 1⟩⟩ _ _ rfl (by decide) ?_
  refine Upcoming_cons 5 _ (fileParser (tagInterner 1) tagText 6) _
    ⟨.Colon, .placeHolder, ⟨0, 7, 1⟩⟩ _ _ rfl (by decide) ?_
  refine Upcoming_cons 5 _ (fileParser (tagInterner 2) tagText 10) _
    ⟨.Identifier, .id 3, ⟨0, 11, 1⟩⟩ _ _ rfl (by decide) ?_
  refine Upcoming_cons 5 _ (fileParser (tagInterner 3) tagText 14) _
    ⟨.Identifier, .id 4, ⟨0, 15, 1⟩⟩ _ _ rfl (by decide) ?_
  refine Upcoming_cons 5 _ (fileParser (tagInterner 4) tagText 18) _
    ⟨.Identifier, .id 5, ⟨0, 19, 1⟩⟩ _ _ rfl (by decide) ?_
  refine Upcoming_cons 5 _ (fileParser (tagInterner 4) tagText 19) _
    ⟨.CloseParen, .placeHolder, ⟨0, 20, 1⟩⟩ _ _ rfl (by decide) ?_
  rfl

theorem parseRawExpressionCST_tag_witness :
    ∃ loc r rs, CSTParser.parseRawExpressionCST 20 (fileParser (tagInterner 0) tagText 0) =
        .ok (.Expression loc 3 (r :: rs), fileParser (tagInterner 4) tagText 19) ∧
      CST.eraseLocList (r :: rs) =
        CST.eraseLocList [.Identifier SourceLocation.invalid 2,
          .Identifier SourceLocation.invalid 4, .Identifier SourceLocation.invalid 5] :=
  parseRawExpressionCST_tag (.Identifier SourceLocation.invalid 2)
    [.Identifier SourceLocation.invalid 4, .Identifier SourceLocation.invalid 5]
    [(.Colon, .placeHolder), (.Identifier, .id 3)] 3
    (by simp [CST.WellFormed]) (by simp [CST.WellFormed, CST.WellFormedList]) (Or.inr rfl)
    5 20 _ _ tagText_upcoming (by decide)

/-! ## What parsing keeps -/

theorem Res.holds_ok {α : Type} {P : α → Prop} {a : α} (h : P a) : Res.Holds P (.ok a) := by
  intro b hb
  cases hb
  exact h

theorem Res.holds_fault {α : Type} {P : α → Prop} : Res.Holds P (.fault : Res α) := by
  intro b hb
  cases hb

theorem Res.holds_timeout {α : Type} {P : α → Prop} : Res.Holds P (.timeout : Res α) := by
  intro b hb
  cases hb

theorem Res.holds_bind {α β : Type} {Q : α → Prop} {P : β → Prop} {r : Res α}
    {f : α → Res β} (hr : Res.Holds Q r) (hf : ∀ a, Q a → Res.Holds P (f a)) :
    Res.Holds P (r.bind f) := by
  intro b hb
  obtain ⟨a, ha, hfa⟩ := (Res.bind_eq_ok r f b).1 hb
  exact hf a (hr a ha) b hfa

theorem Res.holds_ite {α : Type} {P : α → Prop} (c : Prop) [Decidable c] {a b : Res α}
    (h1 : c → Res.Holds P a) (h2 : ¬c → Res.Holds P b) :
    Res.Holds P (if c then a else b) := by
  by_cases h : c
  · rw [if_pos h]; exact h1 h
  · rw [if_neg h]; exact h2 h

theorem Res.holds_true {α : Type} (r : Res α) : Res.Holds (fun _ => True) r :=
  fun _ _ => trivial

theorem IIExt.ext_refl (ii : IdentifierInterner) : IIExt ii ii := fun _ _ => rfl

theorem IIExt.ext_trans {a b c : IdentifierInterner} (h1 : IIExt a b) (h2 : IIExt b c) :
    IIExt a c := by
  intro k hk
  have e1 := h1 k hk
  rw [h2 k (by rw [e1]; exact hk), e1]

theorem IIExt.get (ii : IdentifierInterner) (s : Text) : IIExt ii (ii.get s).2 := by
  intro k hk
  unfold IdentifierInterner.get
  by_cases h : lookupID ii.internedIDs s = InvalidID
  · simp only [h, if_true, lookupID_cons]
    split
    · rename_i e; subst e; exact absurd h hk
    · rfl
  · simp only [h, if_false]

theorem CSTParser.Frame.frame_refl (p : CSTParser) : CSTParser.Frame p p := ⟨rfl, IIExt.ext_refl _⟩

theorem CSTParser.Frame.frame_trans {a b c : CSTParser} (h1 : CSTParser.Frame a b)
    (h2 : CSTParser.Frame b c) : CSTParser.Frame a c :=
  ⟨h2.1.trans h1.1, h1.2.ext_trans h2.2⟩

theorem lexSwitch_ext (b : MemoryBuffer) (fileID fuel : Nat) (ii : IdentifierInterner)
    (ch : Char) (c : Cursor) :
    Res.Holds (fun r => IIExt ii r.2.1) (Lexer.lexSwitch b fileID fuel ii ch c) := by
  have hw : ∀ r, Res.Holds (fun r => IIExt ii r.2.1) (withInterner ii r) := by
    intro r
    exact Res.holds_bind (Res.holds_true r) (fun _ _ => Res.holds_ok (IIExt.ext_refl ii))
  have hid : Res.Holds (fun r => IIExt ii r.2.1)
      (Lexer.lexIdentifierImpl b fileID fuel ii c) :=
    Res.holds_bind (Res.holds_true _) (fun _ _ => Res.holds_ok (IIExt.get ii _))
  simp only [Lexer.lexSwitch]
  repeat' first
    | exact hw _
    | exact hid
    | exact Res.holds_fault
    | apply Res.holds_ite
    | intro (_ : _ = _)
    | intro (_ : ¬ _)

theorem lex_ext (fuel : Nat) (ii : IdentifierInterner) (s : Lexer) :
    Res.Holds (fun r => IIExt ii r.2.1) (Lexer.lex fuel ii s) := by
  simp only [Lexer.lex, Lexer.scan]
  cases s.lookahead with
  | some t => exact Res.holds_ok (IIExt.ext_refl ii)
  | none =>
    simp only
    refine Res.holds_bind (Q := fun r => IIExt ii r.2.1) ?_ (fun _ h => Res.holds_ok h)
    refine Res.holds_bind (Res.holds_true _) ?_
    intro c1 _
    apply Res.holds_ite
    · intro _; exact Res.holds_ok (IIExt.ext_refl ii)
    · intro _
      cases s.buffer.charAt c1.curPos with
      | none => exact Res.holds_fault
      | some ch => exact lexSwitch_ext s.buffer s.fileID fuel ii ch c1

theorem peek_ext (fuel : Nat) (ii : IdentifierInterner) (s : Lexer) :
    Res.Holds (fun r => IIExt ii r.2.1) (Lexer.peek fuel ii s) := by
  simp only [Lexer.peek]
  cases s.lookahead with
  | some t => exact Res.holds_ok (IIExt.ext_refl ii)
  | none => exact Res.holds_bind (lex_ext fuel ii s) (fun _ h => Res.holds_ok h)

theorem lexTop_frame (fuel : Nat) (p : CSTParser) :
    Res.Holds (fun r => CSTParser.Frame p r.2) (p.lexTop fuel) := by
  simp only [CSTParser.lexTop]
  cases p.lexerStack with
  | nil => exact Res.holds_fault
  | cons top rest =>
    exact Res.holds_bind (lex_ext fuel p.ii top) (fun _ h => Res.holds_ok ⟨rfl, h⟩)

theorem peekTop_frame (fuel : Nat) (p : CSTParser) :
    Res.Holds (fun r => CSTParser.Frame p r.2) (p.peekTop fuel) := by
  simp only [CSTParser.peekTop]
  cases p.lexerStack with
  | nil => exact Res.holds_fault
  | cons top rest =>
    exact Res.holds_bind (peek_ext fuel p.ii top) (fun _ h => Res.holds_ok ⟨rfl, h⟩)

theorem parseLeaf_frame (fuel : Nat) (p : CSTParser) :
    Res.Holds (fun r => CSTParser.Frame p r.2) (p.parseIdentifierCST fuel) ∧
    Res.Holds (fun r => CSTParser.Frame p r.2) (p.parseStringCST fuel) ∧
    Res.Holds (fun r => CSTParser.Frame p r.2) (p.parseCodeStringCST fuel) ∧
    Res.Holds (fun r => CSTParser.Frame p r.2) (p.parseIntCST fuel) := by
  refine ⟨?_, ?_, ?_, ?_⟩
  · exact Res.holds_bind (lexTop_frame fuel p) (fun r h =>
      Res.holds_bind (Res.holds_true _) (fun _ _ => Res.holds_ok h))
  all_goals
    refine Res.holds_bind (lexTop_frame fuel p) (fun r h => ?_)
    apply Res.holds_ite
    · intro _
      exact Res.holds_bind (Res.holds_true _) (fun _ _ => Res.holds_ok h)
    · intro _; exact Res.holds_fault

/-- The five mutually recursive parsing functions keep the frame. -/
theorem parse_frame : ∀ (n : Nat),
    (∀ p, Res.Holds (fun r => CSTParser.Frame p r.2) (CSTParser.parseSubCST n p)) ∧
    (∀ p, Res.Holds (fun r => CSTParser.Frame p r.2) (CSTParser.parseRawExpressionCST n p)) ∧
    (∀ p o mm f subs, Res.Holds (fun r => CSTParser.Frame p r.2)
      (CSTParser.parseRawExpressionLoop n p o mm f subs)) ∧
    (∀ p, Res.Holds (fun r => CSTParser.Frame p r.2) (CSTParser.parseVectorCST n p)) ∧
    (∀ p o subs, Res.Holds (fun r => CSTParser.Frame p r.2)
      (CSTParser.parseVectorLoop n p o subs)) := by
  intro n
  induction n with
  | zero =>
    refine ⟨?_, ?_, ?_, ?_, ?_⟩ <;> intros <;>
      simp only [CSTParser.parseSubCST, CSTParser.parseRawExpressionCST,
        CSTParser.parseRawExpressionLoop, CSTParser.parseVectorCST,
        CSTParser.parseVectorLoop] <;> exact Res.holds_timeout
  | succ n ih =>
    obtain ⟨ihSub, ihExpr, ihLoop, ihVec, ihVLoop⟩ := ih
    have lift : ∀ {α : Type} {p q : CSTParser} {r : Res (α × CSTParser)},
        CSTParser.Frame p q → Res.Holds (fun r => CSTParser.Frame q r.2) r →
        Res.Holds (fun r => CSTParser.Frame p r.2) r :=
      fun hpq hr a ha => hpq.frame_trans (hr a ha)
    refine ⟨?_, ?_, ?_, ?_, ?_⟩
    · intro p
      simp only [CSTParser.parseSubCST]
      refine Res.holds_bind (peekTop_frame n p) (fun r h => ?_)
      cases r.1.kind
      all_goals first
        | exact Res.holds_ok h
        | exact lift h (parseLeaf_frame n r.2).1
        | exact lift h (parseLeaf_frame n r.2).2.1
        | exact lift h (parseLeaf_frame n r.2).2.2.1
        | exact lift h (parseLeaf_frame n r.2).2.2.2
        | exact lift h (ihExpr _)
        | exact lift h (ihVec _)
    · intro p
      simp only [CSTParser.parseRawExpressionCST, CSTParser.expect]
      exact Res.holds_bind (lexTop_frame n p) (fun r h => lift h (ihLoop _ _ _ _ _))
    · intro p o mm f subs
      simp only [CSTParser.parseRawExpressionLoop, CSTParser.expect]
      refine Res.holds_bind (peekTop_frame n p) (fun r h => ?_)
      apply Res.holds_ite
      · intro _
        refine Res.holds_bind (lexTop_frame n _) (fun r1 h1 => ?_)
        exact Res.holds_bind (Res.holds_true _) (fun _ _ => Res.holds_ok (h.frame_trans h1))
      · intro _
        refine Res.holds_bind (ihSub _) (fun r1 h1 => ?_)
        apply Res.holds_ite
        · intro _
          refine Res.holds_bind (peekTop_frame n _) (fun r2 h2 => ?_)
          apply Res.holds_ite
          · intro _
            refine Res.holds_bind (lexTop_frame n _) (fun r3 h3 => ?_)
            refine Res.holds_bind (lexTop_frame n _) (fun r4 h4 => ?_)
            exact lift ((((h.frame_trans h1).frame_trans h2).frame_trans h3).frame_trans h4) (ihLoop _ _ _ _ _)
          · intro _
            exact lift ((h.frame_trans h1).frame_trans h2) (ihLoop _ _ _ _ _)
        · intro _
          exact lift (h.frame_trans h1) (ihLoop _ _ _ _ _)
    · intro p
      simp only [CSTParser.parseVectorCST, CSTParser.expect]
      exact Res.holds_bind (lexTop_frame n p) (fun r h => lift h (ihVLoop _ _ _))
    · intro p o subs
      simp only [CSTParser.parseVectorLoop]
      refine Res.holds_bind (peekTop_frame n p) (fun r h => ?_)
      apply Res.holds_ite
      · intro _
        exact Res.holds_bind (lexTop_frame n _) (fun r1 h1 => Res.holds_ok (h.frame_trans h1))
      · intro _
        refine Res.holds_bind (ihSub _) (fun r1 h1 => ?_)
        exact lift (h.frame_trans h1) (ihVLoop _ _ _)

theorem skipEmptyLexers_frame : ∀ (n : Nat) (p : CSTParser),
    Res.Holds (fun p1 => CSTParser.Frame p p1) (CSTParser.skipEmptyLexers n p) := by
  intro n
  induction n with
  | zero => intro p; exact Res.holds_timeout
  | succ n ih =>
    intro p
    simp only [CSTParser.skipEmptyLexers]
    cases p.lexerStack with
    | nil => exact Res.holds_ok (CSTParser.Frame.frame_refl p)
    | cons top rest =>
      simp only
      refine Res.holds_bind (peek_ext n p.ii top) (fun r h => ?_)
      apply Res.holds_ite
      · intro _
        intro a ha
        have hf : CSTParser.Frame p { p with ii := r.2.1, lexerStack := rest } := ⟨rfl, h⟩
        exact hf.frame_trans (ih _ a ha)
      · intro _
        exact Res.holds_ok ⟨rfl, h⟩

theorem includeFile_frame (p : CSTParser) (path : Text) :
    Res.Holds (fun p1 => CSTParser.Frame p p1) (p.includeFile path) := by
  intro a ha
  unfold CSTParser.includeFile at ha
  split at ha
  · cases ha
  · split at ha
    · split at ha
      · cases ha
      · cases ha
        exact ⟨rfl, IIExt.ext_refl _⟩
    · cases ha

/-- `parseTopCST()` keeps the frame, and a node it returns is not headed by
`ID_include`. -/
theorem parseTopCST_spec : ∀ (n : Nat) (p : CSTParser),
    Res.Holds (fun r => CSTParser.Frame p r.2 ∧
      (r.1 = .nullptr ∨ ∃ x, r.1.getLeadID = .ok x ∧ x ≠ p.ID_include))
      (CSTParser.parseTopCST n p) := by
  intro n
  induction n with
  | zero => intro p; exact Res.holds_timeout
  | succ n ih =>
    intro p
    simp only [CSTParser.parseTopCST]
    refine Res.holds_bind (skipEmptyLexers_frame n p) (fun p1 h1 => ?_)
    apply Res.holds_ite
    · intro _
      exact Res.holds_ok ⟨h1, Or.inl rfl⟩
    · intro _
      refine Res.holds_bind ((parse_frame n).2.1 p1) (fun r h2 => ?_)
      intro a ha
      obtain ⟨lead, hlead, ha⟩ := (Res.bind_eq_ok _ _ _).1 ha
      by_cases hinc : lead = r.2.ID_include
      · rw [if_pos hinc] at ha
        obtain ⟨path, _, ha⟩ := (Res.bind_eq_ok _ _ _).1 ha
        obtain ⟨p3, hp3, ha⟩ := (Res.bind_eq_ok _ _ _).1 ha
        have h3 := includeFile_frame r.2 path p3 hp3
        have h4 := ih p3 a ha
        have hf : CSTParser.Frame p p3 := (h1.frame_trans h2).frame_trans h3
        refine ⟨hf.frame_trans h4.1, ?_⟩
        rcases h4.2 with h | ⟨x, hx, hne⟩
        · exact Or.inl h
        · exact Or.inr ⟨x, hx, by rw [← hf.1]; exact hne⟩
      · rw [if_neg hinc] at ha
        cases ha
        refine ⟨h1.frame_trans h2, Or.inr ⟨lead, hlead, ?_⟩⟩
        rw [← (h1.frame_trans h2).1]
        exact hinc

/-- C4: whenever `parseTopCST()` returns a node, on any input and with any
step budget, the node's `getLeadID()` is defined and differs from
`ID_include`; `ID_include` is unchanged, and when it is the non-zero id the
interner holds for the text `include` it still is afterwards. -/
theorem parseTopCST_never_include (fuel : Nat) (p p1 : CSTParser) (node : CST)
    (h : CSTParser.parseTopCST fuel p = .ok (node, p1)) (hnode : node ≠ .nullptr) :
    (∃ x, node.getLeadID = .ok x ∧ x ≠ p.ID_include) ∧
    p1.ID_include = p.ID_include ∧
    (lookupID p.ii.internedIDs includeText = p.ID_include → p.ID_include ≠ 0 →
      lookupID p1.ii.internedIDs includeText = p1.ID_include) := by
  obtain ⟨hframe, hlead⟩ := parseTopCST_spec fuel p (node, p1) h
  refine ⟨?_, hframe.1, ?_⟩
  · rcases hlead with h | h
    · exact absurd h hnode
    · exact h
  · intro hid hne
    rw [hframe.1, hframe.2 includeText (by rw [hid]; exact hne), hid]

/-- The constructor interns `include` and keeps its id in `ID_include`. -/
theorem create_ID_include (ii : IdentifierInterner) (files : List (Text × Text))
    (contents : Text) :
    ∃ p, CSTParser.create ii files (some contents) = .ok p ∧
      p.ID_include = (ii.get includeText).1 ∧ p.ii = (ii.get includeText).2 :=
  ⟨_, rfl, rfl, rfl⟩

/-! ## Inclusion is transparent -/

theorem parseTopCST_succ (fuel : Nat) (p : CSTParser) :
    CSTParser.parseTopCST (fuel + 1) p =
      (p.skipEmptyLexers fuel).bind (CSTParser.parseTopBody fuel) := rfl

theorem parseTopBody_le (n m : Nat) (p : CSTParser) (h : n ≤ m) :
    Res.le (CSTParser.parseTopBody n p) (CSTParser.parseTopBody m p) := by
  simp only [CSTParser.parseTopBody]
  apply Res.le_ite
  · intro _; exact Res.le_refl _
  · intro _
    apply Res.le_bind ((parse_le n m h).2.1 p)
    intro r
    apply Res.le_bind (Res.le_refl _)
    intro lead
    apply Res.le_ite
    · intro _
      apply Res.le_bind (Res.le_refl _)
      intro path
      exact Res.le_bind (Res.le_refl _) (fun p2 => parseTopCST_le n m p2 h)
    · intro _; exact Res.le_refl _

theorem getLeadID_eraseLoc (r : CST) : r.eraseLoc.getLeadID = r.getLeadID := by
  cases r with
  | Expression loc mm ss =>
    cases ss with
    | nil => rfl
    | cons s ss => cases s <;> rfl
  | _ => rfl

theorem includePath_eraseLoc (r : CST) : r.eraseLoc.includePath = r.includePath := by
  cases r with
  | Expression loc mm ss =>
    cases ss with
    | nil => rfl
    | cons s ss =>
      cases ss with
      | nil => rfl
      | cons s2 ss => cases s2 <;> rfl
  | _ => rfl

theorem isNull_eraseLoc (r : CST) : r.eraseLoc.isNull = r.isNull := by
  cases r <;> rfl

/-- `skipEmptyLexers()` when the top lexer is at its end of stream: it is
popped and the loop goes on. -/
theorem skipEmptyLexers_pop (N : Nat) (p p2 : CSTParser) (t : Token)
    (h : ∀ fuel, N ≤ fuel → p.lexTop fuel = .ok (t, p2)) (ht : t.kind = .EndOfStream)
    (fuel : Nat) (hfuel : N ≤ fuel) :
    CSTParser.skipEmptyLexers (fuel + 1) p = CSTParser.skipEmptyLexers fuel p2.pop := by
  have h0 := h fuel hfuel
  unfold CSTParser.lexTop at h0
  cases hst : p.lexerStack with
  | nil => simp [hst] at h0
  | cons top rest =>
    simp only [hst, Res.bind_eq_ok, Res.ok.injEq, Prod.mk.injEq] at h0
    obtain ⟨r, hr, ht1, hp2⟩ := h0
    have hc := peek_eq_lex_bind fuel p.ii top
    rw [hr] at hc
    rw [CSTParser.skipEmptyLexers]
    simp only [hst, hc, Res.bind_ok, Token.isEOS, ht1, ht, decide_True, if_true]
    rw [← hp2]
    rfl

/-- `skipEmptyLexers()` when the top lexer has a token other than end of
stream: the token is peeked and the stack is kept. -/
theorem skipEmptyLexers_stop (N : Nat) (p p2 : CSTParser) (t : Token)
    (h : ∀ fuel, N ≤ fuel → p.lexTop fuel = .ok (t, p2)) (ht : t.kind ≠ .EndOfStream) :
    ∃ pk, (∀ fuel, N ≤ fuel → CSTParser.skipEmptyLexers (fuel + 1) p = .ok pk) ∧
      pk.lexerStack.isEmpty = false ∧ (∀ fuel, pk.lexTop fuel = .ok (t, p2)) := by
  obtain ⟨pk, hpeek, hlex, _⟩ := peekTop_of_lexTop N p p2 t h
  refine ⟨pk, ?_, ?_, hlex⟩
  · intro fuel hfuel
    have h1 := hpeek fuel hfuel
    unfold CSTParser.peekTop at h1
    cases hst : p.lexerStack with
    | nil => simp [hst] at h1
    | cons top rest =>
      simp only [hst, Res.bind_eq_ok, Res.ok.injEq, Prod.mk.injEq] at h1
      obtain ⟨r, hr, ht1, hpk⟩ := h1
      rw [CSTParser.skipEmptyLexers]
      simp only [hst, hr, Res.bind_ok, Token.isEOS, ht1, ht, decide_False, Bool.false_eq_true,
        if_false, hpk]
  · have h1 := hlex 0
    unfold CSTParser.lexTop at h1
    cases hst : pk.lexerStack with
    | nil => simp [hst] at h1
    | cons top rest => rfl

theorem TopRun_empty (p : CSTParser) (h : p.lexerStack = []) : TopRun p [] := by
  refine ⟨2, p, ?_⟩
  intro fuel hfuel
  obtain ⟨fuel, rfl⟩ : ∃ f, fuel = f + 2 := ⟨fuel - 2, by omega⟩
  rw [parseTopCST_succ, CSTParser.skipEmptyLexers]
  simp [h, Res.bind_ok, CSTParser.parseTopBody]

/-- When every result of `parseTopCST()` from `q` is also the result from
`p` with one more step, the calls from `p` return what the calls from `q`
return. -/
theorem TopRun_transfer (p q : CSTParser) (B0 : Nat)
    (htr : ∀ fuel, B0 ≤ fuel → ∀ x, CSTParser.parseTopCST fuel q = .ok x →
      CSTParser.parseTopCST (fuel + 1) p = .ok x)
    (fs : List CST) (h : TopRun q fs) : TopRun p fs := by
  cases fs with
  | nil =>
    obtain ⟨B, pE, hB⟩ := h
    refine ⟨max B B0 + 1, pE, ?_⟩
    intro fuel hfuel
    obtain ⟨fuel, rfl⟩ : ∃ f, fuel = f + 1 := ⟨fuel - 1, by omega⟩
    exact htr fuel (by omega) _ (hB fuel (by omega))
  | cons t rest =>
    obtain ⟨B, p1, hB, hrest⟩ := h
    refine ⟨max B B0 + 1, p1, ?_, hrest⟩
    intro fuel hfuel
    obtain ⟨fuel, rfl⟩ : ∃ f, fuel = f + 1 := ⟨fuel - 1, by omega⟩
    obtain ⟨r, hr, hn, he⟩ := hB fuel (by omega)
    exact ⟨r, htr fuel (by omega) _ hr, hn, he⟩

/-- A lexer at its end of stream is transparent: the calls go on with the
lexer below it. -/
theorem TopRun_pop (N : Nat) (p pe : CSTParser) (fs : List CST)
    (heos : p.Upcoming N [(.EndOfStream, .placeHolder)] pe) (h : TopRun pe.pop fs) :
    TopRun p fs := by
  obtain ⟨t, p2, hkc, hlex, hrest⟩ := heos
  obtain ⟨hk, _⟩ := kc_eq t _ _ hkc
  simp only [CSTParser.Upcoming] at hrest
  rw [hrest] at h
  refine TopRun_transfer p p2.pop (N + 1) ?_ fs h
  intro fuel hfuel x hx
  obtain ⟨fuel, rfl⟩ : ∃ f, fuel = f + 1 := ⟨fuel - 1, by omega⟩
  rw [parseTopCST_succ] at hx ⊢
  obtain ⟨q, hq, hbody⟩ := (Res.bind_eq_ok _ _ _).1 hx
  rw [skipEmptyLexers_pop N p p2 t hlex hk fuel (by omega), hq, Res.bind_ok]
  exact Res.le_ok (parseTopBody_le fuel (fuel + 1) q (by omega)) hbody

theorem Upcoming_frame (N : Nat) (toks : List (TokenKind × TokenContent)) :
    ∀ (p p1 : CSTParser), p.Upcoming N toks p1 → CSTParser.Frame p p1 := by
  induction toks with
  | nil =>
    intro p p1 h
    simp only [CSTParser.Upcoming] at h
    rw [h]
    exact CSTParser.Frame.frame_refl p
  | cons kc rest ih =>
    intro p p1 h
    obtain ⟨t, p2, _, hlex, hrest⟩ := h
    exact (lexTop_frame N p (t, p2) (hlex N (le_refl _))).frame_trans (ih p2 p1 hrest)

/-- What `parseTopCST()` does up to the comparison with `ID_include`, on the
tokens that write an Expression. -/
theorem parseTop_expression (N : Nat) (p p1 : CSTParser) (loc : SourceLocation) (mm : Nat)
    (ss : List CST) (hwf : (CST.Expression loc mm ss).WellFormed)
    (hup : p.Upcoming N (CST.Expression loc mm ss).write p1) :
    ∃ pk r, (∀ fuel, N ≤ fuel → CSTParser.skipEmptyLexers (fuel + 1) p = .ok pk) ∧
      pk.lexerStack.isEmpty = false ∧
      (∀ fuel, N + 1 + CST.stepsList ss ≤ fuel →
        CSTParser.parseRawExpressionCST fuel pk = .ok (r, p1)) ∧
      r.eraseLoc = (CST.Expression loc mm ss).eraseLoc ∧ p1.ID_include = p.ID_include := by
  have hup0 := hup
  simp only [CST.write] at hup
  obtain ⟨t, p2, hkc, hlex, hrest⟩ := hup
  obtain ⟨hk, _⟩ := kc_eq t _ _ hkc
  obtain ⟨pk, hskip, hne, hlexk⟩ := skipEmptyLexers_stop N p p2 t hlex (by rw [hk]; decide)
  have hupk : pk.Upcoming N (CST.Expression loc mm ss).write p1 := by
    simp only [CST.write]
    exact ⟨t, p2, hkc, fun fuel _ => hlexk fuel, hrest⟩
  have hwfss : CST.WellFormedList ss := by
    simp only [CST.WellFormed] at hwf; exact hwf.2
  have hl := loopSpec_of_wellFormed ss hwfss
  obtain ⟨r, hr, her⟩ := parseRawExpressionCST_write loc mm ss hwf hl.1 hl.2.2.2 N
    (N + 1 + CST.stepsList ss) pk p1 hupk (le_refl _)
  refine ⟨pk, r, hskip, hne, ?_, her, (Upcoming_frame N _ p p1 hup0).1⟩
  intro fuel hfuel
  exact Res.le_ok ((parse_le _ fuel hfuel).2.1 pk) hr

/-- One call of `parseTopCST()` on the tokens of a top-level form that is not
an inclusion. -/
theorem parseTop_form (N : Nat) (p p1 : CSTParser) (t : CST) (hform : TopForm p.ID_include t)
    (hup : p.Upcoming N t.write p1) (fuel : Nat) (hfuel : N + t.steps + 1 ≤ fuel) :
    ∃ r, CSTParser.parseTopCST fuel p = .ok (r, p1) ∧ r.isNull = false ∧
      r.eraseLoc = t.eraseLoc := by
  obtain ⟨hwf, ⟨loc, mm, ss, rfl⟩, x, hx, hne⟩ := hform
  obtain ⟨pk, r, hskip, hstack, hparse, her, hid⟩ := parseTop_expression N p p1 loc mm ss hwf hup
  simp only [CST.steps] at hfuel
  obtain ⟨fuel, rfl⟩ : ∃ f, fuel = f + 2 := ⟨fuel - 2, by omega⟩
  have hlead : r.getLeadID = .ok x := by
    rw [← getLeadID_eraseLoc, her, getLeadID_eraseLoc, hx]
  refine ⟨r, ?_, ?_, her⟩
  · rw [parseTopCST_succ, hskip fuel (by omega), Res.bind_ok]
    simp only [CSTParser.parseTopBody, hstack, Bool.false_eq_true, if_false,
      hparse (fuel + 1) (by omega), Res.bind_ok, hlead, hid, hne]
  · rw [← isNull_eraseLoc, her]; rfl

/-- An inclusion is transparent: after the include form the calls go on with
the lexer of the included file on top. -/
theorem TopRun_include (N : Nat) (p p1 p2 : CSTParser) (path : Text) (fs : List CST)
    (hup : p.Upcoming N (includeForm p.ID_include path).write p1)
    (hinc : p1.includeFile path = .ok p2) (h : TopRun p2 fs) : TopRun p fs := by
  have hwf : (includeForm p.ID_include path).WellFormed := by
    simp [includeForm, CST.WellFormed, CST.WellFormedList]
  obtain ⟨pk, r, hskip, hstack, hparse, her, hid⟩ :=
    parseTop_expression N p p1 _ _ _ hwf hup
  have hlead : r.getLeadID = .ok p.ID_include := by
    rw [← getLeadID_eraseLoc, her, getLeadID_eraseLoc]; rfl
  have hpath : r.includePath = .ok path := by
    rw [← includePath_eraseLoc, her, includePath_eraseLoc]; rfl
  refine TopRun_transfer p p2
    (N + 2 + CST.stepsList [.Identifier SourceLocation.invalid p.ID_include,
      .String SourceLocation.invalid path]) ?_ fs h
  intro fuel hfuel x hx
  rw [parseTopCST_succ]
  obtain ⟨fuel, rfl⟩ : ∃ f, fuel = f + 1 := ⟨fuel - 1, by omega⟩
  rw [hskip fuel (by omega), Res.bind_ok]
  simp only [CSTParser.parseTopBody, hstack, Bool.false_eq_true, if_false,
    hparse (fuel + 1) (by omega), Res.bind_ok, hlead, hid, if_true, hpath, hinc, hx]

/-- Top-level forms that are not inclusions are returned one per call. -/
theorem TopRun_forms (N inc : Nat) (fs : List CST) :
    ∀ (p p1 : CSTParser) (rest : List CST), p.ID_include = inc →
      (∀ t ∈ fs, TopForm inc t) → p.Upcoming N (CST.writeList fs) p1 → TopRun p1 rest →
      TopRun p (fs ++ rest) := by
  induction fs with
  | nil =>
    intro p p1 rest _ _ hup h
    simp only [CST.writeList, CSTParser.Upcoming] at hup
    subst hup
    exact h
  | cons t fs ih =>
    intro p p1 rest hid hforms hup h
    simp only [CST.writeList] at hup
    obtain ⟨pm, hup1, hup2⟩ := (Upcoming_append N _ _ p p1).1 hup
    have hidm : pm.ID_include = inc := by rw [(Upcoming_frame N _ p pm hup1).1, hid]
    have hrest := ih pm p1 rest hidm (fun x hx => hforms x (List.mem_cons_of_mem _ hx)) hup2 h
    refine ⟨N + t.steps + 1, pm, ?_, hrest⟩
    intro fuel hfuel
    exact parseTop_form N p pm t (by rw [hid]; exact hforms t (List.mem_cons_self _ _))
      hup1 fuel hfuel

/-- The loop of `main` collects what the successive calls return. -/
theorem parseAll_of_TopRun (fs : List CST) : ∀ (p : CSTParser), TopRun p fs →
    ∃ B, ∀ fuel, B ≤ fuel → ∀ n, fs.length + 1 ≤ n →
      ∃ rs pE, CSTParser.parseAll fuel n p = .ok (rs, pE) ∧
        CST.eraseLocList rs = CST.eraseLocList fs := by
  induction fs with
  | nil =>
    intro p h
    obtain ⟨B, pE, hB⟩ := h
    refine ⟨B, ?_⟩
    intro fuel hfuel n hn
    obtain ⟨n, rfl⟩ : ∃ k, n = k + 1 := ⟨n - 1, by simp at hn; omega⟩
    refine ⟨[], pE, ?_, rfl⟩
    simp only [CSTParser.parseAll, hB fuel hfuel, Res.bind_ok, CST.isNull, if_true]
  | cons t rest ih =>
    intro p h
    obtain ⟨B, p1, hB, hrest⟩ := h
    obtain ⟨B1, hB1⟩ := ih p1 hrest
    refine ⟨max B B1, ?_⟩
    intro fuel hfuel n hn
    simp only [List.length_cons] at hn
    obtain ⟨n, rfl⟩ : ∃ k, n = k + 1 := ⟨n - 1, by omega⟩
    obtain ⟨r, hr, hnull, her⟩ := hB fuel (by omega)
    obtain ⟨rs, pE, hrs, hers⟩ := hB1 fuel (by omega) n (by omega)
    refine ⟨r :: rs, pE, ?_, by simp [CST.eraseLocList, her, hers]⟩
    simp only [CSTParser.parseAll, hr, Res.bind_ok, hnull, Bool.false_eq_true, if_false, hrs]

theorem lexTop_tail (fuel : Nat) (p p2 : CSTParser) (t : Token)
    (h : p.lexTop fuel = .ok (t, p2)) : p2.lexerStack.tail = p.lexerStack.tail := by
  unfold CSTParser.lexTop at h
  cases hst : p.lexerStack with
  | nil => simp [hst] at h
  | cons top rest =>
    simp only [hst, Res.bind_eq_ok, Res.ok.injEq, Prod.mk.injEq] at h
    obtain ⟨r, _, _, hp2⟩ := h
    rw [← hp2]
    rfl

theorem Upcoming_tail (N : Nat) (toks : List (TokenKind × TokenContent)) :
    ∀ (p p1 : CSTParser), p.Upcoming N toks p1 →
      p1.lexerStack.tail = p.lexerStack.tail := by
  induction toks with
  | nil =>
    intro p p1 h
    simp only [CSTParser.Upcoming] at h
    rw [h]
  | cons kc rest ih =>
    intro p p1 h
    obtain ⟨t, p2, _, hlex, hrest⟩ := h
    rw [ih p2 p1 hrest, lexTop_tail N p p2 t (hlex N (le_refl _))]

theorem includeFile_tail (p p2 : CSTParser) (path : Text) (h : p.includeFile path = .ok p2) :
    p2.lexerStack.tail = p.lexerStack := by
  unfold CSTParser.includeFile at h
  split at h
  · cases h
  · split at h
    · split at h
      · cases h
      · cases h
        simp [*]
    · cases h

/-- Include transparency at the level of tokens: the main file yields the
tokens of the forms `FP`, then of `(include "path")`, then of the forms `FS`;
the included file yields the tokens of the forms `FA`; a single file yields
the tokens of `FP`, `FA`, `FS` in this order (all of them complete well-formed
top-level forms that are not inclusions).  Then, with a sufficient step
budget, calling `parseTopCST()` until it returns the null pointer gives for
both the same sequence up to locations: `FP`, `FA`, `FS`.  The statement for
the texts of the files is proved at the end of the development. -/
theorem include_transparent (N : Nat) (pMain pSingle : CSTParser) (FP FA FS : List CST)
    (path : Text) (m1 m2 m3 a1 a2 s1 s2 q1 q2 : CSTParser)
    (hmain : pMain.lexerStack.tail = []) (hsingle : pSingle.lexerStack.tail = [])
    (hid : pSingle.ID_include = pMain.ID_include)
    (hFP : ∀ t ∈ FP, TopForm pMain.ID_include t)
    (hFA : ∀ t ∈ FA, TopForm pMain.ID_include t)
    (hFS : ∀ t ∈ FS, TopForm pMain.ID_include t)
    (hmP : pMain.Upcoming N (CST.writeList FP) m1)
    (hmI : m1.Upcoming N (includeForm pMain.ID_include path).write m2)
    (hinc : m2.includeFile path = .ok m3)
    (haA : m3.Upcoming N (CST.writeList FA) a1)
    (haE : a1.Upcoming N [(.EndOfStream, .placeHolder)] a2)
    (hmS : a2.pop.Upcoming N (CST.writeList FS) s1)
    (hmE : s1.Upcoming N [(.EndOfStream, .placeHolder)] s2)
    (hq : pSingle.Upcoming N (CST.writeList FP ++ (CST.writeList FA ++ CST.writeList FS)) q1)
    (hqE : q1.Upcoming N [(.EndOfStream, .placeHolder)] q2) :
    ∃ B, ∀ fuel, B ≤ fuel → ∃ rs1 e1 rs2 e2,
      CSTParser.parseAll fuel fuel pMain = .ok (rs1, e1) ∧
      CSTParser.parseAll fuel fuel pSingle = .ok (rs2, e2) ∧
      CST.eraseLocList rs1 = CST.eraseLocList rs2 ∧
      CST.eraseLocList rs1 = CST.eraseLocList (FP ++ (FA ++ FS)) := by
  -- identifiers of `ID_include` along the main run
  have hm1 : m1.ID_include = pMain.ID_include := (Upcoming_frame N _ _ _ hmP).1
  have hm2 : m2.ID_include = pMain.ID_include := by rw [(Upcoming_frame N _ _ _ hmI).1, hm1]
  have hm3 : m3.ID_include = pMain.ID_include := by
    rw [(includeFile_frame m2 path m3 hinc).1, hm2]
  have ha1 : a1.ID_include = pMain.ID_include := by rw [(Upcoming_frame N _ _ _ haA).1, hm3]
  have ha2 : a2.pop.ID_include = pMain.ID_include := by
    show a2.ID_include = _
    rw [(Upcoming_frame N _ _ _ haE).1, ha1]
  -- the lexer stack along the main run
  have hs2 : s2.pop.lexerStack = [] := by
    show s2.lexerStack.tail = []
    rw [Upcoming_tail N _ _ _ hmE, Upcoming_tail N _ _ _ hmS]
    show a2.lexerStack.tail.tail = []
    rw [Upcoming_tail N _ _ _ haE, Upcoming_tail N _ _ _ haA, includeFile_tail m2 m3 path hinc,
      Upcoming_tail N _ _ _ hmI, Upcoming_tail N _ _ _ hmP, hmain]
  have hq2 : q2.pop.lexerStack = [] := by
    show q2.lexerStack.tail = []
    rw [Upcoming_tail N _ _ _ hqE, Upcoming_tail N _ _ _ hq, hsingle]
  -- the main file with the inclusion
  have runS : TopRun a2.pop (FS ++ []) :=
    TopRun_forms N _ FS a2.pop s1 [] ha2 hFS hmS (TopRun_pop N s1 s2 [] hmE (TopRun_empty _ hs2))
  have runA : TopRun m3 (FA ++ (FS ++ [])) :=
    TopRun_forms N _ FA m3 a1 _ hm3 hFA haA (TopRun_pop N a1 a2 _ haE runS)
  have runI : TopRun m1 (FA ++ (FS ++ [])) :=
    TopRun_include N m1 m2 m3 path _ (by rw [hm1]; exact hmI) hinc runA
  have runMain : TopRun pMain (FP ++ (FA ++ (FS ++ []))) :=
    TopRun_forms N _ FP pMain m1 _ rfl hFP hmP runI
  -- the single file
  have hall : ∀ t ∈ FP ++ (FA ++ FS), TopForm pMain.ID_include t := by
    intro t ht
    rcases List.mem_append.1 ht with h | h
    · exact hFP t h
    · rcases List.mem_append.1 h with h | h
      · exact hFA t h
      · exact hFS t h
  have hwl : ∀ (a b : List CST), CST.writeList (a ++ b) = CST.writeList a ++ CST.writeList b := by
    intro a b
    induction a with
    | nil => simp [CST.writeList]
    | cons x a ih => simp [CST.writeList, ih]
  have runSingle : TopRun pSingle ((FP ++ (FA ++ FS)) ++ []) :=
    TopRun_forms N _ (FP ++ (FA ++ FS)) pSingle q1 [] hid hall (by rw [hwl, hwl]; exact hq)
      (TopRun_pop N q1 q2 [] hqE (TopRun_empty _ hq2))
  simp only [List.append_nil] at runMain runSingle
  obtain ⟨B1, h1⟩ := parseAll_of_TopRun _ pMain runMain
  obtain ⟨B2, h2⟩ := parseAll_of_TopRun _ pSingle runSingle
  refine ⟨max (max B1 B2) ((FP ++ (FA ++ FS)).length + 1), ?_⟩
  intro fuel hfuel
  obtain ⟨rs1, e1, hr1, he1⟩ := h1 fuel (by omega) fuel (by omega)
  obtain ⟨rs2, e2, hr2, he2⟩ := h2 fuel (by omega) fuel (by omega)
  exact ⟨rs1, e1, rs2, e2, hr1, hr2, by rw [he1, he2], he1⟩

/-! ## An unclosed expression, and the examples of inclusion -/

theorem parseSubCST_no_subform (fuel : Nat) (p : CSTParser) (t : Token)
    (hpeek : ∀ fuel, p.peekTop fuel = .ok (t, p)) (hk : t.kind.startsSubform = false) :
    CSTParser.parseSubCST (fuel + 1) p = .ok (.nullptr, p) := by
  rw [CSTParser.parseSubCST]
  simp only [hpeek fuel, Res.bind_ok]
  cases hkind : t.kind <;> simp [hkind, TokenKind.startsSubform] at hk <;> rfl

/-- The loop of `parseRawExpressionCST()` never ends once the lookahead holds
a token that neither starts a subform nor is `)` (nor `:` in the first pass):
`parseSubCST()` returns the null pointer without consuming it. -/
theorem parseRawExpressionLoop_stuck (p : CSTParser) (t : Token)
    (hpeek : ∀ fuel, p.peekTop fuel = .ok (t, p)) (hk : t.kind.startsSubform = false)
    (hclose : t.kind ≠ .CloseParen) :
    ∀ (fuel : Nat) (openParen machineMode : Token) (first : Bool) (acc : List CST),
      (first = true → t.kind ≠ .Colon) →
      CSTParser.parseRawExpressionLoop fuel p openParen machineMode first acc = .timeout := by
  intro fuel
  induction fuel with
  | zero => intro o mm first acc _; rfl
  | succ fuel ih =>
    intro o mm first acc hcolon
    rw [CSTParser.parseRawExpressionLoop]
    simp only [hpeek fuel, Res.bind_ok, hclose, if_false]
    cases fuel with
    | zero => rfl
    | succ fuel =>
      rw [parseSubCST_no_subform fuel p t hpeek hk]
      simp only [Res.bind_ok]
      cases first with
      | true =>
        simp only [if_true, hpeek (fuel + 1), Res.bind_ok, hcolon rfl, if_false]
        exact ih o mm false _ (fun h => by cases h)
      | false =>
        simp only [Bool.false_eq_true, if_false]
        exact ih o mm false _ (fun h => by cases h)

/-- On the tokens `(` s followed by the end of stream, with a well-formed
subform s, `parseTopCST()` does not return, whatever the step budget. -/
theorem parseTopCST_unclosed (N : Nat) (p pE : CSTParser) (s : CST) (hwf : s.WellFormed)
    (hup : p.Upcoming N
      ((.OpenParen, .placeHolder) :: (s.write ++ [(.EndOfStream, .placeHolder)])) pE) :
    ∀ fuel, CSTParser.parseTopCST fuel p = .timeout := by
  have hbig : ∀ fuel, CSTParser.parseTopCST (fuel + (N + s.steps + 3)) p = .timeout := by
    intro fuel
    obtain ⟨t0, p1, hkc0, hlex0, hrest⟩ := hup
    obtain ⟨hk0, _⟩ := kc_eq t0 _ _ hkc0
    obtain ⟨pk0, hskip, hstack, hlexk⟩ :=
      skipEmptyLexers_stop N p p1 t0 hlex0 (by rw [hk0]; decide)
    obtain ⟨pm, hup1, hup2⟩ := (Upcoming_append N _ _ p1 pE).1 hrest
    obtain ⟨k, c, rest, hw, hstart⟩ := write_starts s hwf
    rw [hw] at hup1
    obtain ⟨t, pk, _, hkc, hpeek, _, _, _, hupk⟩ := Upcoming_peek N p1 pm _ _ hup1
    obtain ⟨hk, _⟩ := kc_eq t _ _ hkc
    rw [← hw] at hupk
    obtain ⟨tE, pkE, _, hkcE, hpeekE, _, hfix, _, _⟩ := Upcoming_peek N pm pE _ _ hup2
    obtain ⟨hkE, _⟩ := kc_eq tE _ _ hkcE
    have hne : ¬ t.kind = TokenKind.CloseParen := by
      rw [hk]; intro h; rw [h] at hstart; simp [TokenKind.startsSubform] at hstart
    have hfuel : fuel + (N + s.steps + 3) = (fuel + (N + s.steps)) + 1 + 1 + 1 := by omega
    obtain ⟨r, hr, _⟩ := subSpec_of_wellFormed s hwf N (fuel + (N + s.steps)) pk pm hupk
      (by omega)
    have hstuck := parseRawExpressionLoop_stuck pkE tE hfix
      (by rw [hkE]; rfl) (by rw [hkE]; decide) (fuel + (N + s.steps)) t0 Token.default false
      ([] ++ [r]) (fun h => by cases h)
    rw [hfuel, parseTopCST_succ, hskip _ (by omega), Res.bind_ok]
    simp only [CSTParser.parseTopBody, hstack, Bool.false_eq_true, if_false]
    rw [CSTParser.parseRawExpressionCST]
    simp only [CSTParser.expect, hlexk, Res.bind_ok]
    rw [CSTParser.parseRawExpressionLoop]
    simp only [hpeek _ (show N ≤ fuel + (N + s.steps) by omega), Res.bind_ok, hne, if_false, hr,
      if_true, hpeekE _ (show N ≤ fuel + (N + s.steps) by omega), hkE]
    simp only [reduceCtorEq, if_false, hstuck, Res.bind_timeout]
  intro fuel
  have hle := parseTopCST_le fuel (fuel + (N + s.steps + 3)) p (by omega)
  rw [hbig fuel] at hle
  rcases hle with h | h
  · exact h
  · exact h

/-- C9: on the main file `(a` no call of `parseTopCST()` returns: for every
step budget the outcome is `timeout`.  After the identifier the lookahead is
the end of stream, `parseSubCST()` returns the null pointer without consuming
it, and the loop of `parseRawExpressionCST()` goes on for ever. -/
theorem parseTopCST_unclosed_paren_diverges :
    CSTParser.create IdentifierInterner.fresh [] (some unclosedText) =
      .ok (fileParser (internerOf []) unclosedText 0) ∧
    ∀ fuel, CSTParser.parseTopCST fuel (fileParser (internerOf []) unclosedText 0) =
      .timeout := by
  refine ⟨by decide, ?_⟩
  refine parseTopCST_unclosed 5 _ (fileParser (internerOf ["a".toList]) unclosedText 2)
    (.Identifier SourceLocation.invalid 2) (by simp [CST.WellFormed]) ?_
  refine Upcoming_cons 5 _ (fileParser (internerOf []) unclosedText 1) _
    ⟨.OpenParen, .placeHolder, ⟨0, 2, 1⟩⟩ _ _ rfl (by decide) ?_
  refine Upcoming_cons 5 _ (fileParser (internerOf ["a".toList]) unclosedText 2) _
    ⟨.Identifier, .id 2, ⟨0, 3, 1⟩⟩ _ _ rfl (by decide) ?_
  refine Upcoming_cons 5 _ (fileParser (internerOf ["a".toList]) unclosedText 2) _
    ⟨.EndOfStream, .placeHolder, ⟨0, 3, 1⟩⟩ _ _ rfl (by decide) ?_
  rfl

theorem parseTopCST_never_include_witness :
    ∃ node p1, CSTParser.parseTopCST 20 (fileParser (internerOf []) addText 0) =
        .ok (node, p1) ∧ node.isNull = false ∧
      ∃ x, node.getLeadID = .ok x ∧ x ≠ 1 := by
  obtain ⟨r, hr, hn, _⟩ := parseTop_form 5 (fileParser (internerOf []) addText 0) _ addTree
    ⟨by simp [addTree, CST.WellFormed, CST.WellFormedList], ⟨_, _, _, rfl⟩, 2, rfl, by decide⟩
    addText_upcoming 20 (by decide)
  exact ⟨r, _, hr, hn,
    (parseTopCST_never_include 20 _ _ r hr (by intro h; rw [h] at hn; cases hn)).1⟩

theorem include_transparent_witness :
    CSTParser.create IdentifierInterner.fresh includeFiles (some includeMain) =
      .ok (mainParser (internerOf []) 1 0) ∧
    ∃ B, ∀ fuel, B ≤ fuel → ∃ rs1 e1 rs2 e2,
      CSTParser.parseAll fuel fuel (mainParser (internerOf []) 1 0) = .ok (rs1, e1) ∧
      CSTParser.parseAll fuel fuel (fileParser (internerOf []) subFile 0) = .ok (rs2, e2) ∧
      CST.eraseLocList rs1 = CST.eraseLocList rs2 ∧
      CST.eraseLocList rs1 = CST.eraseLocList ([] ++ ([okTree] ++ [])) := by
  refine ⟨by decide, ?_⟩
  refine include_transparent 10 (mainParser (internerOf []) 1 0)
    (fileParser (internerOf []) subFile 0) [] [okTree] [] "sub.g".toList
    (mainParser (internerOf []) 1 0) (mainParser (internerOf []) 1 17)
    (subParser (internerOf []) 0) (subParser (internerOf ["ok".toList]) 4)
    (subParser (internerOf ["ok".toList]) 4)
    (mainParser (internerOf ["ok".toList]) 2 17) (mainParser (internerOf ["ok".toList]) 2 17)
    (fileParser (internerOf ["ok".toList]) subFile 4)
    (fileParser (internerOf ["ok".toList]) subFile 4)
    rfl rfl rfl (by simp) ?_ (by simp) rfl ?_ (by decide) ?_ ?_ rfl ?_ ?_ ?_
  · intro t ht
    simp only [List.mem_singleton] at ht
    subst ht
    exact ⟨by simp [okTree, CST.WellFormed, CST.WellFormedList], ⟨_, _, _, rfl⟩, 2, rfl,
      by decide⟩
  · refine Upcoming_cons 10 _ (mainParser (internerOf []) 1 1) _
      ⟨.OpenParen, .placeHolder, ⟨0, 2, 1⟩⟩ _ _ rfl (by decide) ?_
    refine Upcoming_cons 10 _ (mainParser (internerOf []) 1 8) _
      ⟨.Identifier, .id 1, ⟨0, 9, 1⟩⟩ _ _ rfl (by decide) ?_
    refine Upcoming_cons 10 _ (mainParser (internerOf []) 1 16) _
      ⟨.String, .str "sub.g".toList, ⟨0, 16, 1⟩⟩ _ _ rfl (by decide) ?_
    refine Upcoming_cons 10 _ (mainParser (internerOf []) 1 17) _
      ⟨.CloseParen, .placeHolder, ⟨0, 18, 1⟩⟩ _ _ rfl (by decide) ?_
    rfl
  · refine Upcoming_cons 10 _ (subParser (internerOf []) 1) _
      ⟨.OpenParen, .placeHolder, ⟨0, 2, 2⟩⟩ _ _ rfl (by decide) ?_
    refine Upcoming_cons 10 _ (subParser (internerOf ["ok".toList]) 3) _
      ⟨.Identifier, .id 2, ⟨0, 4, 2⟩⟩ _ _ rfl (by decide) ?_
    refine Upcoming_cons 10 _ (subParser (internerOf ["ok".toList]) 4) _
      ⟨.CloseParen, .placeHolder, ⟨0, 5, 2⟩⟩ _ _ rfl (by decide) ?_
    rfl
  · refine Upcoming_cons 10 _ (subParser (internerOf ["ok".toList]) 4) _
      ⟨.EndOfStream, .placeHolder, ⟨0, 5, 2⟩⟩ _ _ rfl (by decide) ?_
    rfl
  · refine Upcoming_cons 10 _ (mainParser (internerOf ["ok".toList]) 2 17) _
      ⟨.EndOfStream, .placeHolder, ⟨0, 18, 1⟩⟩ _ _ rfl (by decide) ?_
    rfl
  · refine Upcoming_cons 10 _ (fileParser (internerOf []) subFile 1) _
      ⟨.OpenParen, .placeHolder, ⟨0, 2, 1⟩⟩ _ _ rfl (by decide) ?_
    refine Upcoming_cons 10 _ (fileParser (internerOf ["ok".toList]) subFile 3) _
      ⟨.Identifier, .id 2, ⟨0, 4, 1⟩⟩ _ _ rfl (by decide) ?_
    refine Upcoming_cons 10 _ (fileParser (internerOf ["ok".toList]) subFile 4) _
      ⟨.CloseParen, .placeHolder, ⟨0, 5, 1⟩⟩ _ _ rfl (by decide) ?_
    rfl
  · refine Upcoming_cons 10 _ (fileParser (internerOf ["ok".toList]) subFile 4) _
      ⟨.EndOfStream, .placeHolder, ⟨0, 5, 1⟩⟩ _ _ rfl (by decide) ?_
    rfl

/-! ## Plain strings and the dispatch on an opening parenthesis -/

theorem advancePos_step (b : MemoryBuffer) (c : Cursor) (ch : Char)
    (h : b.charAt c.curPos = some ch) : Lexer.advancePos b c = .ok (c.step ch) := by
  simp only [Lexer.advancePos, h, Cursor.step]
  split <;> rfl

theorem Cursor.over_curPos (t : Text) : ∀ (c : Cursor), (c.over t).curPos = c.curPos + t.length := by
  induction t with
  | nil => intro c; rfl
  | cons x t ih =>
    intro c
    have h : (c.step x).curPos = c.curPos + 1 := by
      unfold Cursor.step; split <;> rfl
    show ((c.step x).over t).curPos = _
    rw [ih, h, List.length_cons]; omega

theorem Cursor.over_line (t : Text) :
    ∀ (c : Cursor), (c.over t).line = c.line + t.count chNewline := by
  induction t with
  | nil => intro c; rfl
  | cons x t ih =>
    intro c
    show ((c.step x).over t).line = _
    rw [ih]
    by_cases hx : x = chNewline
    · subst hx
      simp [Cursor.step]; omega
    · have : (x == chNewline) = false := by simpa using hx
      simp [Cursor.step, hx, List.count_cons, this]

theorem closingQuote_cons (c : Char) (l : Text) (k : Nat) (h : closingQuote (c :: l) = some k) :
    (c = chBackslash ∧ ∃ d rest k1, l = d :: rest ∧ closingQuote rest = some k1 ∧ k = k1 + 2) ∨
    (c ≠ chBackslash ∧ c = chDQuote ∧ k = 0) ∨
    (c ≠ chBackslash ∧ c ≠ chDQuote ∧ ∃ k1, closingQuote l = some k1 ∧ k = k1 + 1) := by
  have hne : chBackslash ≠ chDQuote := by decide
  cases l with
  | nil =>
    simp only [closingQuote] at h
    by_cases hq : c = chDQuote
    · subst hq
      simp at h
      exact Or.inr (Or.inl ⟨fun e => hne e.symm, rfl, h.symm⟩)
    · simp [hq] at h
  | cons d rest =>
    simp only [closingQuote] at h
    by_cases hb : c = chBackslash
    · simp only [hb, if_true, Option.map_eq_some'] at h
      obtain ⟨k1, h1, h2⟩ := h
      exact Or.inl ⟨hb, d, rest, k1, rfl, h1, h2.symm⟩
    · simp only [hb, if_false] at h
      by_cases hq : c = chDQuote
      · simp only [hq, if_true, Option.some.injEq] at h
        exact Or.inr (Or.inl ⟨hb, hq, h.symm⟩)
      · simp only [hq, if_false, Option.map_eq_some'] at h
        obtain ⟨k1, h1, h2⟩ := h
        exact Or.inr (Or.inr ⟨hb, hq, k1, h1, h2.symm⟩)

theorem Cursor.step_curPos (c : Cursor) (ch : Char) : (c.step ch).curPos = c.curPos + 1 := by
  unfold Cursor.step; split <;> rfl

/-- The loop of `lexStringImpl` stops on the first unescaped `"`. -/
theorem lexStringLoop_closing (b : MemoryBuffer) :
    ∀ (fuel : Nat) (l : Text) (k : Nat) (pfx : Text) (c0 : Cursor),
      b.data = pfx ++ l → c0.curPos = pfx.length → closingQuote l = some k → k + 1 ≤ fuel →
      Lexer.lexStringLoop b fuel c0 = .ok (c0.over (l.take k)) := by
  intro fuel
  induction fuel with
  | zero => intro l k pfx c0 _ _ _ h; omega
  | succ fuel ih =>
    intro l k pfx c0 hb hpos hq hfuel
    cases l with
    | nil => simp [closingQuote] at hq
    | cons c l =>
      have h1 : b.charAt c0.curPos = some c := by
        rw [hpos]; exact charAt_append_cons b pfx c l hb
      have h2 : Lexer.hasMoreChars b c0 = true := by
        simp [Lexer.hasMoreChars, MemoryBuffer.bufferEnd, hb, hpos]
      have e1 : Lexer.advancePos b c0 = .ok (c0.step c) := advancePos_step b _ c h1
      have hs1 : (c0.step c).curPos = (pfx ++ [c]).length := by
        rw [Cursor.step_curPos, hpos]; simp
      rcases closingQuote_cons c l k hq with ⟨hc, d, rest, k1, hl, hk1, hk⟩ | ⟨hc, hd, hk⟩ |
        ⟨hc, hd, k1, hk1, hk⟩
      · subst hl hk
        have hb2 : b.data = (pfx ++ [c]) ++ d :: rest := by rw [hb]; simp
        have h3 := charAt_append_cons b (pfx ++ [c]) d rest hb2
        have hb3 : b.data = (pfx ++ [c, d]) ++ rest := by rw [hb]; simp
        have e2 : Lexer.advancePos b (c0.step c) = .ok ((c0.step c).step d) :=
          advancePos_step b _ d (by rw [hs1]; exact h3)
        have hs2 : ((c0.step c).step d).curPos = (pfx ++ [c, d]).length := by
          rw [Cursor.step_curPos, hs1]; simp
        have hih := ih rest k1 (pfx ++ [c, d]) ((c0.step c).step d) hb3 hs2 hk1 (by omega)
        rw [Lexer.lexStringLoop]
        simp only [h2, if_true, h1, e1, Res.bind_ok, e2]
        rw [if_pos hc, hih]
        rfl
      · subst hk
        rw [Lexer.lexStringLoop]
        simp only [h2, if_true, h1]
        rw [if_neg hc, if_pos hd]
        rfl
      · subst hk
        have hb2 : b.data = (pfx ++ [c]) ++ l := by rw [hb]; simp
        have hih := ih l k1 (pfx ++ [c]) (c0.step c) hb2 hs1 hk1 (by omega)
        rw [Lexer.lexStringLoop]
        simp only [h2, if_true, h1, e1, Res.bind_ok]
        rw [if_neg hc, if_neg hd, hih]
        rfl

theorem closingQuote_get : ∀ (n : Nat) (l : Text) (k : Nat), l.length ≤ n →
    closingQuote l = some k → l[k]? = some chDQuote := by
  intro n
  induction n with
  | zero =>
    intro l k hlen hq
    cases l with
    | nil => simp [closingQuote] at hq
    | cons c l => simp at hlen
  | succ n ih =>
    intro l k hlen hq
    cases l with
    | nil => simp [closingQuote] at hq
    | cons c l =>
      rcases closingQuote_cons c l k hq with ⟨_, d, rest, k1, hl, hk1, hk⟩ | ⟨_, hd, hk⟩ |
        ⟨_, _, k1, hk1, hk⟩
      · subst hl hk
        have := ih rest k1 (by simp at hlen; omega) hk1
        simpa using this
      · subst hk hd; simp
      · subst hk
        have := ih l k1 (by simpa using hlen) hk1
        simpa using this

/-- What `lexStringImpl()` returns when the first unescaped `"` after the
opening quote is `k` characters further. -/
theorem lexStringImpl_of_closingQuote (b : MemoryBuffer) (fileID fuel k : Nat) (c : Cursor)
    (hopen : b.data[c.curPos]? = some chDQuote)
    (hq : closingQuote (b.data.drop (c.curPos + 1)) = some k) (hfuel : k + 1 ≤ fuel) :
    Lexer.lexStringImpl b fileID fuel c =
      .ok (⟨.String, .str ((b.data.drop (c.curPos + 1)).take k),
            Lexer.getSourceLocation fileID
              ((c.step chDQuote).over ((b.data.drop (c.curPos + 1)).take k))⟩,
          ((c.step chDQuote).over ((b.data.drop (c.curPos + 1)).take k)).step chDQuote) ∧
    (((c.step chDQuote).over ((b.data.drop (c.curPos + 1)).take k)).step chDQuote).curPos =
      c.curPos + k + 2 := by
  have hlt : c.curPos < b.data.length := by
    by_contra hge
    rw [List.getElem?_eq_none (by omega)] at hopen
    exact absurd hopen (by simp)
  have hch : b.charAt c.curPos = some chDQuote := by
    simp only [MemoryBuffer.charAt, hlt, if_true, hopen]
  have e1 := advancePos_step b c chDQuote hch
  have hb : b.data = b.data.take (c.curPos + 1) ++ b.data.drop (c.curPos + 1) :=
    (List.take_append_drop _ _).symm
  have hpos : (c.step chDQuote).curPos = (b.data.take (c.curPos + 1)).length := by
    rw [Cursor.step_curPos, List.length_take]; omega
  have hloop := lexStringLoop_closing b fuel _ k _ (c.step chDQuote) hb hpos hq hfuel
  have hk := closingQuote_get _ _ k (le_refl _) hq
  have hklt : k < (b.data.drop (c.curPos + 1)).length := by
    by_contra hge
    rw [List.getElem?_eq_none (by omega)] at hk
    exact absurd hk (by simp)
  have hlen : ((b.data.drop (c.curPos + 1)).take k).length = k := by
    rw [List.length_take]; omega
  have hcur : ((c.step chDQuote).over ((b.data.drop (c.curPos + 1)).take k)).curPos
      = c.curPos + 1 + k := by
    rw [Cursor.over_curPos, Cursor.step_curPos, hlen]
  have hch2 : b.charAt ((c.step chDQuote).over ((b.data.drop (c.curPos + 1)).take k)).curPos
      = some chDQuote := by
    rw [hcur]
    rw [List.getElem?_drop] at hk
    have h2 : c.curPos + 1 + k < b.data.length := by
      rw [List.length_drop] at hklt; omega
    simp only [MemoryBuffer.charAt, h2, if_true, hk]
  have e2 := advancePos_step b _ chDQuote hch2
  refine ⟨?_, ?_⟩
  · simp only [Lexer.lexStringImpl, e1, Res.bind_ok, hloop, e2, Token.createString,
      MemoryBuffer.slice, hcur]
    have : c.curPos + 1 + k - c.curPos - 1 = k := by omega
    rw [this]
  · rw [Cursor.step_curPos, hcur]; omega

/-- C11: when the cursor is at a `"` and the first unescaped `"` after it is
`k` characters further, `lexStringImpl()` returns the `String` token whose
text is exactly those `k` characters, backslashes and escaped characters
included, and leaves the cursor just after the closing quote. -/
theorem lexStringImpl_closing_quote (b : MemoryBuffer) (fileID fuel k : Nat) (c : Cursor)
    (hopen : b.data[c.curPos]? = some chDQuote)
    (hq : closingQuote (b.data.drop (c.curPos + 1)) = some k) (hfuel : k + 1 ≤ fuel) :
    Lexer.lexStringImpl b fileID fuel c =
      .ok (⟨.String, .str ((b.data.drop (c.curPos + 1)).take k),
            Lexer.getSourceLocation fileID
              ((c.step chDQuote).over ((b.data.drop (c.curPos + 1)).take k))⟩,
          ((c.step chDQuote).over ((b.data.drop (c.curPos + 1)).take k)).step chDQuote) ∧
    (((c.step chDQuote).over ((b.data.drop (c.curPos + 1)).take k)).step chDQuote).curPos =
      c.curPos + k + 2 :=
  lexStringImpl_of_closingQuote b fileID fuel k c hopen hq hfuel

theorem lexStringImpl_closing_quote_witness :
    closingQuote (escapedQuoteString.drop 1) = some 4 ∧
    Lexer.lexStringImpl ⟨escapedQuoteString, false⟩ 1 5 ⟨0, 0, 0⟩ =
      .ok (⟨.String, .str ['a', chBackslash, chDQuote, 'b'], ⟨0, 6, 1⟩⟩, ⟨0, 6, 0⟩) :=
  ⟨by decide,
    (lexStringImpl_closing_quote ⟨escapedQuoteString, false⟩ 1 5 4 ⟨0, 0, 0⟩ (by decide)
      (by decide) (by decide)).1⟩

theorem charAt_of_getElem (b : MemoryBuffer) (p : Nat) (ch : Char)
    (h : b.data[p]? = some ch) : b.charAt p = some ch ∧ p < b.data.length := by
  have hlt : p < b.data.length := by
    by_contra hge
    rw [List.getElem?_eq_none (by omega)] at h
    exact absurd h (by simp)
  exact ⟨by simp only [MemoryBuffer.charAt, hlt, if_true, h], hlt⟩

theorem parenString_upcoming :
    (fileParser (internerOf []) parenString 0).Upcoming 20
      [(.String, .str "hello (world)".toList)] (fileParser (internerOf []) parenString 17) := by
  refine Upcoming_cons 20 _ (fileParser (internerOf []) parenString 17) _
    ⟨.String, .str "hello (world)".toList, ⟨0, 16, 1⟩⟩ _ _ rfl (by decide) ?_
  rfl

/-- The example `("hello (world)")`: `parseSubCST()` returns one String node
with the text `hello (world)`. -/
theorem parseSubCST_paren_string_example :
    ∃ r, CSTParser.parseSubCST 25 (fileParser (internerOf []) parenString 0) =
        .ok (r, fileParser (internerOf []) parenString 17) ∧
      r.eraseLoc = .String SourceLocation.invalid "hello (world)".toList :=
  subSpec_string SourceLocation.invalid _ 20 25 _ _ parenString_upcoming (by decide)

/-! ## Identifiers -/

theorem canStartIdentifier_ne (ch : Char) (h : canStartIdentifier ch = true) :
    isWhileSpace ch = false ∧ ch ≠ ';' ∧ ch ≠ '/' ∧ ch ≠ chLBrace ∧ ch ≠ chDQuote ∧
    ch ≠ '(' ∧ ch ≠ ')' ∧ ch ≠ '[' ∧ ch ≠ ']' ∧ ch ≠ ':' := by
  refine ⟨?_, ?_, ?_, ?_, ?_, ?_, ?_, ?_, ?_, ?_⟩
  · simp only [canStartIdentifier, Bool.or_eq_true, decide_eq_true_eq] at h
    rcases h with (((h | h) | h) | h) | h
    · subst h; decide
    · subst h; decide
    · subst h; decide
    · subst h; decide
    · simp only [isalpha, Bool.or_eq_true, Bool.and_eq_true, decide_eq_true_eq] at h
      simp only [isWhileSpace, isspace, Bool.or_eq_false_iff, decide_eq_false_iff_not,
        Bool.and_eq_false_iff]
      omega
  all_goals (rintro rfl; revert h; decide)

theorem canContIdentifier_ne_newline (ch : Char) (h : canContIdentifier ch = true) :
    ch ≠ chNewline := by
  rintro rfl; revert h; decide

theorem canStartIdentifier_ne_newline (ch : Char) (h : canStartIdentifier ch = true) :
    ch ≠ chNewline := by
  rintro rfl; revert h; decide

/-- The loop of `lexIdentifierImpl` consumes the longest run of continuation
characters. -/
theorem lexIdentifierLoop_run (b : MemoryBuffer) :
    ∀ (l : Text) (fuel : Nat) (pfx : Text) (line ls : Nat),
      b.data = pfx ++ l → (l.takeWhile canContIdentifier).length + 1 ≤ fuel →
      Lexer.lexIdentifierLoop b fuel ⟨line, pfx.length, ls⟩ =
        .ok ⟨line, pfx.length + (l.takeWhile canContIdentifier).length, ls⟩ := by
  intro l
  induction l with
  | nil =>
    intro fuel pfx line ls hb hfuel
    obtain ⟨fuel, rfl⟩ : ∃ f, fuel = f + 1 := ⟨fuel - 1, by omega⟩
    simp [Lexer.lexIdentifierLoop, Lexer.hasMoreChars, MemoryBuffer.bufferEnd, hb]
  | cons c l ih =>
    intro fuel pfx line ls hb hfuel
    obtain ⟨fuel, rfl⟩ : ∃ f, fuel = f + 1 := ⟨fuel - 1, by omega⟩
    have h1 := charAt_append_cons b pfx c l hb
    have h2 := hasMoreChars_append_cons b pfx c l hb line ls
    rw [Lexer.lexIdentifierLoop]
    simp only [h2, if_true, h1]
    by_cases hc : canContIdentifier c = true
    · have hnl := canContIdentifier_ne_newline c hc
      have hb2 : b.data = (pfx ++ [c]) ++ l := by rw [hb]; simp
      rw [List.takeWhile_cons_of_pos hc] at hfuel ⊢
      have hih := ih fuel (pfx ++ [c]) line ls hb2 (by simpa using hfuel)
      simp only [List.length_append, List.length_singleton] at hih
      simp only [hc, if_true, Lexer.advancePos, h1, hnl, if_false, Res.bind_ok, hih,
        List.length_cons]
      congr 2
      omega
    · rw [List.takeWhile_cons_of_neg hc]
      simp [hc]

theorem take_length_takeWhile (p : Char → Bool) (l : Text) :
    l.take (l.takeWhile p).length = l.takeWhile p := by
  induction l with
  | nil => rfl
  | cons c l ih =>
    by_cases hc : p c = true
    · rw [List.takeWhile_cons_of_pos hc]; simp [ih]
    · rw [List.takeWhile_cons_of_neg hc]; simp

theorem getElem_length_takeWhile (p : Char → Bool) (l : Text) (x : Char)
    (h : l[(l.takeWhile p).length]? = some x) : p x = false := by
  induction l with
  | nil => simp at h
  | cons c l ih =>
    by_cases hc : p c = true
    · rw [List.takeWhile_cons_of_pos hc] at h
      exact ih (by simpa using h)
    · rw [List.takeWhile_cons_of_neg hc] at h
      simp at h
      subst h
      simpa using hc

/-- What `lex()` returns when the cursor is at an identifier-start
character. -/
theorem lex_identifier_run (fuel : Nat) (ii : IdentifierInterner) (s : Lexer) (ch : Char)
    (hla : s.lookahead = none) (hch : s.buffer.data[s.cursor.curPos]? = some ch)
    (hstart : canStartIdentifier ch = true)
    (hfuel : ((s.buffer.data.drop (s.cursor.curPos + 1)).takeWhile canContIdentifier).length + 2
      ≤ fuel) :
    Lexer.lex fuel ii s =
      .ok (⟨.Identifier,
            .id (ii.get (ch ::
              (s.buffer.data.drop (s.cursor.curPos + 1)).takeWhile canContIdentifier)).1,
            Lexer.getSourceLocation s.fileID
              ⟨s.cursor.line, s.cursor.curPos + 1 +
                ((s.buffer.data.drop (s.cursor.curPos + 1)).takeWhile canContIdentifier).length,
                s.cursor.lineStart⟩⟩,
          (ii.get (ch ::
            (s.buffer.data.drop (s.cursor.curPos + 1)).takeWhile canContIdentifier)).2,
          { s with cursor := ⟨s.cursor.line, s.cursor.curPos + 1 +
              ((s.buffer.data.drop (s.cursor.curPos + 1)).takeWhile canContIdentifier).length,
              s.cursor.lineStart⟩ }) := by
  obtain ⟨fuel, rfl⟩ : ∃ f, fuel = f + 1 := ⟨fuel - 1, by omega⟩
  obtain ⟨hc, hlt⟩ := charAt_of_getElem _ _ _ hch
  obtain ⟨n0, n1, n2, n3, n4, n5, n6, n7, n8, n9⟩ := canStartIdentifier_ne ch hstart
  have hnl := canStartIdentifier_ne_newline ch hstart
  have hmore : Lexer.hasMoreChars s.buffer s.cursor = true := by
    simp [Lexer.hasMoreChars, MemoryBuffer.bufferEnd, hlt]
  have hskip : Lexer.skipWhiteSpaces s.buffer (fuel + 1) s.cursor = .ok s.cursor := by
    rw [Lexer.skipWhiteSpaces]
    simp only [hmore, if_true, hc, n0, n1, n2, if_false, Bool.false_eq_true]
  have hne : s.cursor.curPos ≠ s.buffer.bufferEnd := by
    simp only [MemoryBuffer.bufferEnd]; omega
  have hb : s.buffer.data = (s.buffer.data.take (s.cursor.curPos + 1)) ++
      s.buffer.data.drop (s.cursor.curPos + 1) := (List.take_append_drop _ _).symm
  have hlen : (s.buffer.data.take (s.cursor.curPos + 1)).length = s.cursor.curPos + 1 := by
    rw [List.length_take]; omega
  have hloop := lexIdentifierLoop_run s.buffer _ (fuel + 1) _ s.cursor.line s.cursor.lineStart hb
    (by omega)
  rw [hlen] at hloop
  have hdrop : s.buffer.data.drop s.cursor.curPos
      = ch :: s.buffer.data.drop (s.cursor.curPos + 1) := by
    rw [List.drop_eq_getElem_cons hlt]
    congr 1
    rw [List.getElem?_eq_getElem hlt] at hch
    exact Option.some.inj hch
  have hslice : s.buffer.slice s.cursor.curPos (s.cursor.curPos + 1 +
      ((s.buffer.data.drop (s.cursor.curPos + 1)).takeWhile canContIdentifier).length
        - s.cursor.curPos)
      = ch :: (s.buffer.data.drop (s.cursor.curPos + 1)).takeWhile canContIdentifier := by
    have e : ∀ n, s.cursor.curPos + 1 + n - s.cursor.curPos = n + 1 := by intro n; omega
    rw [e]
    simp only [MemoryBuffer.slice, hdrop, List.take_succ_cons, take_length_takeWhile]
  simp only [Lexer.lex, hla, Lexer.scan, hskip, Res.bind_ok, hne, if_false, hc, Lexer.lexSwitch,
    n3, n4, n5, n6, n7, n8, n9, hstart, if_true, Lexer.lexIdentifierImpl, Lexer.advancePos, hnl,
    hloop, hslice, Token.createIdentifier]

/-- C13: when the cursor is at an identifier-start character `ch`, `lex()`
returns the `Identifier` token whose id is the interner's id for `ch` followed
by the longest run of continuation characters after it, and the cursor stops
just after that run: at the buffer end or on a character that is not a
continuation character. -/
theorem lex_identifier_maximal_munch (fuel : Nat) (ii : IdentifierInterner) (s : Lexer)
    (ch : Char) (hla : s.lookahead = none)
    (hch : s.buffer.data[s.cursor.curPos]? = some ch)
    (hstart : canStartIdentifier ch = true)
    (hfuel : ((s.buffer.data.drop (s.cursor.curPos + 1)).takeWhile canContIdentifier).length + 2
      ≤ fuel) :
    Lexer.lex fuel ii s =
      .ok (⟨.Identifier,
            .id (ii.get (ch ::
              (s.buffer.data.drop (s.cursor.curPos + 1)).takeWhile canContIdentifier)).1,
            Lexer.getSourceLocation s.fileID
              ⟨s.cursor.line, s.cursor.curPos + 1 +
                ((s.buffer.data.drop (s.cursor.curPos + 1)).takeWhile canContIdentifier).length,
                s.cursor.lineStart⟩⟩,
          (ii.get (ch ::
            (s.buffer.data.drop (s.cursor.curPos + 1)).takeWhile canContIdentifier)).2,
          { s with cursor := ⟨s.cursor.line, s.cursor.curPos + 1 +
              ((s.buffer.data.drop (s.cursor.curPos + 1)).takeWhile canContIdentifier).length,
              s.cursor.lineStart⟩ }) ∧
    (∀ x, s.buffer.data[s.cursor.curPos + 1 +
        ((s.buffer.data.drop (s.cursor.curPos + 1)).takeWhile canContIdentifier).length]? = some x →
      canContIdentifier x = false) ∧
    (∀ x ∈ (s.buffer.data.drop (s.cursor.curPos + 1)).takeWhile canContIdentifier,
      canContIdentifier x = true) := by
  refine ⟨lex_identifier_run fuel ii s ch hla hch hstart hfuel, ?_, ?_⟩
  · intro x hx
    apply getElem_length_takeWhile canContIdentifier (s.buffer.data.drop (s.cursor.curPos + 1))
    rw [List.getElem?_drop]
    exact hx
  · intro x hx
    exact List.mem_takeWhile_imp hx

theorem lex_identifier_maximal_munch_witness :
    Lexer.lex 8 IdentifierInterner.fresh (Lexer.create ⟨identifierText, false⟩ 1) =
      .ok (⟨.Identifier, .id 1, ⟨0, 7, 1⟩⟩, ⟨1, [("a<b:c2".toList, 1)]⟩,
        ⟨⟨identifierText, false⟩, 1, ⟨0, 6, 0⟩, none⟩) :=
  (lex_identifier_maximal_munch 8 IdentifierInterner.fresh
    (Lexer.create ⟨identifierText, false⟩ 1) 'a' rfl (by decide) (by decide) (by decide)).1

/-! ## A null first subform -/

/-- On the tokens `:` Identifier(m) `)` after the `(`, the loop of
`parseRawExpressionCST()` pushes the null pointer `parseSubCST()` returns for
`:`, takes `m` as the tag, and closes the expression. -/
theorem parseRawExpressionLoop_null_subform (N m : Nat) (p1 pE : CSTParser) (t0 : Token)
    (hup : p1.Upcoming N
      [(.Colon, .placeHolder), (.Identifier, .id m), (.CloseParen, .placeHolder)] pE)
    (fuel : Nat) (hfuel : N + 3 ≤ fuel) :
    CSTParser.parseRawExpressionLoop fuel p1 t0 Token.default true [] =
      .ok (.Expression t0.loc m [.nullptr], pE) := by
  obtain ⟨fuel, rfl⟩ : ∃ f, fuel = f + 1 + 1 := ⟨fuel - 2, by omega⟩
  obtain ⟨tC, pkC, p2, hkcC, hpeekC, hlexC, hfixC, hrest, _⟩ := Upcoming_peek N p1 pE _ _ hup
  obtain ⟨hkC, _⟩ := kc_eq tC _ _ hkcC
  obtain ⟨tI, p3, hkcI, hlexI, hrest2⟩ := hrest
  obtain ⟨hkI, hcI⟩ := kc_eq tI _ _ hkcI
  obtain ⟨tR, pkR, p4, hkcR, hpeekR, hlexR, _, hrest3, _⟩ := Upcoming_peek N p3 pE _ _ hrest2
  obtain ⟨hkR, _⟩ := kc_eq tR _ _ hkcR
  simp only [CSTParser.Upcoming] at hrest3
  subst hrest3
  have hmm : tI.machineModeID = .ok m := by
    simp [Token.machineModeID, Token.isValid, Token.getID, hkI, hcI]
  rw [CSTParser.parseRawExpressionLoop]
  simp only [hpeekC (fuel + 1) (by omega), Res.bind_ok, hkC, reduceCtorEq, if_false]
  rw [parseSubCST_no_subform fuel pkC tC hfixC (by rw [hkC]; rfl)]
  simp only [Res.bind_ok, if_true, hfixC, hkC, hlexC, CSTParser.expect,
    hlexI (fuel + 1) (by omega), List.nil_append]
  rw [CSTParser.parseRawExpressionLoop]
  simp only [hpeekR fuel (by omega), Res.bind_ok, hkR, if_true, hlexR, hmm]

/-- On the tokens `(` `:` Identifier(m) `)`, `parseTopCST()` builds an
Expression whose only subform is the null pointer, and `getLeadID()`
dereferences it. -/
theorem parseTopCST_null_subform (N m : Nat) (p pE : CSTParser)
    (hup : p.Upcoming N
      [(.OpenParen, .placeHolder), (.Colon, .placeHolder), (.Identifier, .id m),
        (.CloseParen, .placeHolder)] pE)
    (fuel : Nat) (hfuel : N + 5 ≤ fuel) :
    CSTParser.parseTopCST fuel p = .fault := by
  obtain ⟨fuel, rfl⟩ : ∃ f, fuel = f + 1 + 1 := ⟨fuel - 2, by omega⟩
  obtain ⟨t0, p1, hkc0, hlex0, hrest⟩ := hup
  obtain ⟨hk0, _⟩ := kc_eq t0 _ _ hkc0
  obtain ⟨pk0, hskip, hstack, hlexk⟩ :=
    skipEmptyLexers_stop N p p1 t0 hlex0 (by rw [hk0]; decide)
  have hloop := parseRawExpressionLoop_null_subform N m p1 pE t0 hrest fuel (by omega)
  rw [parseTopCST_succ, hskip _ (by omega), Res.bind_ok]
  simp only [CSTParser.parseTopBody, hstack, Bool.false_eq_true, if_false]
  rw [CSTParser.parseRawExpressionCST]
  simp only [CSTParser.expect, hlexk, Res.bind_ok, hloop, CST.getLeadID, Res.bind_fault]

theorem colonText_upcoming :
    (fileParser (internerOf []) colonText 0).Upcoming 5
      [(.OpenParen, .placeHolder), (.Colon, .placeHolder), (.Identifier, .id 2),
        (.CloseParen, .placeHolder)]
      (fileParser (internerOf ["a".toList]) colonText 5) := by
  refine Upcoming_cons 5 _ (fileParser (internerOf []) colonText 1) _
    ⟨.OpenParen, .placeHolder, ⟨0, 2, 1⟩⟩ _ _ rfl (by decide) ?_
  refine Upcoming_cons 5 _ (fileParser (internerOf []) colonText 2) _
    ⟨.Colon, .placeHolder, ⟨0, 3, 1⟩⟩ _ _ rfl (by decide) ?_
  refine Upcoming_cons 5 _ (fileParser (internerOf ["a".toList]) colonText 4) _
    ⟨.Identifier, .id 2, ⟨0, 5, 1⟩⟩ _ _ rfl (by decide) ?_
  refine Upcoming_cons 5 _ (fileParser (internerOf ["a".toList]) colonText 5) _
    ⟨.CloseParen, .placeHolder, ⟨0, 6, 1⟩⟩ _ _ rfl (by decide) ?_
  rfl

/-- C14: on the main file `(: a)` the parser builds an Expression whose first
subform is the null pointer `parseSubCST()` returned for `:`; `getLeadID()`
reads the kind of that subform through the null pointer instead of returning
0, so `parseTopCST()` faults. -/
theorem getLeadID_null_first_subform :
    CSTParser.create IdentifierInterner.fresh [] (some colonText) =
      .ok (fileParser (internerOf []) colonText 0) ∧
    (∀ fuel, 8 ≤ fuel →
      CSTParser.parseRawExpressionCST (fuel + 1) (fileParser (internerOf []) colonText 0) =
        .ok (.Expression ⟨0, 2, 1⟩ 2 [.nullptr],
          fileParser (internerOf ["a".toList]) colonText 5)) ∧
    CST.getLeadID (.Expression ⟨0, 2, 1⟩ 2 [.nullptr]) = .fault ∧
    ∀ fuel, 10 ≤ fuel →
      CSTParser.parseTopCST fuel (fileParser (internerOf []) colonText 0) = .fault := by
  refine ⟨by decide, ?_, rfl, ?_⟩
  · intro fuel hfuel
    obtain ⟨t0, p1, hkc0, hlex0, hrest⟩ := colonText_upcoming
    have h0 : (fileParser (internerOf []) colonText 0).lexTop 5 =
        .ok (⟨.OpenParen, .placeHolder, ⟨0, 2, 1⟩⟩, fileParser (internerOf []) colonText 1) := by
      decide
    have h1 := hlex0 5 (le_refl _)
    rw [h0] at h1
    simp only [Res.ok.injEq, Prod.mk.injEq] at h1
    obtain ⟨ht, hp⟩ := h1
    subst ht hp
    rw [CSTParser.parseRawExpressionCST]
    simp only [CSTParser.expect, hlex0 fuel (by omega), Res.bind_ok]
    exact parseRawExpressionLoop_null_subform 5 2 _ _ _ hrest fuel (by omega)
  · intro fuel hfuel
    exact parseTopCST_null_subform 5 2 _ _ colonText_upcoming fuel hfuel

/-- For an Expression whose first subform, if there is one, is a node,
`getLeadID()` is the id of a first subform that is an Identifier and 0 in
every other case. -/
theorem getLeadID_of_nodes (loc : SourceLocation) (mm : Nat) (ss : List CST)
    (hnode : ∀ s rest, ss = s :: rest → s ≠ .nullptr) :
    (∀ l id rest, ss = .Identifier l id :: rest →
      CST.getLeadID (.Expression loc mm ss) = .ok id) ∧
    ((¬ ∃ l id rest, ss = .Identifier l id :: rest) →
      CST.getLeadID (.Expression loc mm ss) = .ok 0) := by
  refine ⟨?_, ?_⟩
  · rintro l id rest rfl; rfl
  · intro h
    cases ss with
    | nil => rfl
    | cons s rest =>
      cases s with
      | nullptr => exact absurd rfl (hnode _ _ rfl)
      | Identifier l id => exact absurd ⟨l, id, rest, rfl⟩ h
      | _ => rfl

/-! ## An include form with a further subform -/

/-- An include-headed form with further subforms after the path is included
all the same: the next call goes on in the included file. -/
theorem parseTopCST_include_extra (N : Nat) (p p1 p2 : CSTParser) (path : Text)
    (extra : List CST) (hwf : CST.WellFormedList extra)
    (hup : p.Upcoming N (CST.Expression SourceLocation.invalid 0
      (.Identifier SourceLocation.invalid p.ID_include ::
        .String SourceLocation.invalid path :: extra)).write p1)
    (hinc : p1.includeFile path = .ok p2) (fuel : Nat)
    (hfuel : N + 2 + CST.stepsList (.Identifier SourceLocation.invalid p.ID_include ::
        .String SourceLocation.invalid path :: extra) ≤ fuel) :
    CSTParser.parseTopCST (fuel + 1) p = CSTParser.parseTopCST fuel p2 := by
  have hwfe : (CST.Expression SourceLocation.invalid 0
      (.Identifier SourceLocation.invalid p.ID_include ::
        .String SourceLocation.invalid path :: extra)).WellFormed := by
    simp [CST.WellFormed, CST.WellFormedList, hwf]
  obtain ⟨pk, r, hskip, hstack, hparse, her, hid⟩ :=
    parseTop_expression N p p1 _ _ _ hwfe hup
  have hlead : r.getLeadID = .ok p.ID_include := by
    rw [← getLeadID_eraseLoc, her, getLeadID_eraseLoc]; rfl
  have hpath : r.includePath = .ok path := by
    rw [← includePath_eraseLoc, her, includePath_eraseLoc]; rfl
  rw [parseTopCST_succ]
  obtain ⟨fuel, rfl⟩ : ∃ f, fuel = f + 1 := ⟨fuel - 1, by omega⟩
  rw [hskip fuel (by omega), Res.bind_ok]
  simp only [CSTParser.parseTopBody, hstack, Bool.false_eq_true, if_false,
    hparse (fuel + 1) (by omega), Res.bind_ok, hlead, hid, if_true, hpath, hinc]

theorem includeExtraMain_upcoming :
    (extraParser (internerOf []) 1 0).Upcoming 10 includeExtraTree.write
      (extraParser (internerOf ["x".toList]) 1 19) := by
  refine Upcoming_cons 10 _ (extraParser (internerOf []) 1 1) _
    ⟨.OpenParen, .placeHolder, ⟨0, 2, 1⟩⟩ _ _ rfl (by decide) ?_
  refine Upcoming_cons 10 _ (extraParser (internerOf []) 1 8) _
    ⟨.Identifier, .id 1, ⟨0, 9, 1⟩⟩ _ _ rfl (by decide) ?_
  refine Upcoming_cons 10 _ (extraParser (internerOf []) 1 16) _
    ⟨.String, .str "sub.g".toList, ⟨0, 16, 1⟩⟩ _ _ rfl (by decide) ?_
  refine Upcoming_cons 10 _ (extraParser (internerOf ["x".toList]) 1 18) _
    ⟨.Identifier, .id 2, ⟨0, 19, 1⟩⟩ _ _ rfl (by decide) ?_
  refine Upcoming_cons 10 _ (extraParser (internerOf ["x".toList]) 1 19) _
    ⟨.CloseParen, .placeHolder, ⟨0, 20, 1⟩⟩ _ _ rfl (by decide) ?_
  rfl

theorem extraSub_upcoming :
    (extraSubParser (internerOf ["x".toList]) 0).Upcoming 10 okTreeThird.write
      (extraSubParser (internerOf ["x".toList, "ok".toList]) 4) := by
  refine Upcoming_cons 10 _ (extraSubParser (internerOf ["x".toList]) 1) _
    ⟨.OpenParen, .placeHolder, ⟨0, 2, 2⟩⟩ _ _ rfl (by decide) ?_
  refine Upcoming_cons 10 _ (extraSubParser (internerOf ["x".toList, "ok".toList]) 3) _
    ⟨.Identifier, .id 3, ⟨0, 4, 2⟩⟩ _ _ rfl (by decide) ?_
  refine Upcoming_cons 10 _ (extraSubParser (internerOf ["x".toList, "ok".toList]) 4) _
    ⟨.CloseParen, .placeHolder, ⟨0, 5, 2⟩⟩ _ _ rfl (by decide) ?_
  rfl

/-- C15: the main file `(include "sub.g" x)` holds an include-headed form with
three subforms, and `parseTopCST()` includes `sub.g` all the same: the file is
opened, its lexer is pushed, and the call returns the `(ok)` of `sub.g` with
two lexers on the stack. -/
theorem include_wrong_arity_still_includes :
    CSTParser.create IdentifierInterner.fresh includeFiles (some includeExtraMain) =
      .ok (extraParser (internerOf []) 1 0) ∧
    (∃ e, CSTParser.parseRawExpressionCST 20 (extraParser (internerOf []) 1 0) =
        .ok (e, extraParser (internerOf ["x".toList]) 1 19) ∧
      e.eraseLoc = includeExtraTree.eraseLoc) ∧
    (extraParser (internerOf ["x".toList]) 1 19).includeFile "sub.g".toList =
      .ok (extraSubParser (internerOf ["x".toList]) 0) ∧
    (∀ fuel, 30 ≤ fuel → ∃ r,
      CSTParser.parseTopCST fuel (extraParser (internerOf []) 1 0) =
        .ok (r, extraSubParser (internerOf ["x".toList, "ok".toList]) 4) ∧
      r.eraseLoc = okTreeThird.eraseLoc) ∧
    (extraSubParser (internerOf ["x".toList, "ok".toList]) 4).lexerStack.length = 2 := by
  have hwf : includeExtraTree.WellFormed := by
    simp [includeExtraTree, CST.WellFormed, CST.WellFormedList]
  refine ⟨by decide, ?_, by decide, ?_, rfl⟩
  · have hl := loopSpec_of_wellFormed
      [.Identifier SourceLocation.invalid 1, .String SourceLocation.invalid "sub.g".toList,
        .Identifier SourceLocation.invalid 2]
      (by simp [CST.WellFormed, CST.WellFormedList])
    exact parseRawExpressionCST_write _ _ _ hwf hl.1 hl.2.2.2 10 20 _ _
      includeExtraMain_upcoming (by decide)
  · intro fuel hfuel
    obtain ⟨fuel, rfl⟩ : ∃ f, fuel = f + 1 := ⟨fuel - 1, by omega⟩
    rw [parseTopCST_include_extra 10 (extraParser (internerOf []) 1 0)
      (extraParser (internerOf ["x".toList]) 1 19) (extraSubParser (internerOf ["x".toList]) 0)
      "sub.g".toList [.Identifier SourceLocation.invalid 2]
      (by simp [CST.WellFormed, CST.WellFormedList]) includeExtraMain_upcoming (by decide) fuel
      (by simp [CST.stepsList, CST.steps]; omega)]
    obtain ⟨r, hr, _, her⟩ := parseTop_form 10 (extraSubParser (internerOf ["x".toList]) 0) _
      okTreeThird
      ⟨by simp [okTreeThird, CST.WellFormed, CST.WellFormedList], ⟨_, _, _, rfl⟩, 3, rfl,
        by decide⟩
      extraSub_upcoming fuel (by simp [okTreeThird, CST.steps, CST.stepsList]; omega)
    exact ⟨r, hr, her⟩

/-! ## Locations, and escapes and comments inside code blocks -/

/-- C16: on the buffer `/*`, newline, `*/a` the identifier token has line 0,
the initial line, although one newline lies before its position: the loop
that skips a `/* */` comment does not count newlines, while the loops for `//`
and `;` comments do. -/
theorem line_not_counted_in_block_comment :
    Lexer.lex 10 IdentifierInterner.fresh (Lexer.create ⟨blockCommentNewline, false⟩ 1) =
      .ok (⟨.Identifier, .id 1, ⟨0, 7, 1⟩⟩, ⟨1, [(['a'], 1)]⟩,
        ⟨⟨blockCommentNewline, false⟩, 1, ⟨0, 6, 0⟩, none⟩) ∧
    newlinesBefore blockCommentNewline 6 = 1 ∧
    (Lexer.create ⟨blockCommentNewline, false⟩ 1).cursor.line = 0 ∧
    Lexer.lex 10 IdentifierInterner.fresh (Lexer.create ⟨slashCommentNewline, false⟩ 1) =
      .ok (⟨.Identifier, .id 1, ⟨1, 6, 1⟩⟩, ⟨1, [(['a'], 1)]⟩,
        ⟨⟨slashCommentNewline, false⟩, 1, ⟨1, 5, 0⟩, none⟩) := by
  decide

/-- C17: on the buffer `//x`, newline, `a` the identifier token ends at
offset 5, one character after the start of its line, so its column measured
from the line start is 2; the token carries column 6: the loop that skips a
`//` comment counts the newline but leaves `lineStart` at the start of the
buffer, while `advancePos()`, used for `;` comments, moves it. -/
theorem column_not_from_line_start :
    Lexer.lex 10 IdentifierInterner.fresh (Lexer.create ⟨slashCommentNewline, false⟩ 1) =
      .ok (⟨.Identifier, .id 1, ⟨1, 6, 1⟩⟩, ⟨1, [(['a'], 1)]⟩,
        ⟨⟨slashCommentNewline, false⟩, 1, ⟨1, 5, 0⟩, none⟩) ∧
    columnFromLineStart slashCommentNewline 5 = 2 ∧
    Lexer.lex 10 IdentifierInterner.fresh (Lexer.create ⟨semiCommentNewline, false⟩ 1) =
      .ok (⟨.Identifier, .id 1, ⟨1, 2, 1⟩⟩, ⟨1, [(['a'], 1)]⟩,
        ⟨⟨semiCommentNewline, false⟩, 1, ⟨1, 4, 3⟩, none⟩) ∧
    columnFromLineStart semiCommentNewline 4 = 2 := by
  decide

/-- C18: the constructor of `Lexer` starts `line` at 0, so the first token of
the buffer `a`, lexed before any newline, has line 0 and not 1. -/
theorem first_token_line_zero :
    (∀ (buffer : MemoryBuffer) (fileID : Nat), (Lexer.create buffer fileID).cursor.line = 0) ∧
    Lexer.lex 10 IdentifierInterner.fresh (Lexer.create ⟨singleIdentifier, false⟩ 1) =
      .ok (⟨.Identifier, .id 1, ⟨0, 2, 1⟩⟩, ⟨1, [(['a'], 1)]⟩,
        ⟨⟨singleIdentifier, false⟩, 1, ⟨0, 1, 0⟩, none⟩) ∧
    newlinesBefore singleIdentifier 1 = 0 :=
  ⟨fun _ _ => rfl, by decide, by decide⟩

/-- C19: on the buffer `{ "a\"b}" }` the scan returns the text ` "a\"b`: the
escaped quote ends the string literal, and the brace after it, still inside
the literal, closes the block.  The same happens with the escaped quote of a
character literal, on the buffer `{ '\'}' }`. -/
theorem code_block_escaped_quote_closes_string :
    Lexer.lex 20 IdentifierInterner.fresh (Lexer.create ⟨escapedQuoteInBlock, false⟩ 1) =
      .ok (⟨.CodeString, .str [' ', chDQuote, 'a', chBackslash, chDQuote, 'b'], ⟨0, 8, 1⟩⟩,
        IdentifierInterner.fresh, ⟨⟨escapedQuoteInBlock, false⟩, 1, ⟨0, 8, 0⟩, none⟩) ∧
    [' ', chDQuote, 'a', chBackslash, chDQuote, 'b'] ≠ (escapedQuoteInBlock.drop 1).take 9 ∧
    Lexer.lex 20 IdentifierInterner.fresh (Lexer.create ⟨escapedQuoteInCharBlock, false⟩ 1) =
      .ok (⟨.CodeString, .str [' ', chSQuote, chBackslash, chSQuote], ⟨0, 6, 1⟩⟩,
        IdentifierInterner.fresh, ⟨⟨escapedQuoteInCharBlock, false⟩, 1, ⟨0, 6, 0⟩, none⟩) ∧
    [' ', chSQuote, chBackslash, chSQuote] ≠ (escapedQuoteInCharBlock.drop 1).take 7 := by
  decide

/-- C20: on the buffer `{/***/} */}` the comment `/***/` is not left at its
`*/`: the scan takes the second and third `*` as a pair, stays in comment mode
over the `}` that follows, and returns the text `/***/} */`. -/
theorem code_block_star_comment_not_closed :
    Lexer.lex 20 IdentifierInterner.fresh (Lexer.create ⟨starCommentBlock, false⟩ 1) =
      .ok (⟨.CodeString, .str ['/', '*', '*', '*', '/', chRBrace, ' ', '*', '/'], ⟨0, 11, 1⟩⟩,
        IdentifierInterner.fresh, ⟨⟨starCommentBlock, false⟩, 1, ⟨0, 11, 0⟩, none⟩) ∧
    ['/', '*', '*', '*', '/', chRBrace, ' ', '*', '/'] ≠ (starCommentBlock.drop 1).take 5 := by
  decide

/-! ## At most one mode of the code-block scan is active -/

/-- The trace is the trace of the loop: its outcome is the outcome of
`Lexer.lexCodeStringLoop`. -/
theorem lexCodeStringTrace_fst (b : MemoryBuffer) :
    ∀ (fuel : Nat) (m : CodeScan) (c : Cursor),
      (Lexer.lexCodeStringTrace b fuel m c).1 = Lexer.lexCodeStringLoop b fuel m c := by
  intro fuel
  induction fuel with
  | zero => intro m c; rfl
  | succ fuel ih =>
    intro m c
    rw [Lexer.lexCodeStringTrace, Lexer.lexCodeStringLoop]
    cases h1 : Lexer.advanceCodePos b fuel c with
    | ok r =>
      obtain ⟨flag, c1⟩ := r
      cases flag with
      | false => rfl
      | true =>
        simp only
        cases h2 : (Lexer.codeChar b c1).bind fun r => Lexer.codeStep b fuel m r.1 r.2 with
        | ok r2 =>
          obtain ⟨brk, m2, c2⟩ := r2
          cases brk with
          | false => simp only; exact ih m2 c2
          | true => rfl
        | fault => rfl
        | timeout => rfl
    | fault => rfl
    | timeout => rfl

/-- One pass of the loop body keeps the number of active modes at most 1. -/
theorem codeStep_activeModes (b : MemoryBuffer) (fuel : Nat) (m : CodeScan) (ch : Char)
    (c : Cursor) (hm : m.activeModes ≤ 1) :
    Res.Holds (fun r => r.2.1.activeModes ≤ 1) (Lexer.codeStep b fuel m ch c) := by
  obtain ⟨s, k, l, bc, n⟩ := m
  cases s <;> cases k <;> cases l <;> cases bc <;>
    simp only [CodeScan.activeModes, Bool.toNat_true, Bool.toNat_false] at hm <;>
    first
      | omega
      | skip
  all_goals
    simp only [Lexer.codeStep, Bool.false_eq_true, if_false, if_true]
    repeat' first
      | exact Res.holds_fault
      | exact Res.holds_ok (by simp [CodeScan.activeModes])
      | apply Res.holds_ite
      | intro (_ : _ = _)
      | intro (_ : ¬ _)
      | refine Res.holds_bind (Res.holds_true _) (fun r _ => ?_)
      | split

theorem lexCodeStringTrace_activeModes (b : MemoryBuffer) :
    ∀ (fuel : Nat) (m : CodeScan) (c : Cursor), m.activeModes ≤ 1 →
      ∀ x ∈ (Lexer.lexCodeStringTrace b fuel m c).2, x.activeModes ≤ 1 := by
  intro fuel
  induction fuel with
  | zero =>
    intro m c hm x hx
    simp only [Lexer.lexCodeStringTrace, List.mem_singleton] at hx
    rw [hx]; exact hm
  | succ fuel ih =>
    intro m c hm x hx
    rw [Lexer.lexCodeStringTrace] at hx
    cases h1 : Lexer.advanceCodePos b fuel c with
    | ok r =>
      obtain ⟨flag, c1⟩ := r
      rw [h1] at hx
      cases flag with
      | false =>
        simp only [List.mem_singleton] at hx
        rw [hx]; exact hm
      | true =>
        simp only at hx
        cases h2 : (Lexer.codeChar b c1).bind fun r => Lexer.codeStep b fuel m r.1 r.2 with
        | ok r2 =>
          obtain ⟨brk, m2, c2⟩ := r2
          have hm2 : m2.activeModes ≤ 1 := by
            obtain ⟨a, _, ha⟩ := (Res.bind_eq_ok _ _ _).1 h2
            exact codeStep_activeModes b fuel m a.1 a.2 hm _ ha
          rw [h2] at hx
          cases brk with
          | false =>
            simp only [List.mem_cons] at hx
            rcases hx with hx | hx
            · rw [hx]; exact hm
            · exact ih m2 c2 hm2 x hx
          | true =>
            simp only [List.mem_cons, List.mem_singleton, List.not_mem_nil, or_false] at hx
            rcases hx with hx | hx
            · rw [hx]; exact hm
            · rw [hx]; exact hm2
        | fault =>
          rw [h2] at hx
          simp only [List.mem_singleton] at hx
          rw [hx]; exact hm
        | timeout =>
          rw [h2] at hx
          simp only [List.mem_singleton] at hx
          rw [hx]; exact hm
    | fault =>
      rw [h1] at hx
      simp only [List.mem_singleton] at hx
      rw [hx]; exact hm
    | timeout =>
      rw [h1] at hx
      simp only [List.mem_singleton] at hx
      rw [hx]; exact hm

/-- C21: for every buffer, cursor and step budget, at every evaluation of the
loop condition of the code-block scan, and when the loop is left, at most one
of `insideString`, `insideChar`, `insideLineComment` and `insideBlockComment`
is set. -/
theorem code_scan_modes_exclusive (b : MemoryBuffer) (fuel : Nat) (c : Cursor) :
    (Lexer.lexCodeStringTrace b fuel CodeScan.start c).1 =
      Lexer.lexCodeStringLoop b fuel CodeScan.start c ∧
    ∀ m ∈ (Lexer.lexCodeStringTrace b fuel CodeScan.start c).2, m.activeModes ≤ 1 :=
  ⟨lexCodeStringTrace_fst b fuel _ c,
    lexCodeStringTrace_activeModes b fuel _ c (by decide)⟩

/-- On the buffer `{ "a" 'b' /*c*/ //d`, newline, `}` the scan ends at the
closing brace and passes through each of the four modes. -/
theorem code_scan_modes_example :
    (Lexer.lexCodeStringTrace ⟨allModesBlock, false⟩ 30 CodeScan.start ⟨0, 0, 0⟩).1 =
      .ok ⟨1, 20, 0⟩ ∧
    (Lexer.lexCodeStringTrace ⟨allModesBlock, false⟩ 30 CodeScan.start ⟨0, 0, 0⟩).2.map
        (fun m => (m.insideString, m.insideChar, m.insideLineComment, m.insideBlockComment)) =
      [(false, false, false, false), (false, false, false, false),
        (true, false, false, false), (true, false, false, false),
        (false, false, false, false), (false, false, false, false),
        (false, true, false, false), (false, true, false, false),
        (false, false, false, false), (false, false, false, false),
        (false, false, false, true), (false, false, false, true),
        (false, false, false, false), (false, false, false, false),
        (false, false, true, false), (false, false, true, false),
        (false, false, false, false), (false, false, false, false)] := by
  decide

/-! ## Inputs on which the lexer does not finish -/

/-- `skipWhiteSpaces()` on a `/` that starts neither `/*` nor `//`: the branch
for `/` leaves `curPos` where it is and the loop comes back to the same
character, whatever the step budget. -/
theorem skipWhiteSpaces_lone_slash (b : MemoryBuffer) (c : Cursor)
    (hmore : Lexer.hasMoreChars b c = true) (hch : b.charAt c.curPos = some '/')
    (hnext : ¬ (c.curPos + 1 < b.bufferEnd) ∨
      (b.charAt (c.curPos + 1) ≠ some '*' ∧ b.charAt (c.curPos + 1) ≠ some '/')) :
    ∀ fuel, Lexer.skipWhiteSpaces b fuel c = .timeout := by
  intro fuel
  induction fuel with
  | zero => rfl
  | succ fuel ih =>
    have h1 : isWhileSpace '/' = false := by decide
    have h2 : ('/' : Char) ≠ ';' := by decide
    rw [Lexer.skipWhiteSpaces]
    simp only [hmore, if_true, hch, h1, h2, if_false, Bool.false_eq_true]
    rcases hnext with h | ⟨h3, h4⟩
    · rw [if_neg h]; exact ih
    · by_cases h : c.curPos + 1 < b.bufferEnd
      · rw [if_pos h, if_neg h3, if_neg h4]; exact ih
      · rw [if_neg h]; exact ih

/-- The inner loop of `advanceCodePos()` on white space that is not a newline:
`pos1` is never advanced, so the loop reads the same character again,
whatever the step budget. -/
theorem advanceCodePosLoop_stuck (b : MemoryBuffer) (c : Cursor) (pos1 : Nat) (c1 : Char)
    (hlt : pos1 < b.bufferEnd) (hch : b.charAt pos1 = some c1) (hnl : c1 ≠ chNewline)
    (hsp : isspace c1 = true) :
    ∀ fuel, Lexer.advanceCodePosLoop b fuel c pos1 = .timeout := by
  intro fuel
  induction fuel with
  | zero => rfl
  | succ fuel ih =>
    rw [Lexer.advanceCodePosLoop]
    simp only [hlt, if_true, hch, hnl, if_false, hsp, Bool.not_true, Bool.false_eq_true]
    exact ih

/-- C22: `lex()` does not finish on the buffer `/x`, where white-space
skipping meets a `/` that starts neither `/*` nor `//`, nor on the buffer
`{\ }`, where the code-block scan meets a backslash followed by a space: the
outcome is `timeout` for every step budget. -/
theorem lex_does_not_terminate :
    (∀ (fuel : Nat) (ii : IdentifierInterner),
      Lexer.lex fuel ii (Lexer.create ⟨loneSlash, false⟩ 1) = .timeout) ∧
    (∀ (fuel : Nat) (ii : IdentifierInterner),
      Lexer.lex fuel ii (Lexer.create ⟨backslashSpaceBlock, false⟩ 1) = .timeout) := by
  refine ⟨?_, ?_⟩
  · intro fuel ii
    have h := skipWhiteSpaces_lone_slash ⟨loneSlash, false⟩ ⟨0, 0, 0⟩ (by decide) (by decide)
      (Or.inr (by decide)) fuel
    simp only [Lexer.lex, Lexer.create, Lexer.scan, h, Res.bind_timeout]
  · intro fuel ii
    cases fuel with
    | zero => rfl
    | succ fuel =>
      have hskip : Lexer.skipWhiteSpaces ⟨backslashSpaceBlock, false⟩ (fuel + 1) ⟨0, 0, 0⟩
          = .ok ⟨0, 0, 0⟩ :=
        skipWhiteSpaces_lbrace ⟨backslashSpaceBlock, false⟩ [] _ rfl fuel 0 0
      have hstuck := advanceCodePosLoop_stuck ⟨backslashSpaceBlock, false⟩ ⟨0, 1, 0⟩ 2 ' '
        (by decide) (by decide) (by decide) (by decide) fuel
      have hadv : Lexer.advanceCodePos ⟨backslashSpaceBlock, false⟩ fuel ⟨0, 0, 0⟩ = .timeout := by
        rw [Lexer.advanceCodePos]
        have e1 : (⟨backslashSpaceBlock, false⟩ : MemoryBuffer).charAt 0 = some chLBrace := by
          decide
        have e2 : (⟨backslashSpaceBlock, false⟩ : MemoryBuffer).charAt 1 = some chBackslash := by
          decide
        have e3 : Lexer.hasMoreChars ⟨backslashSpaceBlock, false⟩ ⟨0, 1, 0⟩ = true := by decide
        simp only [e1, chars_ne.2.2.2.2.2.2.1, if_false, Nat.zero_add, e3, Bool.not_true,
          Bool.false_eq_true, e2, if_true]
        exact hstuck
      have hloop : Lexer.lexCodeStringLoop ⟨backslashSpaceBlock, false⟩ (fuel + 1) CodeScan.start
          ⟨0, 0, 0⟩ = .timeout := by
        rw [Lexer.lexCodeStringLoop, hadv]
      have hne : (0 : Nat) ≠ (⟨backslashSpaceBlock, false⟩ : MemoryBuffer).bufferEnd := by
        decide
      have e1 : (⟨backslashSpaceBlock, false⟩ : MemoryBuffer).charAt 0 = some chLBrace := by
        decide
      simp only [Lexer.lex, Lexer.create, Lexer.scan, hskip, Res.bind_ok, hne, if_false, e1,
        Lexer.lexSwitch, if_true, Lexer.lexCodeStringImpl, hloop, Res.bind_timeout, withInterner]

/-! ## The cursor after a token that ends at the buffer end -/

/-- An outcome that is not `timeout` is kept by every larger step budget. -/
theorem lex_fault_mono (n m : Nat) (ii : IdentifierInterner) (s : Lexer) (hnm : n ≤ m)
    (h : Lexer.lex n ii s = .fault) : Lexer.lex m ii s = .fault := by
  rcases lex_le n m ii s hnm with h1 | h1
  · rw [h] at h1; cases h1
  · rw [← h1, h]

/-- C23: on the null-terminated buffer `"a` (the buffer of an included file)
`lex()` returns the String token `a` and leaves `curPos` at offset 3, beyond
`bufferEnd` = 2: after its loop stopped at the buffer end, `lexStringImpl()`
still calls `advancePos()`.  The next `lex()` does not return `EndOfStream`:
`curPos` differs from `bufferEnd` and the character read lies beyond the
terminator.  The same happens after the unclosed code block `{a`.  On a buffer
without terminator (the main file) that last `advancePos()` itself reads
beyond the buffer. -/
theorem cursor_leaves_buffer :
    Lexer.lex 10 IdentifierInterner.fresh (Lexer.create ⟨unterminatedString, true⟩ 2) =
      .ok (⟨.String, .str ['a'], ⟨0, 3, 2⟩⟩, IdentifierInterner.fresh,
        ⟨⟨unterminatedString, true⟩, 2, ⟨0, 3, 0⟩, none⟩) ∧
    (⟨unterminatedString, true⟩ : MemoryBuffer).bufferEnd = 2 ∧
    (∀ fuel, 1 ≤ fuel →
      Lexer.lex fuel IdentifierInterner.fresh
        ⟨⟨unterminatedString, true⟩, 2, ⟨0, 3, 0⟩, none⟩ = .fault) ∧
    Lexer.lex 10 IdentifierInterner.fresh (Lexer.create ⟨unterminatedBlock, true⟩ 2) =
      .ok (⟨.CodeString, .str ['a'], ⟨0, 3, 2⟩⟩, IdentifierInterner.fresh,
        ⟨⟨unterminatedBlock, true⟩, 2, ⟨0, 3, 0⟩, none⟩) ∧
    (∀ fuel, 3 ≤ fuel →
      Lexer.lex fuel IdentifierInterner.fresh (Lexer.create ⟨unterminatedString, false⟩ 1) =
        .fault) := by
  refine ⟨by decide, by decide, ?_, by decide, ?_⟩
  · intro fuel hfuel
    exact lex_fault_mono 1 fuel _ _ hfuel (by decide)
  · intro fuel hfuel
    exact lex_fault_mono 3 fuel _ _ hfuel (by decide)

/-! ## Inclusion and text concatenation differ after an unterminated comment -/

theorem commentMain_run :
    TopRun (commentMainParser (internerOf []) 1 0) ([okTree] ++ ([sTree] ++ [])) := by
  have hok : TopForm 1 okTree :=
    ⟨by simp [okTree, CST.WellFormed, CST.WellFormedList], ⟨_, _, _, rfl⟩, 2, rfl, by decide⟩
  have hs : TopForm 1 sTree :=
    ⟨by simp [sTree, CST.WellFormed, CST.WellFormedList], ⟨_, _, _, rfl⟩, 3, rfl, by decide⟩
  refine TopRun_include 10 _ (commentMainParser (internerOf []) 1 17)
    (commentSubParser (internerOf []) 0) "sub.g".toList _ ?_ (by decide) ?_
  · refine Upcoming_cons 10 _ (commentMainParser (internerOf []) 1 1) _
      ⟨.OpenParen, .placeHolder, ⟨0, 2, 1⟩⟩ _ _ rfl (by decide) ?_
    refine Upcoming_cons 10 _ (commentMainParser (internerOf []) 1 8) _
      ⟨.Identifier, .id 1, ⟨0, 9, 1⟩⟩ _ _ rfl (by decide) ?_
    refine Upcoming_cons 10 _ (commentMainParser (internerOf []) 1 16) _
      ⟨.String, .str "sub.g".toList, ⟨0, 16, 1⟩⟩ _ _ rfl (by decide) ?_
    refine Upcoming_cons 10 _ (commentMainParser (internerOf []) 1 17) _
      ⟨.CloseParen, .placeHolder, ⟨0, 18, 1⟩⟩ _ _ rfl (by decide) ?_
    rfl
  · refine TopRun_forms 10 1 [okTree] _ (commentSubParser (internerOf ["ok".toList]) 4) _ rfl
      (by intro t ht; simp only [List.mem_singleton] at ht; subst ht; exact hok) ?_ ?_
    · refine Upcoming_cons 10 _ (commentSubParser (internerOf []) 1) _
        ⟨.OpenParen, .placeHolder, ⟨0, 2, 2⟩⟩ _ _ rfl (by decide) ?_
      refine Upcoming_cons 10 _ (commentSubParser (internerOf ["ok".toList]) 3) _
        ⟨.Identifier, .id 2, ⟨0, 4, 2⟩⟩ _ _ rfl (by decide) ?_
      refine Upcoming_cons 10 _ (commentSubParser (internerOf ["ok".toList]) 4) _
        ⟨.CloseParen, .placeHolder, ⟨0, 5, 2⟩⟩ _ _ rfl (by decide) ?_
      rfl
    · refine TopRun_pop 10 _ (commentSubParser (internerOf ["ok".toList]) 7) _ ?_ ?_
      · refine Upcoming_cons 10 _ (commentSubParser (internerOf ["ok".toList]) 7) _
          ⟨.EndOfStream, .placeHolder, ⟨0, 8, 2⟩⟩ _ _ rfl (by decide) ?_
        rfl
      · show TopRun (commentMainParser (internerOf ["ok".toList]) 2 17) ([sTree] ++ [])
        refine TopRun_forms 10 1 [sTree] _
          (commentMainParser (internerOf ["ok".toList, "s".toList]) 2 20) _ rfl
          (by intro t ht; simp only [List.mem_singleton] at ht; subst ht; exact hs) ?_ ?_
        · refine Upcoming_cons 10 _ (commentMainParser (internerOf ["ok".toList]) 2 18) _
            ⟨.OpenParen, .placeHolder, ⟨0, 19, 1⟩⟩ _ _ rfl (by decide) ?_
          refine Upcoming_cons 10 _
            (commentMainParser (internerOf ["ok".toList, "s".toList]) 2 19) _
            ⟨.Identifier, .id 3, ⟨0, 20, 1⟩⟩ _ _ rfl (by decide) ?_
          refine Upcoming_cons 10 _
            (commentMainParser (internerOf ["ok".toList, "s".toList]) 2 20) _
            ⟨.CloseParen, .placeHolder, ⟨0, 21, 1⟩⟩ _ _ rfl (by decide) ?_
          rfl
        · refine TopRun_pop 10 _
            (commentMainParser (internerOf ["ok".toList, "s".toList]) 2 20) _ ?_
            (TopRun_empty _ rfl)
          refine Upcoming_cons 10 _
            (commentMainParser (internerOf ["ok".toList, "s".toList]) 2 20) _
            ⟨.EndOfStream, .placeHolder, ⟨0, 21, 1⟩⟩ _ _ rfl (by decide) ?_
          rfl

theorem commentSingle_run :
    TopRun (commentSingleParser (internerOf []) 0) ([okTree] ++ []) := by
  have hok : TopForm 1 okTree :=
    ⟨by simp [okTree, CST.WellFormed, CST.WellFormedList], ⟨_, _, _, rfl⟩, 2, rfl, by decide⟩
  refine TopRun_forms 10 1 [okTree] _ (commentSingleParser (internerOf ["ok".toList]) 4) _ rfl
    (by intro t ht; simp only [List.mem_singleton] at ht; subst ht; exact hok) ?_ ?_
  · refine Upcoming_cons 10 _ (commentSingleParser (internerOf []) 1) _
      ⟨.OpenParen, .placeHolder, ⟨0, 2, 1⟩⟩ _ _ rfl (by decide) ?_
    refine Upcoming_cons 10 _ (commentSingleParser (internerOf ["ok".toList]) 3) _
      ⟨.Identifier, .id 2, ⟨0, 4, 1⟩⟩ _ _ rfl (by decide) ?_
    refine Upcoming_cons 10 _ (commentSingleParser (internerOf ["ok".toList]) 4) _
      ⟨.CloseParen, .placeHolder, ⟨0, 5, 1⟩⟩ _ _ rfl (by decide) ?_
    rfl
  · refine TopRun_pop 10 _ (commentSingleParser (internerOf ["ok".toList]) 10) _ ?_
      (TopRun_empty _ rfl)
    refine Upcoming_cons 10 _ (commentSingleParser (internerOf ["ok".toList]) 10) _
      ⟨.EndOfStream, .placeHolder, ⟨0, 11, 1⟩⟩ _ _ rfl (by decide) ?_
    rfl

/-- C3, counterexample: the included file `sub.g` holds `(ok)//c` and the
main file is `(include "sub.g")(s)`.  Calling `parseTopCST()` until the null
pointer gives `(ok)` and `(s)` on the main file, but only `(ok)` on the single
file `(ok)//c(s)`, where the comment that the end of `sub.g` ended runs on
over `(s)`. -/
theorem include_not_transparent_for_text :
    CSTParser.create IdentifierInterner.fresh commentFiles (some commentMain) =
      .ok (commentMainParser (internerOf []) 1 0) ∧
    CSTParser.create IdentifierInterner.fresh commentFiles (some commentSingle) =
      .ok (commentSingleParser (internerOf []) 0) ∧
    commentSingle = [] ++ (commentSub ++ "(s)".toList) ∧
    commentMain = [] ++ ("(include \"sub.g\")".toList ++ "(s)".toList) ∧
    ∃ B, ∀ fuel, B ≤ fuel → ∃ rs1 e1 rs2 e2,
      CSTParser.parseAll fuel fuel (commentMainParser (internerOf []) 1 0) = .ok (rs1, e1) ∧
      CSTParser.parseAll fuel fuel (commentSingleParser (internerOf []) 0) = .ok (rs2, e2) ∧
      CST.eraseLocList rs1 = CST.eraseLocList [okTree, sTree] ∧
      CST.eraseLocList rs2 = CST.eraseLocList [okTree] ∧
      rs1.length = 2 ∧ rs2.length = 1 := by
  refine ⟨by decide, by decide, by decide, by decide, ?_⟩
  obtain ⟨B1, h1⟩ := parseAll_of_TopRun _ _ commentMain_run
  obtain ⟨B2, h2⟩ := parseAll_of_TopRun _ _ commentSingle_run
  refine ⟨max (max B1 B2) 3, ?_⟩
  intro fuel hfuel
  obtain ⟨rs1, e1, hr1, he1⟩ := h1 fuel (by omega) fuel (by simp; omega)
  obtain ⟨rs2, e2, hr2, he2⟩ := h2 fuel (by omega) fuel (by simp; omega)
  have hlen : ∀ (a b : List CST), CST.eraseLocList a = CST.eraseLocList b →
      a.length = b.length := by
    intro a
    induction a with
    | nil => intro b h; cases b with
      | nil => rfl
      | cons y b => simp [CST.eraseLocList] at h
    | cons x a ih => intro b h; cases b with
      | nil => simp [CST.eraseLocList] at h
      | cons y b =>
        simp only [CST.eraseLocList, List.cons.injEq] at h
        simp [ih b h.2]
  exact ⟨rs1, e1, rs2, e2, hr1, hr2, he1, he2, hlen _ _ he1, hlen _ _ he2⟩

/-! ## The cursor only moves forward -/

theorem Res.holds_mono {α : Type} {P Q : α → Prop} {r : Res α} (h : Res.Holds P r)
    (hpq : ∀ a, P a → Q a) : Res.Holds Q r :=
  fun a ha => hpq a (h a ha)

theorem advancePos_curPos (b : MemoryBuffer) (c : Cursor) :
    Res.Holds (fun r => r.curPos = c.curPos + 1) (Lexer.advancePos b c) := by
  unfold Lexer.advancePos
  cases b.charAt c.curPos with
  | none => exact Res.holds_fault
  | some ch =>
    simp only
    split
    · exact Res.holds_ok rfl
    · exact Res.holds_ok rfl

theorem skipSemiComment_forward (b : MemoryBuffer) :
    ∀ (fuel : Nat) (c : Cursor),
      Res.Holds (fun r => c.curPos ≤ r.curPos) (Lexer.skipSemiComment b fuel c) := by
  intro fuel
  induction fuel with
  | zero => intro c; exact Res.holds_timeout
  | succ fuel ih =>
    intro c
    rw [Lexer.skipSemiComment]
    cases b.charAt c.curPos with
    | none => exact Res.holds_fault
    | some c1 =>
      simp only
      cases h : Lexer.advancePos b c with
      | ok c2 =>
        have h2 := advancePos_curPos b c c2 h
        simp only
        split
        · exact Res.holds_ok (by simp only at h2; omega)
        · exact Res.holds_mono (ih c2) (fun a ha => by simp only at h2; omega)
      | fault => exact Res.holds_fault
      | timeout => exact Res.holds_timeout

theorem skipBlockComment_forward (b : MemoryBuffer) :
    ∀ (fuel : Nat) (c : Cursor),
      Res.Holds (fun r => c.curPos ≤ r.curPos) (Lexer.skipBlockComment b fuel c) := by
  intro fuel
  induction fuel with
  | zero => intro c; exact Res.holds_timeout
  | succ fuel ih =>
    intro c
    rw [Lexer.skipBlockComment]
    split
    · split
      · exact Res.holds_ok (by simp)
      · exact Res.holds_mono (ih _) (fun a ha => by simp only at ha; omega)
    · exact Res.holds_ok (le_refl _)

theorem skipSlashComment_forward (b : MemoryBuffer) :
    ∀ (fuel : Nat) (c : Cursor),
      Res.Holds (fun r => c.curPos ≤ r.curPos) (Lexer.skipSlashComment b fuel c) := by
  intro fuel
  induction fuel with
  | zero => intro c; exact Res.holds_timeout
  | succ fuel ih =>
    intro c
    rw [Lexer.skipSlashComment]
    split
    · split
      · exact Res.holds_ok (by simp)
      · exact Res.holds_mono (ih _) (fun a ha => by simp only at ha; omega)
    · exact Res.holds_ok (le_refl _)

theorem holds_bind_forward {α : Type} {f : Cursor → Res α} {g : α → Cursor} (r : Res Cursor)
    (n : Nat) (hr : Res.Holds (fun a => n ≤ a.curPos) r)
    (hf : ∀ a, Res.Holds (fun x => a.curPos ≤ (g x).curPos) (f a)) :
    Res.Holds (fun x => n ≤ (g x).curPos) (r.bind f) :=
  Res.holds_bind hr (fun a ha => Res.holds_mono (hf a) (fun _ hx => le_trans ha hx))

theorem advancePos_forward (b : MemoryBuffer) (c : Cursor) :
    Res.Holds (fun r => c.curPos ≤ r.curPos) (Lexer.advancePos b c) :=
  Res.holds_mono (advancePos_curPos b c) (fun a ha => by omega)

theorem skipWhiteSpaces_forward (b : MemoryBuffer) :
    ∀ (fuel : Nat) (c : Cursor),
      Res.Holds (fun r => c.curPos ≤ r.curPos) (Lexer.skipWhiteSpaces b fuel c) := by
  intro fuel
  induction fuel with
  | zero => intro c; exact Res.holds_timeout
  | succ fuel ih =>
    intro c
    have hadv := advancePos_forward b c
    have hblock := skipBlockComment_forward b fuel ⟨c.line, c.curPos + 2, c.lineStart⟩
    have hslash := skipSlashComment_forward b fuel ⟨c.line, c.curPos + 2, c.lineStart⟩
    rw [Lexer.skipWhiteSpaces]
    split
    · cases b.charAt c.curPos with
      | none => exact Res.holds_fault
      | some ch =>
        simp only
        repeat' first
          | exact Res.holds_ok (le_refl _)
          | exact ih c
          | exact holds_bind_forward (g := id) _ _ hadv ih
          | exact holds_bind_forward (g := id) _ _
              (holds_bind_forward (g := id) _ _ hadv (skipSemiComment_forward b fuel)) ih
          | exact holds_bind_forward (g := id) _ _
              (Res.holds_mono hblock (fun a ha => by simp only at ha; omega)) ih
          | exact holds_bind_forward (g := id) _ _
              (Res.holds_mono hslash (fun a ha => by simp only at ha; omega)) ih
          | apply Res.holds_ite
          | intro (_ : _ = _)
          | intro (_ : ¬ _)
          | intro (_ : _ < _)
    · exact Res.holds_ok (le_refl _)

theorem lexIdentifierLoop_forward (b : MemoryBuffer) :
    ∀ (fuel : Nat) (c : Cursor),
      Res.Holds (fun r => c.curPos ≤ r.curPos) (Lexer.lexIdentifierLoop b fuel c) := by
  intro fuel
  induction fuel with
  | zero => intro c; exact Res.holds_timeout
  | succ fuel ih =>
    intro c
    rw [Lexer.lexIdentifierLoop]
    split
    · cases b.charAt c.curPos with
      | none => exact Res.holds_fault
      | some ch =>
        simp only
        split
        · exact holds_bind_forward (g := id) _ _ (advancePos_forward b c) ih
        · exact Res.holds_ok (le_refl _)
    · exact Res.holds_ok (le_refl _)

theorem lexStringLoop_forward (b : MemoryBuffer) :
    ∀ (fuel : Nat) (c : Cursor),
      Res.Holds (fun r => c.curPos ≤ r.curPos) (Lexer.lexStringLoop b fuel c) := by
  intro fuel
  induction fuel with
  | zero => intro c; exact Res.holds_timeout
  | succ fuel ih =>
    intro c
    rw [Lexer.lexStringLoop]
    split
    · cases b.charAt c.curPos with
      | none => exact Res.holds_fault
      | some ch =>
        simp only
        split
        · exact holds_bind_forward (g := id) _ _
            (holds_bind_forward (g := id) _ _ (advancePos_forward b c) (advancePos_forward b)) ih
        · split
          · exact Res.holds_ok (le_refl _)
          · exact holds_bind_forward (g := id) _ _ (advancePos_forward b c) ih
    · exact Res.holds_ok (le_refl _)

theorem lexNumberLoop_forward (b : MemoryBuffer) :
    ∀ (fuel : Nat) (c : Cursor),
      Res.Holds (fun r => c.curPos ≤ r.curPos) (Lexer.lexNumberLoop b fuel c) := by
  intro fuel
  induction fuel with
  | zero => intro c; exact Res.holds_timeout
  | succ fuel ih =>
    intro c
    rw [Lexer.lexNumberLoop]
    split
    · cases b.charAt c.curPos with
      | none => exact Res.holds_fault
      | some ch =>
        simp only
        split
        · exact Res.holds_ok (le_refl _)
        · exact holds_bind_forward (g := id) _ _ (advancePos_forward b c) ih
    · exact Res.holds_ok (le_refl _)

theorem advanceCodePosLoop_forward (b : MemoryBuffer) :
    ∀ (fuel : Nat) (c : Cursor) (pos1 : Nat), c.curPos ≤ pos1 →
      Res.Holds (fun r => c.curPos ≤ r.2.curPos) (Lexer.advanceCodePosLoop b fuel c pos1) := by
  intro fuel
  induction fuel with
  | zero => intro c pos1 _; exact Res.holds_timeout
  | succ fuel ih =>
    intro c pos1 hpos
    rw [Lexer.advanceCodePosLoop]
    split
    · cases b.charAt pos1 with
      | none => exact Res.holds_fault
      | some c1 =>
        simp only
        split
        · exact Res.holds_ok (by simp only; omega)
        · split
          · exact Res.holds_ok (le_refl _)
          · exact ih c pos1 hpos
    · exact Res.holds_ok (le_refl _)

theorem advanceCodePos_forward (b : MemoryBuffer) (fuel : Nat) (c : Cursor) :
    Res.Holds (fun r => c.curPos + 1 ≤ r.2.curPos) (Lexer.advanceCodePos b fuel c) := by
  intro r hr
  unfold Lexer.advanceCodePos at hr
  cases hch : b.charAt c.curPos with
  | none => rw [hch] at hr; cases hr
  | some ch =>
    rw [hch] at hr
    simp only at hr
    generalize (if ch = chNewline then c.line + 1 else c.line) = l at hr
    by_cases hm : (!Lexer.hasMoreChars b ⟨l, c.curPos + 1, c.lineStart⟩) = true
    · rw [if_pos hm] at hr; cases hr; exact le_refl _
    · rw [if_neg hm] at hr
      cases hch1 : b.charAt (c.curPos + 1) with
      | none => rw [hch1] at hr; cases hr
      | some ch1 =>
        rw [hch1] at hr
        simp only at hr
        by_cases hb : ch1 = chBackslash
        · rw [if_pos hb] at hr
          have h := advanceCodePosLoop_forward b fuel _ _ (by simp) r hr
          simpa using h
        · rw [if_neg hb] at hr; cases hr; exact le_refl _

theorem codeChar_forward (b : MemoryBuffer) (c : Cursor) :
    Res.Holds (fun r => c.curPos ≤ r.2.curPos) (Lexer.codeChar b c) := by
  unfold Lexer.codeChar
  cases b.charAt c.curPos with
  | none => exact Res.holds_fault
  | some c0 =>
    simp only
    split
    · cases b.charAt (c.curPos + 1) with
      | none => exact Res.holds_fault
      | some c1 => exact Res.holds_ok (by simp)
    · exact Res.holds_ok (le_refl _)

theorem codeStep_forward (b : MemoryBuffer) (fuel : Nat) (m : CodeScan) (ch : Char)
    (c : Cursor) :
    Res.Holds (fun r => c.curPos ≤ r.2.2.curPos) (Lexer.codeStep b fuel m ch c) := by
  have hadv : Res.Holds (fun r => c.curPos ≤ r.2.curPos) (Lexer.advanceCodePos b fuel c) :=
    Res.holds_mono (advanceCodePos_forward b fuel c) (fun a ha => by omega)
  unfold Lexer.codeStep
  repeat' first
    | exact Res.holds_fault
    | exact Res.holds_ok (le_refl _)
    | apply Res.holds_ite
    | intro (_ : _ = _)
    | intro (_ : ¬ _)
    | refine Res.holds_bind hadv (fun r hr => ?_)
    | exact Res.holds_ok hr
    | split

theorem lexCodeStringLoop_forward (b : MemoryBuffer) :
    ∀ (fuel : Nat) (m : CodeScan) (c : Cursor),
      Res.Holds (fun r => c.curPos + 1 ≤ r.curPos) (Lexer.lexCodeStringLoop b fuel m c) := by
  intro fuel
  induction fuel with
  | zero => intro m c; exact Res.holds_timeout
  | succ fuel ih =>
    intro m c
    rw [Lexer.lexCodeStringLoop]
    cases h1 : Lexer.advanceCodePos b fuel c with
    | ok r =>
      obtain ⟨flag, c1⟩ := r
      have hc1 := advanceCodePos_forward b fuel c _ h1
      simp only at hc1
      cases flag with
      | false => exact Res.holds_ok hc1
      | true =>
        simp only
        cases h2 : (Lexer.codeChar b c1).bind fun r => Lexer.codeStep b fuel m r.1 r.2 with
        | ok r2 =>
          obtain ⟨brk, m2, c2⟩ := r2
          have hc2 : c1.curPos ≤ c2.curPos := by
            obtain ⟨a, ha, hfa⟩ := (Res.bind_eq_ok _ _ _).1 h2
            have e1 := codeChar_forward b c1 a ha
            have e2 := codeStep_forward b fuel m a.1 a.2 _ hfa
            simp only at e1 e2
            omega
          cases brk with
          | false =>
            simp only
            exact Res.holds_mono (ih m2 c2) (fun a ha => by omega)
          | true => exact Res.holds_ok (by omega)
        | fault => exact Res.holds_fault
        | timeout => exact Res.holds_timeout
    | fault => exact Res.holds_fault
    | timeout => exact Res.holds_timeout

theorem lexStringImpl_forward (b : MemoryBuffer) (fileID fuel : Nat) (c : Cursor) :
    Res.Holds (fun r => c.curPos + 1 ≤ r.2.curPos ∧ r.1.kind = .String)
      (Lexer.lexStringImpl b fileID fuel c) := by
  unfold Lexer.lexStringImpl
  refine Res.holds_bind (Q := fun c1 => c.curPos + 1 ≤ c1.curPos) ?_ (fun c1 h1 => ?_)
  · exact Res.holds_bind (advancePos_curPos b c)
      (fun a ha => Res.holds_mono (lexStringLoop_forward b fuel a) (fun x hx => by omega))
  · exact Res.holds_bind (advancePos_curPos b c1)
      (fun a ha => Res.holds_ok ⟨by simp only; omega, rfl⟩)

theorem lexCodeStringImpl_forward (b : MemoryBuffer) (fileID fuel : Nat) (c : Cursor) :
    Res.Holds (fun r => c.curPos + 1 ≤ r.2.curPos ∧ r.1.kind = .CodeString)
      (Lexer.lexCodeStringImpl b fileID fuel c) := by
  unfold Lexer.lexCodeStringImpl
  refine Res.holds_bind (lexCodeStringLoop_forward b fuel _ c) (fun c1 h1 => ?_)
  exact Res.holds_bind (advancePos_curPos b c1)
    (fun a ha => Res.holds_ok ⟨by simp only; omega, rfl⟩)

theorem lexIdentifierImpl_forward (b : MemoryBuffer) (fileID fuel : Nat)
    (ii : IdentifierInterner) (c : Cursor) :
    Res.Holds (fun r => c.curPos + 1 ≤ r.2.2.curPos ∧ r.1.kind = .Identifier)
      (Lexer.lexIdentifierImpl b fileID fuel ii c) := by
  unfold Lexer.lexIdentifierImpl
  refine Res.holds_bind (Q := fun c1 => c.curPos + 1 ≤ c1.curPos) ?_ (fun c1 h1 => ?_)
  · exact Res.holds_bind (advancePos_curPos b c)
      (fun a ha => Res.holds_mono (lexIdentifierLoop_forward b fuel a) (fun x hx => by omega))
  · exact Res.holds_ok ⟨h1, rfl⟩

theorem lexNumberDigits_forward (b : MemoryBuffer) (fileID fuel : Nat) (neg : Bool)
    (c : Cursor) :
    Res.Holds (fun r => c.curPos ≤ r.2.curPos ∧ r.1.kind = .Number)
      (Lexer.lexNumberDigits b fileID fuel neg c) := by
  unfold Lexer.lexNumberDigits
  refine Res.holds_bind (lexNumberLoop_forward b fuel c) (fun c1 h1 => ?_)
  exact Res.holds_bind (Res.holds_true _) (fun _ _ => Res.holds_ok ⟨h1, rfl⟩)

theorem lexNumberImpl_forward (b : MemoryBuffer) (fileID fuel : Nat) (c : Cursor) :
    Res.Holds (fun r => c.curPos ≤ r.2.curPos ∧ r.1.kind = .Number)
      (Lexer.lexNumberImpl b fileID fuel c) := by
  unfold Lexer.lexNumberImpl
  cases b.charAt c.curPos with
  | none => exact Res.holds_fault
  | some ch =>
    simp only
    split
    · refine Res.holds_bind (Q := fun c1 => c.curPos ≤ c1.curPos) ?_ (fun c1 h1 => ?_)
      · exact Res.holds_bind (advancePos_curPos b c)
          (fun a ha => Res.holds_mono (skipWhiteSpaces_forward b fuel a)
            (fun x hx => by omega))
      · exact Res.holds_mono (lexNumberDigits_forward b fileID fuel true c1)
          (fun x hx => ⟨by omega, hx.2⟩)
    · exact lexNumberDigits_forward b fileID fuel false c

theorem lexOpenParen_forward (b : MemoryBuffer) (fileID fuel : Nat) (c : Cursor) :
    Res.Holds (fun r => c.curPos + 1 ≤ r.2.curPos ∧ (r.1.kind = .OpenParen ∨ r.1.kind = .String))
      (Lexer.lexOpenParen b fileID fuel c) := by
  unfold Lexer.lexOpenParen
  refine Res.holds_bind (Q := fun c1 => c.curPos + 1 ≤ c1.curPos)
    (Res.holds_mono (skipWhiteSpaces_forward b fuel _) (fun x hx => by simpa using hx))
    (fun c1 h1 => ?_)
  cases b.charAt c1.curPos with
  | none => exact Res.holds_fault
  | some ch1 =>
    simp only
    split
    · unfold Lexer.lexParenString
      refine Res.holds_bind (lexStringImpl_forward b fileID fuel c1) (fun r hr => ?_)
      refine Res.holds_bind (skipWhiteSpaces_forward b fuel r.2) (fun c3 h3 => ?_)
      cases b.charAt c3.curPos with
      | none => exact Res.holds_fault
      | some _ => exact Res.holds_ok ⟨by simp only; omega, Or.inr hr.2⟩
    · exact Res.holds_ok ⟨h1, Or.inl rfl⟩

/-- What `lexSwitch` returns: the cursor has not moved back, and a
`CloseParen` token comes from the character `)` alone, with the cursor one
further. -/
theorem lexSwitch_forward (b : MemoryBuffer) (fileID fuel : Nat) (ii : IdentifierInterner)
    (ch : Char) (c : Cursor) :
    Res.Holds (fun r => c.curPos ≤ r.2.2.curPos ∧
        (r.1.kind = .CloseParen → ch = ')' ∧ r.2.2.curPos = c.curPos + 1 ∧ r.2.1 = ii))
      (Lexer.lexSwitch b fileID fuel ii ch c) := by
  have hw : ∀ (r : Res (Token × Cursor)),
      Res.Holds (fun x => c.curPos ≤ x.2.curPos ∧ x.1.kind ≠ .CloseParen) r →
      Res.Holds (fun r => c.curPos ≤ r.2.2.curPos ∧
        (r.1.kind = .CloseParen → ch = ')' ∧ r.2.2.curPos = c.curPos + 1 ∧ r.2.1 = ii))
        (withInterner ii r) := by
    intro r hr
    exact Res.holds_bind hr (fun x hx => Res.holds_ok ⟨hx.1, fun h => absurd h hx.2⟩)
  have h1 := hw _ (Res.holds_mono (lexCodeStringImpl_forward b fileID fuel c)
    (fun x hx => ⟨by omega, by rw [hx.2]; decide⟩))
  have h2 := hw _ (Res.holds_mono (lexStringImpl_forward b fileID fuel c)
    (fun x hx => ⟨by omega, by rw [hx.2]; decide⟩))
  have h3 := hw _ (Res.holds_mono (lexOpenParen_forward b fileID fuel c)
    (fun x hx => ⟨by omega, by rcases hx.2 with h | h <;> (rw [h]; decide)⟩))
  have h4 := hw _ (Res.holds_mono (lexNumberImpl_forward b fileID fuel c)
    (fun x hx => ⟨hx.1, by rw [hx.2]; decide⟩))
  have h5 : Res.Holds (fun r => c.curPos ≤ r.2.2.curPos ∧
        (r.1.kind = .CloseParen → ch = ')' ∧ r.2.2.curPos = c.curPos + 1 ∧ r.2.1 = ii))
      (Lexer.lexIdentifierImpl b fileID fuel ii c) :=
    Res.holds_mono (lexIdentifierImpl_forward b fileID fuel ii c)
      (fun x hx => ⟨by omega, fun h => by rw [hx.2] at h; cases h⟩)
  unfold Lexer.lexSwitch
  by_cases e1 : ch = chLBrace
  · rw [if_pos e1]; exact h1
  rw [if_neg e1]
  by_cases e2 : ch = chDQuote
  · rw [if_pos e2]; exact h2
  rw [if_neg e2]
  by_cases e3 : ch = '('
  · rw [if_pos e3]; exact h3
  rw [if_neg e3]
  by_cases e4 : ch = ')'
  · rw [if_pos e4]
    exact Res.holds_ok ⟨by simp [Lexer.lexDelimiter], fun _ => ⟨e4, rfl, rfl⟩⟩
  rw [if_neg e4]
  by_cases e5 : ch = '['
  · rw [if_pos e5]
    exact Res.holds_ok ⟨by simp [Lexer.lexDelimiter], fun h => by
      simp [Lexer.lexDelimiter, Token.createDelimiter] at h⟩
  rw [if_neg e5]
  by_cases e6 : ch = ']'
  · rw [if_pos e6]
    exact Res.holds_ok ⟨by simp [Lexer.lexDelimiter], fun h => by
      simp [Lexer.lexDelimiter, Token.createDelimiter] at h⟩
  rw [if_neg e6]
  by_cases e7 : ch = ':'
  · rw [if_pos e7]
    exact Res.holds_ok ⟨by simp [Lexer.lexDelimiter], fun h => by
      simp [Lexer.lexDelimiter, Token.createDelimiter] at h⟩
  rw [if_neg e7]
  split
  · exact h5
  · split
    · exact h4
    · exact Res.holds_fault

/-- What `scan` returns: the cursor has not moved back; a `CloseParen` token
ends inside the buffer, one character after where white-space skipping
stopped, and leaves the interner unchanged. -/
theorem scan_forward (b : MemoryBuffer) (fileID fuel : Nat) (ii : IdentifierInterner)
    (c : Cursor) :
    Res.Holds (fun r => c.curPos ≤ r.2.2.curPos ∧
        (r.1.kind = .CloseParen →
          c.curPos + 1 ≤ r.2.2.curPos ∧ r.2.2.curPos ≤ b.data.length ∧ r.2.1 = ii))
      (Lexer.scan b fileID fuel ii c) := by
  unfold Lexer.scan
  refine Res.holds_bind (skipWhiteSpaces_forward b fuel c) (fun c1 h1 => ?_)
  split
  · exact Res.holds_ok ⟨h1, fun h => by simp [Token.createEOF] at h⟩
  · cases hch : b.charAt c1.curPos with
    | none => exact Res.holds_fault
    | some ch =>
      simp only
      refine Res.holds_mono (lexSwitch_forward b fileID fuel ii ch c1) (fun x hx => ?_)
      refine ⟨by omega, fun hk => ?_⟩
      obtain ⟨hc, hpos, hii⟩ := hx.2 hk
      subst hc
      have hlt : c1.curPos < b.data.length := by
        by_contra hge
        simp only [MemoryBuffer.charAt, hge, if_false] at hch
        split at hch
        · simp only [Option.some.injEq] at hch
          exact absurd hch (by decide)
        · cases hch
      exact ⟨by omega, by omega, hii⟩

/-! ## A text lexes in the same way inside a longer buffer -/

theorem Upto.of_le {b1 b2 : MemoryBuffer} {k n m : Nat} (h : Upto b1 b2 k n) (hm : m ≤ n) :
    Upto b1 b2 k m := by
  rcases h with h | h
  · exact Or.inl (by omega)
  · exact Or.inr h

theorem Within.agree {b1 b2 : MemoryBuffer} {k : Nat} (hw : Within b1 b2 k) {n p : Nat}
    (hu : Upto b1 b2 k n) (hp : p < n) :
    b2.charAt (p + k) = b1.charAt p ∧ (p + k < b2.data.length ↔ p < b1.data.length) ∧
      (p + k = b2.data.length ↔ p = b1.data.length) := by
  obtain ⟨pre, post, hd, hk⟩ := hw
  have hlen : b2.data.length = k + (b1.data.length + post.length) := by
    rw [hd]; simp [hk]
  have hget : ∀ q, q < b1.data.length → b2.data[q + k]? = b1.data[q]? := by
    intro q hq
    rw [hd, ← hk, List.getElem?_append_right (by omega)]
    simp only [Nat.add_sub_cancel]
    rw [List.getElem?_append_left hq]
  rcases hu with hu | ⟨hf1, hf2⟩
  · have hp1 : p < b1.data.length := by omega
    refine ⟨?_, by omega, by omega⟩
    simp only [MemoryBuffer.charAt, hp1, if_true, show p + k < b2.data.length by omega,
      hget p hp1]
  · have hpost : post.length = 0 := by omega
    refine ⟨?_, by omega, by omega⟩
    by_cases hp1 : p < b1.data.length
    · simp only [MemoryBuffer.charAt, hp1, if_true, show p + k < b2.data.length by omega,
        hget p hp1]
    · have h2 : ¬ p + k < b2.data.length := by omega
      simp only [MemoryBuffer.charAt, hp1, h2, if_false, hf2]
      by_cases he : p = b1.data.length
      · have he2 : p + k = b2.data.length := by omega
        simp only [he, he2, true_and]
        rw [← he, he2]
        simp
      · have he2 : ¬ p + k = b2.data.length := by omega
        simp only [he, he2, false_and, if_false]

theorem Within.hasMoreChars {b1 b2 : MemoryBuffer} {k : Nat} (hw : Within b1 b2 k) {n : Nat}
    (hu : Upto b1 b2 k n) (c1 c2 : Cursor) (hc : c2.curPos = c1.curPos + k)
    (hp : c1.curPos < n) : Lexer.hasMoreChars b2 c2 = Lexer.hasMoreChars b1 c1 := by
  have h := (hw.agree hu hp).2.1
  simp only [Lexer.hasMoreChars, MemoryBuffer.bufferEnd, hc]
  by_cases h1 : c1.curPos < b1.data.length
  · simp [h1, h.2 h1]
  · have h2 : ¬ c1.curPos + k < b2.data.length := fun h3 => h1 (h.1 h3)
    simp [h1, h2]

theorem advancePos_loc {b1 b2 : MemoryBuffer} {k : Nat} (hw : Within b1 b2 k)
    (c1 c2 r1 : Cursor) (hc : c2.curPos = c1.curPos + k)
    (hr : Lexer.advancePos b1 c1 = .ok r1) (hu : Upto b1 b2 k (c1.curPos + 1)) :
    ∃ r2, Lexer.advancePos b2 c2 = .ok r2 ∧ r2.curPos = r1.curPos + k := by
  have hch := (hw.agree hu (Nat.lt_succ_self _)).1
  unfold Lexer.advancePos at hr ⊢
  rw [hc, hch]
  cases h : b1.charAt c1.curPos with
  | none => rw [h] at hr; cases hr
  | some ch =>
    rw [h] at hr
    simp only at hr ⊢
    by_cases hn : ch = chNewline
    · rw [if_pos hn] at hr ⊢
      cases hr
      exact ⟨_, rfl, by simp only; omega⟩
    · rw [if_neg hn] at hr ⊢
      cases hr
      exact ⟨_, rfl, by simp only; omega⟩

theorem skipSemiComment_loc {b1 b2 : MemoryBuffer} {k : Nat} (hw : Within b1 b2 k) :
    ∀ (fuel : Nat) (c1 c2 r1 : Cursor), c2.curPos = c1.curPos + k →
      Lexer.skipSemiComment b1 fuel c1 = .ok r1 → Upto b1 b2 k (r1.curPos + 1) →
      ∃ r2, Lexer.skipSemiComment b2 fuel c2 = .ok r2 ∧ r2.curPos = r1.curPos + k := by
  intro fuel
  induction fuel with
  | zero => intro c1 c2 r1 _ hr; cases hr
  | succ fuel ih =>
    intro c1 c2 r1 hc hr hu
    have hfw := skipSemiComment_forward b1 (fuel + 1) c1 r1 hr
    simp only at hfw
    have hch := (hw.agree hu (show c1.curPos < r1.curPos + 1 by omega)).1
    rw [Lexer.skipSemiComment] at hr ⊢
    rw [hc, ← hc, show b2.charAt c2.curPos = b1.charAt c1.curPos by rw [hc]; exact hch]
    cases h : b1.charAt c1.curPos with
    | none => rw [h] at hr; cases hr
    | some ch =>
      rw [h] at hr
      simp only at hr ⊢
      cases ha : Lexer.advancePos b1 c1 with
      | ok a =>
        rw [ha] at hr
        simp only at hr
        obtain ⟨a2, ha2, hs⟩ := advancePos_loc hw c1 c2 a hc ha (hu.of_le (by omega))
        rw [ha2]
        simp only
        by_cases hn : ch = chNewline
        · rw [if_pos hn] at hr ⊢
          cases hr
          exact ⟨a2, rfl, hs⟩
        · rw [if_neg hn] at hr ⊢
          exact ih a a2 r1 hs hr hu
      | fault => rw [ha] at hr; cases hr
      | timeout => rw [ha] at hr; cases hr

theorem skipBlockComment_loc {b1 b2 : MemoryBuffer} {k : Nat} (hw : Within b1 b2 k) :
    ∀ (fuel : Nat) (c1 c2 r1 : Cursor), c2.curPos = c1.curPos + k →
      Lexer.skipBlockComment b1 fuel c1 = .ok r1 → Upto b1 b2 k (r1.curPos + 1) →
      ∃ r2, Lexer.skipBlockComment b2 fuel c2 = .ok r2 ∧ r2.curPos = r1.curPos + k := by
  intro fuel
  induction fuel with
  | zero => intro c1 c2 r1 _ hr; cases hr
  | succ fuel ih =>
    intro c1 c2 r1 hc hr hu
    have hfw := skipBlockComment_forward b1 (fuel + 1) c1 r1 hr
    simp only at hfw
    have h0 := hw.agree hu (show c1.curPos < r1.curPos + 1 by omega)
    rw [Lexer.skipBlockComment] at hr ⊢
    simp only [MemoryBuffer.bufferEnd] at hr ⊢
    by_cases hm : c1.curPos < b1.data.length
    · have hm2 : c2.curPos < b2.data.length := by rw [hc]; exact h0.2.1.2 hm
      rw [if_pos hm] at hr
      rw [if_pos hm2]
      by_cases hcl : b1.charAt c1.curPos = some '*' ∧ c1.curPos + 1 < b1.data.length
          ∧ b1.charAt (c1.curPos + 1) = some '/'
      · rw [if_pos hcl] at hr
        cases hr
        have h1 := hw.agree hu (show c1.curPos + 1 < c1.curPos + 2 + 1 by omega)
        have hcl2 : b2.charAt c2.curPos = some '*' ∧ c2.curPos + 1 < b2.data.length
            ∧ b2.charAt (c2.curPos + 1) = some '/' := by
          rw [hc]
          refine ⟨by rw [h0.1]; exact hcl.1, ?_, ?_⟩
          · have := h1.2.1.2 hcl.2.1; omega
          · rw [show c1.curPos + k + 1 = c1.curPos + 1 + k by omega, h1.1]; exact hcl.2.2
        rw [if_pos hcl2]
        exact ⟨_, rfl, by simp only; omega⟩
      · rw [if_neg hcl] at hr
        have hfw2 := skipBlockComment_forward b1 fuel _ r1 hr
        simp only at hfw2
        have h1 := hw.agree hu (show c1.curPos + 1 < r1.curPos + 1 by omega)
        have hcl2 : ¬ (b2.charAt c2.curPos = some '*' ∧ c2.curPos + 1 < b2.data.length
            ∧ b2.charAt (c2.curPos + 1) = some '/') := by
          rw [hc]
          rintro ⟨e1, e2, e3⟩
          apply hcl
          refine ⟨by rw [← h0.1]; exact e1, ?_, ?_⟩
          · exact h1.2.1.1 (by omega)
          · rw [← h1.1, show c1.curPos + 1 + k = c1.curPos + k + 1 by omega]; exact e3
        rw [if_neg hcl2]
        exact ih _ _ r1 (by simp only; omega) hr hu
    · have hm2 : ¬ c2.curPos < b2.data.length := by
        rw [hc]; exact fun h => hm (h0.2.1.1 h)
      rw [if_neg hm] at hr
      rw [if_neg hm2]
      cases hr
      exact ⟨c2, rfl, hc⟩

theorem skipSlashComment_loc {b1 b2 : MemoryBuffer} {k : Nat} (hw : Within b1 b2 k) :
    ∀ (fuel : Nat) (c1 c2 r1 : Cursor), c2.curPos = c1.curPos + k →
      Lexer.skipSlashComment b1 fuel c1 = .ok r1 → Upto b1 b2 k (r1.curPos + 1) →
      ∃ r2, Lexer.skipSlashComment b2 fuel c2 = .ok r2 ∧ r2.curPos = r1.curPos + k := by
  intro fuel
  induction fuel with
  | zero => intro c1 c2 r1 _ hr; cases hr
  | succ fuel ih =>
    intro c1 c2 r1 hc hr hu
    have hfw := skipSlashComment_forward b1 (fuel + 1) c1 r1 hr
    simp only at hfw
    have h0 := hw.agree hu (show c1.curPos < r1.curPos + 1 by omega)
    rw [Lexer.skipSlashComment] at hr ⊢
    simp only [MemoryBuffer.bufferEnd] at hr ⊢
    by_cases hm : c1.curPos < b1.data.length
    · have hm2 : c2.curPos < b2.data.length := by rw [hc]; exact h0.2.1.2 hm
      rw [if_pos hm] at hr
      rw [if_pos hm2]
      have hch : b2.charAt c2.curPos = b1.charAt c1.curPos := by rw [hc]; exact h0.1
      rw [hch]
      by_cases hn : b1.charAt c1.curPos = some chNewline
      · rw [if_pos hn] at hr ⊢
        cases hr
        exact ⟨_, rfl, by simp only; omega⟩
      · rw [if_neg hn] at hr ⊢
        exact ih _ _ r1 (by simp only; omega) hr hu
    · have hm2 : ¬ c2.curPos < b2.data.length := by
        rw [hc]; exact fun h => hm (h0.2.1.1 h)
      rw [if_neg hm] at hr
      rw [if_neg hm2]
      cases hr
      exact ⟨c2, rfl, hc⟩

theorem skipWhiteSpaces_loc {b1 b2 : MemoryBuffer} {k : Nat} (hw : Within b1 b2 k) :
    ∀ (fuel : Nat) (c1 c2 r1 : Cursor), c2.curPos = c1.curPos + k →
      Lexer.skipWhiteSpaces b1 fuel c1 = .ok r1 → Upto b1 b2 k (r1.curPos + 1) →
      ∃ r2, Lexer.skipWhiteSpaces b2 fuel c2 = .ok r2 ∧ r2.curPos = r1.curPos + k := by
  intro fuel
  induction fuel with
  | zero => intro c1 c2 r1 _ hr; cases hr
  | succ fuel ih =>
    intro c1 c2 r1 hc hr hu
    have hfw := skipWhiteSpaces_forward b1 (fuel + 1) c1 r1 hr
    simp only at hfw
    have h0 := hw.agree hu (show c1.curPos < r1.curPos + 1 by omega)
    have hM2 := hw.hasMoreChars hu c1 c2 hc (show c1.curPos < r1.curPos + 1 by omega)
    have hC2 : b2.charAt c2.curPos = b1.charAt c1.curPos := by rw [hc]; exact h0.1
    rw [Lexer.skipWhiteSpaces] at hr ⊢
    rw [hM2, hC2]
    by_cases hm : Lexer.hasMoreChars b1 c1 = true
    · rw [if_pos hm] at hr ⊢
      cases hch : b1.charAt c1.curPos with
      | none => rw [hch] at hr; cases hr
      | some ch =>
        rw [hch] at hr
        simp only at hr ⊢
        by_cases hws : isWhileSpace ch = true
        · rw [if_pos hws] at hr ⊢
          obtain ⟨a, ha, hfa⟩ := (Res.bind_eq_ok _ _ _).1 hr
          obtain ⟨a2, ha2, hs⟩ := advancePos_loc hw c1 c2 a hc ha (hu.of_le (by omega))
          rw [ha2, Res.bind_ok]
          exact ih a a2 r1 hs hfa hu
        rw [if_neg hws] at hr ⊢
        by_cases hsemi : ch = ';'
        · rw [if_pos hsemi] at hr ⊢
          obtain ⟨x, hx, hfx⟩ := (Res.bind_eq_ok _ _ _).1 hr
          obtain ⟨a, ha, hfa⟩ := (Res.bind_eq_ok _ _ _).1 hx
          have hxr := skipWhiteSpaces_forward b1 fuel x r1 hfx
          simp only at hxr
          obtain ⟨a2, ha2, hs⟩ := advancePos_loc hw c1 c2 a hc ha (hu.of_le (by omega))
          obtain ⟨x2, hx2, hsx⟩ := skipSemiComment_loc hw fuel a a2 x hs hfa
            (hu.of_le (by omega))
          rw [ha2, Res.bind_ok, hx2, Res.bind_ok]
          exact ih x x2 r1 hsx hfx hu
        rw [if_neg hsemi] at hr ⊢
        by_cases hslash : ch = '/'
        · rw [if_pos hslash] at hr ⊢
          subst hslash
          by_cases hla : c1.curPos + 1 < b1.bufferEnd
          · rw [if_pos hla] at hr
            by_cases hstar : b1.charAt (c1.curPos + 1) = some '*'
            · rw [if_pos hstar] at hr
              obtain ⟨x, hx, hfx⟩ := (Res.bind_eq_ok _ _ _).1 hr
              have hcx := skipBlockComment_forward b1 fuel _ x hx
              have hxr := skipWhiteSpaces_forward b1 fuel x r1 hfx
              simp only at hcx hxr
              have h1 := hw.agree hu (show c1.curPos + 1 < r1.curPos + 1 by omega)
              have hla2 : c2.curPos + 1 < b2.bufferEnd := by
                have := h1.2.1.2 hla
                simp only [MemoryBuffer.bufferEnd, hc] at this ⊢; omega
              have hstar2 : b2.charAt (c2.curPos + 1) = some '*' := by
                rw [hc, show c1.curPos + k + 1 = c1.curPos + 1 + k by omega, h1.1]; exact hstar
              rw [if_pos hla2, if_pos hstar2]
              obtain ⟨x2, hx2, hsx⟩ := skipBlockComment_loc hw fuel
                ⟨c1.line, c1.curPos + 2, c1.lineStart⟩ ⟨c2.line, c2.curPos + 2, c2.lineStart⟩ x
                (by simp only; omega) hx (hu.of_le (by omega))
              rw [hx2, Res.bind_ok]
              exact ih x x2 r1 hsx hfx hu
            rw [if_neg hstar] at hr
            by_cases hsl : b1.charAt (c1.curPos + 1) = some '/'
            · rw [if_pos hsl] at hr
              obtain ⟨x, hx, hfx⟩ := (Res.bind_eq_ok _ _ _).1 hr
              have hcx := skipSlashComment_forward b1 fuel _ x hx
              have hxr := skipWhiteSpaces_forward b1 fuel x r1 hfx
              simp only at hcx hxr
              have h1 := hw.agree hu (show c1.curPos + 1 < r1.curPos + 1 by omega)
              have hla2 : c2.curPos + 1 < b2.bufferEnd := by
                have := h1.2.1.2 hla
                simp only [MemoryBuffer.bufferEnd, hc] at this ⊢; omega
              have hch2 : b2.charAt (c2.curPos + 1) = some '/' := by
                rw [hc, show c1.curPos + k + 1 = c1.curPos + 1 + k by omega, h1.1]; exact hsl
              have hstar2 : ¬ b2.charAt (c2.curPos + 1) = some '*' := by
                rw [hch2]; decide
              rw [if_pos hla2, if_neg hstar2, if_pos hch2]
              obtain ⟨x2, hx2, hsx⟩ := skipSlashComment_loc hw fuel
                ⟨c1.line, c1.curPos + 2, c1.lineStart⟩ ⟨c2.line, c2.curPos + 2, c2.lineStart⟩ x
                (by simp only; omega) hx (hu.of_le (by omega))
              rw [hx2, Res.bind_ok]
              exact ih x x2 r1 hsx hfx hu
            · rw [if_neg hsl] at hr
              rw [skipWhiteSpaces_lone_slash b1 c1 hm hch (Or.inr ⟨hstar, hsl⟩) fuel] at hr
              cases hr
          · rw [if_neg hla] at hr
            rw [skipWhiteSpaces_lone_slash b1 c1 hm hch (Or.inl hla) fuel] at hr
            cases hr
        · rw [if_neg hslash] at hr ⊢
          cases hr
          exact ⟨c2, rfl, hc⟩
    · rw [if_neg hm] at hr ⊢
      cases hr
      exact ⟨c2, rfl, hc⟩

theorem Within.slice {b1 b2 : MemoryBuffer} {k : Nat} (hw : Within b1 b2 k) (s l : Nat)
    (hu : Upto b1 b2 k (s + l)) : b2.slice (s + k) l = b1.slice s l := by
  obtain ⟨pre, post, hd, hk⟩ := hw
  have hdrop : b2.data.drop (s + k) = (b1.data ++ post).drop s := by
    rw [hd, ← hk, Nat.add_comm, List.drop_append]
  simp only [MemoryBuffer.slice, hdrop]
  rcases hu with hu | ⟨hf, _⟩
  · rw [List.drop_append_of_le_length (by omega), List.take_append_of_le_length]
    rw [List.length_drop]; omega
  · have hlen : b2.data.length = k + (b1.data.length + post.length) := by
      rw [hd]; simp [hk]
    have hpost : post = [] := List.length_eq_zero.1 (by omega)
    rw [hpost, List.append_nil]

theorem lexIdentifierLoop_loc {b1 b2 : MemoryBuffer} {k : Nat} (hw : Within b1 b2 k) :
    ∀ (fuel : Nat) (c1 c2 r1 : Cursor), c2.curPos = c1.curPos + k →
      Lexer.lexIdentifierLoop b1 fuel c1 = .ok r1 → Upto b1 b2 k (r1.curPos + 1) →
      ∃ r2, Lexer.lexIdentifierLoop b2 fuel c2 = .ok r2 ∧ r2.curPos = r1.curPos + k := by
  intro fuel
  induction fuel with
  | zero => intro c1 c2 r1 _ hr; cases hr
  | succ fuel ih =>
    intro c1 c2 r1 hc hr hu
    have hfw := lexIdentifierLoop_forward b1 (fuel + 1) c1 r1 hr
    simp only at hfw
    have h0 := hw.agree hu (show c1.curPos < r1.curPos + 1 by omega)
    have hM2 := hw.hasMoreChars hu c1 c2 hc (show c1.curPos < r1.curPos + 1 by omega)
    have hC2 : b2.charAt c2.curPos = b1.charAt c1.curPos := by rw [hc]; exact h0.1
    rw [Lexer.lexIdentifierLoop] at hr ⊢
    rw [hM2, hC2]
    by_cases hm : Lexer.hasMoreChars b1 c1 = true
    · rw [if_pos hm] at hr ⊢
      cases hch : b1.charAt c1.curPos with
      | none => rw [hch] at hr; cases hr
      | some ch =>
        rw [hch] at hr
        simp only at hr ⊢
        by_cases hcont : canContIdentifier ch = true
        · rw [if_pos hcont] at hr ⊢
          obtain ⟨a, ha, hfa⟩ := (Res.bind_eq_ok _ _ _).1 hr
          obtain ⟨a2, ha2, hs⟩ := advancePos_loc hw c1 c2 a hc ha (hu.of_le (by omega))
          rw [ha2, Res.bind_ok]
          exact ih a a2 r1 hs hfa hu
        · rw [if_neg hcont] at hr ⊢
          cases hr
          exact ⟨c2, rfl, hc⟩
    · rw [if_neg hm] at hr ⊢
      cases hr
      exact ⟨c2, rfl, hc⟩

theorem lexNumberLoop_loc {b1 b2 : MemoryBuffer} {k : Nat} (hw : Within b1 b2 k) :
    ∀ (fuel : Nat) (c1 c2 r1 : Cursor), c2.curPos = c1.curPos + k →
      Lexer.lexNumberLoop b1 fuel c1 = .ok r1 → Upto b1 b2 k (r1.curPos + 1) →
      ∃ r2, Lexer.lexNumberLoop b2 fuel c2 = .ok r2 ∧ r2.curPos = r1.curPos + k := by
  intro fuel
  induction fuel with
  | zero => intro c1 c2 r1 _ hr; cases hr
  | succ fuel ih =>
    intro c1 c2 r1 hc hr hu
    have hfw := lexNumberLoop_forward b1 (fuel + 1) c1 r1 hr
    simp only at hfw
    have h0 := hw.agree hu (show c1.curPos < r1.curPos + 1 by omega)
    have hM2 := hw.hasMoreChars hu c1 c2 hc (show c1.curPos < r1.curPos + 1 by omega)
    have hC2 : b2.charAt c2.curPos = b1.charAt c1.curPos := by rw [hc]; exact h0.1
    rw [Lexer.lexNumberLoop] at hr ⊢
    rw [hM2, hC2]
    by_cases hm : Lexer.hasMoreChars b1 c1 = true
    · rw [if_pos hm] at hr ⊢
      cases hch : b1.charAt c1.curPos with
      | none => rw [hch] at hr; cases hr
      | some ch =>
        rw [hch] at hr
        simp only at hr ⊢
        by_cases hd : (!isdigit ch) = true
        · rw [if_pos hd] at hr ⊢
          cases hr
          exact ⟨c2, rfl, hc⟩
        · rw [if_neg hd] at hr ⊢
          obtain ⟨a, ha, hfa⟩ := (Res.bind_eq_ok _ _ _).1 hr
          obtain ⟨a2, ha2, hs⟩ := advancePos_loc hw c1 c2 a hc ha (hu.of_le (by omega))
          rw [ha2, Res.bind_ok]
          exact ih a a2 r1 hs hfa hu
    · rw [if_neg hm] at hr ⊢
      cases hr
      exact ⟨c2, rfl, hc⟩

theorem lexStringLoop_loc {b1 b2 : MemoryBuffer} {k : Nat} (hw : Within b1 b2 k) :
    ∀ (fuel : Nat) (c1 c2 r1 : Cursor), c2.curPos = c1.curPos + k →
      Lexer.lexStringLoop b1 fuel c1 = .ok r1 → Upto b1 b2 k (r1.curPos + 1) →
      ∃ r2, Lexer.lexStringLoop b2 fuel c2 = .ok r2 ∧ r2.curPos = r1.curPos + k := by
  intro fuel
  induction fuel with
  | zero => intro c1 c2 r1 _ hr; cases hr
  | succ fuel ih =>
    intro c1 c2 r1 hc hr hu
    have hfw := lexStringLoop_forward b1 (fuel + 1) c1 r1 hr
    simp only at hfw
    have h0 := hw.agree hu (show c1.curPos < r1.curPos + 1 by omega)
    have hM2 := hw.hasMoreChars hu c1 c2 hc (show c1.curPos < r1.curPos + 1 by omega)
    have hC2 : b2.charAt c2.curPos = b1.charAt c1.curPos := by rw [hc]; exact h0.1
    rw [Lexer.lexStringLoop] at hr ⊢
    rw [hM2, hC2]
    by_cases hm : Lexer.hasMoreChars b1 c1 = true
    · rw [if_pos hm] at hr ⊢
      cases hch : b1.charAt c1.curPos with
      | none => rw [hch] at hr; cases hr
      | some ch =>
        rw [hch] at hr
        simp only at hr ⊢
        by_cases hbs : ch = chBackslash
        · rw [if_pos hbs] at hr ⊢
          obtain ⟨x, hx, hfx⟩ := (Res.bind_eq_ok _ _ _).1 hr
          obtain ⟨a, ha, hfa⟩ := (Res.bind_eq_ok _ _ _).1 hx
          have hxr := lexStringLoop_forward b1 fuel x r1 hfx
          have hax := advancePos_curPos b1 a x hfa
          have hca := advancePos_curPos b1 c1 a ha
          simp only at hxr hax hca
          obtain ⟨a2, ha2, hs⟩ := advancePos_loc hw c1 c2 a hc ha (hu.of_le (by omega))
          obtain ⟨x2, hx2, hsx⟩ := advancePos_loc hw a a2 x hs hfa (hu.of_le (by omega))
          rw [ha2, Res.bind_ok, hx2, Res.bind_ok]
          exact ih x x2 r1 hsx hfx hu
        rw [if_neg hbs] at hr ⊢
        by_cases hq : ch = chDQuote
        · rw [if_pos hq] at hr ⊢
          cases hr
          exact ⟨c2, rfl, hc⟩
        · rw [if_neg hq] at hr ⊢
          obtain ⟨a, ha, hfa⟩ := (Res.bind_eq_ok _ _ _).1 hr
          obtain ⟨a2, ha2, hs⟩ := advancePos_loc hw c1 c2 a hc ha (hu.of_le (by omega))
          rw [ha2, Res.bind_ok]
          exact ih a a2 r1 hs hfa hu
    · rw [if_neg hm] at hr ⊢
      cases hr
      exact ⟨c2, rfl, hc⟩

/-- `lexStringImpl` looks only at the characters before the cursor it
leaves. -/
theorem lexStringImpl_loc {b1 b2 : MemoryBuffer} {k : Nat} (hw : Within b1 b2 k)
    (fid1 fid2 fuel : Nat) (c1 c2 : Cursor) (r1 : Token × Cursor)
    (hc : c2.curPos = c1.curPos + k) (hr : Lexer.lexStringImpl b1 fid1 fuel c1 = .ok r1)
    (hu : Upto b1 b2 k r1.2.curPos) :
    ∃ r2, Lexer.lexStringImpl b2 fid2 fuel c2 = .ok r2 ∧ r2.2.curPos = r1.2.curPos + k ∧
      r2.1.kind = r1.1.kind ∧ r2.1.content = r1.1.content := by
  unfold Lexer.lexStringImpl at hr ⊢
  obtain ⟨x, hx, hfx⟩ := (Res.bind_eq_ok _ _ _).1 hr
  obtain ⟨a, ha, hfa⟩ := (Res.bind_eq_ok _ _ _).1 hx
  obtain ⟨y, hy, hfy⟩ := (Res.bind_eq_ok _ _ _).1 hfx
  cases hfy
  have hca := advancePos_curPos b1 c1 a ha
  have hax := lexStringLoop_forward b1 fuel a x hfa
  have hxy := advancePos_curPos b1 x y hy
  simp only at hca hax hxy hu
  obtain ⟨a2, ha2, hs⟩ := advancePos_loc hw c1 c2 a hc ha (hu.of_le (by omega))
  obtain ⟨x2, hx2, hsx⟩ := lexStringLoop_loc hw fuel a a2 x hs hfa (hu.of_le (by omega))
  obtain ⟨y2, hy2, hsy⟩ := advancePos_loc hw x x2 y hsx hy (hu.of_le (by omega))
  rw [ha2, Res.bind_ok, hx2, Res.bind_ok, hy2, Res.bind_ok]
  refine ⟨_, rfl, hsy, rfl, ?_⟩
  simp only [Token.createString, hc, hsx]
  rw [show c1.curPos + k + 1 = c1.curPos + 1 + k by omega,
    show x.curPos + k - (c1.curPos + k) - 1 = x.curPos - c1.curPos - 1 by omega,
    hw.slice _ _ (hu.of_le (by omega))]

theorem lexIdentifierImpl_loc {b1 b2 : MemoryBuffer} {k : Nat} (hw : Within b1 b2 k)
    (fid1 fid2 fuel : Nat) (ii : IdentifierInterner) (c1 c2 : Cursor)
    (r1 : Token × IdentifierInterner × Cursor)
    (hc : c2.curPos = c1.curPos + k)
    (hr : Lexer.lexIdentifierImpl b1 fid1 fuel ii c1 = .ok r1)
    (hu : Upto b1 b2 k (r1.2.2.curPos + 1)) :
    ∃ r2, Lexer.lexIdentifierImpl b2 fid2 fuel ii c2 = .ok r2 ∧
      r2.2.2.curPos = r1.2.2.curPos + k ∧ r2.2.1 = r1.2.1 ∧
      r2.1.kind = r1.1.kind ∧ r2.1.content = r1.1.content := by
  unfold Lexer.lexIdentifierImpl at hr ⊢
  obtain ⟨x, hx, hfx⟩ := (Res.bind_eq_ok _ _ _).1 hr
  obtain ⟨a, ha, hfa⟩ := (Res.bind_eq_ok _ _ _).1 hx
  cases hfx
  have hca := advancePos_curPos b1 c1 a ha
  have hax := lexIdentifierLoop_forward b1 fuel a x hfa
  simp only at hca hax hu
  obtain ⟨a2, ha2, hs⟩ := advancePos_loc hw c1 c2 a hc ha (hu.of_le (by omega))
  obtain ⟨x2, hx2, hsx⟩ := lexIdentifierLoop_loc hw fuel a a2 x hs hfa hu
  rw [ha2, Res.bind_ok, hx2, Res.bind_ok]
  have hsl : b2.slice c2.curPos (x2.curPos - c2.curPos) = b1.slice c1.curPos
      (x.curPos - c1.curPos) := by
    rw [hc, hsx, show x.curPos + k - (c1.curPos + k) = x.curPos - c1.curPos by omega,
      hw.slice _ _ (hu.of_le (by omega))]
  refine ⟨_, rfl, hsx, ?_, rfl, ?_⟩
  · simp only [hsl]
  · simp only [Token.createIdentifier, hsl]

theorem lexNumberDigits_loc {b1 b2 : MemoryBuffer} {k : Nat} (hw : Within b1 b2 k)
    (fid1 fid2 fuel : Nat) (neg : Bool) (c1 c2 : Cursor) (r1 : Token × Cursor)
    (hc : c2.curPos = c1.curPos + k)
    (hr : Lexer.lexNumberDigits b1 fid1 fuel neg c1 = .ok r1)
    (hu : Upto b1 b2 k (r1.2.curPos + 1)) :
    ∃ r2, Lexer.lexNumberDigits b2 fid2 fuel neg c2 = .ok r2 ∧
      r2.2.curPos = r1.2.curPos + k ∧ r2.1.kind = r1.1.kind ∧ r2.1.content = r1.1.content := by
  unfold Lexer.lexNumberDigits at hr ⊢
  obtain ⟨x, hx, hfx⟩ := (Res.bind_eq_ok _ _ _).1 hr
  obtain ⟨bits, hbits, hfb⟩ := (Res.bind_eq_ok _ _ _).1 hfx
  cases hfb
  have hcx := lexNumberLoop_forward b1 fuel c1 x hx
  simp only at hcx hu
  obtain ⟨x2, hx2, hsx⟩ := lexNumberLoop_loc hw fuel c1 c2 x hc hx hu
  have hsl : b2.slice c2.curPos (x2.curPos - c2.curPos) = b1.slice c1.curPos
      (x.curPos - c1.curPos) := by
    rw [hc, hsx, show x.curPos + k - (c1.curPos + k) = x.curPos - c1.curPos by omega,
      hw.slice _ _ (hu.of_le (by omega))]
  rw [hx2, Res.bind_ok, hsl, hbits, Res.bind_ok]
  exact ⟨_, rfl, hsx, rfl, rfl⟩

theorem lexNumberImpl_loc {b1 b2 : MemoryBuffer} {k : Nat} (hw : Within b1 b2 k)
    (fid1 fid2 fuel : Nat) (c1 c2 : Cursor) (r1 : Token × Cursor)
    (hc : c2.curPos = c1.curPos + k)
    (hr : Lexer.lexNumberImpl b1 fid1 fuel c1 = .ok r1)
    (hu : Upto b1 b2 k (r1.2.curPos + 1)) :
    ∃ r2, Lexer.lexNumberImpl b2 fid2 fuel c2 = .ok r2 ∧
      r2.2.curPos = r1.2.curPos + k ∧ r2.1.kind = r1.1.kind ∧ r2.1.content = r1.1.content := by
  have hfw := (lexNumberImpl_forward b1 fid1 fuel c1 r1 hr).1
  have h0 := hw.agree hu (show c1.curPos < r1.2.curPos + 1 by omega)
  have hC2 : b2.charAt c2.curPos = b1.charAt c1.curPos := by rw [hc]; exact h0.1
  unfold Lexer.lexNumberImpl at hr ⊢
  rw [hC2]
  cases hch : b1.charAt c1.curPos with
  | none => rw [hch] at hr; cases hr
  | some ch =>
    rw [hch] at hr
    simp only at hr ⊢
    by_cases hminus : ch = '-'
    · rw [if_pos hminus] at hr ⊢
      obtain ⟨x, hx, hfx⟩ := (Res.bind_eq_ok _ _ _).1 hr
      obtain ⟨a, ha, hfa⟩ := (Res.bind_eq_ok _ _ _).1 hx
      have hca := advancePos_curPos b1 c1 a ha
      have hax := skipWhiteSpaces_forward b1 fuel a x hfa
      have hxr := (lexNumberDigits_forward b1 fid1 fuel true x r1 hfx).1
      simp only at hca hax hxr
      obtain ⟨a2, ha2, hs⟩ := advancePos_loc hw c1 c2 a hc ha (hu.of_le (by omega))
      obtain ⟨x2, hx2, hsx⟩ := skipWhiteSpaces_loc hw fuel a a2 x hs hfa (hu.of_le (by omega))
      rw [ha2, Res.bind_ok, hx2, Res.bind_ok]
      exact lexNumberDigits_loc hw fid1 fid2 fuel true x x2 r1 hsx hfx hu
    · rw [if_neg hminus] at hr ⊢
      exact lexNumberDigits_loc hw fid1 fid2 fuel false c1 c2 r1 hc hr hu

theorem advanceCodePosLoop_loc {b1 b2 : MemoryBuffer} {k : Nat} (hw : Within b1 b2 k) :
    ∀ (fuel : Nat) (c1 c2 : Cursor) (pos1 : Nat) (r1 : Bool × Cursor),
      c2.curPos = c1.curPos + k →
      Lexer.advanceCodePosLoop b1 fuel c1 pos1 = .ok r1 →
      Upto b1 b2 k (pos1 + 1) → Upto b1 b2 k (r1.2.curPos + 1) →
      ∃ r2, Lexer.advanceCodePosLoop b2 fuel c2 (pos1 + k) = .ok r2 ∧
        r2.2.curPos = r1.2.curPos + k ∧ r2.1 = r1.1 := by
  intro fuel
  induction fuel with
  | zero => intro c1 c2 pos1 r1 _ hr; cases hr
  | succ fuel ih =>
    intro c1 c2 pos1 r1 hc hr hu hur
    have h0 := hw.agree hu (Nat.lt_succ_self pos1)
    rw [Lexer.advanceCodePosLoop] at hr ⊢
    simp only [MemoryBuffer.bufferEnd] at hr ⊢
    rw [h0.1]
    by_cases hm : pos1 < b1.data.length
    · have hm2 : pos1 + k < b2.data.length := h0.2.1.2 hm
      rw [if_pos hm] at hr
      rw [if_pos hm2]
      cases hch : b1.charAt pos1 with
      | none => rw [hch] at hr; cases hr
      | some ch =>
        rw [hch] at hr
        simp only at hr ⊢
        by_cases hn : ch = chNewline
        · rw [if_pos hn] at hr ⊢
          cases hr
          simp only at hur
          refine ⟨_, rfl, by simp only; omega, ?_⟩
          exact hw.hasMoreChars hur _ _ (by simp only; omega) (by simp only; omega)
        · rw [if_neg hn] at hr ⊢
          by_cases hsp : (!isspace ch) = true
          · rw [if_pos hsp] at hr ⊢
            cases hr
            exact ⟨_, rfl, hc, rfl⟩
          · rw [if_neg hsp] at hr ⊢
            exact ih c1 c2 pos1 r1 hc hr hu hur
    · have hm2 : ¬ pos1 + k < b2.data.length := fun h => hm (h0.2.1.1 h)
      rw [if_neg hm] at hr
      rw [if_neg hm2]
      cases hr
      exact ⟨_, rfl, hc, rfl⟩

theorem advanceCodePos_loc {b1 b2 : MemoryBuffer} {k : Nat} (hw : Within b1 b2 k)
    (fuel : Nat) (c1 c2 : Cursor) (r1 : Bool × Cursor) (hc : c2.curPos = c1.curPos + k)
    (hr : Lexer.advanceCodePos b1 fuel c1 = .ok r1) (hu : Upto b1 b2 k (r1.2.curPos + 2)) :
    ∃ r2, Lexer.advanceCodePos b2 fuel c2 = .ok r2 ∧ r2.2.curPos = r1.2.curPos + k ∧
      r2.1 = r1.1 := by
  have hfw := advanceCodePos_forward b1 fuel c1 r1 hr
  simp only at hfw
  have h0 := hw.agree hu (show c1.curPos < r1.2.curPos + 2 by omega)
  have h1 := hw.agree hu (show c1.curPos + 1 < r1.2.curPos + 2 by omega)
  unfold Lexer.advanceCodePos at hr ⊢
  rw [hc, h0.1]
  cases hch : b1.charAt c1.curPos with
  | none => rw [hch] at hr; cases hr
  | some ch =>
    rw [hch] at hr
    simp only at hr ⊢
    generalize (if ch = chNewline then c1.line + 1 else c1.line) = l1 at hr
    generalize (if ch = chNewline then c2.line + 1 else c2.line) = l2
    have hM : Lexer.hasMoreChars b2 ⟨l2, c1.curPos + k + 1, c2.lineStart⟩
        = Lexer.hasMoreChars b1 ⟨l1, c1.curPos + 1, c1.lineStart⟩ :=
      hw.hasMoreChars hu _ _ (by simp only; omega) (by simp only; omega)
    rw [hM, show c1.curPos + k + 1 = c1.curPos + 1 + k by omega, h1.1]
    by_cases hm : (!Lexer.hasMoreChars b1 ⟨l1, c1.curPos + 1, c1.lineStart⟩) = true
    · rw [if_pos hm] at hr ⊢
      cases hr
      exact ⟨_, rfl, rfl, rfl⟩
    · rw [if_neg hm] at hr ⊢
      cases hch1 : b1.charAt (c1.curPos + 1) with
      | none => rw [hch1] at hr; cases hr
      | some ch1 =>
        rw [hch1] at hr
        simp only at hr ⊢
        by_cases hb : ch1 = chBackslash
        · rw [if_pos hb] at hr ⊢
          have := advanceCodePosLoop_loc hw fuel ⟨l1, c1.curPos + 1, c1.lineStart⟩
            ⟨l2, c1.curPos + 1 + k, c2.lineStart⟩ (c1.curPos + 1 + 1) r1 rfl hr
            (hu.of_le (by omega)) (hu.of_le (by omega))
          rw [show c1.curPos + 1 + 1 + k = c1.curPos + 1 + k + 1 by omega] at this
          exact this
        · rw [if_neg hb] at hr ⊢
          cases hr
          exact ⟨_, rfl, rfl, rfl⟩

theorem codeChar_loc {b1 b2 : MemoryBuffer} {k : Nat} (hw : Within b1 b2 k)
    (c1 c2 : Cursor) (r1 : Char × Cursor) (hc : c2.curPos = c1.curPos + k)
    (hr : Lexer.codeChar b1 c1 = .ok r1) (hu : Upto b1 b2 k (r1.2.curPos + 1)) :
    ∃ r2, Lexer.codeChar b2 c2 = .ok r2 ∧ r2.2.curPos = r1.2.curPos + k ∧ r2.1 = r1.1 := by
  have hfw := codeChar_forward b1 c1 r1 hr
  simp only at hfw
  have h0 := hw.agree hu (show c1.curPos < r1.2.curPos + 1 by omega)
  unfold Lexer.codeChar at hr ⊢
  rw [hc, h0.1]
  cases hch : b1.charAt c1.curPos with
  | none => rw [hch] at hr; cases hr
  | some ch =>
    rw [hch] at hr
    simp only at hr ⊢
    by_cases hb : ch = chBackslash
    · rw [if_pos hb] at hr ⊢
      cases hch1 : b1.charAt (c1.curPos + 1) with
      | none => rw [hch1] at hr; cases hr
      | some ch1 =>
        rw [hch1] at hr
        cases hr
        have h1 := hw.agree hu (show c1.curPos + 1 < c1.curPos + 1 + 1 by omega)
        rw [show c1.curPos + k + 1 = c1.curPos + 1 + k by omega, h1.1, hch1]
        exact ⟨_, rfl, rfl, rfl⟩
    · rw [if_neg hb] at hr ⊢
      cases hr
      exact ⟨_, rfl, hc, rfl⟩

/-- A call of `advanceCodePos` followed by a step that keeps the cursor. -/
theorem advanceCodePos_bind_loc {b1 b2 : MemoryBuffer} {k : Nat} (hw : Within b1 b2 k)
    (fuel : Nat) (c1 c2 : Cursor) (hc : c2.curPos = c1.curPos + k)
    (g1 g2 : Bool × Cursor → Res (Bool × CodeScan × Cursor))
    (hcur : ∀ a x, g1 a = .ok x → x.2.2.curPos = a.2.curPos)
    (hg : ∀ a a2 x, a2.2.curPos = a.2.curPos + k → a2.1 = a.1 →
      Upto b1 b2 k (a.2.curPos + 1) → g1 a = .ok x →
      ∃ x2, g2 a2 = .ok x2 ∧ x2.1 = x.1 ∧ x2.2.1 = x.2.1 ∧ x2.2.2.curPos = x.2.2.curPos + k)
    (r1 : Bool × CodeScan × Cursor)
    (hr : (Lexer.advanceCodePos b1 fuel c1).bind g1 = .ok r1)
    (hu : Upto b1 b2 k (r1.2.2.curPos + 2)) :
    ∃ r2, (Lexer.advanceCodePos b2 fuel c2).bind g2 = .ok r2 ∧ r2.1 = r1.1 ∧
      r2.2.1 = r1.2.1 ∧ r2.2.2.curPos = r1.2.2.curPos + k := by
  obtain ⟨a, ha, hga⟩ := (Res.bind_eq_ok _ _ _).1 hr
  have hcu := hcur a r1 hga
  obtain ⟨a2, ha2, hs, hf⟩ := advanceCodePos_loc hw fuel c1 c2 a hc ha (by rw [← hcu]; exact hu)
  rw [ha2, Res.bind_ok]
  exact hg a a2 r1 hs hf (by rw [← hcu]; exact hu.of_le (by omega)) hga

theorem codeStep_loc {b1 b2 : MemoryBuffer} {k : Nat} (hw : Within b1 b2 k)
    (fuel : Nat) (m : CodeScan) (ch : Char) (c1 c2 : Cursor)
    (r1 : Bool × CodeScan × Cursor) (hc : c2.curPos = c1.curPos + k)
    (hr : Lexer.codeStep b1 fuel m ch c1 = .ok r1) (hu : Upto b1 b2 k (r1.2.2.curPos + 2)) :
    ∃ r2, Lexer.codeStep b2 fuel m ch c2 = .ok r2 ∧ r2.1 = r1.1 ∧ r2.2.1 = r1.2.1 ∧
      r2.2.2.curPos = r1.2.2.curPos + k := by
  have hkeep : ∀ (m1 : CodeScan) (a : Bool × Cursor) (x : Bool × CodeScan × Cursor),
      (Res.ok (false, m1, a.2) : Res (Bool × CodeScan × Cursor)) = .ok x →
      x.2.2.curPos = a.2.curPos := by
    intro m1 a x h; cases h; rfl
  have hkeep2 : ∀ (m1 : CodeScan) (a a2 : Bool × Cursor) (x : Bool × CodeScan × Cursor),
      a2.2.curPos = a.2.curPos + k →
      (Res.ok (false, m1, a.2) : Res (Bool × CodeScan × Cursor)) = .ok x →
      ∃ x2, (Res.ok (false, m1, a2.2) : Res (Bool × CodeScan × Cursor)) = .ok x2 ∧
        x2.1 = x.1 ∧ x2.2.1 = x.2.1 ∧ x2.2.2.curPos = x.2.2.curPos + k := by
    intro m1 a a2 x hs h; cases h; exact ⟨_, rfl, rfl, rfl, hs⟩
  unfold Lexer.codeStep at hr ⊢
  by_cases hL : m.insideLineComment = true
  · simp only [hL, if_true] at hr ⊢
    by_cases hn : ch = chNewline
    · simp only [hn, if_true] at hr ⊢; cases hr; exact ⟨_, rfl, rfl, rfl, hc⟩
    · simp only [hn, if_false] at hr ⊢; cases hr; exact ⟨_, rfl, rfl, rfl, hc⟩
  simp only [hL, if_false] at hr ⊢
  by_cases hB : m.insideBlockComment = true
  · simp only [hB, if_true] at hr ⊢
    by_cases hs : ch = '*'
    · simp only [hs, if_true] at hr ⊢
      refine advanceCodePos_bind_loc hw fuel c1 c2 hc _ _ ?_ ?_ r1 hr hu
      · intro a x hx
        by_cases ha : a.1 = true
        · simp only [ha, if_true] at hx
          cases hch : b1.charAt a.2.curPos with
          | none => rw [hch] at hx; cases hx
          | some c =>
            rw [hch] at hx
            simp only at hx
            by_cases hsl : c = '/'
            · simp only [hsl, if_true] at hx; cases hx; rfl
            · simp only [hsl, if_false] at hx; cases hx; rfl
        · simp only [ha, if_false] at hx; cases hx; rfl
      · intro a a2 x hsa hfa hua hx
        have h0 := hw.agree hua (Nat.lt_succ_self _)
        rw [hfa, hsa, h0.1]
        by_cases ha : a.1 = true
        · simp only [ha, if_true] at hx ⊢
          cases hch : b1.charAt a.2.curPos with
          | none => rw [hch] at hx; cases hx
          | some c =>
            rw [hch] at hx
            simp only at hx ⊢
            by_cases hsl : c = '/'
            · simp only [hsl, if_true] at hx ⊢; cases hx; exact ⟨_, rfl, rfl, rfl, hsa⟩
            · simp only [hsl, if_false] at hx ⊢; cases hx; exact ⟨_, rfl, rfl, rfl, hsa⟩
        · simp only [ha, if_false] at hx ⊢; cases hx; exact ⟨_, rfl, rfl, rfl, hsa⟩
    · simp only [hs, if_false] at hr ⊢; cases hr; exact ⟨_, rfl, rfl, rfl, hc⟩
  simp only [hB, if_false] at hr ⊢
  by_cases hS : m.insideString = true
  · simp only [hS, if_true] at hr ⊢
    by_cases hb : ch = chBackslash
    · simp only [hb, if_true] at hr ⊢
      exact advanceCodePos_bind_loc hw fuel c1 c2 hc _ _ (fun a x hx => hkeep m a x hx)
        (fun a a2 x hsa _ _ hx => hkeep2 m a a2 x hsa hx) r1 hr hu
    · simp only [hb, if_false] at hr ⊢
      by_cases hq : ch = chDQuote
      · simp only [hq, if_true] at hr ⊢; cases hr; exact ⟨_, rfl, rfl, rfl, hc⟩
      · simp only [hq, if_false] at hr ⊢; cases hr; exact ⟨_, rfl, rfl, rfl, hc⟩
  simp only [hS, if_false] at hr ⊢
  by_cases hC : m.insideChar = true
  · simp only [hC, if_true] at hr ⊢
    by_cases hb : ch = chBackslash
    · simp only [hb, if_true] at hr ⊢
      exact advanceCodePos_bind_loc hw fuel c1 c2 hc _ _ (fun a x hx => hkeep m a x hx)
        (fun a a2 x hsa _ _ hx => hkeep2 m a a2 x hsa hx) r1 hr hu
    · simp only [hb, if_false] at hr ⊢
      by_cases hq : ch = chSQuote
      · simp only [hq, if_true] at hr ⊢; cases hr; exact ⟨_, rfl, rfl, rfl, hc⟩
      · simp only [hq, if_false] at hr ⊢; cases hr; exact ⟨_, rfl, rfl, rfl, hc⟩
  simp only [hC, if_false] at hr ⊢
  by_cases hsl : ch = '/'
  · simp only [hsl, if_true] at hr ⊢
    refine advanceCodePos_bind_loc hw fuel c1 c2 hc _ _ ?_ ?_ r1 hr hu
    · intro a x hx
      cases hch : b1.charAt a.2.curPos with
      | none => rw [hch] at hx; cases hx
      | some c =>
        rw [hch] at hx
        simp only at hx
        by_cases e1 : c = '/'
        · simp only [e1, if_true] at hx; cases hx; rfl
        · simp only [e1, if_false] at hx
          by_cases e2 : c = '*'
          · simp only [e2, if_true] at hx; cases hx; rfl
          · simp only [e2, if_false] at hx; cases hx; rfl
    · intro a a2 x hsa hfa hua hx
      have h0 := hw.agree hua (Nat.lt_succ_self _)
      rw [hsa, h0.1]
      cases hch : b1.charAt a.2.curPos with
      | none => rw [hch] at hx; cases hx
      | some c =>
        rw [hch] at hx
        simp only at hx ⊢
        by_cases e1 : c = '/'
        · simp only [e1, if_true] at hx ⊢; cases hx; exact ⟨_, rfl, rfl, rfl, hsa⟩
        · simp only [e1, if_false] at hx ⊢
          by_cases e2 : c = '*'
          · simp only [e2, if_true] at hx ⊢; cases hx; exact ⟨_, rfl, rfl, rfl, hsa⟩
          · simp only [e2, if_false] at hx ⊢; cases hx; exact ⟨_, rfl, rfl, rfl, hsa⟩
  simp only [hsl, if_false] at hr ⊢
  by_cases e1 : ch = chLBrace
  · simp only [e1, if_true] at hr ⊢; cases hr; exact ⟨_, rfl, rfl, rfl, hc⟩
  simp only [e1, if_false] at hr ⊢
  by_cases e2 : ch = chRBrace
  · simp only [e2, if_true] at hr ⊢
    by_cases e3 : m.blockNestingLevel ≠ 0
    · rw [if_pos e3] at hr ⊢; cases hr; exact ⟨_, rfl, rfl, rfl, hc⟩
    · rw [if_neg e3] at hr ⊢; cases hr; exact ⟨_, rfl, rfl, rfl, hc⟩
  simp only [e2, if_false] at hr ⊢
  by_cases e4 : ch = chDQuote
  · simp only [e4, if_true] at hr ⊢; cases hr; exact ⟨_, rfl, rfl, rfl, hc⟩
  simp only [e4, if_false] at hr ⊢
  by_cases e5 : ch = chSQuote
  · simp only [e5, if_true] at hr ⊢; cases hr; exact ⟨_, rfl, rfl, rfl, hc⟩
  simp only [e5, if_false] at hr ⊢
  cases hr
  exact ⟨_, rfl, rfl, rfl, hc⟩

theorem lexCodeStringLoop_loc {b1 b2 : MemoryBuffer} {k : Nat} (hw : Within b1 b2 k) :
    ∀ (fuel : Nat) (m : CodeScan) (c1 c2 r1 : Cursor), c2.curPos = c1.curPos + k →
      Lexer.lexCodeStringLoop b1 fuel m c1 = .ok r1 → Upto b1 b2 k (r1.curPos + 2) →
      ∃ r2, Lexer.lexCodeStringLoop b2 fuel m c2 = .ok r2 ∧ r2.curPos = r1.curPos + k := by
  intro fuel
  induction fuel with
  | zero => intro m c1 c2 r1 _ hr; simp [Lexer.lexCodeStringLoop] at hr
  | succ fuel ih =>
    intro m c1 c2 r1 hc hr hu
    rw [Lexer.lexCodeStringLoop] at hr ⊢
    cases h1 : Lexer.advanceCodePos b1 fuel c1 with
    | fault => rw [h1] at hr; cases hr
    | timeout => rw [h1] at hr; cases hr
    | ok a =>
      obtain ⟨flag, a⟩ := a
      rw [h1] at hr
      cases flag with
      | false =>
        simp only at hr
        cases hr
        obtain ⟨a2, ha2, hs, hf⟩ := advanceCodePos_loc hw fuel c1 c2 _ hc h1 hu
        obtain ⟨f2, a2⟩ := a2
        simp only at hs hf
        subst hf
        rw [ha2]
        exact ⟨a2, rfl, hs⟩
      | true =>
        simp only at hr
        cases h2 : (Lexer.codeChar b1 a).bind fun r => Lexer.codeStep b1 fuel m r.1 r.2 with
        | fault => rw [h2] at hr; cases hr
        | timeout => rw [h2] at hr; cases hr
        | ok d =>
          obtain ⟨stop, m2, d⟩ := d
          rw [h2] at hr
          obtain ⟨x, hx, hstep⟩ := (Res.bind_eq_ok _ _ _).1 h2
          have hxf := codeChar_forward b1 a x hx
          have hdf := codeStep_forward b1 fuel m x.1 x.2 _ hstep
          simp only at hxf hdf
          have hdr : d.curPos ≤ r1.curPos := by
            cases stop with
            | true => simp only at hr; cases hr; exact le_refl _
            | false =>
              simp only at hr
              have := lexCodeStringLoop_forward b1 fuel m2 d r1 hr
              simp only at this
              omega
          obtain ⟨a2, ha2, hs, hf⟩ := advanceCodePos_loc hw fuel c1 c2 _ hc h1
            (hu.of_le (by simp only; omega))
          obtain ⟨f2, a2⟩ := a2
          simp only at hs hf
          subst hf
          obtain ⟨x2, hx2, hxs, hxc⟩ := codeChar_loc hw a a2 x hs hx (hu.of_le (by omega))
          obtain ⟨d2, hd2, hd1, hdm, hds⟩ := codeStep_loc hw fuel m x.1 x.2 x2.2 _ hxs hstep
            (hu.of_le (by simp only; omega))
          obtain ⟨stop2, m3, d2⟩ := d2
          simp only at hd1 hdm hds
          subst hd1 hdm
          rw [ha2]
          simp only
          rw [hx2, Res.bind_ok, hxc, hd2]
          cases stop2 with
          | true =>
            simp only at hr ⊢
            cases hr
            exact ⟨d2, rfl, hds⟩
          | false =>
            simp only at hr ⊢
            exact ih m3 d d2 r1 hds hr hu

theorem lexCodeStringImpl_loc {b1 b2 : MemoryBuffer} {k : Nat} (hw : Within b1 b2 k)
    (fid1 fid2 fuel : Nat) (c1 c2 : Cursor) (r1 : Token × Cursor)
    (hc : c2.curPos = c1.curPos + k) (hr : Lexer.lexCodeStringImpl b1 fid1 fuel c1 = .ok r1)
    (hu : Upto b1 b2 k (r1.2.curPos + 1)) :
    ∃ r2, Lexer.lexCodeStringImpl b2 fid2 fuel c2 = .ok r2 ∧ r2.2.curPos = r1.2.curPos + k ∧
      r2.1.kind = r1.1.kind ∧ r2.1.content = r1.1.content := by
  unfold Lexer.lexCodeStringImpl at hr ⊢
  obtain ⟨x, hx, hfx⟩ := (Res.bind_eq_ok _ _ _).1 hr
  obtain ⟨y, hy, hfy⟩ := (Res.bind_eq_ok _ _ _).1 hfx
  cases hfy
  have hyc := advancePos_curPos b1 x y hy
  have hxf := lexCodeStringLoop_forward b1 fuel _ c1 x hx
  simp only at hyc hxf hu
  obtain ⟨x2, hx2, hxs⟩ := lexCodeStringLoop_loc hw fuel _ c1 c2 x hc hx
    (hu.of_le (by omega))
  obtain ⟨y2, hy2, hys⟩ := advancePos_loc hw x x2 y hxs hy (hu.of_le (by omega))
  rw [hx2, Res.bind_ok, hy2, Res.bind_ok]
  refine ⟨_, rfl, hys, rfl, ?_⟩
  simp only [Token.createCodeString]
  have hsl := hw.slice (c1.curPos + 1) (x.curPos - c1.curPos - 1)
    (hu.of_le (by omega))
  rw [hc, hxs]
  have e1 : c1.curPos + k + 1 = c1.curPos + 1 + k := by omega
  have e2 : x.curPos + k - (c1.curPos + k) - 1 = x.curPos - c1.curPos - 1 := by omega
  rw [e1, e2, hsl]

theorem lexParenString_loc {b1 b2 : MemoryBuffer} {k : Nat} (hw : Within b1 b2 k)
    (fid1 fid2 fuel : Nat) (c1 c2 : Cursor) (r1 : Token × Cursor)
    (hc : c2.curPos = c1.curPos + k) (hr : Lexer.lexParenString b1 fid1 fuel c1 = .ok r1)
    (hu : Upto b1 b2 k r1.2.curPos) :
    ∃ r2, Lexer.lexParenString b2 fid2 fuel c2 = .ok r2 ∧ r2.2.curPos = r1.2.curPos + k ∧
      r2.1.kind = r1.1.kind ∧ r2.1.content = r1.1.content ∧ c1.curPos + 1 ≤ r1.2.curPos := by
  unfold Lexer.lexParenString at hr ⊢
  obtain ⟨x, hx, hfx⟩ := (Res.bind_eq_ok _ _ _).1 hr
  obtain ⟨y, hy, hfy⟩ := (Res.bind_eq_ok _ _ _).1 hfx
  have hxf := (lexStringImpl_forward b1 fid1 fuel c1 x hx).1
  have hyf := skipWhiteSpaces_forward b1 fuel x.2 y hy
  simp only at hxf hyf
  cases hch : b1.charAt y.curPos with
  | none => rw [hch] at hfy; cases hfy
  | some ch =>
    rw [hch] at hfy
    simp only at hfy
    cases hfy
    simp only at hu
    obtain ⟨x2, hx2, hxs, hxk, hxc⟩ := lexStringImpl_loc hw fid1 fid2 fuel c1 c2 x hc hx
      (hu.of_le (by omega))
    obtain ⟨y2, hy2, hys⟩ := skipWhiteSpaces_loc hw fuel x.2 x2.2 y hxs hy hu
    have h0 := hw.agree hu (Nat.lt_succ_self y.curPos)
    rw [hx2, Res.bind_ok, hy2, Res.bind_ok, hys, h0.1, hch]
    exact ⟨_, rfl, by simp only; omega, hxk, hxc, by simp only; omega⟩

theorem lexOpenParen_loc {b1 b2 : MemoryBuffer} {k : Nat} (hw : Within b1 b2 k)
    (fid1 fid2 fuel : Nat) (c1 c2 : Cursor) (r1 : Token × Cursor)
    (hc : c2.curPos = c1.curPos + k) (hr : Lexer.lexOpenParen b1 fid1 fuel c1 = .ok r1)
    (hu : Upto b1 b2 k (r1.2.curPos + 1)) :
    ∃ r2, Lexer.lexOpenParen b2 fid2 fuel c2 = .ok r2 ∧ r2.2.curPos = r1.2.curPos + k ∧
      r2.1.kind = r1.1.kind ∧ r2.1.content = r1.1.content := by
  unfold Lexer.lexOpenParen at hr ⊢
  obtain ⟨x, hx, hfx⟩ := (Res.bind_eq_ok _ _ _).1 hr
  cases hch : b1.charAt x.curPos with
  | none => rw [hch] at hfx; cases hfx
  | some ch =>
    rw [hch] at hfx
    simp only at hfx
    by_cases hq : ch = chDQuote
    · rw [if_pos hq] at hfx
      obtain ⟨r2, hr2, hrs, hrk, hrc, hrf⟩ :=
        lexParenString_loc hw fid1 fid2 fuel x
          ⟨c2.line, x.curPos + k, c2.lineStart⟩ r1 rfl hfx (hu.of_le (by omega))
      obtain ⟨x2, hx2, hxs⟩ := skipWhiteSpaces_loc hw fuel
        ⟨c1.line, c1.curPos + 1, c1.lineStart⟩ ⟨c2.line, c2.curPos + 1, c2.lineStart⟩ x
        (by simp only; omega) hx (hu.of_le (by omega))
      have h0 := hw.agree hu (show x.curPos < r1.2.curPos + 1 by omega)
      rw [hx2, Res.bind_ok, hxs, h0.1, hch]
      simp only
      rw [if_pos hq]
      obtain ⟨r3, hr3, hrs3, hrk3, hrc3, _⟩ :=
        lexParenString_loc hw fid1 fid2 fuel x x2 r1 hxs hfx (hu.of_le (by omega))
      exact ⟨r3, hr3, hrs3, hrk3, hrc3⟩
    · rw [if_neg hq] at hfx
      cases hfx
      simp only at hu
      obtain ⟨x2, hx2, hxs⟩ := skipWhiteSpaces_loc hw fuel
        ⟨c1.line, c1.curPos + 1, c1.lineStart⟩ ⟨c2.line, c2.curPos + 1, c2.lineStart⟩ x
        (by simp only; omega) hx hu
      have h0 := hw.agree hu (Nat.lt_succ_self x.curPos)
      rw [hx2, Res.bind_ok, hxs, h0.1, hch]
      simp only
      rw [if_neg hq]
      exact ⟨_, rfl, hxs, rfl, rfl⟩

theorem withInterner_loc (ii : IdentifierInterner) (k : Nat) (x1 x2 : Res (Token × Cursor))
    (r1 : Token × IdentifierInterner × Cursor) (hr : withInterner ii x1 = .ok r1)
    (h : ∀ a, x1 = .ok a → a.2 = r1.2.2 → ∃ a2, x2 = .ok a2 ∧ a2.2.curPos = a.2.curPos + k ∧
      a2.1.kind = a.1.kind ∧ a2.1.content = a.1.content) :
    ∃ r2, withInterner ii x2 = .ok r2 ∧ r2.2.2.curPos = r1.2.2.curPos + k ∧
      r2.2.1 = r1.2.1 ∧ r2.1.kc = r1.1.kc := by
  unfold withInterner at hr ⊢
  obtain ⟨a, ha, hfa⟩ := (Res.bind_eq_ok _ _ _).1 hr
  cases hfa
  obtain ⟨a2, ha2, hs, hk, hcn⟩ := h a ha rfl
  rw [ha2, Res.bind_ok]
  exact ⟨_, rfl, hs, rfl, by simp only [Token.kc, hk, hcn]⟩

theorem lexSwitch_loc {b1 b2 : MemoryBuffer} {k : Nat} (hw : Within b1 b2 k)
    (fid1 fid2 fuel : Nat) (ii : IdentifierInterner) (ch : Char) (c1 c2 : Cursor)
    (r1 : Token × IdentifierInterner × Cursor)
    (hc : c2.curPos = c1.curPos + k) (hr : Lexer.lexSwitch b1 fid1 fuel ii ch c1 = .ok r1)
    (hu : ch = ')' ∨ Upto b1 b2 k (r1.2.2.curPos + 1)) :
    ∃ r2, Lexer.lexSwitch b2 fid2 fuel ii ch c2 = .ok r2 ∧
      r2.2.2.curPos = r1.2.2.curPos + k ∧ r2.2.1 = r1.2.1 ∧ r2.1.kc = r1.1.kc := by
  have hdelim : ∀ (kind : TokenKind),
      withInterner ii (.ok (Lexer.lexDelimiter fid1 kind c1)) = .ok r1 →
      ∃ r2, withInterner ii (.ok (Lexer.lexDelimiter fid2 kind c2)) = .ok r2 ∧
        r2.2.2.curPos = r1.2.2.curPos + k ∧ r2.2.1 = r1.2.1 ∧ r2.1.kc = r1.1.kc := by
    intro kind h
    cases h
    exact ⟨_, rfl, by simp only [Lexer.lexDelimiter]; omega, rfl, rfl⟩
  unfold Lexer.lexSwitch at hr ⊢
  by_cases e1 : ch = chLBrace
  · rw [if_pos e1] at hr ⊢
    have hu1 : Upto b1 b2 k (r1.2.2.curPos + 1) := by
      rcases hu with h | h
      · rw [h] at e1; exact absurd e1 (by decide)
      · exact h
    exact withInterner_loc ii k _ _ r1 hr (fun a ha he =>
      lexCodeStringImpl_loc hw fid1 fid2 fuel c1 c2 a hc ha (by rw [he]; exact hu1))
  rw [if_neg e1] at hr ⊢
  by_cases e2 : ch = chDQuote
  · rw [if_pos e2] at hr ⊢
    have hu1 : Upto b1 b2 k (r1.2.2.curPos + 1) := by
      rcases hu with h | h
      · rw [h] at e2; exact absurd e2 (by decide)
      · exact h
    exact withInterner_loc ii k _ _ r1 hr (fun a ha he =>
      lexStringImpl_loc hw fid1 fid2 fuel c1 c2 a hc ha
        (by rw [he]; exact hu1.of_le (by omega)))
  rw [if_neg e2] at hr ⊢
  by_cases e3 : ch = '('
  · rw [if_pos e3] at hr ⊢
    have hu1 : Upto b1 b2 k (r1.2.2.curPos + 1) := by
      rcases hu with h | h
      · rw [h] at e3; exact absurd e3 (by decide)
      · exact h
    exact withInterner_loc ii k _ _ r1 hr (fun a ha he =>
      lexOpenParen_loc hw fid1 fid2 fuel c1 c2 a hc ha (by rw [he]; exact hu1))
  rw [if_neg e3] at hr ⊢
  by_cases e4 : ch = ')'
  · rw [if_pos e4] at hr ⊢; exact hdelim _ hr
  rw [if_neg e4] at hr ⊢
  have hu1 : Upto b1 b2 k (r1.2.2.curPos + 1) := by
    rcases hu with h | h
    · exact absurd h e4
    · exact h
  by_cases e5 : ch = '['
  · rw [if_pos e5] at hr ⊢; exact hdelim _ hr
  rw [if_neg e5] at hr ⊢
  by_cases e6 : ch = ']'
  · rw [if_pos e6] at hr ⊢; exact hdelim _ hr
  rw [if_neg e6] at hr ⊢
  by_cases e7 : ch = ':'
  · rw [if_pos e7] at hr ⊢; exact hdelim _ hr
  rw [if_neg e7] at hr ⊢
  by_cases e8 : canStartIdentifier ch = true
  · rw [if_pos e8] at hr ⊢
    obtain ⟨r2, hr2, hs, hi, hk, hcn⟩ :=
      lexIdentifierImpl_loc hw fid1 fid2 fuel ii c1 c2 r1 hc hr hu1
    exact ⟨r2, hr2, hs, hi, by simp only [Token.kc, hk, hcn]⟩
  rw [if_neg e8] at hr ⊢
  by_cases e9 : canStartNumber ch = true
  · rw [if_pos e9] at hr ⊢
    exact withInterner_loc ii k _ _ r1 hr (fun a ha he =>
      lexNumberImpl_loc hw fid1 fid2 fuel c1 c2 a hc ha (by rw [he]; exact hu1))
  rw [if_neg e9] at hr
  cases hr

/-- The lexer is local: a call of `lex` that succeeds on the buffer `b1`
gives a token of the same kind and payload, the same interner and the
corresponding cursor on a buffer `b2` that holds the text of `b1` at offset
`k`, when the call looked only at characters that are the same in both. -/
theorem scan_loc {b1 b2 : MemoryBuffer} {k : Nat} (hw : Within b1 b2 k)
    (fid1 fid2 fuel : Nat) (ii : IdentifierInterner) (c1 c2 : Cursor)
    (r1 : Token × IdentifierInterner × Cursor)
    (hc : c2.curPos = c1.curPos + k) (hr : Lexer.scan b1 fid1 fuel ii c1 = .ok r1)
    (hu : (r1.1.kind = .CloseParen ∧ Upto b1 b2 k r1.2.2.curPos) ∨
      Upto b1 b2 k (r1.2.2.curPos + 1)) :
    ∃ r2, Lexer.scan b2 fid2 fuel ii c2 = .ok r2 ∧
      r2.2.2.curPos = r1.2.2.curPos + k ∧ r2.2.1 = r1.2.1 ∧ r2.1.kc = r1.1.kc := by
  unfold Lexer.scan at hr ⊢
  obtain ⟨x, hx, hfx⟩ := (Res.bind_eq_ok _ _ _).1 hr
  by_cases hend : x.curPos = b1.bufferEnd
  · rw [if_pos hend] at hfx
    cases hfx
    simp only [Token.createEOF] at hu
    have hu1 : Upto b1 b2 k (x.curPos + 1) := by
      rcases hu with ⟨h, _⟩ | h
      · cases h
      · exact h
    obtain ⟨x2, hx2, hxs⟩ := skipWhiteSpaces_loc hw fuel c1 c2 x hc hx hu1
    have h0 := hw.agree hu1 (Nat.lt_succ_self x.curPos)
    have hend2 : x2.curPos = b2.bufferEnd := by
      rw [hxs]; exact h0.2.2.2 hend
    rw [hx2, Res.bind_ok, if_pos hend2]
    exact ⟨_, rfl, hxs, rfl, rfl⟩
  · rw [if_neg hend] at hfx
    cases hch : b1.charAt x.curPos with
    | none => rw [hch] at hfx; cases hfx
    | some ch =>
      rw [hch] at hfx
      simp only at hfx
      have hfw := lexSwitch_forward b1 fid1 fuel ii ch x r1 hfx
      simp only at hfw
      have hu1 : Upto b1 b2 k (x.curPos + 1) := by
        rcases hu with ⟨h, hu⟩ | h
        · rw [(hfw.2 h).2.1] at hu; exact hu
        · exact h.of_le (by omega)
      have hu2 : ch = ')' ∨ Upto b1 b2 k (r1.2.2.curPos + 1) := by
        rcases hu with ⟨h, _⟩ | h
        · exact Or.inl (hfw.2 h).1
        · exact Or.inr h
      obtain ⟨x2, hx2, hxs⟩ := skipWhiteSpaces_loc hw fuel c1 c2 x hc hx hu1
      have h0 := hw.agree hu1 (Nat.lt_succ_self x.curPos)
      have hend2 : ¬ x2.curPos = b2.bufferEnd := by
        rw [hxs]; intro h; exact hend (h0.2.2.1 h)
      rw [hx2, Res.bind_ok, if_neg hend2, hxs, h0.1, hch]
      simp only
      exact lexSwitch_loc hw fid1 fid2 fuel ii ch x x2 r1 hxs hfx hu2

/-! ## White space and complete comments are skipped -/

theorem charAt_append (b : MemoryBuffer) (pre rest : Text) (x : Char)
    (h : b.data = pre ++ x :: rest) :
    b.charAt pre.length = some x ∧ pre.length < b.data.length :=
  charAt_of_getElem b pre.length x
    (by rw [h, List.getElem?_append_right (le_refl _)]; simp)

theorem Within.same (b : MemoryBuffer) : Within b b 0 :=
  ⟨[], [], by simp, rfl⟩

theorem Upto.whole (b : MemoryBuffer) (n : Nat) : Upto b b 0 n :=
  Or.inr ⟨by simp, rfl⟩

/-- The outcome of `skipWhiteSpaces` depends on the offset of the cursor only. -/
theorem skipWhiteSpaces_cursor (b : MemoryBuffer) (fuel : Nat) (c1 c2 r1 : Cursor)
    (hc : c2.curPos = c1.curPos) (hr : Lexer.skipWhiteSpaces b fuel c1 = .ok r1) :
    ∃ r2, Lexer.skipWhiteSpaces b fuel c2 = .ok r2 ∧ r2.curPos = r1.curPos := by
  obtain ⟨r2, h, hs⟩ := skipWhiteSpaces_loc (Within.same b) fuel c1 c2 r1 (by omega) hr
    (Upto.whole b _)
  exact ⟨r2, h, by omega⟩

theorem skipSemiComment_body (b : MemoryBuffer) :
    ∀ (body pre rest : Text) (c : Cursor) (fuel : Nat), chNewline ∉ body →
      b.data = pre ++ (body ++ chNewline :: rest) → c.curPos = pre.length →
      ∃ r, Lexer.skipSemiComment b (fuel + body.length + 1) c = .ok r ∧
        r.curPos = pre.length + body.length + 1 := by
  intro body
  induction body with
  | nil =>
    intro pre rest c fuel _ hd hc
    have h0 := charAt_append b pre rest chNewline (by simpa using hd)
    rw [Lexer.skipSemiComment, hc, h0.1, ← hc, advancePos_step b c chNewline (by rw [hc]; exact h0.1)]
    simp only [if_true]
    exact ⟨_, rfl, by rw [Cursor.step_curPos]; simp only [List.length_nil]; try omega⟩
  | cons x body ih =>
    intro pre rest c fuel hn hd hc
    have hx : x ≠ chNewline := fun h => hn (by rw [h]; exact List.mem_cons_self _ _)
    have h0 := charAt_append b pre (body ++ chNewline :: rest) x (by simpa using hd)
    have e : fuel + (x :: body).length + 1 = (fuel + body.length + 1) + 1 := by
      simp only [List.length_cons]; omega
    rw [e, Lexer.skipSemiComment, hc, h0.1, ← hc,
      advancePos_step b c x (by rw [hc]; exact h0.1)]
    simp only [if_neg hx]
    obtain ⟨r, hr, hrc⟩ := ih (pre ++ [x]) rest (c.step x) fuel
      (fun h => hn (List.mem_cons_of_mem _ h)) (by simpa using hd)
      (by rw [Cursor.step_curPos]; simp only [List.length_append, List.length_singleton]; omega)
    exact ⟨r, hr, by
      simp only [List.length_append, List.length_cons, List.length_nil] at hrc ⊢; omega⟩

theorem skipSlashComment_body (b : MemoryBuffer) :
    ∀ (body pre rest : Text) (c : Cursor) (fuel : Nat), chNewline ∉ body →
      b.data = pre ++ (body ++ chNewline :: rest) → c.curPos = pre.length →
      ∃ r, Lexer.skipSlashComment b (fuel + body.length + 1) c = .ok r ∧
        r.curPos = pre.length + body.length + 1 := by
  intro body
  induction body with
  | nil =>
    intro pre rest c fuel _ hd hc
    have h0 := charAt_append b pre rest chNewline (by simpa using hd)
    rw [Lexer.skipSlashComment, hc, if_pos (by exact h0.2), if_pos h0.1]
    exact ⟨_, rfl, by simp⟩
  | cons x body ih =>
    intro pre rest c fuel hn hd hc
    have hx : x ≠ chNewline := fun h => hn (by rw [h]; exact List.mem_cons_self _ _)
    have h0 := charAt_append b pre (body ++ chNewline :: rest) x (by simpa using hd)
    have e : fuel + (x :: body).length + 1 = (fuel + body.length + 1) + 1 := by
      simp only [List.length_cons]; omega
    rw [e, Lexer.skipSlashComment, hc, if_pos (by exact h0.2),
      if_neg (by rw [h0.1]; simpa using hx)]
    obtain ⟨r, hr, hrc⟩ := ih (pre ++ [x]) rest ⟨c.line, pre.length + 1, c.lineStart⟩ fuel
      (fun h => hn (List.mem_cons_of_mem _ h)) (by simpa using hd) (by simp)
    exact ⟨r, hr, by
      simp only [List.length_append, List.length_cons, List.length_nil] at hrc ⊢; omega⟩

theorem hasStarSlash_cons (x : Char) (body : Text) (h : hasStarSlash (x :: body) = false) :
    hasStarSlash body = false ∧ ∀ y rest, body = y :: rest → ¬ (x = '*' ∧ y = '/') := by
  cases body with
  | nil => exact ⟨rfl, fun y rest h => by cases h⟩
  | cons y rest =>
    simp only [hasStarSlash, Bool.or_eq_false_iff, Bool.and_eq_false_iff,
      decide_eq_false_iff_not] at h
    refine ⟨h.2, ?_⟩
    intro y1 rest1 he
    cases he
    rintro ⟨h1, h2⟩
    rcases h.1 with h3 | h3
    · exact h3 h1
    · exact h3 h2

theorem skipBlockComment_body (b : MemoryBuffer) :
    ∀ (body pre rest : Text) (c : Cursor) (fuel : Nat), hasStarSlash body = false →
      b.data = pre ++ (body ++ '*' :: '/' :: rest) → c.curPos = pre.length →
      ∃ r, Lexer.skipBlockComment b (fuel + body.length + 1) c = .ok r ∧
        r.curPos = pre.length + body.length + 2 := by
  intro body
  induction body with
  | nil =>
    intro pre rest c fuel _ hd hc
    have h0 := charAt_append b pre ('/' :: rest) '*' (by simpa using hd)
    have h1 := charAt_append b (pre ++ ['*']) rest '/' (by simpa using hd)
    simp only [List.length_append, List.length_singleton] at h1
    rw [Lexer.skipBlockComment, hc, if_pos (by exact h0.2),
      if_pos ⟨h0.1, by exact h1.2, h1.1⟩]
    exact ⟨_, rfl, by simp only [List.length_nil]; try omega⟩
  | cons x body ih =>
    intro pre rest c fuel hn hd hc
    obtain ⟨hn1, hn2⟩ := hasStarSlash_cons x body hn
    have h0 := charAt_append b pre (body ++ '*' :: '/' :: rest) x (by simpa using hd)
    have hno : ¬ (b.charAt pre.length = some '*' ∧ pre.length + 1 < b.bufferEnd ∧
        b.charAt (pre.length + 1) = some '/') := by
      rintro ⟨h1, _, h3⟩
      rw [h0.1] at h1
      simp only [Option.some.injEq] at h1
      cases body with
      | nil =>
        have h4 := charAt_append b (pre ++ [x]) ('/' :: rest) '*' (by simpa using hd)
        simp only [List.length_append, List.length_singleton] at h4
        rw [h4.1] at h3
        exact absurd h3 (by decide)
      | cons y body1 =>
        have h4 := charAt_append b (pre ++ [x]) (body1 ++ '*' :: '/' :: rest) y
          (by simpa using hd)
        simp only [List.length_append, List.length_singleton] at h4
        rw [h4.1] at h3
        simp only [Option.some.injEq] at h3
        exact hn2 y body1 rfl ⟨h1, h3⟩
    have e : fuel + (x :: body).length + 1 = (fuel + body.length + 1) + 1 := by
      simp only [List.length_cons]; omega
    rw [e, Lexer.skipBlockComment, hc, if_pos (by exact h0.2), if_neg hno]
    obtain ⟨r, hr, hrc⟩ := ih (pre ++ [x]) rest ⟨c.line, pre.length + 1, c.lineStart⟩ fuel
      hn1 (by simpa using hd) (by simp)
    exact ⟨r, hr, by
      simp only [List.length_append, List.length_cons, List.length_nil] at hrc ⊢; omega⟩

theorem skipWhiteSpaces_mono (b : MemoryBuffer) (n m : Nat) (c r : Cursor)
    (h : Lexer.skipWhiteSpaces b n c = .ok r) (hnm : n ≤ m) :
    Lexer.skipWhiteSpaces b m c = .ok r :=
  Res.le_ok (skipWhiteSpaces_le b n m c hnm) h

/-- White space and complete comments are skipped: from their start
`skipWhiteSpaces` ends where it ends from the place after them. -/
theorem skipWhiteSpaces_gap (b : MemoryBuffer) {g : Text} (hg : CleanGap g) :
    ∀ (pre post : Text), b.data = pre ++ (g ++ post) →
      ∀ (fuel : Nat) (c cT s : Cursor), c.curPos = pre.length →
        cT.curPos = pre.length + g.length → Lexer.skipWhiteSpaces b fuel cT = .ok s →
        ∃ s1, Lexer.skipWhiteSpaces b (fuel + g.length) c = .ok s1 ∧ s1.curPos = s.curPos := by
  induction hg with
  | nil =>
    intro pre post _ fuel c cT s hc hT hs
    exact skipWhiteSpaces_cursor b fuel cT c s (by rw [hc, hT]; simp) hs
  | space ch g hsp _ ih =>
    intro pre post hd fuel c cT s hc hT hs
    have h0 := charAt_append b pre (g ++ post) ch (by simpa using hd)
    have hm : Lexer.hasMoreChars b c = true := by
      simp only [Lexer.hasMoreChars, MemoryBuffer.bufferEnd, hc, h0.2, decide_True]
    have e : fuel + (ch :: g).length = (fuel + g.length) + 1 := by
      simp only [List.length_cons]; omega
    rw [e, Lexer.skipWhiteSpaces, if_pos hm, hc, h0.1]
    simp only
    rw [if_pos hsp, advancePos_step b c ch (by rw [hc]; exact h0.1), Res.bind_ok]
    exact ih (pre ++ [ch]) post (by simpa using hd) fuel (c.step ch) cT s
      (by rw [Cursor.step_curPos]; simp only [List.length_append, List.length_singleton]; omega)
      (by simp only [List.length_append, List.length_cons, List.length_nil] at hT ⊢; omega) hs
  | semi body g hn _ ih =>
    intro pre post hd fuel c cT s hc hT hs
    have h0 := charAt_append b pre ((body ++ chNewline :: g) ++ post) ';' (by simpa using hd)
    have hm : Lexer.hasMoreChars b c = true := by
      simp only [Lexer.hasMoreChars, MemoryBuffer.bufferEnd, hc, h0.2, decide_True]
    have e : fuel + (';' :: (body ++ chNewline :: g)).length =
        (fuel + g.length + body.length + 1) + 1 := by
      simp only [List.length_cons, List.length_append]; omega
    rw [e, Lexer.skipWhiteSpaces, if_pos hm, hc, h0.1]
    dsimp only
    rw [if_neg (show ¬ isWhileSpace ';' = true by decide), if_pos rfl,
      advancePos_step b c ';' (by rw [hc]; exact h0.1), Res.bind_ok]
    obtain ⟨r, hr, hrc⟩ := skipSemiComment_body b body (pre ++ [';']) (g ++ post)
      (c.step ';') (fuel + g.length) hn (by simpa using hd)
      (by rw [Cursor.step_curPos]; simp only [List.length_append, List.length_singleton]; omega)
    rw [hr, Res.bind_ok]
    obtain ⟨s1, hs1, hsc⟩ := ih (pre ++ ';' :: (body ++ [chNewline])) post (by simpa using hd)
      fuel r cT s
      (by simp only [List.length_append, List.length_cons, List.length_nil] at hrc ⊢; omega)
      (by simp only [List.length_append, List.length_cons, List.length_nil] at hT ⊢; omega) hs
    exact ⟨s1, skipWhiteSpaces_mono b _ _ _ _ hs1 (by omega), hsc⟩
  | slash body g hn _ ih =>
    intro pre post hd fuel c cT s hc hT hs
    have h0 := charAt_append b pre ('/' :: (body ++ chNewline :: g) ++ post) '/'
      (by simpa using hd)
    have h1 := charAt_append b (pre ++ ['/']) ((body ++ chNewline :: g) ++ post) '/'
      (by simpa using hd)
    simp only [List.length_append, List.length_singleton] at h1
    have hm : Lexer.hasMoreChars b c = true := by
      simp only [Lexer.hasMoreChars, MemoryBuffer.bufferEnd, hc, h0.2, decide_True]
    have e : fuel + ('/' :: '/' :: (body ++ chNewline :: g)).length =
        (fuel + g.length + 1 + body.length + 1) + 1 := by
      simp only [List.length_cons, List.length_append]; omega
    rw [e, Lexer.skipWhiteSpaces, if_pos hm, hc, h0.1]
    dsimp only
    rw [if_neg (show ¬ isWhileSpace '/' = true by decide), if_neg (show ¬ '/' = ';' by decide),
      if_pos rfl, if_pos (by exact h1.2), if_neg (by rw [h1.1]; decide), if_pos h1.1]
    obtain ⟨r, hr, hrc⟩ := skipSlashComment_body b body (pre ++ ['/', '/']) (g ++ post)
      ⟨c.line, pre.length + 2, c.lineStart⟩ (fuel + g.length + 1) hn (by simpa using hd)
      (by simp only [List.length_append, List.length_cons, List.length_nil])
    rw [hr, Res.bind_ok]
    obtain ⟨s1, hs1, hsc⟩ := ih (pre ++ '/' :: '/' :: (body ++ [chNewline])) post
      (by simpa using hd) fuel r cT s
      (by simp only [List.length_append, List.length_cons, List.length_nil] at hrc ⊢; omega)
      (by simp only [List.length_append, List.length_cons, List.length_nil] at hT ⊢; omega) hs
    exact ⟨s1, skipWhiteSpaces_mono b _ _ _ _ hs1 (by omega), hsc⟩
  | block body g hn _ ih =>
    intro pre post hd fuel c cT s hc hT hs
    have h0 := charAt_append b pre ('*' :: (body ++ '*' :: '/' :: g) ++ post) '/'
      (by simpa using hd)
    have h1 := charAt_append b (pre ++ ['/']) ((body ++ '*' :: '/' :: g) ++ post) '*'
      (by simpa using hd)
    simp only [List.length_append, List.length_singleton] at h1
    have hm : Lexer.hasMoreChars b c = true := by
      simp only [Lexer.hasMoreChars, MemoryBuffer.bufferEnd, hc, h0.2, decide_True]
    have e : fuel + ('/' :: '*' :: (body ++ '*' :: '/' :: g)).length =
        (fuel + g.length + 2 + body.length + 1) + 1 := by
      simp only [List.length_cons, List.length_append]; omega
    rw [e, Lexer.skipWhiteSpaces, if_pos hm, hc, h0.1]
    dsimp only
    rw [if_neg (show ¬ isWhileSpace '/' = true by decide), if_neg (show ¬ '/' = ';' by decide),
      if_pos rfl, if_pos (by exact h1.2), if_pos h1.1]
    obtain ⟨r, hr, hrc⟩ := skipBlockComment_body b body (pre ++ ['/', '*']) (g ++ post)
      ⟨c.line, pre.length + 2, c.lineStart⟩ (fuel + g.length + 2) hn (by simpa using hd)
      (by simp only [List.length_append, List.length_cons, List.length_nil])
    rw [hr, Res.bind_ok]
    obtain ⟨s1, hs1, hsc⟩ := ih (pre ++ '/' :: '*' :: (body ++ ['*', '/'])) post
      (by simpa using hd) fuel r cT s
      (by simp only [List.length_append, List.length_cons, List.length_nil] at hrc ⊢; omega)
      (by simp only [List.length_append, List.length_cons, List.length_nil] at hT ⊢; omega) hs
    exact ⟨s1, skipWhiteSpaces_mono b _ _ _ _ hs1 (by omega), hsc⟩


/-! ## Tokens of a text inside a longer buffer -/

theorem scan_le (b : MemoryBuffer) (fileID n m : Nat) (ii : IdentifierInterner) (c : Cursor)
    (h : n ≤ m) : Res.le (Lexer.scan b fileID n ii c) (Lexer.scan b fileID m ii c) := by
  unfold Lexer.scan
  refine Res.le_bind (skipWhiteSpaces_le b n m c h) (fun c1 => ?_)
  apply Res.le_ite
  · intro _; exact Res.le_refl _
  · intro _
    cases b.charAt c1.curPos with
    | none => exact Res.le_refl _
    | some ch => exact lexSwitch_le b fileID n m ii ch c1 h

theorem scan_mono (b : MemoryBuffer) (fileID n m : Nat) (ii : IdentifierInterner) (c : Cursor)
    (r : Token × IdentifierInterner × Cursor) (h : Lexer.scan b fileID n ii c = .ok r)
    (hnm : n ≤ m) : Lexer.scan b fileID m ii c = .ok r :=
  Res.le_ok (scan_le b fileID n m ii c hnm) h

/-- The token of `lex` depends on the offset of the cursor only, not on its
line, and not on the file id. -/
theorem scan_cursor (b : MemoryBuffer) (fid1 fid2 fuel : Nat) (ii : IdentifierInterner)
    (c1 c2 : Cursor) (r1 : Token × IdentifierInterner × Cursor) (hc : c2.curPos = c1.curPos)
    (hr : Lexer.scan b fid1 fuel ii c1 = .ok r1) :
    ∃ r2, Lexer.scan b fid2 fuel ii c2 = .ok r2 ∧ r2.2.2.curPos = r1.2.2.curPos ∧
      r2.2.1 = r1.2.1 ∧ r2.1.kc = r1.1.kc := by
  obtain ⟨r2, h, hs, hi, hk⟩ := scan_loc (Within.same b) fid1 fid2 fuel ii c1 c2 r1
    (by omega) hr (Or.inr (Upto.whole b _))
  exact ⟨r2, h, by omega, hi, hk⟩

/-- The token of `lex` is decided by the offset at which `skipWhiteSpaces`
stops. -/
theorem scan_of_skip (b : MemoryBuffer) (fid1 fid2 fuel fuel2 : Nat) (ii : IdentifierInterner)
    (c c2 s s2 : Cursor) (r : Token × IdentifierInterner × Cursor)
    (hs : Lexer.skipWhiteSpaces b fuel c = .ok s) (hr : Lexer.scan b fid1 fuel ii c = .ok r)
    (hs2 : Lexer.skipWhiteSpaces b fuel2 c2 = .ok s2) (hpos : s2.curPos = s.curPos)
    (hf : fuel ≤ fuel2) :
    ∃ r2, Lexer.scan b fid2 fuel2 ii c2 = .ok r2 ∧ r2.2.2.curPos = r.2.2.curPos ∧
      r2.2.1 = r.2.1 ∧ r2.1.kc = r.1.kc := by
  unfold Lexer.scan at hr ⊢
  rw [hs, Res.bind_ok] at hr
  rw [hs2, Res.bind_ok, hpos]
  by_cases hend : s.curPos = b.bufferEnd
  · rw [if_pos hend] at hr ⊢
    cases hr
    exact ⟨_, rfl, hpos, rfl, rfl⟩
  · rw [if_neg hend] at hr ⊢
    cases hch : b.charAt s.curPos with
    | none => rw [hch] at hr; cases hr
    | some ch =>
      rw [hch] at hr
      simp only at hr ⊢
      obtain ⟨r2, h, hc, hi, hk⟩ := lexSwitch_loc (Within.same b) fid1 fid2 fuel ii ch s s2 r
        (by omega) hr (Or.inr (Upto.whole b _))
      exact ⟨r2, Res.le_ok (lexSwitch_le b fid2 fuel fuel2 ii ch s2 hf) h, by omega, hi, hk⟩

/-- White space and complete comments before the cursor do not change the
token of `lex`. -/
theorem scan_gap (b : MemoryBuffer) (i j : Nat) (hg : GapAt b i j) (fid1 fid2 fuel : Nat)
    (ii : IdentifierInterner) (c cT : Cursor) (r : Token × IdentifierInterner × Cursor)
    (hc : c.curPos = i) (hT : cT.curPos = j) (hr : Lexer.scan b fid1 fuel ii cT = .ok r) :
    ∃ r2, Lexer.scan b fid2 (fuel + b.data.length) ii c = .ok r2 ∧
      r2.2.2.curPos = r.2.2.curPos ∧ r2.2.1 = r.2.1 ∧ r2.1.kc = r.1.kc := by
  obtain ⟨pre, g, post, hd, hi, hj, hcg⟩ := hg
  have hlen : g.length ≤ b.data.length := by
    rw [hd]; simp only [List.length_append]; omega
  have hr0 := hr
  unfold Lexer.scan at hr
  obtain ⟨s, hs, hfs⟩ := (Res.bind_eq_ok _ _ _).1 hr
  obtain ⟨s1, hs1, hsc⟩ := skipWhiteSpaces_gap b hcg pre post hd fuel c cT s
    (by omega) (by omega) hs
  have hs2 := skipWhiteSpaces_mono b _ (fuel + b.data.length) c s1 hs1 (by omega)
  exact scan_of_skip b fid1 fid2 fuel _ ii cT c s s1 r hs hr0 hs2 hsc (by omega)

/-- The lexer is local, also after white space and comments: what `lex`
returns on `b1` it returns on a buffer that holds the text of `b1` at offset
`k`, from a cursor that has only white space and complete comments between
itself and the corresponding offset. -/
theorem scan_ctx {b1 b2 : MemoryBuffer} {k : Nat} (hw : Within b1 b2 k)
    (fid1 fid2 fuel : Nat) (ii : IdentifierInterner) (c1 c2 : Cursor)
    (r1 : Token × IdentifierInterner × Cursor)
    (hg : GapAt b2 c2.curPos (c1.curPos + k)) (hr : Lexer.scan b1 fid1 fuel ii c1 = .ok r1)
    (hu : (r1.1.kind = .CloseParen ∧ Upto b1 b2 k r1.2.2.curPos) ∨
      Upto b1 b2 k (r1.2.2.curPos + 1)) :
    ∃ r2, Lexer.scan b2 fid2 (fuel + b2.data.length) ii c2 = .ok r2 ∧
      r2.2.2.curPos = r1.2.2.curPos + k ∧ r2.2.1 = r1.2.1 ∧ r2.1.kc = r1.1.kc := by
  obtain ⟨rT, hT, hTs, hTi, hTk⟩ := scan_loc hw fid1 fid2 fuel ii c1
    ⟨0, c1.curPos + k, 0⟩ r1 rfl hr hu
  obtain ⟨r2, h2, h2s, h2i, h2k⟩ := scan_gap b2 _ _ hg fid2 fid2 fuel ii c2
    ⟨0, c1.curPos + k, 0⟩ rT rfl rfl hT
  exact ⟨r2, h2, by omega, by rw [h2i, hTi], by rw [h2k, hTk]⟩

theorem CleanGap.append {g1 g2 : Text} (h1 : CleanGap g1) (h2 : CleanGap g2) :
    CleanGap (g1 ++ g2) := by
  induction h1 with
  | nil => exact h2
  | space ch g hsp _ ih => exact CleanGap.space ch _ hsp ih
  | semi body g hn _ ih =>
    have := CleanGap.semi body _ hn ih
    simpa using this
  | slash body g hn _ ih =>
    have := CleanGap.slash body _ hn ih
    simpa using this
  | block body g hn _ ih =>
    have := CleanGap.block body _ hn ih
    simpa using this

theorem GapAt.here (b : MemoryBuffer) (i : Nat) (h : i ≤ b.data.length) : GapAt b i i :=
  ⟨b.data.take i, [], b.data.drop i, by simp, by simp [h], rfl, CleanGap.nil⟩

theorem GapAt.trans {b : MemoryBuffer} {i j l : Nat} (h1 : GapAt b i j) (h2 : GapAt b j l) :
    GapAt b i l := by
  obtain ⟨pre1, g1, post1, hd1, hi1, hj1, hc1⟩ := h1
  obtain ⟨pre2, g2, post2, hd2, hi2, hj2, hc2⟩ := h2
  have e : (pre1 ++ g1) ++ post1 = pre2 ++ (g2 ++ post2) := by
    rw [← hd2, hd1, List.append_assoc]
  obtain ⟨e1, e2⟩ := List.append_inj e (by simp only [List.length_append]; omega)
  refine ⟨pre1, g1 ++ g2, post2, ?_, hi1, ?_, hc1.append hc2⟩
  · rw [hd1, e2, List.append_assoc]
  · simp only [List.length_append]; omega

/-- The white space and comments that end a text, seen in a buffer that holds
the text. -/
theorem GapAt.of_drop {b1 b2 : MemoryBuffer} {k : Nat} (hw : Within b1 b2 k) (i : Nat)
    (hi : i ≤ b1.data.length) (h : CleanGap (b1.data.drop i)) :
    GapAt b2 (i + k) (b1.data.length + k) := by
  obtain ⟨pre, post, hd, hk⟩ := hw
  refine ⟨pre ++ b1.data.take i, b1.data.drop i, post, ?_, ?_, ?_, h⟩
  · rw [hd, List.append_assoc, ← List.append_assoc (b1.data.take i), List.take_append_drop]
  · simp only [List.length_append, List.length_take]; omega
  · simp only [List.length_drop]; omega

theorem Upcoming_mono (N M : Nat) (hNM : N ≤ M) (toks : List (TokenKind × TokenContent)) :
    ∀ (p p1 : CSTParser), p.Upcoming N toks p1 → p.Upcoming M toks p1 := by
  induction toks with
  | nil => intro p p1 h; exact h
  | cons kc rest ih =>
    intro p p1 h
    obtain ⟨t, p2, hkc, hlex, hrest⟩ := h
    exact ⟨t, p2, hkc, fun fuel hf => hlex fuel (by omega), ih p2 p1 hrest⟩

theorem lexTop_of_scan (b : MemoryBuffer) (fid fuel : Nat) (ii ii1 : IdentifierInterner)
    (c c1 : Cursor) (t : Token) (sm : SourceMgr) (stk : List Lexer) (inc : Nat)
    (h : Lexer.scan b fid fuel ii c = .ok (t, ii1, c1)) :
    CSTParser.lexTop fuel ⟨ii, sm, ⟨b, fid, c, none⟩ :: stk, inc⟩ =
      .ok (t, ⟨ii1, sm, ⟨b, fid, c1, none⟩ :: stk, inc⟩) := by
  simp only [CSTParser.lexTop, Lexer.lex, h, Res.bind_ok]

theorem Within.le {b1 b2 : MemoryBuffer} {k : Nat} (hw : Within b1 b2 k) :
    k + b1.data.length ≤ b2.data.length := by
  obtain ⟨pre, post, hd, hk⟩ := hw
  rw [hd]; simp only [List.length_append]; omega

/-- Tokens that end with a closing parenthesis end inside the text. -/
theorem Yields_room (b : MemoryBuffer) (x : TokenContent) :
    ∀ (ts : List (TokenKind × TokenContent)) (ii : IdentifierInterner) (c : Cursor)
      (ii1 : IdentifierInterner) (c1 : Cursor),
      Lexer.Yields b ii c (ts ++ [(.CloseParen, x)]) ii1 c1 →
      c.curPos + 1 ≤ c1.curPos ∧ c1.curPos ≤ b.data.length := by
  intro ts
  induction ts with
  | nil =>
    intro ii c ii1 c1 h
    obtain ⟨fuel, t, ii2, c2, hkc, hscan, hrest⟩ := h
    obtain ⟨hk, _⟩ := kc_eq t _ _ hkc
    obtain ⟨_, hc⟩ := hrest
    subst hc
    have := (scan_forward b 1 fuel ii c _ hscan).2 hk
    exact ⟨this.1, this.2.1⟩
  | cons kc ts ih =>
    intro ii c ii1 c1 h
    obtain ⟨fuel, t, ii2, c2, _, hscan, hrest⟩ := h
    have h1 := (scan_forward b 1 fuel ii c _ hscan).1
    have h2 := ih ii2 c2 ii1 c1 hrest
    simp only at h1
    exact ⟨by omega, h2.2⟩

/-- Tokens that a text yields on its own, ending with a closing parenthesis,
are upcoming in a parser whose top lexer reads a buffer that holds the text,
from a cursor with only white space and complete comments before the text. -/
theorem Upcoming_of_Yields {b1 b2 : MemoryBuffer} {k : Nat} (hw : Within b1 b2 k)
    (sm : SourceMgr) (stk : List Lexer) (inc fid : Nat) (x : TokenContent) :
    ∀ (ts : List (TokenKind × TokenContent)) (ii : IdentifierInterner) (c1 : Cursor)
      (ii1 : IdentifierInterner) (c3 c2 : Cursor),
      Lexer.Yields b1 ii c1 (ts ++ [(.CloseParen, x)]) ii1 c3 →
      GapAt b2 c2.curPos (c1.curPos + k) →
      ∃ N c4, CSTParser.Upcoming N ⟨ii, sm, ⟨b2, fid, c2, none⟩ :: stk, inc⟩
          (ts ++ [(.CloseParen, x)]) ⟨ii1, sm, ⟨b2, fid, c4, none⟩ :: stk, inc⟩ ∧
        c4.curPos = c3.curPos + k := by
  intro ts
  induction ts with
  | nil =>
    intro ii c1 ii1 c3 c2 h hg
    obtain ⟨fuel, t, ii2, cm, hkc, hscan, hrest⟩ := h
    obtain ⟨hk, _⟩ := kc_eq t _ _ hkc
    obtain ⟨hi, hc⟩ := hrest
    subst hi hc
    have hfw := (scan_forward b1 1 fuel ii c1 _ hscan).2 hk
    obtain ⟨r2, h2, h2s, h2i, h2k⟩ := scan_ctx hw 1 fid fuel ii c1 c2 _ hg hscan
      (Or.inl ⟨hk, Or.inl hfw.2.1⟩)
    obtain ⟨t2, ii2, c4⟩ := r2
    simp only at h2s h2i h2k
    subst h2i
    refine ⟨fuel + b2.data.length, c4, ?_, h2s⟩
    exact Upcoming_cons _ _ _ _ t2 _ _ (by rw [h2k, hkc])
      (lexTop_of_scan b2 fid _ ii _ c2 c4 t2 sm stk inc h2) rfl
  | cons kc ts ih =>
    intro ii c1 ii1 c3 c2 h hg
    obtain ⟨fuel, t, ii2, cm, hkc, hscan, hrest⟩ := h
    have hroom := Yields_room b1 x ts ii2 cm ii1 c3 hrest
    obtain ⟨r2, h2, h2s, h2i, h2k⟩ := scan_ctx hw 1 fid fuel ii c1 c2 _ hg hscan
      (Or.inr (Or.inl (by simp only; omega)))
    obtain ⟨t2, ii3, c4⟩ := r2
    simp only at h2s h2i h2k
    subst h2i
    have hle := hw.le
    obtain ⟨N, c5, hup, hc5⟩ := ih ii3 cm ii1 c3 c4 hrest
      (by rw [h2s]; exact GapAt.here b2 _ (by omega))
    refine ⟨max (fuel + b2.data.length) N, c5, ?_, hc5⟩
    refine Upcoming_cons _ _ _ _ t2 _ _ (by rw [h2k, hkc]) ?_
      (Upcoming_mono N _ (le_max_right _ _) _ _ _ hup)
    exact lexTop_mono _ _ _ _
      (lexTop_of_scan b2 fid _ ii _ c2 c4 t2 sm stk inc h2) (le_max_left _ _)

/-- The end of stream that a text yields on its own is upcoming in a parser
whose top lexer reads that text as the end of its buffer. -/
theorem Upcoming_of_Yields_end {b1 b2 : MemoryBuffer} {k : Nat} (hw : Within b1 b2 k)
    (hf : Full b1 b2 k) (sm : SourceMgr) (stk : List Lexer) (inc fid : Nat)
    (ii : IdentifierInterner) (c1 : Cursor) (ii1 : IdentifierInterner) (c3 c2 : Cursor)
    (h : Lexer.Yields b1 ii c1 [(.EndOfStream, .placeHolder)] ii1 c3)
    (hg : GapAt b2 c2.curPos (c1.curPos + k)) :
    ∃ N c4, CSTParser.Upcoming N ⟨ii, sm, ⟨b2, fid, c2, none⟩ :: stk, inc⟩
        [(.EndOfStream, .placeHolder)] ⟨ii1, sm, ⟨b2, fid, c4, none⟩ :: stk, inc⟩ := by
  obtain ⟨fuel, t, ii2, cm, hkc, hscan, hrest⟩ := h
  obtain ⟨hi, hc⟩ := hrest
  subst hi hc
  obtain ⟨r2, h2, h2s, h2i, h2k⟩ := scan_ctx hw 1 fid fuel ii c1 c2 _ hg hscan
    (Or.inr (Or.inr hf))
  obtain ⟨t2, ii2, c4⟩ := r2
  simp only at h2s h2i h2k
  subst h2i
  exact ⟨fuel + b2.data.length, c4, Upcoming_cons _ _ _ _ t2 _ _ (by rw [h2k, hkc])
    (lexTop_of_scan b2 fid _ ii _ c2 c4 t2 sm stk inc h2) rfl⟩

/-! ## The parser on a sequence of forms -/

theorem includeFile_ok (ii : IdentifierInterner) (files : List (Text × Text)) (nb : Nat)
    (top : Lexer) (stk : List Lexer) (inc : Nat) (path text : Text)
    (h : SourceMgr.openFile files path = some text) (hnb : nb + 1 < 2 ^ 32) :
    CSTParser.includeFile ⟨ii, ⟨files, nb⟩, top :: stk, inc⟩ path =
      .ok ⟨ii, ⟨files, nb + 1⟩, ⟨⟨text, true⟩, nb + 1, ⟨0, 0, 0⟩, none⟩ :: top :: stk, inc⟩ := by
  have hm : (nb + 1) % 4294967296 = nb + 1 := Nat.mod_eq_of_lt hnb
  simp [CSTParser.includeFile, SourceMgr.AddIncludeFile, h, hm, Lexer.create]

theorem write_ends_close (inc : Nat) (t : CST) (h : TopForm inc t) :
    ∃ ts, t.write = ts ++ [(.CloseParen, .placeHolder)] := by
  obtain ⟨_, ⟨loc, mm, ss, rfl⟩, _⟩ := h
  exact ⟨(.OpenParen, .placeHolder) :: CST.writeSubforms mm ss, by simp [CST.write]⟩

theorem includeForm_ends_close (inc : Nat) (path : Text) :
    ∃ ts, (includeForm inc path).write = ts ++ [(.CloseParen, .placeHolder)] :=
  ⟨(.OpenParen, .placeHolder) ::
    CST.writeSubforms 0 [.Identifier SourceLocation.invalid inc,
      .String SourceLocation.invalid path], by simp [includeForm, CST.write]⟩

/-- The parser on a sequence of forms: where a text that is such a sequence
sits in the buffer of the top lexer, after white space and complete comments,
`parseTopCST()` returns the forms of the sequence one by one, and then what it
returns from the end of the text on. -/
theorem TopRun_of_Forms {files : List (Text × Text)} {inc : Nat} {b1 : MemoryBuffer}
    {ii : IdentifierInterner} {c1 : Cursor} {n : Nat} {F : List CST}
    {ii1 : IdentifierInterner} {c3 : Cursor} (h : Forms files inc b1 ii c1 n F ii1 c3) :
    ∀ (b2 : MemoryBuffer) (k fid : Nat) (c2 : Cursor) (stk : List Lexer) (nb : Nat)
      (rest : List CST), Within b1 b2 k → GapAt b2 c2.curPos (c1.curPos + k) →
      nb + n < 2 ^ 32 →
      (∀ c4, GapAt b2 c4.curPos (c3.curPos + k) →
        TopRun ⟨ii1, ⟨files, nb + n⟩, ⟨b2, fid, c4, none⟩ :: stk, inc⟩ rest) →
      TopRun ⟨ii, ⟨files, nb⟩, ⟨b2, fid, c2, none⟩ :: stk, inc⟩ (F ++ rest) := by
  induction h with
  | nil b ii c =>
    intro b2 k fid c2 stk nb rest _ hg _ hk
    exact hk c2 hg
  | form b ii ii1 ii2 c c1 c2 n t F hy ht _ ih =>
    intro b2 k fid c4 stk nb rest hw hg hn hk
    obtain ⟨ts, hts⟩ := write_ends_close inc t ht
    rw [hts] at hy
    obtain ⟨N, c5, hup, hc5⟩ := Upcoming_of_Yields hw ⟨files, nb⟩ stk inc fid _ ts ii c ii1 c1
      c4 hy hg
    have hle := hw.le
    have hroom := Yields_room b _ ts ii c ii1 c1 hy
    have hrun := ih b2 k fid c5 stk nb rest hw
      (by rw [hc5]; exact GapAt.here b2 _ (by omega)) hn hk
    have := TopRun_forms N inc [t] _ _ (F ++ rest) rfl
      (by intro u hu; simp only [List.mem_singleton] at hu; rw [hu]; exact ht)
      (by simp only [CST.writeList, List.append_nil]; rw [hts]; exact hup) hrun
    simpa using this
  | incl b ii ii1 ii2 ii3 ii4 c c1 c2 c3 c4 n1 n2 path text F1 F2 hy hfile _ hend _ ih1 ih2 =>
    intro b2 k fid c5 stk nb rest hw hg hn hk
    obtain ⟨ts, hts⟩ := includeForm_ends_close inc path
    rw [hts] at hy
    obtain ⟨N, c6, hup, hc6⟩ := Upcoming_of_Yields hw ⟨files, nb⟩ stk inc fid _ ts ii c ii1 c1
      c5 hy hg
    have hle := hw.le
    have hroom := Yields_room b _ ts ii c ii1 c1 hy
    rw [← hts] at hup
    refine TopRun_include N _ _ _ path _ hup
      (includeFile_ok ii1 files nb _ stk inc path text hfile (by omega)) ?_
    rw [List.append_assoc]
    refine ih1 ⟨text, true⟩ 0 (nb + 1) ⟨0, 0, 0⟩ (⟨b2, fid, c6, none⟩ :: stk) (nb + 1)
      (F2 ++ rest) (Within.same _) (GapAt.here _ 0 (Nat.zero_le _)) (by omega) ?_
    intro c7 hg7
    obtain ⟨M, c8, hup8⟩ := Upcoming_of_Yields_end (Within.same ⟨text, true⟩) ⟨by simp, rfl⟩
      ⟨files, nb + 1 + n1⟩ (⟨b2, fid, c6, none⟩ :: stk) inc (nb + 1) ii2 c2 ii3 c3 c7 hend hg7
    refine TopRun_pop M _ _ _ hup8 ?_
    refine ih2 b2 k fid c6 stk (nb + 1 + n1) rest hw
      (by rw [hc6]; exact GapAt.here b2 _ (by omega)) (by omega) ?_
    intro c9 hg9
    have e : nb + 1 + n1 + n2 = nb + (n1 + n2 + 1) := by omega
    rw [e]
    exact hk c9 hg9

/-! ## The text of the include form -/

theorem closingQuote_plain (x : Char) (rest : Text) :
    ∀ (path : Text), (∀ ch ∈ path, ch ≠ chDQuote ∧ ch ≠ chBackslash) →
      closingQuote (path ++ chDQuote :: x :: rest) = some path.length := by
  intro path
  induction path with
  | nil =>
    intro _
    simp only [List.nil_append, closingQuote, List.length_nil]
    rfl
  | cons c p ih =>
    intro h
    have hc := h c (List.mem_cons_self _ _)
    have hp := ih (fun ch hch => h ch (List.mem_cons_of_mem _ hch))
    cases p with
    | nil =>
      simp only [List.nil_append] at hp
      simp only [List.cons_append, List.nil_append, closingQuote, List.length_cons,
        List.length_nil]
      rw [if_neg hc.2, if_neg hc.1]
      simp only [closingQuote] at hp
      rw [hp]; rfl
    | cons d q =>
      simp only [List.cons_append] at hp ⊢
      rw [closingQuote, if_neg hc.2, if_neg hc.1, hp]
      rfl

theorem Forms_room {files : List (Text × Text)} {inc : Nat} {b : MemoryBuffer}
    {ii : IdentifierInterner} {c : Cursor} {n : Nat} {F : List CST}
    {ii1 : IdentifierInterner} {c1 : Cursor} (h : Forms files inc b ii c n F ii1 c1) :
    c.curPos ≤ b.data.length → c1.curPos ≤ b.data.length := by
  induction h with
  | nil b ii c => exact fun h => h
  | form b ii ii1 ii2 c c1 c2 n t F hy ht _ ih =>
    intro _
    obtain ⟨ts, hts⟩ := write_ends_close inc t ht
    rw [hts] at hy
    exact ih (Yields_room b _ ts ii c ii1 c1 hy).2
  | incl b ii ii1 ii2 ii3 ii4 c c1 c2 c3 c4 n1 n2 path text F1 F2 hy _ _ _ _ _ ih2 =>
    intro _
    obtain ⟨ts, hts⟩ := includeForm_ends_close inc path
    rw [hts] at hy
    exact ih2 (Yields_room b _ ts ii c ii1 c1 hy).2

/-- Three texts one after the other in one main file: when each of them is on
its own a sequence of forms, the first two end with white space and complete
comments only, and the third ends with the end of stream, `parseTopCST()`
returns on the file made of the three the forms of the first, of the second
and of the third, and then the null pointer. -/
theorem TopRun_pieces (files : List (Text × Text)) (inc : Nat) (textP textX textS : Text)
    (ntP ntX : Bool) (ii0 iiP iiX iiS iiE : IdentifierInterner) (cP cX cS cE : Cursor)
    (nP nX nS : Nat) (FP FX FS : List CST)
    (hP : Forms files inc ⟨textP, ntP⟩ ii0 ⟨0, 0, 0⟩ nP FP iiP cP)
    (gP : CleanGap (textP.drop cP.curPos))
    (hX : Forms files inc ⟨textX, ntX⟩ iiP ⟨0, 0, 0⟩ nX FX iiX cX)
    (gX : CleanGap (textX.drop cX.curPos))
    (hS : Forms files inc ⟨textS, false⟩ iiX ⟨0, 0, 0⟩ nS FS iiS cS)
    (eS : Lexer.Yields ⟨textS, false⟩ iiS cS [(.EndOfStream, .placeHolder)] iiE cE)
    (hn : 1 + nP + nX + nS < 2 ^ 32) :
    TopRun ⟨ii0, ⟨files, 1⟩, [⟨⟨textP ++ (textX ++ textS), false⟩, 1, ⟨0, 0, 0⟩, none⟩], inc⟩
      (FP ++ (FX ++ (FS ++ []))) := by
  have wP : Within ⟨textP, ntP⟩ ⟨textP ++ (textX ++ textS), false⟩ 0 :=
    ⟨[], textX ++ textS, by simp, rfl⟩
  have wX : Within ⟨textX, ntX⟩ ⟨textP ++ (textX ++ textS), false⟩ textP.length :=
    ⟨textP, textS, rfl, rfl⟩
  have wS : Within ⟨textS, false⟩ ⟨textP ++ (textX ++ textS), false⟩
      (textP.length + textX.length) :=
    ⟨textP ++ textX, [], by simp, by simp⟩
  have fS : Full ⟨textS, false⟩ ⟨textP ++ (textX ++ textS), false⟩
      (textP.length + textX.length) :=
    ⟨by simp only [List.length_append]; omega, rfl⟩
  have rP := Forms_room hP (Nat.zero_le _)
  have rX := Forms_room hX (Nat.zero_le _)
  have gP2 := GapAt.of_drop wP cP.curPos rP gP
  have gX2 := GapAt.of_drop wX cX.curPos rX gX
  simp only [Nat.add_zero] at gP2
  refine TopRun_of_Forms hP _ 0 1 ⟨0, 0, 0⟩ [] 1 _ wP
    (GapAt.here _ 0 (Nat.zero_le _)) (by omega) ?_
  intro c4 hg4
  refine TopRun_of_Forms hX _ textP.length 1 c4 [] (1 + nP) _ wX ?_ (by omega) ?_
  · simp only [Nat.add_zero] at hg4
    simpa using hg4.trans gP2
  intro c5 hg5
  refine TopRun_of_Forms hS _ (textP.length + textX.length) 1 c5 [] (1 + nP + nX) _ wS ?_
    (by omega) ?_
  · have := hg5.trans gX2
    simpa [Nat.add_comm] using this
  intro c6 hg6
  obtain ⟨M, c7, hup⟩ := Upcoming_of_Yields_end wS fS ⟨files, 1 + nP + nX + nS⟩ [] inc 1
    iiS cS iiE cE c6 eS hg6
  exact TopRun_pop M _ _ _ hup (TopRun_empty _ rfl)

theorem create_main (files : List (Text × Text)) (text : Text) :
    CSTParser.create IdentifierInterner.fresh files (some text) =
      .ok ⟨internerOf [], ⟨files, 1⟩, [⟨⟨text, false⟩, 1, ⟨0, 0, 0⟩, none⟩], 1⟩ := rfl

theorem leadTree_write (id : Nat) :
    (leadTree id).write =
      [(.OpenParen, .placeHolder), (.Identifier, .id id), (.CloseParen, .placeHolder)] := by
  simp [leadTree, CST.write, CST.writeSubforms, CST.writeTag, CST.writeList]

theorem leadTree_topForm (id : Nat) (h : id ≠ 1) : TopForm 1 (leadTree id) :=
  ⟨by simp [leadTree, CST.WellFormed, CST.WellFormedList], ⟨_, _, _, rfl⟩, id, rfl, h⟩

theorem trailMain_forms :
    Forms trailFiles 1 ⟨trailHead ++ includeFormText "sub.g".toList, false⟩ (internerOf [])
      ⟨0, 0, 0⟩ 0 [leadTree 2] (internerOf ["p".toList]) ⟨0, 3, 0⟩ := by
  refine Forms.form _ _ (internerOf ["p".toList]) _ _ ⟨0, 3, 0⟩ _ 0 _ _ ?_
    (leadTree_topForm 2 (by decide)) (Forms.nil _ _ _)
  rw [leadTree_write]
  exact ⟨5, ⟨.OpenParen, .placeHolder, ⟨0, 2, 1⟩⟩, internerOf [], ⟨0, 1, 0⟩, rfl, by decide,
    5, ⟨.Identifier, .id 2, ⟨0, 3, 1⟩⟩, internerOf ["p".toList], ⟨0, 2, 0⟩, rfl, by decide,
    5, ⟨.CloseParen, .placeHolder, ⟨0, 4, 1⟩⟩, internerOf ["p".toList], ⟨0, 3, 0⟩, rfl,
    by decide, rfl, rfl⟩

theorem trailMain_end :
    Lexer.Yields ⟨trailHead ++ includeFormText "sub.g".toList, false⟩
      (internerOf ["p".toList]) ⟨0, 3, 0⟩ [(.EndOfStream, .placeHolder)]
      (internerOf ["p".toList]) ⟨0, 23, 0⟩ :=
  ⟨30, ⟨.EndOfStream, .placeHolder, ⟨0, 24, 1⟩⟩, _, _, rfl, by decide, rfl, rfl⟩

theorem trailSingle_forms :
    Forms trailFiles 1 ⟨trailHead ++ trailSub, false⟩ (internerOf [])
      ⟨0, 0, 0⟩ 0 [leadTree 2, leadTree 3] (internerOf ["p".toList, "ok".toList])
      ⟨1, 11, 0⟩ := by
  refine Forms.form _ _ (internerOf ["p".toList]) _ _ ⟨0, 3, 0⟩ _ 0 _ _ ?_
    (leadTree_topForm 2 (by decide)) ?_
  · rw [leadTree_write]
    exact ⟨5, ⟨.OpenParen, .placeHolder, ⟨0, 2, 1⟩⟩, internerOf [], ⟨0, 1, 0⟩, rfl, by decide,
      5, ⟨.Identifier, .id 2, ⟨0, 3, 1⟩⟩, internerOf ["p".toList], ⟨0, 2, 0⟩, rfl, by decide,
      5, ⟨.CloseParen, .placeHolder, ⟨0, 4, 1⟩⟩, internerOf ["p".toList], ⟨0, 3, 0⟩, rfl,
      by decide, rfl, rfl⟩
  refine Forms.form _ _ (internerOf ["p".toList, "ok".toList]) _ _ ⟨1, 11, 0⟩ _ 0 _ _ ?_
    (leadTree_topForm 3 (by decide)) (Forms.nil _ _ _)
  rw [leadTree_write]
  exact ⟨10, ⟨.OpenParen, .placeHolder, ⟨1, 9, 1⟩⟩, internerOf ["p".toList], ⟨1, 8, 0⟩, rfl,
    by decide,
    5, ⟨.Identifier, .id 3, ⟨1, 11, 1⟩⟩, internerOf ["p".toList, "ok".toList], ⟨1, 10, 0⟩,
    rfl, by decide,
    5, ⟨.CloseParen, .placeHolder, ⟨1, 12, 1⟩⟩, internerOf ["p".toList, "ok".toList],
    ⟨1, 11, 0⟩, rfl, by decide, rfl, rfl⟩

theorem trailSingle_end :
    Lexer.Yields ⟨trailHead ++ trailSub, false⟩
      (internerOf ["p".toList, "ok".toList]) ⟨1, 11, 0⟩ [(.EndOfStream, .placeHolder)]
      (internerOf ["p".toList, "ok".toList]) ⟨1, 11, 0⟩ :=
  ⟨5, ⟨.EndOfStream, .placeHolder, ⟨1, 12, 1⟩⟩, _, _, rfl, by decide, rfl, rfl⟩

/-- The comment at the end of the text before the include form matters as
well: with `(p)//c` before `(include "sub.g")` and a newline followed by
`(ok)` in `sub.g`, the main file gives `(p)` only, the comment running on over
the include form, and the single file `(p)//c`, newline, `(ok)` gives `(p)` and
`(ok)`. -/
theorem include_hidden_by_comment :
    ∃ pMain pSingle,
      CSTParser.create IdentifierInterner.fresh trailFiles
        (some (trailHead ++ (includeFormText "sub.g".toList ++ []))) = .ok pMain ∧
      CSTParser.create IdentifierInterner.fresh trailFiles
        (some (trailHead ++ (trailSub ++ []))) = .ok pSingle ∧
      ∃ B, ∀ fuel, B ≤ fuel → ∃ rs1 e1 rs2 e2,
        CSTParser.parseAll fuel fuel pMain = .ok (rs1, e1) ∧
        CSTParser.parseAll fuel fuel pSingle = .ok (rs2, e2) ∧
        CST.eraseLocList rs1 = CST.eraseLocList [leadTree 2] ∧
        CST.eraseLocList rs2 = CST.eraseLocList [leadTree 2, leadTree 3] := by
  refine ⟨_, _, create_main trailFiles _, create_main trailFiles _, ?_⟩
  have runMain := TopRun_pieces trailFiles 1 [] []
    (trailHead ++ (includeFormText "sub.g".toList ++ [])) false false
    (internerOf []) (internerOf []) (internerOf []) _ _ ⟨0, 0, 0⟩ ⟨0, 0, 0⟩ _ _ 0 0 0 [] []
    [leadTree 2] (Forms.nil _ _ _) CleanGap.nil (Forms.nil _ _ _) CleanGap.nil
    (by simpa using trailMain_forms) (by simpa using trailMain_end) (by decide)
  have runSingle := TopRun_pieces trailFiles 1 [] [] (trailHead ++ (trailSub ++ []))
    false false
    (internerOf []) (internerOf []) (internerOf []) _ _ ⟨0, 0, 0⟩ ⟨0, 0, 0⟩ _ _ 0 0 0 [] []
    [leadTree 2, leadTree 3] (Forms.nil _ _ _) CleanGap.nil (Forms.nil _ _ _) CleanGap.nil
    (by simpa using trailSingle_forms) (by simpa using trailSingle_end) (by decide)
  simp only [List.nil_append, List.append_nil] at runMain runSingle
  obtain ⟨B1, h1⟩ := parseAll_of_TopRun _ _ runMain
  obtain ⟨B2, h2⟩ := parseAll_of_TopRun _ _ runSingle
  refine ⟨max (max B1 B2) 3, ?_⟩
  intro fuel hfuel
  obtain ⟨rs1, e1, hr1, he1⟩ := h1 fuel (by omega) fuel (by simp; omega)
  obtain ⟨rs2, e2, hr2, he2⟩ := h2 fuel (by omega) fuel (by simp; omega)
  refine ⟨rs1, e1, rs2, e2, ?_, ?_, he1, he2⟩
  · simpa using hr1
  · simpa using hr2

end grp
